import Mathlib

/-!
Replay of Logger traces by `Analysis::parse` (Analysis.h), and the integers of `mpint.h`.

A shallow embedding of the trace parser of `Analysis.h`: the tokenizer
(`_skip_junk`, `parse_name`, `parse_kind`, `parse_addr`, `parse_int`,
`parse_flt`), the two stacks, and the body of the `while` loop of
`Analysis::parse`, one line at a time; of the report of
`Analysis::print_stats`; and of the class `mpint` of `mpint.h`.

Conventions of the embedding.

* The cursor `char *& c` into the line buffer is the list of characters that
  remain before the terminating NUL; a function that advances the cursor
  returns the new remainder next to its result.
* A run that ends in `exit( 1 )` (a failed `cassert`, or `_die`) is
  `Except.error msg`; a run that goes on is `Except.ok`.
* `std::map` is an association list with at most one pair per key.
* A field of a local `struct` that the code never writes is `none`.
* Unsigned 64-bit counters wrap modulo `2^64`.
* The line is assumed to fit into the 1024-byte buffer `cs` of `parse`.
* A `double` is an IEEE 754 binary64 number; every operation on `double`
  rounds once, to the nearest value, a tie to the even significand.
* The report of `print_stats` is the list of the rows that it writes, each
  row the arguments of its `fprintf`; the text of a row is not modelled.
* An `mpint` is the triple of its data members; the union `u` records which
  member was written last, and a word that was never written is indeterminate.
  The static member `implicit_int_w` is a parameter of the functions that read
  it. A run of a function of `mpint.h` ends in an `Outcome`. A `std::string` is
  the list of its bytes, and `char` is signed.
-/

namespace Cordic

/-! ## Machine integers -/

/-- Conversion of an integer to `uint32_t`. -/
def to_uint32 (x : Int) : Nat := (x % (2 ^ 32 : Int)).toNat

/-- Conversion of an integer to a 32-bit two's complement `int`. -/
def to_int32 (x : Int) : Int := (x + 2 ^ 31) % (2 ^ 32 : Int) - 2 ^ 31

/-- The value `size_t(-1)` on a 64-bit target. -/
def size_t_minus_one : Nat := 2 ^ 64 - 1

/-! ## `std::map` -/

/-- A `std::map`: an association list holding at most one pair per key. -/
abbrev Map (κ : Type) (α : Type) := List (κ × α)

/-- The entry found by `m.find( k )`, or `none` for `m.end()`. -/
def Map.find {κ α : Type} [DecidableEq κ] : Map κ α → κ → Option α
  | [], _ => none
  | (k', v) :: m, k => if k' = k then some v else Map.find m k

/-- The map after `m[k] = v` (also after a write through an iterator to `k`). -/
def Map.assign {κ α : Type} [DecidableEq κ] : Map κ α → κ → α → Map κ α
  | [], k, v => [(k, v)]
  | (k', v') :: m, k, v => if k' = k then (k, v) :: m else (k', v') :: Map.assign m k v

/-- The keys of the map. -/
def Map.keys {κ α : Type} (m : Map κ α) : List κ := m.map Prod.fst

/-! ## Data model -/

/-- A `double`, kept as the token that `atof` converted; the conversion
itself is outside the embedding. -/
structure FLT where
  token : String
deriving DecidableEq, Repr

/-- The struct `FuncInfo`; `op_cnt` has `OP_cnt` entries. -/
structure FuncInfo where
  call_cnt : Nat
  op_cnt : List Nat
deriving DecidableEq, Repr

/-- The struct `FrameInfo`. -/
structure FrameInfo where
  func_name : String
deriving DecidableEq, Repr

/-- The struct `CordicInfo`. -/
structure CordicInfo where
  cordic_i : Option Nat
  is_alive : Bool
  int_w : Nat
  frac_w : Nat
  guard_w : Nat
  n : Nat
deriving DecidableEq, Repr

/-- The struct `ValInfo`. -/
structure ValInfo where
  is_alive : Bool
  is_assigned : Bool
  cordic_i : Option Nat
  opnd_i : Option (Nat × Nat × Nat)
  encoded : Option Int
  is_constant : Bool
  constant : Option FLT
  min : Option FLT
  max : Option FLT
deriving DecidableEq, Repr

/-- The enumeration `KIND`; `invalid` is the value `KIND(-1)` that
`parse_kind` returns for a name it does not know. -/
inductive KIND where
  | cordic_constructed
  | cordic_destructed
  | enter
  | leave
  | constructed
  | destructed
  | op1
  | op2
  | op3
  | op4
  | op1i
  | op1f
  | op2i
  | op2f
  | invalid
deriving DecidableEq, Repr

/-- Modelled from the spec: the enumeration `Cordic<T,FLT>::OP`, its size
`OP_cnt` and `op_to_str` are declared in Cordic.h, which is not among the
sources. An operation code is its enumerator value; the seven enumerators that
Analysis.h names are fields. -/
structure CordicOps where
  OP_cnt : Nat
  op_to_str : Nat → String
  push_constant : Nat
  assign : Nat
  pop_value : Nat
  lshift : Nat
  rshift : Nat
  sincos : Nat
  sinhcosh : Nat

/-- The data members of `Analysis` that `parse` reads and writes. The head of
`stack` is `stack[stack_cnt-1]` and its length is `stack_cnt`; likewise for
`val_stack`. -/
structure Analysis where
  ops : Map String Nat
  func_names : List String
  funcs : Map String FuncInfo
  cordics : Map Nat CordicInfo
  vals : Map Nat ValInfo
  stack : List FrameInfo
  val_stack : List ValInfo
deriving DecidableEq, Repr

def STACK_CNT_MAX : Nat := 1024

def VAL_STACK_CNT_MAX : Nat := 2

/-- Modelled from the spec: the macro `cassert` is declared in Cordic.h, which
is not among the sources; a violated assertion is fatal for the whole run. -/
def cassert (expr : Bool) (msg : String) : Except String Unit :=
  if expr then .ok () else .error msg

/-- A `cassert` whose condition is false, as when `it == m.end()` decides the conjunction
`it != m.end() && it->second.is_alive` before the entry is read. -/
def cassert_failed {α : Type} (msg : String) : Except String α := .error msg

/-- The function `_die`: prints the message and exits. -/
def _die {α : Type} (msg : String) : Except String α := .error msg

deriving instance DecidableEq for Except

/-- Whether a run went on without a fatal error. -/
def accepted {α : Type} : Except String α → Bool
  | .ok _ => true
  | .error _ => false

/-- Whether a run ended in a fatal error. -/
def fatal {α : Type} (r : Except String α) : Prop := ∃ msg, r = .error msg

/-! ## Tokenizer -/

/-- The characters that `_skip_junk` passes over. -/
def is_junk (ch : Char) : Bool := ch = ' ' || ch = ',' || ch = '('

/-- The function `_skip_junk`. -/
def _skip_junk (c : List Char) : List Char := c.dropWhile is_junk

/-- The characters that `parse_name` takes into a name. -/
def is_name_char (ch : Char) : Bool :=
  ch = ':' || ch = '_' || ch = '-' || ch = '.' ||
  ('a' ≤ ch && ch ≤ 'z') || ('A' ≤ ch && ch ≤ 'Z') || ('0' ≤ ch && ch ≤ '9')

/-- The function `parse_name`. -/
def parse_name (c : List Char) : Except String (String × List Char) :=
  let c := _skip_junk c
  let name := String.mk (c.takeWhile is_name_char)
  let c := c.dropWhile is_name_char
  match cassert (decide (name.length > 0)) "could not parse a name" with
  | .error e => .error e
  | .ok _ => .ok (name, c)

/-- The function `parse_kind`. -/
def parse_kind (c : List Char) : Except String (KIND × List Char) :=
  match parse_name c with
  | .error e => .error e
  | .ok (name, c) =>
    if name = "cordic_constructed" then .ok (KIND.cordic_constructed, c)
    else if name = "cordic_destructed" then .ok (KIND.cordic_destructed, c)
    else if name = "enter" then .ok (KIND.enter, c)
    else if name = "leave" then .ok (KIND.leave, c)
    else if name = "constructed" then .ok (KIND.constructed, c)
    else if name = "destructed" then .ok (KIND.destructed, c)
    else if name = "op1" then .ok (KIND.op1, c)
    else if name = "op1i" then .ok (KIND.op1i, c)
    else if name = "op1f" then .ok (KIND.op1f, c)
    else if name = "op2" then .ok (KIND.op2, c)
    else if name = "op2i" then .ok (KIND.op2i, c)
    else if name = "op2f" then .ok (KIND.op2f, c)
    else if name = "op3" then .ok (KIND.op3, c)
    else if name = "op4" then .ok (KIND.op4, c)
    else .ok (KIND.invalid, c)

/-- The value of a digit of base 16, if the character is one. -/
def hex_digit (ch : Char) : Option Nat :=
  if '0' ≤ ch && ch ≤ '9' then some (ch.toNat - '0'.toNat)
  else if 'a' ≤ ch && ch ≤ 'f' then some (ch.toNat - 'a'.toNat + 10)
  else if 'A' ≤ ch && ch ≤ 'F' then some (ch.toNat - 'A'.toNat + 10)
  else none

/-- The number that the longest prefix of base-16 digits denotes, on top of `acc`. -/
def hex_value : Nat → List Char → Nat
  | acc, [] => acc
  | acc, ch :: s =>
    match hex_digit ch with
    | some d => hex_value (acc * 16 + d) s
    | none => acc

/-- The library function `std::strtoull( s, &end, 16 )` on a token without
white space: an optional sign, an optional `0x` or `0X`, then the longest run
of base-16 digits; no digits give 0, a value that does not fit gives
`ULLONG_MAX`, a minus sign negates modulo `2^64`. -/
def strtoull16 (s : List Char) : Nat :=
  let neg := s.head? = some '-'
  let s := if s.head? = some '-' ∨ s.head? = some '+' then s.tail else s
  let s := match s with
    | '0' :: x :: r => if x = 'x' ∨ x = 'X' then r else s
    | _ => s
  let v := hex_value 0 s
  if v ≥ 2 ^ 64 then 2 ^ 64 - 1
  else if neg then (2 ^ 64 - v) % 2 ^ 64
  else v

/-- The value of a decimal digit, if the character is one. -/
def dec_digit (ch : Char) : Option Nat :=
  if '0' ≤ ch && ch ≤ '9' then some (ch.toNat - '0'.toNat) else none

/-- The number that the longest prefix of decimal digits denotes, on top of `acc`. -/
def dec_value : Nat → List Char → Nat
  | acc, [] => acc
  | acc, ch :: s =>
    match dec_digit ch with
    | some d => dec_value (acc * 10 + d) s
    | none => acc

/-- The library function `std::atoi` on a token without white space, which the C library
computes as `(int) strtol( s, nullptr, 10 )`: an optional sign, then the longest run of
decimal digits. A value outside the range of the 64-bit `long` becomes `LONG_MAX` or
`LONG_MIN`, and the conversion to `int` keeps the low 32 bits. -/
def atoi (s : List Char) : Int :=
  let neg := s.head? = some '-'
  let s := if s.head? = some '-' ∨ s.head? = some '+' then s.tail else s
  let v : Int := dec_value 0 s
  let l : Int := if neg then max (-v) (-(2 ^ 63)) else min v (2 ^ 63 - 1)
  to_int32 l

/-- The function `parse_addr`. -/
def parse_addr (c : List Char) : Except String (Nat × List Char) :=
  match parse_name c with
  | .error e => .error e
  | .ok (addr_s, c) => .ok (strtoull16 addr_s.data, c)

/-- The function `parse_int`, for `T = int64_t`. -/
def parse_int (c : List Char) : Except String (Int × List Char) :=
  match parse_name c with
  | .error e => .error e
  | .ok (int_s, c) => .ok (atoi int_s.data, c)

/-- The function `parse_flt`. -/
def parse_flt (c : List Char) : Except String (FLT × List Char) :=
  match parse_name c with
  | .error e => .error e
  | .ok (flt_s, c) => .ok (⟨flt_s⟩, c)

/-! ## The two stacks and the histogram -/

/-- The function `stack_push`. -/
def stack_push (a : Analysis) (info : FrameInfo) : Except String Analysis := do
  cassert (decide (a.stack.length < STACK_CNT_MAX)) "depth of call stack exceeded"
  pure { a with stack := info :: a.stack }

/-- The function `stack_top`. -/
def stack_top (a : Analysis) : Except String FrameInfo :=
  match a.stack with
  | [] => cassert_failed "can't get top of an empty call stack"
  | frame :: _ => .ok frame

/-- The function `stack_pop`. -/
def stack_pop (a : Analysis) : Except String Analysis :=
  match a.stack with
  | [] => cassert_failed "can't pop an empty call stack"
  | _ :: rest => .ok { a with stack := rest }

/-- The map and the value of `m[k]` for reading: a key that is absent is
inserted with the value-initialised `dflt`. -/
def Map.subscript {κ α : Type} [DecidableEq κ] (dflt : α) (m : Map κ α) (k : κ) :
    α × Map κ α :=
  match Map.find m k with
  | some v => (v, m)
  | none => (dflt, Map.assign m k dflt)

/-- The list after `xs[i]++` on 64-bit unsigned counters; an index past the end, which
is undefined in C, leaves the list as it is. -/
def incr_at : List Nat → Nat → List Nat
  | [], _ => []
  | x :: xs, 0 => ((x + 1) % 2 ^ 64) :: xs
  | x :: xs, i + 1 => x :: incr_at xs i

/-- A value-initialised `FuncInfo`. -/
def FuncInfo.zero (C : CordicOps) : FuncInfo :=
  { call_cnt := 0, op_cnt := List.replicate C.OP_cnt 0 }

/-- The function `inc_op_cnt`. -/
def inc_op_cnt (C : CordicOps) (a : Analysis) (op : Nat) : Except String Analysis := do
  let frame ← stack_top a
  let (func, funcs) := Map.subscript (FuncInfo.zero C) a.funcs frame.func_name
  let func := { func with op_cnt := incr_at func.op_cnt op }
  pure { a with funcs := Map.assign funcs frame.func_name func }

/-- The function `val_stack_push`. -/
def val_stack_push (a : Analysis) (info : ValInfo) : Except String Analysis := do
  cassert (decide (a.val_stack.length < VAL_STACK_CNT_MAX)) "depth of val_stack exceeded"
  pure { a with val_stack := info :: a.val_stack }

/-- The function `val_stack_pop`. -/
def val_stack_pop (a : Analysis) : Except String (ValInfo × Analysis) :=
  match a.val_stack with
  | [] => cassert_failed "can't pop an empty val_stack"
  | val :: rest => .ok (val, { a with val_stack := rest })

/-- The statement `OP op = ops[name];`. -/
def lookup_op (a : Analysis) (name : String) : Nat × Analysis :=
  let (op, ops) := Map.subscript 0 a.ops name
  (op, { a with ops := ops })

/-! ## The constructor and the cases of `Analysis::parse` -/

/-- The loop of the constructor that sets up `ops`. -/
def build_ops (C : CordicOps) : Map String Nat :=
  (List.range C.OP_cnt).foldl (fun ops o => Map.assign ops (C.op_to_str o) o) []

/-- The object after its constructor and the first two assignments of `parse`. -/
def Analysis.init (C : CordicOps) : Analysis :=
  { ops := build_ops C, func_names := [], funcs := [], cordics := [], vals := [],
    stack := [], val_stack := [] }

/-- The case `KIND::cordic_constructed`. -/
def case_cordic_constructed (a : Analysis) (c : List Char) : Except String Analysis := do
  let (cordic, c) ← parse_addr c
  let (int_w, c) ← parse_int c
  let (frac_w, c) ← parse_int c
  let (guard_w, c) ← parse_int c
  let (n, _) ← parse_int c
  let info : CordicInfo :=
    { cordic_i := none, is_alive := true, int_w := to_uint32 int_w, frac_w := to_uint32 frac_w,
      guard_w := to_uint32 guard_w, n := to_uint32 n }
  cassert (match Map.find a.cordics cordic with
    | none => true
    | some it => !it.is_alive) "Cordic reconstructed before previous was destructed"
  pure { a with cordics := Map.assign a.cordics cordic info }

/-- The case `KIND::cordic_destructed`. -/
def case_cordic_destructed (a : Analysis) (c : List Char) : Except String Analysis := do
  let (cordic, _) ← parse_addr c
  match Map.find a.cordics cordic with
  | none => cassert_failed "Cordic destructed before being constructed"
  | some it =>
    cassert it.is_alive "Cordic destructed before being constructed"
    pure { a with cordics := Map.assign a.cordics cordic { it with is_alive := false } }

/-- The case `KIND::enter`. -/
def case_enter (C : CordicOps) (a : Analysis) (c : List Char) : Except String Analysis := do
  let (name, _) ← parse_name c
  let (it, a) := match Map.find a.funcs name with
    | none =>
      let info : FuncInfo := { call_cnt := 0, op_cnt := List.replicate C.OP_cnt 0 }
      (info, { a with func_names := a.func_names ++ [name],
                      funcs := Map.assign a.funcs name info })
    | some it => (it, a)
  let it : FuncInfo := { it with call_cnt := (it.call_cnt + 1) % 2 ^ 64 }
  let a : Analysis := { a with funcs := Map.assign a.funcs name it }
  stack_push a { func_name := name }

/-- The case `KIND::leave`. -/
def case_leave (a : Analysis) (c : List Char) : Except String Analysis := do
  let (name, _) ← parse_name c
  cassert (Map.find a.funcs name).isSome ("leave should have found function " ++ name)
  let frame ← stack_top a
  cassert (decide (frame.func_name = name))
    ("trying to leave a routine that's not at the top of the stack: entered " ++
      frame.func_name ++ " leaving " ++ name)
  stack_pop a

/-- The case `KIND::constructed`. -/
def case_constructed (a : Analysis) (c : List Char) : Except String Analysis := do
  let (val, c) ← parse_addr c
  let (cordic, _) ← parse_addr c
  let cordic_i ←
    if cordic ≠ 0 then
      match Map.find a.cordics cordic with
      | none => cassert_failed "val constructed using unknown cordic"
      | some cit => do
        cassert cit.is_alive "val constructed using unknown cordic"
        pure cit.cordic_i
    else pure (some size_t_minus_one)
  let info : ValInfo :=
    { is_alive := true, is_assigned := false, cordic_i := cordic_i, opnd_i := none,
      encoded := none, is_constant := false, constant := none, min := none, max := none }
  pure { a with vals := Map.assign a.vals val info }

/-- The case `KIND::destructed`. -/
def case_destructed (a : Analysis) (c : List Char) : Except String Analysis := do
  let (val, _) ← parse_addr c
  match Map.find a.vals val with
  | none => cassert_failed "val destructed before being constructed"
  | some it =>
    cassert it.is_alive "val destructed before being constructed"
    pure { a with vals := Map.assign a.vals val { it with is_alive := false } }

/-- The test of the `for` loop of the cases `op1` to `op4` that decides whether
operand `i` is looked up. -/
def opnd_is_checked (C : CordicOps) (op i : Nat) : Bool :=
  !(i = 0 && op = C.assign) &&
  !(i = 1 && op = C.sincos) &&
  !(i = 2 && op = C.sincos) &&
  !(i = 1 && op = C.sinhcosh) &&
  !(i = 2 && op = C.sinhcosh)

/-- The `for` loop over the operands of the cases `op1` to `op4`: `todo`
iterations remain, `i` is the loop counter and `opnd` holds `opnd[0..i)`. -/
def opnd_loop (C : CordicOps) (name : String) (op : Nat) :
    Nat → Nat → List Nat → Map Nat ValInfo → List Char →
    Except String (Map Nat ValInfo × List Char)
  | 0, _, _, vals, c => .ok (vals, c)
  | todo + 1, i, opnd, vals, c => do
    let (addr, c) ← parse_addr c
    let opnd := opnd ++ [addr]
    if opnd_is_checked C op i then
      match Map.find vals addr with
      | none =>
        cassert_failed (name ++ " opnd[" ++ toString i ++ "] does not exist")
      | some it =>
        cassert it.is_alive (name ++ " opnd[" ++ toString i ++ "] does not exist")
        cassert it.is_assigned
          (name ++ " opnd[" ++ toString i ++ "] used when not previously assigned")
        let vals := if i = 1 ∧ op = C.assign then Map.assign vals (opnd.headD 0) it else vals
        opnd_loop C name op todo (i + 1) opnd vals c
    else
      opnd_loop C name op todo (i + 1) opnd vals c

/-- The results that the cases `op1` to `op4` push: `cnt` copies of `val`. -/
def push_results (val : ValInfo) : Nat → Analysis → Except String Analysis
  | 0, a => .ok a
  | cnt + 1, a => do
    let a ← val_stack_push a val
    push_results val cnt a

/-- The `ValInfo` that an operation pushes as its result. -/
def result_val (encoded : Option Int) (is_constant : Bool) (constant : Option FLT) : ValInfo :=
  { is_alive := true, is_assigned := true, cordic_i := none, opnd_i := none,
    encoded := encoded, is_constant := is_constant, constant := constant,
    min := none, max := none }

/-- The cases `KIND::op1` to `KIND::op4`, with `opnd_cnt` operands. -/
def case_op (C : CordicOps) (opnd_cnt : Nat) (a : Analysis) (c : List Char) :
    Except String Analysis := do
  let (name, c) ← parse_name c
  let (op, a) := lookup_op a name
  let a ← inc_op_cnt C a op
  let (vals, _) ← opnd_loop C name op opnd_cnt 0 [] a.vals c
  let a := { a with vals := vals }
  let cnt := if op = C.sincos ∨ op = C.sinhcosh then 2 else if op = C.assign then 0 else 1
  push_results (result_val none false none) cnt a

/-- The case `KIND::op1i`. -/
def case_op1i (C : CordicOps) (a : Analysis) (c : List Char) : Except String Analysis := do
  let (name, _) ← parse_name c
  let (op, a) := lookup_op a name
  let _ ← inc_op_cnt C a op
  _die ("should not have gotten op1i " ++ name)

/-- The case `KIND::op1f`. -/
def case_op1f (C : CordicOps) (a : Analysis) (c : List Char) : Except String Analysis := do
  let (name, c) ← parse_name c
  let (op, a) := lookup_op a name
  let a ← inc_op_cnt C a op
  cassert (decide (op = C.push_constant)) "op1f allowed only for make_constant"
  let (constant, _) ← parse_flt c
  val_stack_push a (result_val none true (some constant))

/-- The case `KIND::op2i`. -/
def case_op2i (C : CordicOps) (a : Analysis) (c : List Char) : Except String Analysis := do
  let (name, c) ← parse_name c
  let (op, a) := lookup_op a name
  let a ← inc_op_cnt C a op
  cassert (decide (op = C.lshift ∨ op = C.rshift ∨ op = C.pop_value))
    "op2i allowed only for lshift/rshift/pop_value"
  let (opnd0, c) ← parse_addr c
  let (opnd1, _) ← parse_int c
  match Map.find a.vals opnd0 with
  | none => cassert_failed (name ++ " opnd[0] does not exist")
  | some it =>
    cassert it.is_alive (name ++ " opnd[0] does not exist")
    if op = C.pop_value then
      let (val, a) ← val_stack_pop a
      pure { a with vals := Map.assign a.vals opnd0 { val with encoded := some opnd1 } }
    else
      val_stack_push a (result_val (some opnd1) false none)

/-- The case `KIND::op2f`. -/
def case_op2f (C : CordicOps) (a : Analysis) (c : List Char) : Except String Analysis := do
  let (name, c) ← parse_name c
  let (op, a) := lookup_op a name
  let a ← inc_op_cnt C a op
  let (opnd0, c) ← parse_addr c
  let (_, _) ← parse_flt c
  match Map.find a.vals opnd0 with
  | none => cassert_failed (name ++ " opnd[0] does not exist")
  | some it =>
    cassert it.is_alive (name ++ " opnd[0] does not exist")
    cassert it.is_assigned (name ++ " opnd[0] is used before being assigned")
    val_stack_push a (result_val none false none)

/-- The bytes that `strcpy( cs, line.c_str() )` puts before the terminating NUL. -/
def c_str (line : String) : List Char := line.data.takeWhile (fun ch => ch ≠ Char.ofNat 0)

/-- The body of the `while` loop of `Analysis::parse`, for one line. -/
def parse_line (C : CordicOps) (a : Analysis) (line : String) : Except String Analysis :=
  match parse_kind (c_str line) with
  | .error e => .error e
  | .ok (kind, c) =>
    match kind with
    | KIND.cordic_constructed => case_cordic_constructed a c
    | KIND.cordic_destructed => case_cordic_destructed a c
    | KIND.enter => case_enter C a c
    | KIND.leave => case_leave a c
    | KIND.constructed => case_constructed a c
    | KIND.destructed => case_destructed a c
    | KIND.op1 => case_op C 1 a c
    | KIND.op2 => case_op C 2 a c
    | KIND.op3 => case_op C 3 a c
    | KIND.op4 => case_op C 4 a c
    | KIND.op1i => case_op1i C a c
    | KIND.op1f => case_op1f C a c
    | KIND.op2i => case_op2i C a c
    | KIND.op2f => case_op2f C a c
    | KIND.invalid => .ok a

/-- The `while` loop of `Analysis::parse` over the lines that `getline` yields. -/
def parse_lines (C : CordicOps) : Analysis → List String → Except String Analysis
  | a, [] => .ok a
  | a, line :: rest =>
    match parse_line C a line with
    | .error e => .error e
    | .ok a => parse_lines C a rest

/-- The function `Analysis::parse` on the lines of the input stream. -/
def parse (C : CordicOps) (lines : List String) : Except String Analysis :=
  parse_lines C (Analysis.init C) lines

/-! ## `double` -/

/-- A finite `double` that is not negative, as IEEE 754 binary64 holds it: the value
`m * 2^e`. The type has the pairs with `m < 2^53` and `-1074 ≤ e ≤ 971`. -/
structure Double where
  m : Nat
  e : Int
deriving DecidableEq, Repr

/-- Whether the pair is a value of the type `double`. -/
def Double.is_double (d : Double) : Bool :=
  decide (d.m < 2 ^ 53) && decide (-1074 ≤ d.e) && decide (d.e ≤ 971)

/-- The number that the `double` stands for. -/
def Double.val (d : Double) : ℚ := d.m * 2 ^ d.e

/-- The number of binary digits of `n`, found with at most `fuel` halvings. -/
def bit_length_aux : Nat → Nat → Nat
  | 0, _ => 0
  | fuel + 1, n => if n = 0 then 0 else bit_length_aux fuel (n / 2) + 1

/-- The number of binary digits of `n`. -/
def bit_length (n : Nat) : Nat := bit_length_aux n n

/-- The integer nearest to `num / den`; of two that are equally near, the even one. -/
def round_half_even (num den : Nat) : Nat :=
  let q := num / den
  let r := num % den
  if 2 * r < den then q
  else if den < 2 * r then q + 1
  else if q % 2 = 0 then q else q + 1

/-- The exponent `L` with `2^L ≤ num / den < 2^(L+1)`, for positive `num` and `den`. -/
def floor_log2 (num den : Nat) : Int :=
  let b : Int := (bit_length num : Int) - (bit_length den : Int)
  if den * 2 ^ b.toNat ≤ num * 2 ^ (-b).toNat then b else b - 1

/-- The rounding of IEEE 754 in the default mode, with no bound on the exponent from
above: `num / den * 2^E` rounded to 53 significant binary digits, or to a multiple of
`2^(-1074)` where that is coarser; a tie goes to the even significand. -/
def nearest (num den : Nat) (E : Int) : Double :=
  if num = 0 then ⟨0, 0⟩
  else
    let k : Int := max (floor_log2 num den - 52) (-1074 - E)
    ⟨round_half_even (num * 2 ^ (-k).toNat) (den * 2 ^ k.toNat), E + k⟩

/-- The rounded value when it is below `2^1024`; `none` stands for a result that is not
finite. -/
def finite (d : Double) : Option Double :=
  if (bit_length d.m : Int) + d.e > 1024 then none else some d

/-- The conversion `double( n )` of a `uint64_t`. -/
def double_of_uint64 (n : Nat) : Double := nearest n 1 0

/-- The product `x * y` of two `double`. -/
def double_mul (x y : Double) : Option Double := finite (nearest (x.m * y.m) 1 (x.e + y.e))

/-- The sum `x + y` of two `double`. -/
def double_add (x y : Double) : Option Double :=
  let e := min x.e y.e
  finite (nearest (x.m * 2 ^ (x.e - e).toNat + y.m * 2 ^ (y.e - e).toNat) 1 e)

/-- The quotient `x / y` of two `double`; a division by zero gives an infinity or a
NaN. -/
def double_div (x y : Double) : Option Double :=
  if y.m = 0 then none else finite (nearest x.m y.m (x.e - y.e))

/-- The conversion of a `double` to `uint64_t`, which drops the fraction; `none` stands
for a value out of the range of `uint64_t`, for which the conversion is undefined. -/
def uint64_of_double (x : Double) : Option Nat :=
  let v := x.m * 2 ^ x.e.toNat / 2 ^ (-x.e).toNat
  if v < 2 ^ 64 then some v else none

/-- The constant `0.5`. -/
def one_half : Double := ⟨1, -1⟩

/-! ## The report of `print_stats` -/

/-- The initialiser `double(cnt) * scale_factor + 0.5` of the `uint64_t scaled_cnt` in
`print_stats`, with one rounding for the product and one for the sum. -/
def scaled_cnt (cnt : Nat) (scale_factor : Double) : Option Nat := do
  let p ← double_mul (double_of_uint64 cnt) scale_factor
  let x ← double_add p one_half
  uint64_of_double x

/-- The data of one line of the report: the arguments of a `fprintf` to the file `.out`,
which the line written to the file `.csv` repeats. The heading `Totals:` of the file
`.out` carries no data and is left out. -/
inductive Row where
  | func (name : String) (call_cnt : Nat)
  | op (name : String) (avg : Option Double) (cnt : Nat) (scaled_cnt : Option Nat)
  | total (name : String) (cnt : Nat) (scaled_cnt : Option Nat)
deriving DecidableEq, Repr

/-- The list after `xs[i] += cnt` on 64-bit unsigned counters. -/
def add_at : List Nat → Nat → Nat → List Nat
  | [], _, _ => []
  | x :: xs, 0, cnt => ((x + cnt) % 2 ^ 64) :: xs
  | x :: xs, i + 1, cnt => x :: add_at xs i cnt

/-- One pass of the inner `for` loop of `print_stats` for the index `i` and the entry
`func` of the function table; the state is the rows written so far and `total_cnt`. -/
def print_op (C : CordicOps) (scale_factor : Double) (func : FuncInfo)
    (st : List Row × List Nat) (i : Nat) : List Row × List Nat :=
  if i = C.push_constant ∨ i = C.assign ∨ i = C.pop_value then st
  else
    let cnt := func.op_cnt.getD i 0
    if cnt ≠ 0 then
      let total_cnt := add_at st.2 i cnt
      let avg := double_div (double_of_uint64 cnt) (double_of_uint64 func.call_cnt)
      (st.1 ++ [Row.op (C.op_to_str i) avg cnt (scaled_cnt cnt scale_factor)], total_cnt)
    else st

/-- One pass of the outer `for` loop of `print_stats` for the name `nit`. Every name of
`func_names` is a key of `funcs` in a state that `parse` reaches; for another name `it`
would be `funcs.end()` and the pass undefined: here it writes nothing. -/
def print_func (C : CordicOps) (a : Analysis) (scale_factor : Double)
    (func_ignored : Map String Bool) (st : List Row × List Nat) (nit : String) :
    List Row × List Nat :=
  if (Map.find func_ignored nit).isSome then st
  else
    match Map.find a.funcs nit with
    | none => st
    | some func =>
      (List.range C.OP_cnt).foldl (print_op C scale_factor func)
        (st.1 ++ [Row.func nit func.call_cnt], st.2)

/-- The `for` loop of `print_stats` that writes the totals. -/
def print_totals (C : CordicOps) (scale_factor : Double) (total_cnt : List Nat) : List Row :=
  (List.range C.OP_cnt).foldl (fun rows i =>
    if total_cnt.getD i 0 ≠ 0 then
      rows ++ [Row.total (C.op_to_str i) (total_cnt.getD i 0)
        (scaled_cnt (total_cnt.getD i 0) scale_factor)]
    else rows) []

/-- The function `print_stats`: the rows that it writes to both files, in order. The
scale factor is a finite `double` that is not negative. -/
def print_stats (C : CordicOps) (a : Analysis) (scale_factor : Double)
    (ignore_funcs : List String) : List Row :=
  let func_ignored : Map String Bool :=
    ignore_funcs.foldl (fun m f => Map.assign m f true) []
  let total_cnt := List.replicate C.OP_cnt 0
  let st := a.func_names.foldl (print_func C a scale_factor func_ignored) ([], total_cnt)
  st.1 ++ print_totals C scale_factor st.2

/-! ## `mpint.h` -/

/-- How a run of a function of `mpint.h` ends: with a result; in `exit( 1 )` after a
failed `iassert`, or in an exception of the library that nothing catches; or in a step
whose behaviour C++ leaves undefined, as a read or a write through a pointer that was
never set or outside an array, a shift by 64 bits or more, a division by zero, or a test
of a word that was never written. A word that was never written and is only copied or
added is carried along as indeterminate. Objects are never destroyed, and `new` always
finds memory. -/
inductive Outcome (α : Type) where
  | ok (x : α)
  | fatal (msg : String)
  | undefined
deriving DecidableEq, Repr

/-- The sequencing of two steps. -/
def Outcome.bind {α β : Type} : Outcome α → (α → Outcome β) → Outcome β
  | .ok x, f => f x
  | .fatal msg, _ => .fatal msg
  | .undefined, _ => .undefined

instance : Monad Outcome where
  pure := Outcome.ok
  bind := Outcome.bind

/-- The macro `iassert`. -/
def iassert (expr : Bool) (msg : String) : Outcome Unit :=
  if expr then .ok () else .fatal msg

/-- Conversion of an integer to `uint64_t`. -/
def to_uint64 (x : Int) : Nat := (x % (2 ^ 64 : Int)).toNat

/-- The value of a `uint64_t` read as `int64_t`. -/
def to_int64 (x : Nat) : Int := if x < 2 ^ 63 then (x : Int) else (x : Int) - 2 ^ 64

/-- The union `u` of `mpint`: nothing written to it yet, so that its content is
indeterminate; the word `u.w0`; or the pointer `u.w` to an array made by
`new uint64_t[..]`, whose elements are indeterminate (`none`) until they are written. -/
inductive Storage where
  | unset
  | w0 (x : Nat)
  | w (ws : List (Option Nat))
deriving DecidableEq, Repr

/-- The data members of the class `mpint`. -/
structure mpint where
  int_w : Nat
  word_cnt : Nat
  u : Storage
deriving DecidableEq, Repr

/-- The value read from `u.w0`; `none` is an indeterminate value. -/
def mpint.u_w0 (a : mpint) : Option Nat :=
  match a.u with
  | .w0 x => some x
  | _ => none

/-- The union after `u.w0 = x`. -/
def Storage.of_w0 : Option Nat → Storage
  | some x => .w0 x
  | none => .unset

/-- The value read from `u.w[i]`. -/
def mpint.u_w (a : mpint) (i : Nat) : Outcome (Option Nat) :=
  match a.u with
  | .w ws => if h : i < ws.length then .ok (ws.get ⟨i, h⟩) else .undefined
  | _ => .undefined

/-- The function `mpint::implicit_int_w_set`: the new value of the static member
`implicit_int_w`, which the functions below take as a parameter. -/
def mpint.implicit_int_w_set (int_w : Nat) : Nat := int_w

/-- The initial value of the static member `implicit_int_w`. -/
def mpint.implicit_int_w_init : Nat := 64

/-- The constructor `mpint::mpint( void )`. -/
def mpint.ctor_void : mpint := { int_w := 0, word_cnt := 0, u := .unset }

/-- The constructor `mpint::mpint( int64_t init, size_t _int_w )`. -/
def mpint.ctor (implicit_int_w : Nat) (init : Int) (_int_w : Nat) : Outcome mpint := do
  let int_w := if _int_w = 0 then implicit_int_w else _int_w
  iassert (decide (int_w > 0)) "int_w must be > 0"
  let word_cnt := (int_w + 63) % 2 ^ 64 / 64
  if word_cnt = 1 then
    pure { int_w := int_w, word_cnt := word_cnt, u := .w0 (to_uint64 init) }
  else if word_cnt = 0 then .undefined
  else
    let sign_mask : Nat := if init < 0 then 2 ^ 64 - 1 else 0
    pure { int_w := int_w, word_cnt := word_cnt,
           u := .w (List.replicate (word_cnt - 1) (some sign_mask) ++ [some (to_uint64 init)]) }

/-- The function `mpint::bit`. -/
def mpint.bit (a : mpint) (i : Nat) : Outcome Bool := do
  iassert (decide (a.int_w > 0)) "mpint is undefined"
  iassert (decide (i < a.int_w)) "mpint bit i is out of range"
  if a.word_cnt = 1 then
    if i < 64 then
      match a.u_w0 with
      | some x => pure (decide ((x >>> i) % 2 = 1))
      | none => .undefined
    else .undefined
  else if a.word_cnt = 0 then .undefined
  else
    let i := i % a.word_cnt
    if i < 64 then
      match ← a.u_w (a.word_cnt - 1) with
      | some x => pure (decide ((x >>> i) % 2 = 1))
      | none => .undefined
    else .undefined

/-- The function `mpint::signbit`; `int_w-1` is computed in `size_t`. -/
def mpint.signbit (a : mpint) : Outcome Bool :=
  a.bit ((a.int_w + (2 ^ 64 - 1)) % 2 ^ 64)

/-- The number of passes of the loop of `operator =`, whose index is an `int32_t` that
starts at `word_cnt-1` and goes down to 0. -/
def assign_cnt (word_cnt : Nat) : Nat :=
  (to_int32 ((word_cnt + (2 ^ 64 - 1)) % 2 ^ 64 : Nat) + 1).toNat

/-- The copy `u.w[i] = other.u.w[i]` of the words `i < n` of `operator =`. -/
def assign_words (ws os : List (Option Nat)) (n : Nat) : List (Option Nat) :=
  os.take n ++ ws.drop n

/-- The function `mpint::operator =`: the object `this` after `this = other`. -/
def mpint.assign (this other : mpint) : Outcome mpint := do
  iassert (decide (other.int_w > 0)) "rhs int_w must be > 0"
  let this : mpint :=
    if this.int_w = 0 then
      { int_w := other.int_w, word_cnt := other.word_cnt,
        u := if other.word_cnt > 1 then .w (List.replicate other.word_cnt none) else this.u }
    else this
  if this.word_cnt = 1 then
    pure { this with u := Storage.of_w0 other.u_w0 }
  else if assign_cnt this.word_cnt = 0 then pure this
  else
    match this.u, other.u with
    | .w ws, .w os =>
      if assign_cnt this.word_cnt ≤ ws.length ∧ assign_cnt this.word_cnt ≤ os.length then
        pure { this with u := .w (assign_words ws os (assign_cnt this.word_cnt)) }
      else .undefined
    | _, _ => .undefined

/-- The words after the loop of the multi-word branch of the unary `operator -`. As
`mpint r = *this` copies the pointer `u.w`, `r.u.w[i]` and `u.w[i]` are the same word when
they are compared, and `cin` is 0 after the first word. -/
def neg_words : List (Option Nat) → Nat → List (Option Nat)
  | [], _ => []
  | x :: xs, cin => x.map (fun x => (2 ^ 64 - 1 - x + cin) % 2 ^ 64) :: neg_words xs 0

/-- The function `mpint::operator -` with no argument. -/
def mpint.neg (a : mpint) : Outcome mpint := do
  iassert (decide (a.int_w > 0)) "trying to negate in undefined mpint"
  if a.word_cnt = 1 then
    pure { a with u := Storage.of_w0 (a.u_w0.map (fun x => (2 ^ 64 - 1 - x + 1) % 2 ^ 64)) }
  else if a.word_cnt = 0 then pure a
  else
    match a.u with
    | .w ws =>
      if a.word_cnt ≤ ws.length then
        pure { a with u := .w (neg_words (ws.take a.word_cnt) 1 ++ ws.drop a.word_cnt) }
      else .undefined
    | _ => .undefined

/-- The loop of the multi-word branch of `operator +` over the words `xs` of `this` and
`ys` of `other`, from index 0 on, with the carry `cin`; an indeterminate word makes the
sum and the carry indeterminate. -/
def add_words : List (Option Nat) → List (Option Nat) → Option Nat → List (Option Nat)
  | x :: xs, y :: ys, cin =>
    match x, y, cin with
    | some x, some y, some cin =>
      some ((x + y + cin) % 2 ^ 64) ::
        add_words xs ys (some (if (x + y + cin) % 2 ^ 64 < x then 1 else 0))
    | _, _, _ => none :: add_words xs ys none
  | _, _, _ => []

/-- The function `mpint::operator +`. -/
def mpint.add (a other : mpint) : Outcome mpint :=
  let int_w := if a.int_w > other.int_w then a.int_w else other.int_w
  let word_cnt := (a.int_w + 63) % 2 ^ 64 / 64
  if word_cnt = 1 then
    .ok { int_w := int_w, word_cnt := word_cnt,
          u := Storage.of_w0 (match a.u_w0, other.u_w0 with
            | some x, some y => some ((x + y) % 2 ^ 64)
            | _, _ => none) }
  else if a.word_cnt = 0 then
    .ok { int_w := int_w, word_cnt := word_cnt,
          u := if word_cnt > 1 then .w (List.replicate word_cnt none) else .unset }
  else
    match a.u, other.u with
    | .w xs, .w ys =>
      if a.word_cnt ≤ word_cnt ∧ a.word_cnt ≤ xs.length ∧ a.word_cnt ≤ ys.length then
        .ok { int_w := int_w, word_cnt := word_cnt,
              u := .w (add_words (xs.take a.word_cnt) (ys.take a.word_cnt) (some 0) ++
                List.replicate (word_cnt - a.word_cnt) none) }
      else .undefined
    | _, _ => .undefined

/-- The function `mpint::operator -` with one argument. -/
def mpint.sub (a other : mpint) : Outcome mpint := do
  let n ← other.neg
  a.add n

/-- The function `mpint::operator <<` for a shift above 0. -/
def mpint.shl_pos (a : mpint) (shift : Nat) : Outcome mpint :=
  if a.word_cnt = 1 then
    if shift < 64 then
      .ok { int_w := 0, word_cnt := 0,
            u := Storage.of_w0 (a.u_w0.map (fun x => (x <<< shift) % 2 ^ 64)) }
    else .undefined
  else if a.word_cnt = 0 then .ok mpint.ctor_void
  else .undefined

/-- The function `mpint::operator >>` for a shift above 0. -/
def mpint.shr_pos (a : mpint) (shift : Nat) : Outcome mpint :=
  if a.word_cnt = 1 then
    if shift < 64 then
      .ok { int_w := 0, word_cnt := 0,
            u := Storage.of_w0 (a.u_w0.map (fun x =>
              let sign : Nat := if x < 1 then 1 else 0
              ((((2 ^ 64 - sign) % 2 ^ 64) <<< (64 - shift)) % 2 ^ 64) ||| (x >>> shift))) }
    else .undefined
  else .undefined

/-- The function `mpint::operator <<`; the `int shift` has a negation unless it is the
least `int`. -/
def mpint.shl (a : mpint) (shift : Int) : Outcome mpint :=
  if shift = 0 then .ok a
  else if shift < 0 then
    if shift ≤ -(2 ^ 31) then .undefined else a.shr_pos (-shift).toNat
  else a.shl_pos shift.toNat

/-- The function `mpint::operator >>`. -/
def mpint.shr (a : mpint) (shift : Int) : Outcome mpint :=
  if shift = 0 then .ok a
  else if shift < 0 then
    if shift ≤ -(2 ^ 31) then .undefined else a.shl_pos (-shift).toNat
  else a.shr_pos shift.toNat

/-- The `for` loop of `mpint::to_mpint` over the characters that remain, with the
variables `r`, `is_neg`, `got_digit` and `i`. -/
def to_mpint_loop (implicit_int_w : Nat) (allow_no_conversion : Bool) :
    List Char → mpint → Bool → Bool → Nat → Outcome (mpint × Bool × Bool × Nat)
  | [], r, is_neg, got_digit, i => .ok (r, is_neg, got_digit, i)
  | c :: s, r, is_neg, got_digit, i =>
    if !is_neg && !got_digit && (c = ' ' || c = '\t' || c = '\n') then
      to_mpint_loop implicit_int_w allow_no_conversion s r is_neg got_digit (i + 1)
    else if c = '-' then
      if is_neg || got_digit then do
        iassert allow_no_conversion "to_mpint '-' is not allowed after first sign or digit"
        pure (r, is_neg, got_digit, i)
      else to_mpint_loop implicit_int_w allow_no_conversion s r true got_digit (i + 1)
    else if '0' ≤ c ∧ c ≤ '9' then do
      let r3 ← r.shl 3
      let r1 ← r.shl 1
      let t ← r3.add r1
      let d ← mpint.ctor implicit_int_w (c.toNat - '0'.toNat : Nat) 0
      let t ← t.add d
      let r ← r.assign t
      to_mpint_loop implicit_int_w allow_no_conversion s r is_neg true (i + 1)
    else .ok (r, is_neg, got_digit, i)

/-- The function `mpint::to_mpint`: the value that it returns and the value that it
writes to `*pos`. -/
def mpint.to_mpint (implicit_int_w : Nat) (s : String) (allow_no_conversion : Bool)
    (base : Int) : Outcome (mpint × Nat) := do
  iassert (decide (base = 10)) "to_mpint() currently supports only base 10"
  let r ← mpint.ctor implicit_int_w 0 0
  let (r, is_neg, got_digit, i) ← to_mpint_loop implicit_int_w allow_no_conversion s.data r
    false false 0
  iassert (got_digit || allow_no_conversion)
    ("to_mpint did not find any digits in '" ++ s ++ "'")
  let pos := if is_neg then (i + (2 ^ 64 - 1)) % 2 ^ 64 else i
  let r ← if is_neg then do
      let n ← r.neg
      r.assign n
    else pure r
  pure (r, pos)

/-- The value of a `char` as an `int`, for a `char` that is signed. -/
def char_to_int (c : Char) : Int :=
  if c.toNat < 128 then (c.toNat : Int) else (c.toNat : Int) - 256

/-- The conversion of an `int` to `char`. -/
def int_to_char (x : Int) : Char := Char.ofNat (x % 256).toNat

/-- The expression `(c <= '9') ? (c - '0') : (c - 'a')` as a `uint32_t`. -/
def digit_of (c : Int) : Nat := to_uint32 (if c ≤ 57 then c - 48 else c - 97)

/-- The character `p[k]` of the buffer `p = cs.c_str()`: a character of the string, or
the terminating NUL right after it; an index beyond that is outside the buffer. -/
def c_str_at (cs : List Char) (k : Nat) : Outcome Int :=
  if h : k < cs.length then .ok (char_to_int (cs.get ⟨k, h⟩))
  else if k = cs.length then .ok 0
  else .undefined

/-- The expression `(ds <= 9) ? ('0' + ds) : ('a' + ds)` as a `char`. -/
def char_of_digit (ds : Nat) : Char :=
  if ds ≤ 9 then int_to_char (48 + ds) else int_to_char (97 + ds)

/-- The inner `for` loop of the general path of `mpint::to_string`, from `j` on with
`todo` passes left; the state is `s`, `pow2`, `cins` and `cin2`. -/
def to_string_inner (base : Nat) (a_bit : Bool) (cpow2 cs : List Char) :
    Nat → Nat → List Char × List Char × Nat × Nat → Outcome (List Char × List Char)
  | 0, _, st => .ok (st.1, st.2.1)
  | todo + 1, j, (s, pow2, cins, cin2) => do
    let k := (cpow2.length + (2 ^ 64 - 1) + (2 ^ 64 - j % 2 ^ 64)) % 2 ^ 64
    let dc2 ← if j ≥ cpow2.length then pure 0 else do
      let c ← c_str_at cpow2 k
      pure (digit_of c)
    let dcs ← if j ≥ cs.length then pure 0 else do
      let c ← c_str_at cs k
      pure (digit_of c)
    let ds := ((if a_bit then dc2 else 0) + dcs + cins) % 2 ^ 32
    let d2 := (dc2 + dc2 + cin2) % 2 ^ 32
    let cins := ds / base
    let ds := ds % base
    let cin2 := d2 / base
    let d2 := d2 % base
    let chs := char_of_digit ds
    let ch2 := char_of_digit d2
    let s := if chs ≠ '0' ∨ j ≠ cpow2.length then chs :: s else s
    let pow2 := if ch2 ≠ '0' ∨ j ≠ cpow2.length then ch2 :: pow2 else pow2
    to_string_inner base a_bit cpow2 cs todo (j + 1) (s, pow2, cins, cin2)

/-- The outer `for` loop of the general path of `mpint::to_string`, from `i` on with
`todo` passes left. -/
def to_string_outer (base : Nat) (a : mpint) :
    Nat → Nat → List Char × List Char → Outcome (List Char)
  | 0, _, st => .ok st.1
  | todo + 1, i, (s, pow2) => do
    let a_bit ← a.bit i
    let st ← to_string_inner base a_bit pow2 s (pow2.length + 1) 0 ([], [], 0, 0)
    to_string_outer base a todo (i + 1) st

/-- The loop of the path for base 2 of `mpint::to_string`, from `i` on with `todo`
passes left. -/
def to_string_bits (a : mpint) : Nat → Nat → List Char → Outcome (List Char)
  | 0, _, s => .ok s
  | todo + 1, i, s => do
    let b ← a.bit (a.int_w - 1 - i)
    to_string_bits a todo (i + 1) (s ++ [if b then '1' else '0'])

/-- The function `mpint::to_string`. With a negative `width` the padding loop, which
compares `size_t(width)` with the length, goes on until the string cannot grow. -/
def mpint.to_string (a : mpint) (base : Int) (width : Int) : Outcome String := do
  iassert (decide (a.int_w > 0)) "to_string: this mpint is undefined"
  iassert (decide (base ≥ 0 ∧ base ≤ 36)) "base must be between 0 and 36"
  let base := if base = 0 then 10 else base
  let s ← if base = 2 then to_string_bits a a.int_w 0 []
    else do
      let is_neg ← a.signbit
      let a ← if is_neg then a.neg else pure a
      to_string_outer base.toNat a a.int_w 0 (['0'], ['1'])
  if width < 0 then .fatal "std::length_error"
  else pure (String.mk (List.replicate (width.toNat - s.length) ' ' ++ s))

/-! ## An operation table for concrete runs -/

/-- Modelled from the spec: an operation table with the operations that the
spec names, for runs on concrete traces; Cordic.h, which declares the real
table, is not among the sources. -/
def sample_ops : CordicOps :=
  { OP_cnt := 8
    op_to_str := fun o =>
      match o with
      | 0 => "push_constant"
      | 1 => "assign"
      | 2 => "pop_value"
      | 3 => "lshift"
      | 4 => "rshift"
      | 5 => "add"
      | 6 => "sincos"
      | 7 => "sinhcosh"
      | _ => ""
    push_constant := 0
    assign := 1
    pop_value := 2
    lshift := 3
    rshift := 4
    sincos := 6
    sinhcosh := 7 }

/-! ## Notions used to state the properties -/

/-- The function table after `inc_op_cnt( op )` with top frame `name`. -/
def funcs_after_inc (C : CordicOps) (funcs : Map String FuncInfo) (name : String) (op : Nat) :
    Map String FuncInfo :=
  Map.assign (Map.subscript (FuncInfo.zero C) funcs name).2 name
    { (Map.subscript (FuncInfo.zero C) funcs name).1 with
      op_cnt := incr_at (Map.subscript (FuncInfo.zero C) funcs name).1.op_cnt op }

/-- What an accepted operation line does to the call stack, the function table and the
tables it does not touch: `name` is its operation name and `fr` the top frame. -/
def op_frame (C : CordicOps) (a a' : Analysis) (c : List Char) : Prop :=
  ∃ name c1 fr rest, parse_name c = .ok (name, c1) ∧ a.stack = fr :: rest ∧
    a'.stack = a.stack ∧
    a'.funcs = funcs_after_inc C a.funcs fr.func_name (lookup_op a name).1 ∧
    a'.func_names = a.func_names ∧ a'.cordics = a.cordics ∧
    a'.ops = (lookup_op a name).2.ops

/-- Every frame of the call stack names a key of the function table. -/
def frames_known (a : Analysis) : Prop :=
  ∀ fr ∈ a.stack, (Map.find a.funcs fr.func_name).isSome = true

/-- The fourteen event names that `parse_kind` knows. -/
def event_names : List String :=
  ["cordic_constructed", "cordic_destructed", "enter", "leave", "constructed", "destructed",
   "op1", "op1i", "op1f", "op2", "op2i", "op2f", "op3", "op4"]

/-- Every entry of `ops` carries the code of its name in the operation table, or code 0. -/
def ops_known (C : CordicOps) (a : Analysis) : Prop :=
  ∀ name op, Map.find a.ops name = some op →
    op = 0 ∨ ∃ o, o < C.OP_cnt ∧ C.op_to_str o = name

/-- The first `n` operand addresses of an operation line, read with `parse_addr` one
after the other. -/
def parse_addrs : Nat → List Char → Except String (List Nat × List Char)
  | 0, c => .ok ([], c)
  | n + 1, c =>
    match parse_addr c with
    | .error e => .error e
    | .ok (x, c) =>
      match parse_addrs n c with
      | .error e => .error e
      | .ok (xs, c) => .ok (x :: xs, c)

/-- An address that does not pass the two assertions on an operand: it is absent from the
value table, or its entry is dead, or its entry is not assigned. -/
def operand_unusable (vals : Map Nat ValInfo) (x : Nat) : Prop :=
  Map.find vals x = none ∨
    ∃ v, Map.find vals x = some v ∧ (v.is_alive = false ∨ v.is_assigned = false)

/-- The state after `OP op = ops[name]; inc_op_cnt( op );` when `fr` is the top frame. -/
def op_state (C : CordicOps) (a : Analysis) (name : String) (fr : FrameInfo) : Analysis :=
  { (lookup_op a name).2 with
    funcs := funcs_after_inc C a.funcs fr.func_name (lookup_op a name).1 }

/-- The number of results that the cases `op1` to `op4` push for the operation `op`. -/
def result_cnt (C : CordicOps) (op : Nat) : Nat :=
  if op = C.sincos ∨ op = C.sinhcosh then 2 else if op = C.assign then 0 else 1

/-- The state after the case `KIND::enter` for the name `f`, when the push succeeds. -/
def enter_state (C : CordicOps) (a : Analysis) (f : String) : Analysis :=
  match Map.find a.funcs f with
  | none =>
    { a with
      func_names := a.func_names ++ [f]
      funcs := Map.assign (Map.assign a.funcs f ⟨0, List.replicate C.OP_cnt 0⟩) f
        ⟨1, List.replicate C.OP_cnt 0⟩
      stack := ⟨f⟩ :: a.stack }
  | some it =>
    { a with
      funcs := Map.assign a.funcs f { it with call_cnt := (it.call_cnt + 1) % 2 ^ 64 }
      stack := ⟨f⟩ :: a.stack }

/-- What one accepted line can do to the state: nothing; a write to one engine entry that
leaves `cordic_i` unwritten or as it was; a write to one value entry; an `enter`; a
`leave`; or an operation, which counts itself in the function on top of the call stack,
may write the value table, and pushes results that are live and assigned or pops one. -/
def line_effect (C : CordicOps) (a a' : Analysis) : Prop :=
  a' = a ∨
  (∃ A e, a' = { a with cordics := Map.assign a.cordics A e } ∧
    (e.cordic_i = none ∨ ∃ e0, Map.find a.cordics A = some e0 ∧ e.cordic_i = e0.cordic_i)) ∨
  (∃ V v, a' = { a with vals := Map.assign a.vals V v }) ∨
  (∃ f, a.stack.length < STACK_CNT_MAX ∧ a' = enter_state C a f) ∨
  (∃ g rest, a.stack = ⟨g⟩ :: rest ∧ a' = { a with stack := rest }) ∨
  (∃ name fr rest vals vs, a.stack = fr :: rest ∧
    a' = { op_state C a name fr with vals := vals, val_stack := vs } ∧
    ((∃ k rv, vs = List.replicate k rv ++ a.val_stack ∧ rv.is_alive = true ∧
        rv.is_assigned = true ∧ (0 < k → vs.length ≤ VAL_STACK_CNT_MAX)) ∨
      ∃ top, a.val_stack = top :: vs))

/-- Every histogram of the function table has `OP_cnt` entries. -/
def hist_sized (C : CordicOps) (a : Analysis) : Prop :=
  ∀ f fi, Map.find a.funcs f = some fi → fi.op_cnt.length = C.OP_cnt

/-- At most `VAL_STACK_CNT_MAX` results are pending, and each is live and assigned. -/
def results_pending_ok (a : Analysis) : Prop :=
  a.val_stack.length ≤ VAL_STACK_CNT_MAX ∧
  ∀ v ∈ a.val_stack, v.is_alive = true ∧ v.is_assigned = true

/-- No entry of the engine table has had its `cordic_i` written. -/
def ordinals_unwritten (a : Analysis) : Prop :=
  ∀ A e, Map.find a.cordics A = some e → e.cordic_i = none

/-- Every code stored in `ops` is below `OP_cnt`, or is the code 0 of a name that the
lookup inserted. -/
def ops_in_range (C : CordicOps) (a : Analysis) : Prop :=
  ∀ name op, Map.find a.ops name = some op → op = 0 ∨ op < C.OP_cnt

/-- No call count and no histogram entry of the function table exceeds `n`. -/
def counts_bounded (n : Nat) (a : Analysis) : Prop :=
  ∀ f fi, Map.find a.funcs f = some fi →
    fi.call_cnt ≤ n ∧ ∀ j, fi.op_cnt.getD j 0 ≤ n

/-- The separators of the spec: space, comma and opening parenthesis. -/
def separator_of_spec (ch : Char) : Bool := decide (ch ∈ [' ', ',', '('])

/-- The characters of a name in the spec: letters, digits, underscore, hyphen, dot and
colon. -/
def name_char_of_spec (ch : Char) : Bool :=
  ch.isAlpha || ch.isDigit || decide (ch ∈ ['_', '-', '.', ':'])

/-- The three operation codes that the report leaves out, as they consume no hardware:
`push_constant`, `assign` and `pop_value`. -/
def free_op (C : CordicOps) (i : Nat) : Bool :=
  decide (i = C.push_constant ∨ i = C.assign ∨ i = C.pop_value)

/-- In the words of the spec, the operation codes that the report lists under a function
with the entry `func`: those below `OP_cnt` that are not free and have a count other than
zero, in increasing order. -/
def listed_ops_of_spec (C : CordicOps) (func : FuncInfo) : List Nat :=
  (List.range C.OP_cnt).filter (fun i => !free_op C i && decide (func.op_cnt.getD i 0 ≠ 0))

/-- The line of the report for the operation code `i` under a function with the entry
`func`: the name of the operation, the average per call, the raw total and the scaled
total. -/
def op_row (C : CordicOps) (scale_factor : Double) (func : FuncInfo) (i : Nat) : Row :=
  Row.op (C.op_to_str i)
    (double_div (double_of_uint64 (func.op_cnt.getD i 0)) (double_of_uint64 func.call_cnt))
    (func.op_cnt.getD i 0) (scaled_cnt (func.op_cnt.getD i 0) scale_factor)

/-- In the words of the spec, the lines of the function `f` in the report: its header
with the call count, then the lines of its listed operation codes. -/
def func_block_of_spec (C : CordicOps) (a : Analysis) (scale_factor : Double) (f : String) :
    List Row :=
  match Map.find a.funcs f with
  | none => []
  | some func =>
    Row.func f func.call_cnt :: (listed_ops_of_spec C func).map (op_row C scale_factor func)

/-- The functions that the report lists: the names of `func_names`, in that order,
that are not in the suppression list. -/
def reported_funcs (a : Analysis) (ignore_funcs : List String) : List String :=
  a.func_names.filter (fun f => decide (f ∉ ignore_funcs))

/-- The histogram entry of the function `f` for the operation code `i`. -/
def hist_entry (a : Analysis) (f : String) (i : Nat) : Nat :=
  match Map.find a.funcs f with
  | none => 0
  | some func => func.op_cnt.getD i 0

/-- The sum of the histogram entries for the operation code `i` over the functions that
the report lists. -/
def raw_total (a : Analysis) (ignore_funcs : List String) (i : Nat) : Nat :=
  ((reported_funcs a ignore_funcs).map (fun f => hist_entry a f i)).sum

/-- The lines of the totals as the code writes them, in the words of the spec: one for
each operation code below `OP_cnt` that is not free and whose sum, as a `uint64_t`, is
not zero, in increasing order. -/
def totals_block_of_spec (C : CordicOps) (a : Analysis) (scale_factor : Double)
    (ignore_funcs : List String) : List Row :=
  ((List.range C.OP_cnt).filter (fun i =>
    !free_op C i && decide (raw_total a ignore_funcs i % 2 ^ 64 ≠ 0))).map (fun i =>
      Row.total (C.op_to_str i) (raw_total a ignore_funcs i % 2 ^ 64)
        (scaled_cnt (raw_total a ignore_funcs i % 2 ^ 64) scale_factor))

/-- The name that an `enter` line carries. -/
def entered_name (line : String) : Option String :=
  match parse_kind (c_str line) with
  | .ok (KIND.enter, c) =>
    match parse_name c with
    | .ok (f, _) => some f
    | .error _ => none
  | _ => none

/-- The names of a list in the order in which each occurs first. -/
def first_seen (names : List String) : List String :=
  names.foldl (fun seen f => if f ∈ seen then seen else seen ++ [f]) []

/-- The names of `func_names` are distinct and are the keys of the function table. -/
def names_keyed (a : Analysis) : Prop :=
  a.func_names.Nodup ∧ ∀ f, f ∈ a.func_names ↔ (Map.find a.funcs f).isSome = true

/-- The sum of all histogram entries of the function table. -/
def hist_sum (funcs : Map String FuncInfo) : Nat := (funcs.map (fun p => p.2.op_cnt.sum)).sum

/-- The numbers that are values of the type `double` and not negative. -/
def is_double_val (q : ℚ) : Prop :=
  ∃ (m : Nat) (e : Int), m < 2 ^ 53 ∧ -1074 ≤ e ∧ e ≤ 971 ∧ q = m * 2 ^ e

/-- The state after the first three lines of the scenario trace: an engine at address 1,
the function `f` entered once, and a value at address 16 that is constructed and not
assigned. -/
def scenario_state (C : CordicOps) : Analysis :=
  { Analysis.init C with
    cordics := [(1, ⟨none, true, 32, 32, 0, 16⟩)]
    func_names := ["f"]
    funcs := [("f", ⟨1, List.replicate C.OP_cnt 0⟩)]
    vals := [(16, ⟨true, false, none, none, none, false, none, none, none⟩)]
    stack := [⟨"f"⟩] }

/-- The state at the end of the scenario trace whose fourth line is
`op1f push_constant 3.14`. -/
def scenario_end (C : CordicOps) : Analysis :=
  { Analysis.init C with
    cordics := [(1, ⟨none, true, 32, 32, 0, 16⟩)]
    func_names := ["f"]
    funcs := [("f", ⟨1, incr_at (List.replicate C.OP_cnt 0) C.push_constant⟩)]
    vals := [(16, ⟨true, false, none, none, none, false, none, none, none⟩)]
    stack := []
    val_stack := [result_val none true (some ⟨"3.14"⟩)] }

/-- The `w`-bit two's complement representation of the integer `v` of the spec, as a
number below `2^w`. -/
def twos_complement (w : Nat) (v : Int) : Nat := (v % (2 ^ w : Int)).toNat

/-- The number that a non-empty string of decimal digits denotes, as the spec reads an
integer literal; `none` for any other string. -/
def digits_of_spec (s : List Char) : Option Nat :=
  if s ≠ [] ∧ ∀ ch ∈ s, '0' ≤ ch ∧ ch ≤ '9' then
    some (s.foldl (fun acc ch => 10 * acc + (ch.toNat - '0'.toNat)) 0)
  else none

/-- The integer that an integer literal of the spec denotes: decimal digits, with a minus
sign before them for a negative integer; `none` for any other string. -/
def int_literal_of_spec (s : List Char) : Option Int :=
  match s with
  | '-' :: r =>
    match digits_of_spec r with
    | some n => some (-(n : Int))
    | none => none
  | _ =>
    match digits_of_spec s with
    | some n => some (n : Int)
    | none => none

/-- The next token of the line, as `parse_name` takes it, is an integer literal of the
spec that denotes `n`, and `n` is in the range of `int`; `c'` is the rest of the line. -/
def int_token (c : List Char) (n : Int) (c' : List Char) : Prop :=
  ∃ tok, parse_name c = .ok (tok, c') ∧ int_literal_of_spec tok.data = some n ∧
    -(2 ^ 31) ≤ n ∧ n < 2 ^ 31

/-! ## Basic facts -/

theorem fatal_error {α : Type} (e : String) : fatal (Except.error e : Except String α) :=
  ⟨e, rfl⟩

theorem not_fatal_ok {α : Type} (x : α) : ¬ fatal (Except.ok x : Except String α) := by
  rintro ⟨msg, h⟩
  cases h

theorem accepted_iff_ok {α : Type} (r : Except String α) :
    accepted r = true ↔ ∃ x, r = .ok x := by
  cases r with
  | error e => simp [accepted]
  | ok x => simp [accepted]

theorem fatal_iff_not_accepted {α : Type} (r : Except String α) :
    fatal r ↔ accepted r = false := by
  cases r with
  | error e => simp [accepted, fatal]
  | ok x => simp [accepted, fatal]

theorem Map.find_assign_self {κ α : Type} [DecidableEq κ] (m : Map κ α) (k : κ) (v : α) :
    Map.find (Map.assign m k v) k = some v := by
  induction m with
  | nil => simp [Map.assign, Map.find]
  | cons p m ih =>
    obtain ⟨k', v'⟩ := p
    by_cases h : k' = k
    · simp [Map.assign, Map.find, h]
    · simp [Map.assign, Map.find, h, ih]

theorem Map.find_assign_ne {κ α : Type} [DecidableEq κ] (m : Map κ α) (k k₁ : κ) (v : α)
    (hne : k₁ ≠ k) : Map.find (Map.assign m k v) k₁ = Map.find m k₁ := by
  induction m with
  | nil =>
    have : ¬ k = k₁ := fun h => hne h.symm
    simp [Map.assign, Map.find, this]
  | cons p m ih =>
    obtain ⟨k', v'⟩ := p
    by_cases h : k' = k
    · subst h
      have : ¬ k' = k₁ := fun h => hne h.symm
      simp [Map.assign, Map.find, this]
    · by_cases h₁ : k' = k₁
      · subst h₁
        simp [Map.assign, Map.find, h]
      · simp [Map.assign, Map.find, h, h₁, ih]

theorem Map.keys_assign_of_find {κ α : Type} [DecidableEq κ] (m : Map κ α) (k : κ) (v v₀ : α)
    (hfind : Map.find m k = some v₀) : Map.keys (Map.assign m k v) = Map.keys m := by
  induction m with
  | nil => simp [Map.find] at hfind
  | cons p m ih =>
    obtain ⟨k', v'⟩ := p
    by_cases h : k' = k
    · simp [Map.assign, Map.keys, h]
    · simp only [Map.find, h, if_false] at hfind
      have := ih hfind
      simp only [Map.keys] at this
      simp [Map.assign, Map.keys, h, this]

theorem Map.find_isSome_assign {κ α : Type} [DecidableEq κ] (m : Map κ α) (k k₁ : κ) (v : α)
    (h : (Map.find m k₁).isSome = true) : (Map.find (Map.assign m k v) k₁).isSome = true := by
  by_cases hk : k₁ = k
  · subst hk
    simp [Map.find_assign_self]
  · rw [Map.find_assign_ne m k k₁ v hk]
    exact h

/-! ## Engine construction and destruction -/

/-- A `cordic_constructed` line with five fields on a free address inserts the new entry. -/
theorem case_cordic_constructed_ok (a : Analysis) (c c1 c2 c3 c4 c5 : List Char) (A : Nat)
    (w1 w2 w3 w4 : Int)
    (haddr : parse_addr c = .ok (A, c1))
    (h1 : parse_int c1 = .ok (w1, c2)) (h2 : parse_int c2 = .ok (w2, c3))
    (h3 : parse_int c3 = .ok (w3, c4)) (h4 : parse_int c4 = .ok (w4, c5))
    (hfree : ∀ e, Map.find a.cordics A = some e → e.is_alive = false) :
    case_cordic_constructed a c = .ok { a with cordics := (Map.assign a.cordics A
      ⟨none, true, to_uint32 w1, to_uint32 w2, to_uint32 w3, to_uint32 w4⟩) } := by
  simp only [case_cordic_constructed, bind, Except.bind, haddr, h1, h2, h3, h4]
  cases hf : Map.find a.cordics A with
  | none => simp [cassert, pure, Except.pure]
  | some e => simp [cassert, pure, Except.pure, hfree e hf]

/-- A `cordic_constructed` line on an address that holds a live engine is fatal. -/
theorem case_cordic_constructed_live (a : Analysis) (c c' : List Char) (A : Nat)
    (e : CordicInfo) (haddr : parse_addr c = .ok (A, c'))
    (hfind : Map.find a.cordics A = some e) (hlive : e.is_alive = true) :
    fatal (case_cordic_constructed a c) := by
  simp only [case_cordic_constructed, bind, Except.bind, haddr]
  cases h1 : parse_int c' with
  | error e => exact fatal_error _
  | ok r1 =>
    obtain ⟨w1, c1⟩ := r1
    simp only []
    cases h2 : parse_int c1 with
    | error e => exact fatal_error _
    | ok r2 =>
      obtain ⟨w2, c2⟩ := r2
      simp only []
      cases h3 : parse_int c2 with
      | error e => exact fatal_error _
      | ok r3 =>
        obtain ⟨w3, c3⟩ := r3
        simp only []
        cases h4 : parse_int c3 with
        | error e => exact fatal_error _
        | ok r4 =>
          obtain ⟨w4, c4⟩ := r4
          simp only [hfind, hlive, cassert]
          exact fatal_error _

/-- A `cordic_destructed` line on a live engine marks it dead. -/
theorem case_cordic_destructed_ok (a : Analysis) (c c' : List Char) (A : Nat) (e : CordicInfo)
    (haddr : parse_addr c = .ok (A, c'))
    (hfind : Map.find a.cordics A = some e) (hlive : e.is_alive = true) :
    case_cordic_destructed a c =
      .ok { a with cordics := Map.assign a.cordics A { e with is_alive := false } } := by
  simp [case_cordic_destructed, bind, Except.bind, haddr, hfind, hlive, cassert, pure,
    Except.pure]

/-- A `cordic_destructed` line is fatal unless its address holds a live engine. -/
theorem case_cordic_destructed_fatal (a : Analysis) (c c' : List Char) (A : Nat)
    (haddr : parse_addr c = .ok (A, c'))
    (hnot : ∀ e, Map.find a.cordics A = some e → e.is_alive = false) :
    fatal (case_cordic_destructed a c) := by
  simp only [case_cordic_destructed, bind, Except.bind, haddr]
  cases hf : Map.find a.cordics A with
  | none => simp [cassert, cassert_failed, Except.bind, fatal]
  | some e => simp [cassert, hnot e hf, fatal]

/-- A `destructed` line on a live value marks it dead. -/
theorem case_destructed_ok (a : Analysis) (c c' : List Char) (V : Nat) (v : ValInfo)
    (haddr : parse_addr c = .ok (V, c'))
    (hfind : Map.find a.vals V = some v) (hlive : v.is_alive = true) :
    case_destructed a c =
      .ok { a with vals := Map.assign a.vals V { v with is_alive := false } } := by
  simp [case_destructed, bind, Except.bind, haddr, hfind, hlive, cassert, pure, Except.pure]

/-- A `destructed` line is fatal unless its address holds a live value. -/
theorem case_destructed_fatal (a : Analysis) (c c' : List Char) (V : Nat)
    (haddr : parse_addr c = .ok (V, c'))
    (hnot : ∀ v, Map.find a.vals V = some v → v.is_alive = false) :
    fatal (case_destructed a c) := by
  simp only [case_destructed, bind, Except.bind, haddr]
  cases hf : Map.find a.vals V with
  | none => simp [cassert, cassert_failed, Except.bind, fatal]
  | some v => simp [cassert, hnot v hf, fatal]

/-! ## Value construction, the stacks, and the frame of an operation line -/

/-- A `constructed` line with engine address zero writes a fresh entry without owner. -/
theorem case_constructed_zero (a : Analysis) (c c1 c2 : List Char) (V : Nat)
    (hV : parse_addr c = .ok (V, c1)) (hE : parse_addr c1 = .ok (0, c2)) :
    case_constructed a c = .ok { a with vals := (Map.assign a.vals V
      ⟨true, false, some size_t_minus_one, none, none, false, none, none, none⟩) } := by
  simp [case_constructed, bind, Except.bind, hV, hE, pure, Except.pure]

/-- A `constructed` line that names a live engine writes a fresh entry owned by it. -/
theorem case_constructed_live (a : Analysis) (c c1 c2 : List Char) (V E : Nat) (e : CordicInfo)
    (hV : parse_addr c = .ok (V, c1)) (hE : parse_addr c1 = .ok (E, c2)) (hne : E ≠ 0)
    (hfind : Map.find a.cordics E = some e) (hlive : e.is_alive = true) :
    case_constructed a c = .ok { a with vals := (Map.assign a.vals V
      ⟨true, false, e.cordic_i, none, none, false, none, none, none⟩) } := by
  simp [case_constructed, bind, Except.bind, hV, hE, pure, Except.pure, hne, hfind, hlive,
    cassert]

/-- A `constructed` line with a non-zero engine address is fatal unless the address
holds a live engine. -/
theorem case_constructed_fatal (a : Analysis) (c c1 c2 : List Char) (V E : Nat)
    (hV : parse_addr c = .ok (V, c1)) (hE : parse_addr c1 = .ok (E, c2)) (hne : E ≠ 0)
    (hnot : ∀ e, Map.find a.cordics E = some e → e.is_alive = false) :
    fatal (case_constructed a c) := by
  simp only [case_constructed, bind, Except.bind, hV, hE]
  cases hf : Map.find a.cordics E with
  | none => simp [hne, cassert, cassert_failed, Except.bind, fatal]
  | some e => simp [hne, cassert, hnot e hf, Except.bind, fatal]

/-- An accepted `constructed` line: the engine address is zero or names a live engine, and
the new state differs from the old one in the entry of the value address only. -/
theorem case_constructed_result (a a' : Analysis) (c c1 c2 : List Char) (V E : Nat)
    (hV : parse_addr c = .ok (V, c1)) (hE : parse_addr c1 = .ok (E, c2))
    (hok : case_constructed a c = .ok a') :
    ((E = 0 ∧ a' = { a with vals := (Map.assign a.vals V
        ⟨true, false, some size_t_minus_one, none, none, false, none, none, none⟩) }) ∨
     (E ≠ 0 ∧ ∃ e, Map.find a.cordics E = some e ∧ e.is_alive = true ∧
        a' = { a with vals := (Map.assign a.vals V
          ⟨true, false, e.cordic_i, none, none, false, none, none, none⟩) })) := by
  by_cases hz : E = 0
  · subst hz
    rw [case_constructed_zero a c c1 c2 V hV hE] at hok
    cases hok
    exact Or.inl ⟨rfl, rfl⟩
  · by_cases hl : ∃ e, Map.find a.cordics E = some e ∧ e.is_alive = true
    · obtain ⟨e, hf, hal⟩ := hl
      rw [case_constructed_live a c c1 c2 V E e hV hE hz hf hal] at hok
      cases hok
      exact Or.inr ⟨hz, e, hf, hal, rfl⟩
    · have hfat := case_constructed_fatal a c c1 c2 V E hV hE hz (by
        intro e hf
        cases hal : e.is_alive with
        | false => rfl
        | true => exact absurd ⟨e, hf, hal⟩ hl)
      rw [hok] at hfat
      exact absurd hfat (not_fatal_ok _)

theorem bind_ok_iff {α β : Type} (x : Except String α) (f : α → Except String β) (b : β) :
    (x >>= f) = .ok b ↔ ∃ y, x = .ok y ∧ f y = .ok b := by
  cases x with
  | error e => simp [bind, Except.bind]
  | ok y => simp [bind, Except.bind]

theorem cassert_ok_iff (expr : Bool) (msg : String) (u : Unit) :
    cassert expr msg = .ok u ↔ expr = true := by
  cases expr <;> simp [cassert]

theorem stack_top_ok (a : Analysis) (frame : FrameInfo) :
    stack_top a = .ok frame ↔ ∃ rest, a.stack = frame :: rest := by
  unfold stack_top
  cases h : a.stack with
  | nil => simp [cassert, cassert_failed, Except.bind]
  | cons fr rest => simp

theorem stack_pop_ok (a a' : Analysis) :
    stack_pop a = .ok a' ↔ ∃ fr rest, a.stack = fr :: rest ∧ a' = { a with stack := rest } := by
  unfold stack_pop
  cases h : a.stack with
  | nil => simp [cassert, cassert_failed, Except.bind]
  | cons fr rest =>
    simp only [Except.ok.injEq, List.cons.injEq, exists_and_left, exists_eq_left']
    constructor
    · intro h'
      exact ⟨fr, rest, ⟨rfl, rfl⟩, h'.symm⟩
    · rintro ⟨_, _, ⟨_, rfl⟩, h'⟩
      exact h'.symm

theorem stack_push_ok (a a' : Analysis) (info : FrameInfo) :
    stack_push a info = .ok a' ↔
      a.stack.length < STACK_CNT_MAX ∧ a' = { a with stack := info :: a.stack } := by
  simp only [stack_push, bind_ok_iff, cassert_ok_iff, decide_eq_true_eq, pure, Except.pure,
    Except.ok.injEq, exists_and_left, exists_const]
  constructor
  · rintro ⟨h, h'⟩
    exact ⟨h, h'.symm⟩
  · rintro ⟨h, h'⟩
    exact ⟨h, h'.symm⟩

theorem val_stack_push_ok (a a' : Analysis) (info : ValInfo) :
    val_stack_push a info = .ok a' ↔
      a.val_stack.length < VAL_STACK_CNT_MAX ∧
      a' = { a with val_stack := info :: a.val_stack } := by
  simp only [val_stack_push, bind_ok_iff, cassert_ok_iff, decide_eq_true_eq, pure, Except.pure,
    Except.ok.injEq, exists_and_left, exists_const]
  constructor
  · rintro ⟨h, h'⟩
    exact ⟨h, h'.symm⟩
  · rintro ⟨h, h'⟩
    exact ⟨h, h'.symm⟩

theorem val_stack_pop_ok (a a' : Analysis) (val : ValInfo) :
    val_stack_pop a = .ok (val, a') ↔
      ∃ rest, a.val_stack = val :: rest ∧ a' = { a with val_stack := rest } := by
  unfold val_stack_pop
  cases h : a.val_stack with
  | nil => simp [cassert, cassert_failed, Except.bind]
  | cons v rest =>
    simp only [Except.ok.injEq, Prod.mk.injEq, List.cons.injEq]
    constructor
    · rintro ⟨h1, h2⟩
      exact ⟨rest, ⟨h1, rfl⟩, h2.symm⟩
    · rintro ⟨r, ⟨h1, h2⟩, h3⟩
      subst h2
      exact ⟨h1, h3.symm⟩

theorem inc_op_cnt_ok (C : CordicOps) (a a' : Analysis) (op : Nat) :
    inc_op_cnt C a op = .ok a' ↔
      ∃ fr rest, a.stack = fr :: rest ∧
        a' = { a with funcs := funcs_after_inc C a.funcs fr.func_name op } := by
  simp only [inc_op_cnt, bind_ok_iff, stack_top_ok, pure, Except.pure, Except.ok.injEq,
    funcs_after_inc]
  constructor
  · rintro ⟨fr, ⟨rest, h⟩, h'⟩
    exact ⟨fr, rest, h, h'.symm⟩
  · rintro ⟨fr, rest, h, h'⟩
    exact ⟨fr, ⟨rest, h⟩, h'.symm⟩

theorem push_results_ok (val : ValInfo) (cnt : Nat) (a a' : Analysis)
    (h : push_results val cnt a = .ok a') :
    a' = { a with val_stack := List.replicate cnt val ++ a.val_stack } ∧
      (0 < cnt → a.val_stack.length + cnt ≤ VAL_STACK_CNT_MAX) := by
  induction cnt generalizing a a' with
  | zero =>
    simp only [push_results, Except.ok.injEq] at h
    subst h
    simp
  | succ n ih =>
    simp only [push_results, bind_ok_iff, val_stack_push_ok] at h
    obtain ⟨a1, ⟨hlen, ha1⟩, h2⟩ := h
    obtain ⟨h3, h4⟩ := ih a1 a' h2
    subst ha1
    subst h3
    refine ⟨?_, ?_⟩
    · simp [List.replicate_succ']
    · intro _
      simp only [List.length_cons] at h4
      rcases Nat.eq_zero_or_pos n with hn | hn
      · subst hn
        omega
      · have := h4 hn
        omega

theorem lookup_op_fields (a : Analysis) (name : String) :
    (lookup_op a name).2.stack = a.stack ∧ (lookup_op a name).2.funcs = a.funcs ∧
    (lookup_op a name).2.func_names = a.func_names ∧
    (lookup_op a name).2.cordics = a.cordics ∧ (lookup_op a name).2.vals = a.vals ∧
    (lookup_op a name).2.val_stack = a.val_stack :=
  ⟨rfl, rfl, rfl, rfl, rfl, rfl⟩

theorem case_op_frame (C : CordicOps) (opnd_cnt : Nat) (a a' : Analysis) (c : List Char)
    (h : case_op C opnd_cnt a c = .ok a') : op_frame C a a' c := by
  simp only [case_op, bind_ok_iff, inc_op_cnt_ok] at h
  obtain ⟨⟨name, c1⟩, hname, ⟨a1, ⟨fr, rest, hst, ha1⟩, ⟨⟨vals, c2⟩, _, hpush⟩⟩⟩ := h
  obtain ⟨ha', _⟩ := push_results_ok _ _ _ _ hpush
  subst ha1
  subst ha'
  exact ⟨name, c1, fr, rest, hname, hst, rfl, rfl, rfl, rfl, rfl⟩

theorem case_op1i_fatal (C : CordicOps) (a : Analysis) (c : List Char) :
    fatal (case_op1i C a c) := by
  unfold case_op1i
  cases h1 : parse_name c with
  | error e => exact fatal_error _
  | ok r =>
    obtain ⟨name, c1⟩ := r
    simp only [bind, Except.bind]
    cases h2 : inc_op_cnt C (lookup_op a name).2 (lookup_op a name).1 with
    | error e => exact fatal_error _
    | ok a1 => exact fatal_error _

theorem case_op1f_frame (C : CordicOps) (a a' : Analysis) (c : List Char)
    (h : case_op1f C a c = .ok a') : op_frame C a a' c := by
  simp only [case_op1f, bind_ok_iff, inc_op_cnt_ok, val_stack_push_ok] at h
  obtain ⟨⟨name, c1⟩, hname, ⟨a1, ⟨fr, rest, hst, ha1⟩, ⟨_, _, ⟨_, _, ⟨_, ha'⟩⟩⟩⟩⟩ := h
  subst ha1
  subst ha'
  exact ⟨name, c1, fr, rest, hname, hst, rfl, rfl, rfl, rfl, rfl⟩

theorem case_op2f_frame (C : CordicOps) (a a' : Analysis) (c : List Char)
    (h : case_op2f C a c = .ok a') : op_frame C a a' c := by
  simp only [case_op2f, bind_ok_iff, inc_op_cnt_ok] at h
  obtain ⟨⟨name, c1⟩, hname, ⟨a1, ⟨fr, rest, hst, ha1⟩, ⟨⟨opnd0, c2⟩, _, ⟨_, _, h⟩⟩⟩⟩ := h
  subst ha1
  simp only at h
  split at h
  · simp [cassert, cassert_failed, Except.bind] at h
  · simp only [bind_ok_iff, val_stack_push_ok] at h
    obtain ⟨_, _, ⟨_, _, ⟨_, ha'⟩⟩⟩ := h
    subst ha'
    exact ⟨name, c1, fr, rest, hname, hst, rfl, rfl, rfl, rfl, rfl⟩

theorem case_op2i_frame (C : CordicOps) (a a' : Analysis) (c : List Char)
    (h : case_op2i C a c = .ok a') : op_frame C a a' c := by
  simp only [case_op2i, bind_ok_iff, inc_op_cnt_ok] at h
  obtain ⟨⟨name, c1⟩, hname, ⟨a1, ⟨fr, rest, hst, ha1⟩, ⟨_, _, ⟨⟨opnd0, c2⟩, _,
    ⟨⟨opnd1, c3⟩, _, h⟩⟩⟩⟩⟩ := h
  subst ha1
  simp only at h
  split at h
  · simp [cassert, cassert_failed, Except.bind] at h
  · simp only [bind_ok_iff] at h
    obtain ⟨_, _, h⟩ := h
    split at h
    · simp only [bind_ok_iff, pure, Except.pure, Except.ok.injEq] at h
      obtain ⟨⟨val, a2⟩, hpop, ha'⟩ := h
      obtain ⟨r, _, ha2⟩ := (val_stack_pop_ok _ _ _).1 hpop
      subst ha2
      subst ha'
      exact ⟨name, c1, fr, rest, hname, hst, rfl, rfl, rfl, rfl, rfl⟩
    · obtain ⟨_, ha'⟩ := (val_stack_push_ok _ _ _).1 h
      subst ha'
      exact ⟨name, c1, fr, rest, hname, hst, rfl, rfl, rfl, rfl, rfl⟩

theorem funcs_after_inc_isSome (C : CordicOps) (funcs : Map String FuncInfo)
    (name k : String) (op : Nat) (h : (Map.find funcs k).isSome = true) :
    (Map.find (funcs_after_inc C funcs name op) k).isSome = true := by
  unfold funcs_after_inc
  apply Map.find_isSome_assign
  unfold Map.subscript
  cases hf : Map.find funcs name with
  | none => exact Map.find_isSome_assign _ _ _ _ h
  | some v => exact h

theorem op_frame_frames_known (C : CordicOps) (a a' : Analysis) (c : List Char)
    (h : op_frame C a a' c) (hinv : frames_known a) : frames_known a' := by
  obtain ⟨name, c1, fr, rest, _, _, hst, hfu, _, _, _⟩ := h
  intro fr' hfr'
  rw [hst] at hfr'
  rw [hfu]
  exact funcs_after_inc_isSome _ _ _ _ _ (hinv fr' hfr')

theorem case_enter_ok (C : CordicOps) (a a' : Analysis) (c : List Char)
    (h : case_enter C a c = .ok a') :
    ∃ f c', parse_name c = .ok (f, c') ∧ a.stack.length < STACK_CNT_MAX ∧
      a'.stack = { func_name := f } :: a.stack ∧
      (Map.find a'.funcs f).isSome = true ∧
      (∀ k, (Map.find a.funcs k).isSome = true → (Map.find a'.funcs k).isSome = true) ∧
      a'.cordics = a.cordics ∧ a'.vals = a.vals ∧ a'.val_stack = a.val_stack ∧
      a'.ops = a.ops := by
  simp only [case_enter, bind_ok_iff] at h
  obtain ⟨⟨f, c'⟩, hname, h⟩ := h
  cases hf : Map.find a.funcs f with
  | none =>
    simp only [hf, stack_push_ok] at h
    obtain ⟨hlen, ha'⟩ := h
    subst ha'
    refine ⟨f, c', hname, hlen, rfl, ?_, ?_, rfl, rfl, rfl, rfl⟩
    · simp [Map.find_assign_self]
    · intro k hk
      exact Map.find_isSome_assign _ _ _ _ (Map.find_isSome_assign _ _ _ _ hk)
  | some it =>
    simp only [hf, stack_push_ok] at h
    obtain ⟨hlen, ha'⟩ := h
    subst ha'
    refine ⟨f, c', hname, hlen, rfl, ?_, ?_, rfl, rfl, rfl, rfl⟩
    · simp [Map.find_assign_self]
    · intro k hk
      exact Map.find_isSome_assign _ _ _ _ hk

theorem case_leave_ok (a a' : Analysis) (c : List Char) :
    case_leave a c = .ok a' ↔
      ∃ g c' rest, parse_name c = .ok (g, c') ∧ (Map.find a.funcs g).isSome = true ∧
        a.stack = { func_name := g } :: rest ∧ a' = { a with stack := rest } := by
  simp only [case_leave, bind_ok_iff, cassert_ok_iff, stack_top_ok, stack_pop_ok,
    decide_eq_true_eq]
  constructor
  · rintro ⟨⟨g, c'⟩, hname, _, hfu, fr, ⟨rest, hst⟩, _, hfr, fr', rest', hst', ha'⟩
    rw [hst] at hst'
    cases hst'
    cases fr with
    | mk n =>
      simp only at hfr
      subst hfr
      exact ⟨n, c', rest, hname, hfu, hst, ha'⟩
  · rintro ⟨g, c', rest, hname, hfu, hst, ha'⟩
    exact ⟨(g, c'), hname, (), hfu, ⟨g⟩, ⟨rest, hst⟩, (), rfl, ⟨g⟩, rest, hst, ha'⟩

theorem parse_line_frames_known (C : CordicOps) (a a' : Analysis) (line : String)
    (h : parse_line C a line = .ok a') (hinv : frames_known a) : frames_known a' := by
  unfold parse_line at h
  cases hk : parse_kind (c_str line) with
  | error e => simp [hk] at h
  | ok r =>
    obtain ⟨kind, c⟩ := r
    simp only [hk] at h
    cases kind with
    | cordic_constructed =>
      simp only [case_cordic_constructed, bind_ok_iff, pure, Except.pure,
        Except.ok.injEq] at h
      obtain ⟨_, _, _, _, _, _, _, _, _, _, _, _, h⟩ := h
      subst h
      exact hinv
    | cordic_destructed =>
      simp only [case_cordic_destructed, bind_ok_iff] at h
      obtain ⟨_, _, h⟩ := h
      split at h
      · simp [cassert, cassert_failed, Except.bind] at h
      · simp only [bind_ok_iff, pure, Except.pure, Except.ok.injEq] at h
        obtain ⟨_, _, h⟩ := h
        subst h
        exact hinv
    | enter =>
      obtain ⟨f, c', _, _, hst, hf, hmono, _⟩ := case_enter_ok C a a' c h
      intro fr hfr
      rw [hst] at hfr
      rcases List.mem_cons.1 hfr with hfr | hfr
      · subst hfr
        exact hf
      · exact hmono _ (hinv fr hfr)
    | leave =>
      obtain ⟨g, c', rest, _, _, hst, ha'⟩ := (case_leave_ok a a' c).1 h
      subst ha'
      intro fr hfr
      exact hinv fr (by rw [hst]; exact List.mem_cons_of_mem _ hfr)
    | constructed =>
      have h0 := h
      simp only [case_constructed, bind_ok_iff] at h0
      obtain ⟨⟨V, c1⟩, hV, ⟨E, c2⟩, hE, _⟩ := h0
      rcases case_constructed_result a a' c c1 c2 V E hV hE h with
        ⟨_, h'⟩ | ⟨_, _, _, _, h'⟩
      · subst h'
        exact hinv
      · subst h'
        exact hinv
    | destructed =>
      simp only [case_destructed, bind_ok_iff] at h
      obtain ⟨_, _, h⟩ := h
      split at h
      · simp [cassert, cassert_failed, Except.bind] at h
      · simp only [bind_ok_iff, pure, Except.pure, Except.ok.injEq] at h
        obtain ⟨_, _, h⟩ := h
        subst h
        exact hinv
    | op1 => exact op_frame_frames_known C a a' c (case_op_frame C 1 a a' c h) hinv
    | op2 => exact op_frame_frames_known C a a' c (case_op_frame C 2 a a' c h) hinv
    | op3 => exact op_frame_frames_known C a a' c (case_op_frame C 3 a a' c h) hinv
    | op4 => exact op_frame_frames_known C a a' c (case_op_frame C 4 a a' c h) hinv
    | op1i =>
      have h' : case_op1i C a c = .ok a' := h
      have := case_op1i_fatal C a c
      rw [h'] at this
      exact absurd this (not_fatal_ok _)
    | op1f => exact op_frame_frames_known C a a' c (case_op1f_frame C a a' c h) hinv
    | op2i => exact op_frame_frames_known C a a' c (case_op2i_frame C a a' c h) hinv
    | op2f => exact op_frame_frames_known C a a' c (case_op2f_frame C a a' c h) hinv
    | invalid =>
      simp only [Except.ok.injEq] at h
      subst h
      exact hinv

theorem parse_lines_frames_known (C : CordicOps) (lines : List String) (a a' : Analysis)
    (h : parse_lines C a lines = .ok a') (hinv : frames_known a) : frames_known a' := by
  induction lines generalizing a with
  | nil =>
    simp only [parse_lines, Except.ok.injEq] at h
    subst h
    exact hinv
  | cons line rest ih =>
    simp only [parse_lines] at h
    cases h1 : parse_line C a line with
    | error e => simp [h1] at h
    | ok a1 =>
      simp only [h1] at h
      exact ih a1 h (parse_line_frames_known C a a1 line h1 hinv)

theorem parse_frames_known (C : CordicOps) (lines : List String) (a : Analysis)
    (h : parse C lines = .ok a) : frames_known a := by
  refine parse_lines_frames_known C lines (Analysis.init C) a h ?_
  intro fr hfr
  simp [Analysis.init] at hfr

/-! ## The operation table, unknown names, and the operand loop -/

/-- A line without a leading name is fatal. -/
theorem parse_line_no_name (C : CordicOps) (a : Analysis) (line : String)
    (h : fatal (parse_name (c_str line))) : fatal (parse_line C a line) := by
  obtain ⟨msg, hmsg⟩ := h
  simp only [parse_line, parse_kind, hmsg]
  exact fatal_error _

theorem build_ops_fold (C : CordicOps) (l : List Nat) (m : Map String Nat) (name : String)
    (op : Nat)
    (h : Map.find (l.foldl (fun ops o => Map.assign ops (C.op_to_str o) o) m) name = some op) :
    (op ∈ l ∧ C.op_to_str op = name) ∨ Map.find m name = some op := by
  induction l generalizing m with
  | nil => exact Or.inr h
  | cons o l ih =>
    simp only [List.foldl_cons] at h
    rcases ih _ h with ⟨hmem, hstr⟩ | hm
    · exact Or.inl ⟨List.mem_cons_of_mem _ hmem, hstr⟩
    · by_cases hk : name = C.op_to_str o
      · subst hk
        rw [Map.find_assign_self] at hm
        cases hm
        exact Or.inl ⟨List.mem_cons_self _ _, rfl⟩
      · rw [Map.find_assign_ne _ _ _ _ hk] at hm
        exact Or.inr hm

theorem ops_known_init (C : CordicOps) : ops_known C (Analysis.init C) := by
  intro name op h
  simp only [Analysis.init, build_ops] at h
  rcases build_ops_fold C _ _ name op h with ⟨hmem, hstr⟩ | hm
  · exact Or.inr ⟨op, List.mem_range.1 hmem, hstr⟩
  · simp [Map.find] at hm

theorem lookup_op_unknown (C : CordicOps) (a : Analysis) (name : String)
    (hinv : ops_known C a) (hunk : ∀ o, o < C.OP_cnt → C.op_to_str o ≠ name) :
    (lookup_op a name).1 = 0 := by
  simp only [lookup_op, Map.subscript]
  cases hf : Map.find a.ops name with
  | none => rfl
  | some op =>
    rcases hinv name op hf with h0 | ⟨o, ho, hstr⟩
    · exact h0
    · exact absurd hstr (hunk o ho)

theorem lookup_op_ops_known (C : CordicOps) (a a' : Analysis) (name : String)
    (hops : a'.ops = (lookup_op a name).2.ops) (hinv : ops_known C a) : ops_known C a' := by
  intro k op hk
  rw [hops] at hk
  simp only [lookup_op, Map.subscript] at hk
  cases hf : Map.find a.ops name with
  | none =>
    simp only [hf] at hk
    by_cases hkn : k = name
    · subst hkn
      rw [Map.find_assign_self] at hk
      cases hk
      exact Or.inl rfl
    · rw [Map.find_assign_ne _ _ _ _ hkn] at hk
      exact hinv k op hk
  | some v =>
    simp only [hf] at hk
    exact hinv k op hk

theorem op_frame_ops_known (C : CordicOps) (a a' : Analysis) (c : List Char)
    (h : op_frame C a a' c) (hinv : ops_known C a) : ops_known C a' := by
  obtain ⟨name, _, _, _, _, _, _, _, _, _, hops⟩ := h
  exact lookup_op_ops_known C a a' name hops hinv

theorem ops_known_of_eq (C : CordicOps) (a a' : Analysis) (h : a'.ops = a.ops)
    (hinv : ops_known C a) : ops_known C a' := by
  intro k op hk
  rw [h] at hk
  exact hinv k op hk

theorem parse_line_ops_known (C : CordicOps) (a a' : Analysis) (line : String)
    (h : parse_line C a line = .ok a') (hinv : ops_known C a) : ops_known C a' := by
  unfold parse_line at h
  cases hk : parse_kind (c_str line) with
  | error e => simp [hk] at h
  | ok r =>
    obtain ⟨kind, c⟩ := r
    simp only [hk] at h
    cases kind with
    | cordic_constructed =>
      simp only [case_cordic_constructed, bind_ok_iff, pure, Except.pure,
        Except.ok.injEq] at h
      obtain ⟨_, _, _, _, _, _, _, _, _, _, _, _, h⟩ := h
      subst h
      exact hinv
    | cordic_destructed =>
      simp only [case_cordic_destructed, bind_ok_iff] at h
      obtain ⟨_, _, h⟩ := h
      split at h
      · simp [cassert, cassert_failed, Except.bind] at h
      · simp only [bind_ok_iff, pure, Except.pure, Except.ok.injEq] at h
        obtain ⟨_, _, h⟩ := h
        subst h
        exact hinv
    | enter =>
      obtain ⟨_, _, _, _, _, _, _, _, _, _, hops⟩ := case_enter_ok C a a' c h
      exact ops_known_of_eq C a a' hops hinv
    | leave =>
      obtain ⟨g, c', rest, _, _, hst, ha'⟩ := (case_leave_ok a a' c).1 h
      subst ha'
      exact hinv
    | constructed =>
      have h0 := h
      simp only [case_constructed, bind_ok_iff] at h0
      obtain ⟨⟨V, c1⟩, hV, ⟨E, c2⟩, hE, _⟩ := h0
      rcases case_constructed_result a a' c c1 c2 V E hV hE h with
        ⟨_, h'⟩ | ⟨_, _, _, _, h'⟩
      · subst h'
        exact hinv
      · subst h'
        exact hinv
    | destructed =>
      simp only [case_destructed, bind_ok_iff] at h
      obtain ⟨_, _, h⟩ := h
      split at h
      · simp [cassert, cassert_failed, Except.bind] at h
      · simp only [bind_ok_iff, pure, Except.pure, Except.ok.injEq] at h
        obtain ⟨_, _, h⟩ := h
        subst h
        exact hinv
    | op1 => exact op_frame_ops_known C a a' c (case_op_frame C 1 a a' c h) hinv
    | op2 => exact op_frame_ops_known C a a' c (case_op_frame C 2 a a' c h) hinv
    | op3 => exact op_frame_ops_known C a a' c (case_op_frame C 3 a a' c h) hinv
    | op4 => exact op_frame_ops_known C a a' c (case_op_frame C 4 a a' c h) hinv
    | op1i =>
      have h' : case_op1i C a c = .ok a' := h
      have := case_op1i_fatal C a c
      rw [h'] at this
      exact absurd this (not_fatal_ok _)
    | op1f => exact op_frame_ops_known C a a' c (case_op1f_frame C a a' c h) hinv
    | op2i => exact op_frame_ops_known C a a' c (case_op2i_frame C a a' c h) hinv
    | op2f => exact op_frame_ops_known C a a' c (case_op2f_frame C a a' c h) hinv
    | invalid =>
      simp only [Except.ok.injEq] at h
      subst h
      exact hinv

theorem parse_lines_ops_known (C : CordicOps) (lines : List String) (a a' : Analysis)
    (h : parse_lines C a lines = .ok a') (hinv : ops_known C a) : ops_known C a' := by
  induction lines generalizing a with
  | nil =>
    simp only [parse_lines, Except.ok.injEq] at h
    subst h
    exact hinv
  | cons line rest ih =>
    simp only [parse_lines] at h
    cases h1 : parse_line C a line with
    | error e => simp [h1] at h
    | ok a1 =>
      simp only [h1] at h
      exact ih a1 h (parse_line_ops_known C a a1 line h1 hinv)

theorem parse_ops_known (C : CordicOps) (lines : List String) (a : Analysis)
    (h : parse C lines = .ok a) : ops_known C a :=
  parse_lines_ops_known C lines (Analysis.init C) a h (ops_known_init C)

/-- An accepted operation line of any kind has the frame `op_frame`. -/
theorem parse_line_op_frame (C : CordicOps) (a a' : Analysis) (line : String) (kind : KIND)
    (c : List Char) (hkind : parse_kind (c_str line) = .ok (kind, c))
    (hop : kind ∈ [KIND.op1, KIND.op2, KIND.op3, KIND.op4, KIND.op1i, KIND.op1f, KIND.op2i,
      KIND.op2f])
    (h : parse_line C a line = .ok a') : op_frame C a a' c := by
  simp only [parse_line, hkind] at h
  simp only [List.mem_cons, List.mem_singleton, List.mem_nil_iff, or_false] at hop
  rcases hop with hk | hk | hk | hk | hk | hk | hk | hk <;> subst hk
  · exact case_op_frame C 1 a a' c h
  · exact case_op_frame C 2 a a' c h
  · exact case_op_frame C 3 a a' c h
  · exact case_op_frame C 4 a a' c h
  · have h' : case_op1i C a c = .ok a' := h
    have := case_op1i_fatal C a c
    rw [h'] at this
    exact absurd this (not_fatal_ok _)
  · exact case_op1f_frame C a a' c h
  · exact case_op2i_frame C a a' c h
  · exact case_op2f_frame C a a' c h

theorem find_funcs_after_inc (C : CordicOps) (funcs : Map String FuncInfo) (name : String)
    (op : Nat) (fi : FuncInfo) (h : Map.find funcs name = some fi) :
    Map.find (funcs_after_inc C funcs name op) name =
      some { fi with op_cnt := incr_at fi.op_cnt op } := by
  simp only [funcs_after_inc, Map.subscript, h, Map.find_assign_self]

theorem parse_addrs_succ (n : Nat) (c : List Char) :
    parse_addrs (n + 1) c =
      match parse_addr c with
      | .error e => .error e
      | .ok (x, c) =>
        match parse_addrs n c with
        | .error e => .error e
        | .ok (xs, c) => .ok (x :: xs, c) := rfl

theorem opnd_loop_unusable (C : CordicOps) (name : String) (op : Nat) :
    ∀ (j todo i : Nat) (opnd : List Nat) (vals : Map Nat ValInfo) (c c' : List Char)
      (addrs : List Nat) (x : Nat),
      j < todo → parse_addrs (j + 1) c = .ok (addrs, c') → addrs.get? j = some x →
      opnd_is_checked C op (i + j) = true → operand_unusable vals x →
      (op = C.assign → i ≤ 1 → 2 ≤ i + j → x ≠ (opnd ++ addrs).headD 0) →
      fatal (opnd_loop C name op todo i opnd vals c) := by
  intro j
  induction j with
  | zero =>
    intro todo i opnd vals c c' addrs x hj hp hx hchk hbad _
    obtain ⟨t, rfl⟩ : ∃ t, todo = t + 1 := ⟨todo - 1, by omega⟩
    simp only [parse_addrs] at hp
    cases hpa : parse_addr c with
    | error e => simp [hpa] at hp
    | ok r =>
      obtain ⟨y, c1⟩ := r
      simp only [hpa, Except.ok.injEq, Prod.mk.injEq] at hp
      obtain ⟨hp1, _⟩ := hp
      subst hp1
      simp only [List.get?_cons_zero, Option.some.injEq] at hx
      subst hx
      simp only [Nat.add_zero] at hchk
      simp only [opnd_loop, bind, Except.bind, hpa, hchk, if_true]
      rcases hbad with hnone | ⟨v, hv, hdead | hun⟩
      · simp [hnone, cassert, cassert_failed, Except.bind, fatal]
      · simp [hv, hdead, cassert, fatal]
      · cases hal : v.is_alive <;> simp [hv, hal, hun, cassert, fatal]
  | succ j ih =>
    intro todo i opnd vals c c' addrs x hj hp hx hchk hbad hside
    obtain ⟨t, rfl⟩ : ∃ t, todo = t + 1 := ⟨todo - 1, by omega⟩
    rw [parse_addrs_succ] at hp
    cases hpa : parse_addr c with
    | error e => simp [hpa] at hp
    | ok r =>
      obtain ⟨y, c1⟩ := r
      simp only [hpa] at hp
      cases hps : parse_addrs (j + 1) c1 with
      | error e =>
        rw [hps] at hp
        simp at hp
      | ok r2 =>
        obtain ⟨rest, c2⟩ := r2
        rw [hps] at hp
        simp only [Except.ok.injEq, Prod.mk.injEq] at hp
        obtain ⟨hp1, hp2⟩ := hp
        subst hp1
        subst hp2
        simp only [List.get?_cons_succ] at hx
        have hchk' : opnd_is_checked C op (i + 1 + j) = true := by
          rw [show i + 1 + j = i + (j + 1) by omega]
          exact hchk
        have hhead : ∀ l : List Nat, ((opnd ++ [y]) ++ l).headD 0 = (opnd ++ [y]).headD 0 := by
          intro l
          cases opnd <;> simp
        have hside' : op = C.assign → i + 1 ≤ 1 → 2 ≤ i + 1 + j →
            x ≠ ((opnd ++ [y]) ++ rest).headD 0 := by
          intro h1 h2 h3
          have := hside h1 (by omega) (by omega)
          simpa using this
        have hrec : ∀ vals', operand_unusable vals' x →
            fatal (opnd_loop C name op t (i + 1) (opnd ++ [y]) vals' c1) :=
          fun vals' hb => ih t (i + 1) (opnd ++ [y]) vals' c1 c2 rest x (by omega) hps hx hchk'
            hb hside'
        simp only [opnd_loop, bind, Except.bind, hpa]
        split
        · cases hf : Map.find vals y with
          | none => simp [cassert, cassert_failed, Except.bind, fatal]
          | some it =>
            cases hal : it.is_alive with
            | false => simp [cassert, fatal, hal]
            | true =>
              cases has : it.is_assigned with
              | false => simp [cassert, fatal, hal, has]
              | true =>
                simp only [cassert, hal, has, if_true]
                apply hrec
                split
                · rename_i hcond
                  obtain ⟨hi1, hopa⟩ := hcond
                  have hne : x ≠ (opnd ++ [y]).headD 0 := by
                    have := hside hopa (by omega) (by omega)
                    rw [← hhead rest]
                    simpa using this
                  rcases hbad with hnone | ⟨v, hv, hv'⟩
                  · left
                    rw [Map.find_assign_ne _ _ _ _ hne]
                    exact hnone
                  · right
                    refine ⟨v, ?_, hv'⟩
                    rw [Map.find_assign_ne _ _ _ _ hne]
                    exact hv
                · exact hbad
        · exact hrec vals hbad

theorem opnd_is_checked_of_slot (C : CordicOps) (op i : Nat)
    (hslot : ¬ (i = 0 ∧ op = C.assign) ∧
      ¬ ((i = 1 ∨ i = 2) ∧ (op = C.sincos ∨ op = C.sinhcosh))) :
    opnd_is_checked C op i = true := by
  obtain ⟨h1, h2⟩ := hslot
  simp only [opnd_is_checked, Bool.and_eq_true, Bool.not_eq_true', Bool.and_eq_false_iff,
    decide_eq_false_iff_not, decide_eq_true_eq]
  by_cases hi0 : i = 0
  · by_cases ha : op = C.assign
    · exact absurd ⟨hi0, ha⟩ h1
    · subst hi0
      simp [ha]
  · by_cases hi1 : i = 1
    · subst hi1
      have hs : ¬ op = C.sincos := fun h => h2 ⟨Or.inl rfl, Or.inl h⟩
      have hh : ¬ op = C.sinhcosh := fun h => h2 ⟨Or.inl rfl, Or.inr h⟩
      simp [hs, hh]
    · by_cases hi2 : i = 2
      · subst hi2
        have hs : ¬ op = C.sincos := fun h => h2 ⟨Or.inr rfl, Or.inl h⟩
        have hh : ¬ op = C.sinhcosh := fun h => h2 ⟨Or.inr rfl, Or.inr h⟩
        simp [hs, hh]
      · simp [hi0, hi1, hi2]

theorem case_op_unusable (C : CordicOps) (a : Analysis) (n i : Nat) (c c1 c2 : List Char)
    (name : String) (addrs : List Nat) (x : Nat)
    (hname : parse_name c = .ok (name, c1)) (hi : i < n)
    (haddrs : parse_addrs (i + 1) c1 = .ok (addrs, c2)) (hx : addrs.get? i = some x)
    (hchk : opnd_is_checked C (lookup_op a name).1 i = true)
    (hbad : operand_unusable a.vals x)
    (hcopy : (lookup_op a name).1 = C.assign → 2 ≤ i → x ≠ addrs.headD 0) :
    fatal (case_op C n a c) := by
  simp only [case_op, bind, Except.bind, hname]
  cases hinc : inc_op_cnt C (lookup_op a name).2 (lookup_op a name).1 with
  | error e => exact fatal_error _
  | ok a1 =>
    obtain ⟨fr, rest, _, ha1⟩ := (inc_op_cnt_ok C _ a1 _).1 hinc
    have hvals : a1.vals = a.vals := by
      subst ha1
      rfl
    have hfat := opnd_loop_unusable C name (lookup_op a name).1 i n 0 [] a1.vals c1 c2 addrs x
      hi haddrs hx (by simpa using hchk) (by rw [hvals]; exact hbad)
      (by
        intro h1 _ h3
        simpa using hcopy h1 (by omega))
    obtain ⟨msg, hmsg⟩ := hfat
    simp only [hmsg]
    exact fatal_error _

/-! ## The range of `parse_int` -/

theorem to_int32_range (x : Int) : -(2 ^ 31) ≤ to_int32 x ∧ to_int32 x < 2 ^ 31 := by
  unfold to_int32
  have h1 := Int.emod_nonneg (x + 2 ^ 31) (show (2 ^ 32 : Int) ≠ 0 by norm_num)
  have h2 := Int.emod_lt_of_pos (x + 2 ^ 31) (show (0 : Int) < 2 ^ 32 by norm_num)
  constructor <;> omega

/-- A non-negative integer read by `parse_int` is stored unchanged in a `uint32_t`. -/
theorem parse_int_to_uint32 (c c' : List Char) (w : Int) (h : parse_int c = .ok (w, c'))
    (hw : 0 ≤ w) : (to_uint32 w : Int) = w := by
  unfold parse_int at h
  cases hn : parse_name c with
  | error e => simp [hn] at h
  | ok r =>
    obtain ⟨s, c1⟩ := r
    simp only [hn, Except.ok.injEq, Prod.mk.injEq] at h
    obtain ⟨hw', _⟩ := h
    have hr : w < 2 ^ 31 := by
      rw [← hw']
      unfold atoi
      exact (to_int32_range _).2
    unfold to_uint32
    rw [Int.toNat_of_nonneg (Int.emod_nonneg _ (by norm_num))]
    exact Int.emod_eq_of_lt hw (by omega)

/-! ## The effect of one line, and what every reached state satisfies -/

theorem push_results_iff (val : ValInfo) (cnt : Nat) (a a' : Analysis) :
    push_results val cnt a = .ok a' ↔
      (0 < cnt → a.val_stack.length + cnt ≤ VAL_STACK_CNT_MAX) ∧
      a' = { a with val_stack := List.replicate cnt val ++ a.val_stack } := by
  constructor
  · intro h
    obtain ⟨h1, h2⟩ := push_results_ok val cnt a a' h
    exact ⟨h2, h1⟩
  · rintro ⟨hlen, ha'⟩
    subst ha'
    induction cnt generalizing a with
    | zero => simp [push_results]
    | succ n ih =>
      have hl : a.val_stack.length + (n + 1) ≤ VAL_STACK_CNT_MAX := hlen (by omega)
      simp only [push_results, bind_ok_iff, val_stack_push_ok]
      refine ⟨_, ⟨by omega, rfl⟩, ?_⟩
      rw [ih]
      · simp [List.replicate_succ']
      · intro _
        simp only [List.length_cons]
        omega

theorem case_op_ok_iff (C : CordicOps) (n : Nat) (a a' : Analysis) (c c1 : List Char)
    (name : String) (hname : parse_name c = .ok (name, c1)) :
    case_op C n a c = .ok a' ↔
      ∃ fr rest vals c2, a.stack = fr :: rest ∧
        opnd_loop C name (lookup_op a name).1 n 0 [] a.vals c1 = .ok (vals, c2) ∧
        (0 < result_cnt C (lookup_op a name).1 →
          a.val_stack.length + result_cnt C (lookup_op a name).1 ≤ VAL_STACK_CNT_MAX) ∧
        a' = { op_state C a name fr with
          vals := vals
          val_stack := List.replicate (result_cnt C (lookup_op a name).1)
            (result_val none false none) ++ a.val_stack } := by
  simp only [case_op, bind_ok_iff, hname, Except.ok.injEq, inc_op_cnt_ok, push_results_iff]
  constructor
  · rintro ⟨⟨_, _⟩, hp, a1, ⟨fr, rest, hst, ha1⟩, ⟨vals, c2⟩, hloop, hlen, ha'⟩
    cases hp
    subst ha1
    exact ⟨fr, rest, vals, c2, hst, hloop, hlen, ha'⟩
  · rintro ⟨fr, rest, vals, c2, hst, hloop, hlen, ha'⟩
    exact ⟨(name, c1), rfl, _, ⟨fr, rest, hst, rfl⟩, (vals, c2), hloop, hlen, ha'⟩

theorem op_state_fields (C : CordicOps) (a : Analysis) (name : String) (fr : FrameInfo) :
    (op_state C a name fr).stack = a.stack ∧ (op_state C a name fr).vals = a.vals ∧
    (op_state C a name fr).val_stack = a.val_stack ∧
    (op_state C a name fr).cordics = a.cordics ∧
    (op_state C a name fr).func_names = a.func_names ∧
    (op_state C a name fr).funcs =
      funcs_after_inc C a.funcs fr.func_name (lookup_op a name).1 ∧
    (op_state C a name fr).ops = (lookup_op a name).2.ops :=
  ⟨rfl, rfl, rfl, rfl, rfl, rfl, rfl⟩

theorem inc_op_cnt_op_state (C : CordicOps) (a a1 : Analysis) (name : String) :
    inc_op_cnt C (lookup_op a name).2 (lookup_op a name).1 = .ok a1 ↔
      ∃ fr rest, a.stack = fr :: rest ∧ a1 = op_state C a name fr := by
  rw [inc_op_cnt_ok]
  rfl

theorem case_op1f_ok_iff (C : CordicOps) (a a' : Analysis) (c c1 : List Char)
    (name : String) (hname : parse_name c = .ok (name, c1)) :
    case_op1f C a c = .ok a' ↔
      ∃ fr rest k c2, a.stack = fr :: rest ∧ (lookup_op a name).1 = C.push_constant ∧
        parse_flt c1 = .ok (k, c2) ∧ a.val_stack.length < VAL_STACK_CNT_MAX ∧
        a' = { op_state C a name fr with
          val_stack := result_val none true (some k) :: a.val_stack } := by
  simp only [case_op1f, bind_ok_iff, hname, Except.ok.injEq, inc_op_cnt_op_state,
    cassert_ok_iff, decide_eq_true_eq, val_stack_push_ok]
  constructor
  · rintro ⟨⟨_, _⟩, hp, a1, ⟨fr, rest, hst, ha1⟩, _, hop, ⟨k, c2⟩, hflt, hlen, ha'⟩
    cases hp
    subst ha1
    exact ⟨fr, rest, k, c2, hst, hop, hflt, hlen, ha'⟩
  · rintro ⟨fr, rest, k, c2, hst, hop, hflt, hlen, ha'⟩
    exact ⟨(name, c1), rfl, _, ⟨fr, rest, hst, rfl⟩, (), hop, (k, c2), hflt, hlen, ha'⟩

theorem case_op2f_ok_iff (C : CordicOps) (a a' : Analysis) (c c1 : List Char)
    (name : String) (hname : parse_name c = .ok (name, c1)) :
    case_op2f C a c = .ok a' ↔
      ∃ fr rest A c2 x c3 v, a.stack = fr :: rest ∧ parse_addr c1 = .ok (A, c2) ∧
        parse_flt c2 = .ok (x, c3) ∧ Map.find a.vals A = some v ∧ v.is_alive = true ∧
        v.is_assigned = true ∧ a.val_stack.length < VAL_STACK_CNT_MAX ∧
        a' = { op_state C a name fr with
          val_stack := result_val none false none :: a.val_stack } := by
  simp only [case_op2f, bind_ok_iff, hname, Except.ok.injEq, inc_op_cnt_op_state]
  constructor
  · rintro ⟨⟨_, _⟩, hp, a1, ⟨fr, rest, hst, ha1⟩, ⟨A, c2⟩, haddr, ⟨x, c3⟩, hflt, h⟩
    cases hp
    subst ha1
    simp only [(op_state_fields C a name fr).2.1] at h
    cases hf : Map.find a.vals A with
    | none => simp [hf, cassert_failed] at h
    | some v =>
      simp only [hf, bind_ok_iff, cassert_ok_iff, val_stack_push_ok] at h
      obtain ⟨_, hal, _, has, hlen, ha'⟩ := h
      exact ⟨fr, rest, A, c2, x, c3, v, hst, haddr, hflt, hf, hal, has, hlen, ha'⟩
  · rintro ⟨fr, rest, A, c2, x, c3, v, hst, haddr, hflt, hf, hal, has, hlen, ha'⟩
    refine ⟨(name, c1), rfl, _, ⟨fr, rest, hst, rfl⟩, (A, c2), haddr, (x, c3), hflt, ?_⟩
    simp only [(op_state_fields C a name fr).2.1, hf, bind_ok_iff, cassert_ok_iff,
      val_stack_push_ok]
    exact ⟨(), hal, (), has, hlen, ha'⟩

theorem case_op2i_ok_iff (C : CordicOps) (a a' : Analysis) (c c1 : List Char)
    (name : String) (hname : parse_name c = .ok (name, c1)) :
    case_op2i C a c = .ok a' ↔
      ∃ fr rest A c2 n c3 v, a.stack = fr :: rest ∧
        ((lookup_op a name).1 = C.lshift ∨ (lookup_op a name).1 = C.rshift ∨
          (lookup_op a name).1 = C.pop_value) ∧
        parse_addr c1 = .ok (A, c2) ∧ parse_int c2 = .ok (n, c3) ∧
        Map.find a.vals A = some v ∧ v.is_alive = true ∧
        (((lookup_op a name).1 = C.pop_value ∧ ∃ top below, a.val_stack = top :: below ∧
            a' = { op_state C a name fr with
              vals := Map.assign a.vals A { top with encoded := some n }
              val_stack := below }) ∨
          ((lookup_op a name).1 ≠ C.pop_value ∧ a.val_stack.length < VAL_STACK_CNT_MAX ∧
            a' = { op_state C a name fr with
              val_stack := result_val (some n) false none :: a.val_stack })) := by
  simp only [case_op2i, bind_ok_iff, hname, Except.ok.injEq, inc_op_cnt_op_state,
    cassert_ok_iff, decide_eq_true_eq]
  constructor
  · rintro ⟨⟨_, _⟩, hp, a1, ⟨fr, rest, hst, ha1⟩, _, hop, ⟨A, c2⟩, haddr, ⟨n, c3⟩, hint, h⟩
    cases hp
    subst ha1
    simp only [(op_state_fields C a name fr).2.1] at h
    cases hf : Map.find a.vals A with
    | none => simp [hf, cassert_failed] at h
    | some v =>
      simp only [hf, bind_ok_iff, cassert_ok_iff] at h
      obtain ⟨_, hal, h⟩ := h
      refine ⟨fr, rest, A, c2, n, c3, v, hst, hop, haddr, hint, hf, hal, ?_⟩
      by_cases hpop : (lookup_op a name).1 = C.pop_value
      · simp only [hpop, if_true, bind_ok_iff, pure, Except.pure, Except.ok.injEq] at h
        obtain ⟨⟨top, a2⟩, hpopped, ha'⟩ := h
        obtain ⟨below, hvs, ha2⟩ := (val_stack_pop_ok _ _ _).1 hpopped
        subst ha2
        exact Or.inl ⟨hpop, top, below, hvs, ha'.symm⟩
      · simp only [hpop, if_false, val_stack_push_ok] at h
        exact Or.inr ⟨hpop, h.1, h.2⟩
  · rintro ⟨fr, rest, A, c2, n, c3, v, hst, hop, haddr, hint, hf, hal, h⟩
    refine ⟨(name, c1), rfl, _, ⟨fr, rest, hst, rfl⟩, (), hop, (A, c2), haddr, (n, c3), hint,
      ?_⟩
    simp only [(op_state_fields C a name fr).2.1, hf, bind_ok_iff, cassert_ok_iff]
    refine ⟨(), hal, ?_⟩
    rcases h with ⟨hpop, top, below, hvs, ha'⟩ | ⟨hpop, hlen, ha'⟩
    · simp only [hpop, if_true, bind_ok_iff, pure, Except.pure, Except.ok.injEq]
      exact ⟨(top, _), (val_stack_pop_ok _ _ _).2 ⟨below, hvs, rfl⟩, ha'.symm⟩
    · simp only [hpop, if_false, val_stack_push_ok]
      exact ⟨hlen, ha'⟩

theorem case_op_effect (C : CordicOps) (n : Nat) (a a' : Analysis) (c : List Char)
    (h : case_op C n a c = .ok a') : line_effect C a a' := by
  have h0 := h
  simp only [case_op, bind_ok_iff] at h0
  obtain ⟨⟨name, c1⟩, hname, _⟩ := h0
  obtain ⟨fr, rest, vals, c2, hst, _, hlen, ha'⟩ :=
    (case_op_ok_iff C n a a' c c1 name hname).1 h
  refine Or.inr (Or.inr (Or.inr (Or.inr (Or.inr
    ⟨name, fr, rest, vals, _, hst, ha', Or.inl ⟨_, _, rfl, rfl, rfl, ?_⟩⟩))))
  intro hk
  simp only [List.length_append, List.length_replicate]
  have := hlen hk
  omega

theorem case_enter_ok_iff (C : CordicOps) (a a' : Analysis) (c c' : List Char) (f : String)
    (hname : parse_name c = .ok (f, c')) :
    case_enter C a c = .ok a' ↔
      a.stack.length < STACK_CNT_MAX ∧ a' = enter_state C a f := by
  simp only [case_enter, bind_ok_iff, hname, Except.ok.injEq]
  constructor
  · rintro ⟨⟨_, _⟩, hp, h⟩
    cases hp
    cases hf : Map.find a.funcs f with
    | none =>
      simp only [hf, stack_push_ok] at h
      refine ⟨h.1, ?_⟩
      rw [h.2]
      simp [enter_state, hf]
    | some it =>
      simp only [hf, stack_push_ok] at h
      refine ⟨h.1, ?_⟩
      rw [h.2]
      simp [enter_state, hf]
  · rintro ⟨hlen, ha'⟩
    refine ⟨(f, c'), rfl, ?_⟩
    cases hf : Map.find a.funcs f with
    | none =>
      simp only [hf, stack_push_ok]
      refine ⟨hlen, ?_⟩
      rw [ha']
      simp [enter_state, hf]
    | some it =>
      simp only [hf, stack_push_ok]
      refine ⟨hlen, ?_⟩
      rw [ha']
      simp [enter_state, hf]

theorem parse_line_effect (C : CordicOps) (a a' : Analysis) (line : String)
    (h : parse_line C a line = .ok a') : line_effect C a a' := by
  unfold parse_line at h
  cases hk : parse_kind (c_str line) with
  | error e => simp [hk] at h
  | ok r =>
    obtain ⟨kind, c⟩ := r
    simp only [hk] at h
    cases kind with
    | cordic_constructed =>
      simp only [case_cordic_constructed, bind_ok_iff, pure, Except.pure,
        Except.ok.injEq] at h
      obtain ⟨⟨A, _⟩, _, _, _, _, _, _, _, _, _, _, _, h⟩ := h
      exact Or.inr (Or.inl ⟨A, _, h.symm, Or.inl rfl⟩)
    | cordic_destructed =>
      simp only [case_cordic_destructed, bind_ok_iff] at h
      obtain ⟨⟨A, _⟩, _, h⟩ := h
      simp only at h
      cases hf : Map.find a.cordics A with
      | none => simp [hf, cassert_failed] at h
      | some e0 =>
        simp only [hf, bind_ok_iff, pure, Except.pure, Except.ok.injEq] at h
        obtain ⟨_, _, h⟩ := h
        exact Or.inr (Or.inl ⟨A, _, h.symm, Or.inr ⟨e0, hf, rfl⟩⟩)
    | enter =>
      have h0 := h
      simp only [case_enter, bind_ok_iff] at h0
      obtain ⟨⟨f, c'⟩, hname, _⟩ := h0
      obtain ⟨hlen, ha'⟩ := (case_enter_ok_iff C a a' c c' f hname).1 h
      exact Or.inr (Or.inr (Or.inr (Or.inl ⟨f, hlen, ha'⟩)))
    | leave =>
      obtain ⟨g, c', rest, _, _, hst, ha'⟩ := (case_leave_ok a a' c).1 h
      exact Or.inr (Or.inr (Or.inr (Or.inr (Or.inl ⟨g, rest, hst, ha'⟩))))
    | constructed =>
      have h0 := h
      simp only [case_constructed, bind_ok_iff] at h0
      obtain ⟨⟨V, c1⟩, hV, ⟨E, c2⟩, hE, _⟩ := h0
      rcases case_constructed_result a a' c c1 c2 V E hV hE h with
        ⟨_, h'⟩ | ⟨_, _, _, _, h'⟩
      · exact Or.inr (Or.inr (Or.inl ⟨V, _, h'⟩))
      · exact Or.inr (Or.inr (Or.inl ⟨V, _, h'⟩))
    | destructed =>
      simp only [case_destructed, bind_ok_iff] at h
      obtain ⟨⟨V, _⟩, _, h⟩ := h
      simp only at h
      cases hf : Map.find a.vals V with
      | none => simp [hf, cassert_failed] at h
      | some v0 =>
        simp only [hf, bind_ok_iff, pure, Except.pure, Except.ok.injEq] at h
        obtain ⟨_, _, h⟩ := h
        exact Or.inr (Or.inr (Or.inl ⟨V, _, h.symm⟩))
    | op1i =>
      have h' : case_op1i C a c = .ok a' := h
      have := case_op1i_fatal C a c
      rw [h'] at this
      exact absurd this (not_fatal_ok _)
    | invalid =>
      simp only [Except.ok.injEq] at h
      exact Or.inl h.symm
    | op1f =>
      have h' : case_op1f C a c = .ok a' := h
      have h0 := h'
      simp only [case_op1f, bind_ok_iff] at h0
      obtain ⟨⟨name, c1⟩, hname, _⟩ := h0
      obtain ⟨fr, rest, k, c2, hst, _, _, hlen, ha'⟩ :=
        (case_op1f_ok_iff C a a' c c1 name hname).1 h'
      refine Or.inr (Or.inr (Or.inr (Or.inr (Or.inr
        ⟨name, fr, rest, a.vals, _, hst, ha', Or.inl ⟨1, _, rfl, rfl, rfl, ?_⟩⟩))))
      intro _
      simp only [List.replicate, List.singleton_append, List.length_cons]
      exact hlen
    | op2f =>
      have h' : case_op2f C a c = .ok a' := h
      have h0 := h'
      simp only [case_op2f, bind_ok_iff] at h0
      obtain ⟨⟨name, c1⟩, hname, _⟩ := h0
      obtain ⟨fr, rest, A, c2, x, c3, v, hst, _, _, _, _, _, hlen, ha'⟩ :=
        (case_op2f_ok_iff C a a' c c1 name hname).1 h'
      refine Or.inr (Or.inr (Or.inr (Or.inr (Or.inr
        ⟨name, fr, rest, a.vals, _, hst, ha', Or.inl ⟨1, _, rfl, rfl, rfl, ?_⟩⟩))))
      intro _
      simp only [List.replicate, List.singleton_append, List.length_cons]
      exact hlen
    | op2i =>
      have h' : case_op2i C a c = .ok a' := h
      have h0 := h'
      simp only [case_op2i, bind_ok_iff] at h0
      obtain ⟨⟨name, c1⟩, hname, _⟩ := h0
      obtain ⟨fr, rest, A, c2, n, c3, v, hst, _, _, _, _, _, hcase⟩ :=
        (case_op2i_ok_iff C a a' c c1 name hname).1 h'
      rcases hcase with ⟨_, top, below, hvs, ha'⟩ | ⟨_, hlen, ha'⟩
      · exact Or.inr (Or.inr (Or.inr (Or.inr (Or.inr
          ⟨name, fr, rest, _, below, hst, ha', Or.inr ⟨top, hvs⟩⟩))))
      · refine Or.inr (Or.inr (Or.inr (Or.inr (Or.inr
          ⟨name, fr, rest, a.vals, _, hst, ha', Or.inl ⟨1, _, rfl, rfl, rfl, ?_⟩⟩))))
        intro _
        simp only [List.replicate, List.singleton_append, List.length_cons]
        exact hlen
    | op1 => exact case_op_effect C 1 a a' c h
    | op2 => exact case_op_effect C 2 a a' c h
    | op3 => exact case_op_effect C 3 a a' c h
    | op4 => exact case_op_effect C 4 a a' c h

/-- An induction principle for the states that a trace reaches. -/
theorem parse_induction (C : CordicOps) (P : Analysis → Prop) (hinit : P (Analysis.init C))
    (hstep : ∀ a a', P a → line_effect C a a' → P a') :
    ∀ (lines : List String) (a : Analysis), parse C lines = .ok a → P a := by
  have hgen : ∀ (lines : List String) (s a : Analysis), P s → parse_lines C s lines = .ok a →
      P a := by
    intro lines
    induction lines with
    | nil =>
      intro s a hs h
      simp only [parse_lines, Except.ok.injEq] at h
      subst h
      exact hs
    | cons line rest ih =>
      intro s a hs h
      simp only [parse_lines] at h
      cases h1 : parse_line C s line with
      | error e => simp [h1] at h
      | ok s1 =>
        simp only [h1] at h
        exact ih s1 a (hstep s s1 hs (parse_line_effect C s s1 line h1)) h
  intro lines a h
  exact hgen lines (Analysis.init C) a hinit h

theorem incr_at_length (xs : List Nat) (i : Nat) : (incr_at xs i).length = xs.length := by
  induction xs generalizing i with
  | nil => simp [incr_at]
  | cons x xs ih =>
    cases i with
    | zero => simp [incr_at]
    | succ i => simp [incr_at, ih]

theorem incr_at_getD_self (xs : List Nat) (i : Nat) (hi : i < xs.length) :
    (incr_at xs i).getD i 0 = (xs.getD i 0 + 1) % 2 ^ 64 := by
  induction xs generalizing i with
  | nil => simp at hi
  | cons x xs ih =>
    cases i with
    | zero => simp [incr_at]
    | succ i =>
      simp only [List.length_cons, Nat.add_lt_add_iff_right] at hi
      simpa [incr_at] using ih i hi

theorem incr_at_getD_ne (xs : List Nat) (i j : Nat) (hij : j ≠ i) :
    (incr_at xs i).getD j 0 = xs.getD j 0 := by
  induction xs generalizing i j with
  | nil => simp [incr_at]
  | cons x xs ih =>
    cases i with
    | zero =>
      cases j with
      | zero => exact absurd rfl hij
      | succ j => simp [incr_at]
    | succ i =>
      cases j with
      | zero => simp [incr_at]
      | succ j =>
        have : j ≠ i := fun h => hij (by rw [h])
        simpa [incr_at] using ih i j this

theorem find_funcs_after_inc_ne (C : CordicOps) (funcs : Map String FuncInfo)
    (name g : String) (op : Nat) (hne : g ≠ name) :
    Map.find (funcs_after_inc C funcs name op) g = Map.find funcs g := by
  unfold funcs_after_inc
  rw [Map.find_assign_ne _ _ _ _ hne]
  unfold Map.subscript
  cases hf : Map.find funcs name with
  | none => exact Map.find_assign_ne _ _ _ _ hne
  | some v => rfl

theorem find_funcs_after_inc_self (C : CordicOps) (funcs : Map String FuncInfo)
    (name : String) (op : Nat) :
    ∃ fi, Map.find (funcs_after_inc C funcs name op) name =
        some { fi with op_cnt := incr_at fi.op_cnt op } ∧
      (Map.find funcs name = some fi ∨
        (Map.find funcs name = none ∧ fi = FuncInfo.zero C)) := by
  unfold funcs_after_inc
  cases hf : Map.find funcs name with
  | none =>
    refine ⟨FuncInfo.zero C, ?_, Or.inr ⟨rfl, rfl⟩⟩
    simp [Map.subscript, hf, Map.find_assign_self]
  | some v =>
    refine ⟨v, ?_, Or.inl rfl⟩
    simp [Map.subscript, hf, Map.find_assign_self]

theorem find_enter_state_ne (C : CordicOps) (a : Analysis) (f g : String) (hne : g ≠ f) :
    Map.find (enter_state C a f).funcs g = Map.find a.funcs g := by
  unfold enter_state
  cases hf : Map.find a.funcs f with
  | none =>
    simp only []
    rw [Map.find_assign_ne _ _ _ _ hne, Map.find_assign_ne _ _ _ _ hne]
  | some it =>
    simp only []
    rw [Map.find_assign_ne _ _ _ _ hne]

theorem find_enter_state_self (C : CordicOps) (a : Analysis) (f : String) :
    (Map.find a.funcs f = none ∧
      Map.find (enter_state C a f).funcs f = some ⟨1, List.replicate C.OP_cnt 0⟩ ∧
      (enter_state C a f).func_names = a.func_names ++ [f]) ∨
    (∃ it, Map.find a.funcs f = some it ∧
      Map.find (enter_state C a f).funcs f =
        some { it with call_cnt := (it.call_cnt + 1) % 2 ^ 64 } ∧
      (enter_state C a f).func_names = a.func_names) := by
  unfold enter_state
  cases hf : Map.find a.funcs f with
  | none => exact Or.inl ⟨rfl, Map.find_assign_self _ _ _, rfl⟩
  | some it => exact Or.inr ⟨it, rfl, Map.find_assign_self _ _ _, rfl⟩

theorem enter_state_fields (C : CordicOps) (a : Analysis) (f : String) :
    (enter_state C a f).stack = ⟨f⟩ :: a.stack ∧ (enter_state C a f).vals = a.vals ∧
    (enter_state C a f).val_stack = a.val_stack ∧
    (enter_state C a f).cordics = a.cordics ∧ (enter_state C a f).ops = a.ops := by
  unfold enter_state
  cases hf : Map.find a.funcs f <;> exact ⟨rfl, rfl, rfl, rfl, rfl⟩

theorem parse_hist_sized (C : CordicOps) (lines : List String) (a : Analysis)
    (h : parse C lines = .ok a) : hist_sized C a := by
  refine parse_induction C (hist_sized C) ?_ ?_ lines a h
  · intro f fi hf
    simp [Analysis.init, Map.find] at hf
  · intro s s' hs heff
    rcases heff with h | ⟨A, e, h, _⟩ | ⟨V, v, h⟩ | ⟨f, _, h⟩ | ⟨g, rest, _, h⟩ |
      ⟨name, fr, rest, vals, vs, _, h, _⟩
    · subst h
      exact hs
    · subst h
      exact hs
    · subst h
      exact hs
    · subst h
      intro g fi hg
      by_cases hgf : g = f
      · subst hgf
        rcases find_enter_state_self C s g with ⟨_, h1, _⟩ | ⟨it, h0, h1, _⟩
        · rw [h1] at hg
          cases hg
          simp
        · rw [h1] at hg
          cases hg
          exact hs g it h0
      · rw [find_enter_state_ne C s f g hgf] at hg
        exact hs g fi hg
    · subst h
      exact hs
    · subst h
      intro g fi hg
      simp only [(op_state_fields C s name fr).2.2.2.2.2.1] at hg
      by_cases hgf : g = fr.func_name
      · subst hgf
        obtain ⟨fi0, h1, h0⟩ := find_funcs_after_inc_self C s.funcs fr.func_name
          (lookup_op s name).1
        rw [h1] at hg
        cases hg
        simp only [incr_at_length]
        rcases h0 with h0 | ⟨_, h0⟩
        · exact hs _ fi0 h0
        · subst h0
          simp [FuncInfo.zero]
      · rw [find_funcs_after_inc_ne C s.funcs fr.func_name g _ hgf] at hg
        exact hs g fi hg

theorem parse_results_pending_ok (C : CordicOps) (lines : List String) (a : Analysis)
    (h : parse C lines = .ok a) : results_pending_ok a := by
  refine parse_induction C results_pending_ok ?_ ?_ lines a h
  · simp [results_pending_ok, Analysis.init, VAL_STACK_CNT_MAX]
  · intro s s' hs heff
    rcases heff with h | ⟨A, e, h, _⟩ | ⟨V, v, h⟩ | ⟨f, _, h⟩ | ⟨g, rest, _, h⟩ |
      ⟨name, fr, rest, vals, vs, _, h, hvs⟩
    · subst h
      exact hs
    · subst h
      exact hs
    · subst h
      exact hs
    · subst h
      unfold results_pending_ok
      rw [(enter_state_fields C s f).2.2.1]
      exact hs
    · subst h
      exact hs
    · subst h
      unfold results_pending_ok
      simp only []
      rcases hvs with ⟨k, rv, hvs, hal, has, hlen⟩ | ⟨top, hvs⟩
      · subst hvs
        refine ⟨?_, ?_⟩
        · rcases Nat.eq_zero_or_pos k with hk | hk
          · subst hk
            simpa using hs.1
          · exact hlen hk
        · intro v hv
          rcases List.mem_append.1 hv with hv | hv
          · rw [List.eq_of_mem_replicate hv]
            exact ⟨hal, has⟩
          · exact hs.2 v hv
      · refine ⟨?_, ?_⟩
        · have := hs.1
          rw [hvs] at this
          simp only [List.length_cons] at this
          omega
        · intro v hv
          exact hs.2 v (by rw [hvs]; exact List.mem_cons_of_mem _ hv)

theorem parse_depth_bounded (C : CordicOps) (lines : List String) (a : Analysis)
    (h : parse C lines = .ok a) : a.stack.length ≤ STACK_CNT_MAX := by
  refine parse_induction C (fun s => s.stack.length ≤ STACK_CNT_MAX) ?_ ?_ lines a h
  · simp [Analysis.init]
  · intro s s' hs heff
    rcases heff with h | ⟨A, e, h, _⟩ | ⟨V, v, h⟩ | ⟨f, hlen, h⟩ | ⟨g, rest, hst, h⟩ |
      ⟨name, fr, rest, vals, vs, _, h, hvs⟩
    · subst h
      exact hs
    · subst h
      exact hs
    · subst h
      exact hs
    · subst h
      rw [(enter_state_fields C s f).1]
      simp only [List.length_cons]
      omega
    · subst h
      simp only []
      rw [hst] at hs
      simp only [List.length_cons] at hs
      omega
    · subst h
      exact hs

theorem parse_ordinals_unwritten (C : CordicOps) (lines : List String) (a : Analysis)
    (h : parse C lines = .ok a) : ordinals_unwritten a := by
  refine parse_induction C ordinals_unwritten ?_ ?_ lines a h
  · intro A e hf
    simp [Analysis.init, Map.find] at hf
  · intro s s' hs heff
    rcases heff with h | ⟨A, e, h, he⟩ | ⟨V, v, h⟩ | ⟨f, hlen, h⟩ | ⟨g, rest, hst, h⟩ |
      ⟨name, fr, rest, vals, vs, _, h, hvs⟩
    · subst h
      exact hs
    · subst h
      intro B e' hB
      by_cases hBA : B = A
      · subst hBA
        simp only [Map.find_assign_self, Option.some.injEq] at hB
        subst hB
        rcases he with he | ⟨e0, h0, he⟩
        · exact he
        · rw [he]
          exact hs B e0 h0
      · simp only [Map.find_assign_ne _ _ _ _ hBA] at hB
        exact hs B e' hB
    · subst h
      exact hs
    · subst h
      unfold ordinals_unwritten
      rw [(enter_state_fields C s f).2.2.2.1]
      exact hs
    · subst h
      exact hs
    · subst h
      exact hs

theorem lookup_op_in_range (C : CordicOps) (a : Analysis) (name : String)
    (hinv : ops_in_range C a) :
    (lookup_op a name).1 = 0 ∨ (lookup_op a name).1 < C.OP_cnt := by
  simp only [lookup_op, Map.subscript]
  cases hf : Map.find a.ops name with
  | none => exact Or.inl rfl
  | some op => exact hinv name op hf

theorem lookup_op_ops_in_range (C : CordicOps) (a : Analysis) (name : String)
    (hinv : ops_in_range C a) : ∀ k op, Map.find (lookup_op a name).2.ops k = some op →
      op = 0 ∨ op < C.OP_cnt := by
  intro k op hk
  simp only [lookup_op, Map.subscript] at hk
  cases hf : Map.find a.ops name with
  | none =>
    simp only [hf] at hk
    by_cases hkn : k = name
    · subst hkn
      rw [Map.find_assign_self] at hk
      cases hk
      exact Or.inl rfl
    · rw [Map.find_assign_ne _ _ _ _ hkn] at hk
      exact hinv k op hk
  | some v =>
    simp only [hf] at hk
    exact hinv k op hk

theorem parse_ops_in_range (C : CordicOps) (lines : List String) (a : Analysis)
    (h : parse C lines = .ok a) : ops_in_range C a := by
  refine parse_induction C (ops_in_range C) ?_ ?_ lines a h
  · intro name op hf
    simp only [Analysis.init, build_ops] at hf
    rcases build_ops_fold C _ _ name op hf with ⟨hmem, _⟩ | hm
    · exact Or.inr (List.mem_range.1 hmem)
    · simp [Map.find] at hm
  · intro s s' hs heff
    rcases heff with h | ⟨A, e, h, _⟩ | ⟨V, v, h⟩ | ⟨f, _, h⟩ | ⟨g, rest, _, h⟩ |
      ⟨name, fr, rest, vals, vs, _, h, _⟩
    · subst h
      exact hs
    · subst h
      exact hs
    · subst h
      exact hs
    · subst h
      unfold ops_in_range
      rw [(enter_state_fields C s f).2.2.2.2]
      exact hs
    · subst h
      exact hs
    · subst h
      exact lookup_op_ops_in_range C s name hs

theorem lookup_op_fst (a : Analysis) (name : String) :
    (lookup_op a name).1 = (Map.find a.ops name).getD 0 := by
  simp only [lookup_op, Map.subscript]
  cases Map.find a.ops name <;> rfl

/-- A lookup does not change what later lookups yield. -/
theorem lookup_op_stable (a b : Analysis) (n1 n2 : String)
    (hb : b.ops = (lookup_op a n1).2.ops) : (lookup_op b n2).1 = (lookup_op a n2).1 := by
  rw [lookup_op_fst, lookup_op_fst, hb]
  simp only [lookup_op, Map.subscript]
  cases hf : Map.find a.ops n1 with
  | none =>
    simp only []
    by_cases h12 : n2 = n1
    · subst h12
      simp [Map.find_assign_self, hf]
    · rw [Map.find_assign_ne _ _ _ _ h12]
  | some v => rfl

theorem fatal_of_not_ok {α : Type} (r : Except String α) (h : ∀ x, r ≠ .ok x) : fatal r := by
  cases r with
  | error e => exact fatal_error e
  | ok x => exact absurd rfl (h x)

theorem opnd_is_checked_false_iff (C : CordicOps) (op i : Nat) :
    opnd_is_checked C op i = false ↔
      (i = 0 ∧ op = C.assign) ∨ ((i = 1 ∨ i = 2) ∧ (op = C.sincos ∨ op = C.sinhcosh)) := by
  constructor
  · intro h
    by_contra hn
    have := opnd_is_checked_of_slot C op i ⟨fun h1 => hn (Or.inl h1), fun h2 => hn (Or.inr h2)⟩
    rw [h] at this
    cases this
  · intro h
    rcases h with ⟨rfl, rfl⟩ | ⟨hi, hop⟩
    · simp [opnd_is_checked]
    · rcases hi with rfl | rfl <;> rcases hop with rfl | rfl <;> simp [opnd_is_checked]

/-- The operand loop of an `assign` with two operands, when the codes of `assign`,
`sincos` and `sinhcosh` differ: the source is checked and copied to the destination. -/
theorem opnd_loop_assign (C : CordicOps) (name : String) (vals : Map Nat ValInfo)
    (c c1 c2 : List Char) (D S : Nat) (r : Map Nat ValInfo × List Char)
    (hdist : C.assign ≠ C.sincos ∧ C.assign ≠ C.sinhcosh)
    (hD : parse_addr c = .ok (D, c1)) (hS : parse_addr c1 = .ok (S, c2)) :
    opnd_loop C name C.assign 2 0 [] vals c = .ok r ↔
      ∃ v, Map.find vals S = some v ∧ v.is_alive = true ∧ v.is_assigned = true ∧
        r = (Map.assign vals D v, c2) := by
  have h0 : opnd_is_checked C C.assign 0 = false := by simp [opnd_is_checked]
  have h1 : opnd_is_checked C C.assign 1 = true := by
    simp [opnd_is_checked, hdist.1, hdist.2]
  simp only [opnd_loop, bind, Except.bind, hD, hS, h0, h1, if_true, List.nil_append,
    List.singleton_append, List.headD_cons, Bool.false_eq_true, if_false, and_self]
  cases hf : Map.find vals S with
  | none => simp [cassert_failed]
  | some v =>
    constructor
    · intro h
      cases hal : v.is_alive with
      | false => simp [cassert, hal] at h
      | true =>
        cases has : v.is_assigned with
        | false => simp [cassert, hal, has] at h
        | true =>
          simp only [cassert, hal, has, if_true, Except.ok.injEq] at h
          exact ⟨v, rfl, hal, has, h.symm⟩
    · rintro ⟨v', hv', hal, has, hr⟩
      cases hv'
      simp only [cassert, hal, has, if_true, Except.ok.injEq]
      exact hr.symm

/-- The operand loop of an `assign` with two operands accepts a live, assigned source
whatever is recorded at the destination. -/
theorem opnd_loop_assign_accepts (C : CordicOps) (name : String) (vals : Map Nat ValInfo)
    (c c1 c2 : List Char) (D S : Nat) (v : ValInfo)
    (hD : parse_addr c = .ok (D, c1)) (hS : parse_addr c1 = .ok (S, c2))
    (hf : Map.find vals S = some v) (hal : v.is_alive = true) (has : v.is_assigned = true) :
    ∃ vals', opnd_loop C name C.assign 2 0 [] vals c = .ok (vals', c2) := by
  have h0 : opnd_is_checked C C.assign 0 = false := by simp [opnd_is_checked]
  cases h1 : opnd_is_checked C C.assign 1 with
  | false =>
    exact ⟨vals, by simp [opnd_loop, bind, Except.bind, hD, hS, h0, h1]⟩
  | true =>
    exact ⟨Map.assign vals D v, by
      simp [opnd_loop, bind, Except.bind, hD, hS, h0, h1, hf, hal, has, cassert]⟩

/-- The operand loop of a `sincos` or `sinhcosh` with three operands accepts a live,
assigned first operand whatever is recorded at the other two, and writes nothing. -/
theorem opnd_loop_paired_accepts (C : CordicOps) (name : String) (op : Nat)
    (vals : Map Nat ValInfo) (c c1 c2 c3 : List Char) (X Y Z : Nat) (v : ValInfo)
    (hop : op = C.sincos ∨ op = C.sinhcosh)
    (hX : parse_addr c = .ok (X, c1)) (hY : parse_addr c1 = .ok (Y, c2))
    (hZ : parse_addr c2 = .ok (Z, c3))
    (hf : Map.find vals X = some v) (hal : v.is_alive = true) (has : v.is_assigned = true) :
    opnd_loop C name op 3 0 [] vals c = .ok (vals, c3) := by
  have h1 : opnd_is_checked C op 1 = false :=
    (opnd_is_checked_false_iff C op 1).2 (Or.inr ⟨Or.inl rfl, hop⟩)
  have h2 : opnd_is_checked C op 2 = false :=
    (opnd_is_checked_false_iff C op 2).2 (Or.inr ⟨Or.inr rfl, hop⟩)
  cases h0 : opnd_is_checked C op 0 with
  | false => simp [opnd_loop, bind, Except.bind, hX, hY, hZ, h0, h1, h2]
  | true => simp [opnd_loop, bind, Except.bind, hX, hY, hZ, h0, h1, h2, hf, hal, has, cassert]

theorem result_cnt_le (C : CordicOps) (op : Nat) : result_cnt C op ≤ 2 := by
  unfold result_cnt
  split
  · omega
  · split <;> omega

/-- An `op2i` line of `pop_value` inside a function, on a live value and with a pending
result: what it is replaced by. -/
theorem pop_value_step (C : CordicOps) (s : Analysis) (line : String)
    (c c1 c2 c3 : List Char) (name : String) (A : Nat) (n : Int) (v top : ValInfo)
    (below : List ValInfo) (fr : FrameInfo) (rest : List FrameInfo)
    (hkind : parse_kind (c_str line) = .ok (KIND.op2i, c))
    (hname : parse_name c = .ok (name, c1))
    (hop : (lookup_op s name).1 = C.pop_value)
    (hA : parse_addr c1 = .ok (A, c2)) (hn : parse_int c2 = .ok (n, c3))
    (hfA : Map.find s.vals A = some v) (hal : v.is_alive = true)
    (hvs : s.val_stack = top :: below) (hst : s.stack = fr :: rest) :
    parse_line C s line = .ok { op_state C s name fr with
      vals := Map.assign s.vals A { top with encoded := some n }
      val_stack := below } := by
  simp only [parse_line, hkind]
  exact (case_op2i_ok_iff C s _ c c1 name hname).2
    ⟨fr, rest, A, c2, n, c3, v, hst, Or.inr (Or.inr hop), hA, hn, hfA, hal,
      Or.inl ⟨hop, top, below, hvs, rfl⟩⟩

/-- An `op3` line of `sincos` or `sinhcosh` inside a function, with a live, assigned first
operand and no pending result: what it is replaced by. -/
theorem paired_op_step (C : CordicOps) (s : Analysis) (line : String)
    (c c1 c2 c3 c4 : List Char) (name : String) (X Y Z : Nat) (vX : ValInfo)
    (fr : FrameInfo) (rest : List FrameInfo)
    (hkind : parse_kind (c_str line) = .ok (KIND.op3, c))
    (hname : parse_name c = .ok (name, c1))
    (hop : (lookup_op s name).1 = C.sincos ∨ (lookup_op s name).1 = C.sinhcosh)
    (hX : parse_addr c1 = .ok (X, c2)) (hY : parse_addr c2 = .ok (Y, c3))
    (hZ : parse_addr c3 = .ok (Z, c4))
    (hfX : Map.find s.vals X = some vX) (hal : vX.is_alive = true)
    (has : vX.is_assigned = true)
    (hvs : s.val_stack = []) (hst : s.stack = fr :: rest) :
    parse_line C s line = .ok { op_state C s name fr with
      val_stack := [result_val none false none, result_val none false none] } := by
  simp only [parse_line, hkind]
  have hcnt : result_cnt C (lookup_op s name).1 = 2 := by simp [result_cnt, hop]
  refine (case_op_ok_iff C 3 s _ c c1 name hname).2
    ⟨fr, rest, s.vals, c4, hst,
      opnd_loop_paired_accepts C name _ s.vals c1 c2 c3 c4 X Y Z vX hop hX hY hZ hfX hal has,
      ?_, ?_⟩
  · intro _
    rw [hcnt, hvs]
    decide
  · rw [hcnt, hvs]
    rfl

/-! ## Counters and the length of the trace -/

theorem incr_at_getD_le (xs : List Nat) (i j : Nat) :
    (incr_at xs i).getD j 0 ≤ xs.getD j 0 + 1 := by
  induction xs generalizing i j with
  | nil => simp [incr_at]
  | cons x xs ih =>
    cases i with
    | zero =>
      cases j with
      | zero =>
        simp only [incr_at, List.getD_cons_zero]
        exact Nat.mod_le _ _
      | succ j => simp [incr_at]
    | succ i =>
      cases j with
      | zero => simp [incr_at]
      | succ j => simpa [incr_at] using ih i j

/-- An induction principle for the states that a trace reaches, with the number of lines
replayed. -/
theorem parse_induction_len (C : CordicOps) (P : Nat → Analysis → Prop)
    (hinit : P 0 (Analysis.init C))
    (hstep : ∀ n a a', P n a → line_effect C a a' → P (n + 1) a') :
    ∀ (lines : List String) (a : Analysis), parse C lines = .ok a → P lines.length a := by
  have hgen : ∀ (lines : List String) (n : Nat) (s a : Analysis), P n s →
      parse_lines C s lines = .ok a → P (n + lines.length) a := by
    intro lines
    induction lines with
    | nil =>
      intro n s a hs h
      simp only [parse_lines, Except.ok.injEq] at h
      subst h
      exact hs
    | cons line rest ih =>
      intro n s a hs h
      simp only [parse_lines] at h
      cases h1 : parse_line C s line with
      | error e => simp [h1] at h
      | ok s1 =>
        simp only [h1] at h
        have := ih (n + 1) s1 a (hstep n s s1 hs (parse_line_effect C s s1 line h1)) h
        simpa [Nat.add_assoc, Nat.add_comm 1] using this
  intro lines a h
  simpa using hgen lines 0 (Analysis.init C) a hinit h

/-- After a trace of `n` lines no call count and no histogram entry exceeds `n`. -/
theorem parse_counts_bounded (C : CordicOps) (lines : List String) (a : Analysis)
    (h : parse C lines = .ok a) : counts_bounded lines.length a := by
  refine parse_induction_len C counts_bounded ?_ ?_ lines a h
  · intro f fi hf
    simp [Analysis.init, Map.find] at hf
  · intro n s s' hs heff
    have hmono : ∀ f fi, Map.find s.funcs f = some fi →
        fi.call_cnt ≤ n + 1 ∧ ∀ j, fi.op_cnt.getD j 0 ≤ n + 1 := by
      intro f fi hf
      obtain ⟨h1, h2⟩ := hs f fi hf
      exact ⟨by omega, fun j => by have := h2 j; omega⟩
    rcases heff with h | ⟨A, e, h, _⟩ | ⟨V, v, h⟩ | ⟨f, _, h⟩ | ⟨g, rest, _, h⟩ |
      ⟨name, fr, rest, vals, vs, _, h, _⟩
    · subst h
      exact hmono
    · subst h
      exact hmono
    · subst h
      exact hmono
    · subst h
      intro g fi hg
      by_cases hgf : g = f
      · subst hgf
        rcases find_enter_state_self C s g with ⟨_, h1, _⟩ | ⟨it, h0, h1, _⟩
        · rw [h1] at hg
          cases hg
          refine ⟨by simp, fun j => ?_⟩
          simp only [List.getD_eq_getElem?_getD, List.getElem?_replicate]
          split <;> simp
        · rw [h1] at hg
          cases hg
          obtain ⟨h2, h3⟩ := hs g it h0
          refine ⟨?_, fun j => ?_⟩
          · have := Nat.mod_le (it.call_cnt + 1) (2 ^ 64)
            simp only []
            omega
          · have := h3 j
            simp only []
            omega
      · rw [find_enter_state_ne C s f g hgf] at hg
        exact hmono g fi hg
    · subst h
      exact hmono
    · subst h
      intro g fi hg
      simp only [(op_state_fields C s name fr).2.2.2.2.2.1] at hg
      by_cases hgf : g = fr.func_name
      · subst hgf
        obtain ⟨fi0, h1, h0⟩ := find_funcs_after_inc_self C s.funcs fr.func_name
          (lookup_op s name).1
        rw [h1] at hg
        cases hg
        have hb : fi0.call_cnt ≤ n ∧ ∀ j, fi0.op_cnt.getD j 0 ≤ n := by
          rcases h0 with h0 | ⟨_, h0⟩
          · exact hs _ fi0 h0
          · subst h0
            refine ⟨by simp [FuncInfo.zero], fun j => ?_⟩
            simp only [FuncInfo.zero, List.getD_eq_getElem?_getD, List.getElem?_replicate]
            split <;> simp
        refine ⟨by have := hb.1; simp only []; omega, fun j => ?_⟩
        have h4 := incr_at_getD_le fi0.op_cnt (lookup_op s name).1 j
        have h5 := hb.2 j
        simp only []
        omega
      · rw [find_funcs_after_inc_ne C s.funcs fr.func_name g _ hgf] at hg
        exact hmono g fi hg

/-! ## The tokenizer and the characters of a name -/

theorem is_junk_eq_spec (ch : Char) : is_junk ch = separator_of_spec ch := by
  simp [is_junk, separator_of_spec, Bool.decide_or, Bool.or_assoc]

theorem is_name_char_eq_spec (ch : Char) : is_name_char ch = name_char_of_spec ch := by
  simp only [is_name_char, name_char_of_spec, Char.isAlpha, Char.isUpper, Char.isLower,
    Char.isDigit, List.mem_cons, List.mem_singleton, List.mem_nil_iff, or_false,
    Bool.decide_or]
  have h1 : (decide ('a' ≤ ch) && decide (ch ≤ 'z')) = (ch.val ≥ 97 && ch.val ≤ 122) := rfl
  have h2 : (decide ('A' ≤ ch) && decide (ch ≤ 'Z')) = (ch.val ≥ 65 && ch.val ≤ 90) := rfl
  have h3 : (decide ('0' ≤ ch) && decide (ch ≤ '9')) = (ch.val ≥ 48 && ch.val ≤ 57) := rfl
  rw [h1, h2, h3]
  cases (ch.val ≥ 97 && ch.val ≤ 122) <;> cases (ch.val ≥ 65 && ch.val ≤ 90) <;>
    cases (ch.val ≥ 48 && ch.val ≤ 57) <;> cases decide (ch = ':') <;>
    cases decide (ch = '_') <;> cases decide (ch = '-') <;> cases decide (ch = '.') <;> rfl

theorem takeWhile_dropWhile_prefix {α : Type} (p : α → Bool) (xs ys : List α)
    (hxs : ∀ x ∈ xs, p x = true) (hys : ∀ y, ys.head? = some y → p y = false) :
    (xs ++ ys).takeWhile p = xs ∧ (xs ++ ys).dropWhile p = ys := by
  induction xs with
  | nil =>
    cases ys with
    | nil => exact ⟨rfl, rfl⟩
    | cons y ys =>
      have := hys y rfl
      simp [List.takeWhile, List.dropWhile, this]
  | cons x xs ih =>
    have hx := hxs x (List.mem_cons_self _ _)
    have := ih (fun z hz => hxs z (List.mem_cons_of_mem _ hz))
    simp [List.takeWhile, List.dropWhile, hx, this.1, this.2]

theorem head_dropWhile_false {α : Type} (p : α → Bool) (xs : List α) :
    ∀ y, (xs.dropWhile p).head? = some y → p y = false := by
  induction xs with
  | nil => intro y h; cases h
  | cons x xs ih =>
    intro y h
    cases hp : p x with
    | true =>
      simp only [List.dropWhile, hp] at h
      exact ih y h
    | false =>
      simp only [List.dropWhile, hp, List.head?_cons, Option.some.injEq] at h
      rw [← h]; exact hp

theorem parse_name_of_parts (junk name rest : List Char)
    (hjunk : ∀ ch ∈ junk, is_junk ch = true)
    (hstop : ∀ ch, (name ++ rest).head? = some ch → is_junk ch = false)
    (hname : ∀ ch ∈ name, is_name_char ch = true)
    (hend : ∀ ch, rest.head? = some ch → is_name_char ch = false) :
    parse_name (junk ++ name ++ rest) =
      if name = [] then .error "could not parse a name" else .ok (String.mk name, rest) := by
  have h1 := takeWhile_dropWhile_prefix is_junk junk (name ++ rest) hjunk hstop
  have h2 := takeWhile_dropWhile_prefix is_name_char name rest hname hend
  simp only [parse_name, _skip_junk, List.append_assoc, h1.2, h2.1, h2.2, cassert]
  cases name with
  | nil => rfl
  | cons x xs => simp [String.length]

/-! ## The loops of `print_stats` -/

theorem func_ignored_fold (ig : List String) (m : Map String Bool) (f : String) :
    (Map.find (ig.foldl (fun m f => Map.assign m f true) m) f).isSome =
      ((Map.find m f).isSome || decide (f ∈ ig)) := by
  induction ig generalizing m with
  | nil => simp
  | cons g ig ih =>
    rw [List.foldl_cons, ih]
    by_cases hfg : f = g
    · subst hfg
      simp [Map.find_assign_self]
    · rw [Map.find_assign_ne _ _ _ _ hfg]
      simp [hfg]

theorem func_ignored_isSome (ig : List String) (f : String) :
    (Map.find (ig.foldl (fun m f => Map.assign m f true) ([] : Map String Bool)) f).isSome =
      decide (f ∈ ig) := by
  rw [func_ignored_fold]
  simp [Map.find]

theorem add_at_length (xs : List Nat) (i c : Nat) : (add_at xs i c).length = xs.length := by
  induction xs generalizing i with
  | nil => simp [add_at]
  | cons x xs ih =>
    cases i with
    | zero => simp [add_at]
    | succ i => simp [add_at, ih]

theorem add_at_getD_self (xs : List Nat) (i c : Nat) (hi : i < xs.length) :
    (add_at xs i c).getD i 0 = (xs.getD i 0 + c) % 2 ^ 64 := by
  induction xs generalizing i with
  | nil => simp at hi
  | cons x xs ih =>
    cases i with
    | zero => simp [add_at]
    | succ i =>
      simp only [add_at, List.getD_cons_succ]
      exact ih i (by simpa using hi)

theorem add_at_getD_ne (xs : List Nat) (i j c : Nat) (hij : j ≠ i) :
    (add_at xs i c).getD j 0 = xs.getD j 0 := by
  induction xs generalizing i j with
  | nil => simp [add_at]
  | cons x xs ih =>
    cases i with
    | zero =>
      cases j with
      | zero => exact absurd rfl hij
      | succ j => simp [add_at]
    | succ i =>
      cases j with
      | zero => simp [add_at]
      | succ j =>
        simp only [add_at, List.getD_cons_succ]
        exact ih i j (by omega)

/-- Whether the inner loop of `print_stats` writes a line for the index `i`. -/
theorem print_op_eq (C : CordicOps) (s : Double) (func : FuncInfo) (st : List Row × List Nat)
    (i : Nat) :
    print_op C s func st i =
      if (!free_op C i && decide (func.op_cnt.getD i 0 ≠ 0)) = true then
        (st.1 ++ [op_row C s func i], add_at st.2 i (func.op_cnt.getD i 0))
      else st := by
  unfold print_op free_op op_row
  by_cases hfree : i = C.push_constant ∨ i = C.assign ∨ i = C.pop_value
  · simp [hfree]
  · by_cases hz : func.op_cnt.getD i 0 = 0
    · simp [hfree, hz]
    · simp [hfree, hz]

theorem print_op_fold (C : CordicOps) (s : Double) (func : FuncInfo) (n : Nat)
    (st : List Row × List Nat) :
    ((List.range n).foldl (print_op C s func) st).1 =
        st.1 ++ ((List.range n).filter (fun i =>
          !free_op C i && decide (func.op_cnt.getD i 0 ≠ 0))).map (op_row C s func) ∧
      ((List.range n).foldl (print_op C s func) st).2.length = st.2.length ∧
      ∀ j, ((List.range n).foldl (print_op C s func) st).2.getD j 0 =
        if j < n ∧ j < st.2.length ∧
            (!free_op C j && decide (func.op_cnt.getD j 0 ≠ 0)) = true then
          (st.2.getD j 0 + func.op_cnt.getD j 0) % 2 ^ 64
        else st.2.getD j 0 := by
  induction n with
  | zero => simp
  | succ n ih =>
    obtain ⟨ih1, ih2, ih3⟩ := ih
    rw [List.range_succ, List.foldl_append, List.foldl_cons, List.foldl_nil, print_op_eq]
    by_cases hl : (!free_op C n && decide (func.op_cnt.getD n 0 ≠ 0)) = true
    · rw [if_pos hl]
      refine ⟨?_, ?_, ?_⟩
      · simp only [ih1, List.filter_append, List.map_append, List.filter_cons, hl, if_true,
          List.filter_nil, List.map_cons, List.map_nil, List.append_assoc]
      · simp only [add_at_length, ih2]
      · intro j
        by_cases hjn : j = n
        · subst hjn
          by_cases hlen : j < st.2.length
          · rw [add_at_getD_self _ _ _ (by rw [ih2]; exact hlen), ih3,
              if_neg (fun h => lt_irrefl _ h.1), if_pos ⟨Nat.lt_succ_self _, hlen, hl⟩]
          · have h1 : ∀ (xs : List Nat), xs.length = st.2.length → xs.getD j 0 = 0 := by
              intro xs hxs
              exact List.getD_eq_default _ _ (by omega)
            rw [h1 _ (by rw [add_at_length, ih2]), h1 _ rfl, if_neg (fun h => hlen h.2.1)]
        · rw [add_at_getD_ne _ _ _ _ hjn, ih3]
          have : (j < n + 1) = (j < n) := by
            apply propext
            omega
          simp only [this]
    · rw [if_neg hl]
      refine ⟨?_, ih2, ?_⟩
      · simp only [ih1, List.filter_append, List.map_append, List.filter_cons, hl,
          List.filter_nil, List.map_nil, List.append_nil]
        simp
      · intro j
        rw [ih3]
        by_cases hjn : j = n
        · subst hjn
          rw [if_neg (fun h => lt_irrefl _ h.1), if_neg (fun h => hl h.2.2)]
        · have : (j < n + 1) = (j < n) := by
            apply propext
            omega
          simp only [this]

theorem print_func_step (C : CordicOps) (a : Analysis) (s : Double) (ig : List String)
    (st : List Row × List Nat) (f : String)
    (hlen : st.2.length = C.OP_cnt) (hb : ∀ j, st.2.getD j 0 < 2 ^ 64) :
    (print_func C a s (ig.foldl (fun m f => Map.assign m f true) []) st f).1 =
        st.1 ++ (if f ∈ ig then [] else func_block_of_spec C a s f) ∧
      (print_func C a s (ig.foldl (fun m f => Map.assign m f true) []) st f).2.length =
        C.OP_cnt ∧
      (∀ j, (print_func C a s (ig.foldl (fun m f => Map.assign m f true) []) st f).2.getD j 0
        < 2 ^ 64) ∧
      ∀ j, (print_func C a s (ig.foldl (fun m f => Map.assign m f true) []) st f).2.getD j 0 =
        if j < C.OP_cnt ∧ free_op C j = false then
          (st.2.getD j 0 + (if f ∈ ig then 0 else hist_entry a f j)) % 2 ^ 64
        else st.2.getD j 0 := by
  have hsame : ∀ j, st.2.getD j 0 =
      if j < C.OP_cnt ∧ free_op C j = false then (st.2.getD j 0 + 0) % 2 ^ 64
      else st.2.getD j 0 := by
    intro j
    rw [Nat.add_zero, Nat.mod_eq_of_lt (hb j), ite_self]
  unfold print_func
  rw [func_ignored_isSome]
  by_cases hig : f ∈ ig
  · simp only [hig, decide_True, if_true, List.append_nil]
    exact ⟨trivial, hlen, hb, hsame⟩
  · simp only [hig, decide_False, if_false, Bool.false_eq_true]
    cases hf : Map.find a.funcs f with
    | none =>
      simp only [func_block_of_spec, hist_entry, hf, List.append_nil]
      exact ⟨trivial, hlen, hb, hsame⟩
    | some func =>
      obtain ⟨h1, h2, h3⟩ := print_op_fold C s func C.OP_cnt
        (st.1 ++ [Row.func f func.call_cnt], st.2)
      simp only at h1 h2 h3
      refine ⟨?_, ?_, ?_, ?_⟩
      · simp only [h1, func_block_of_spec, hf, listed_ops_of_spec, List.append_assoc,
          List.singleton_append]
      · rw [h2, hlen]
      · intro j
        rw [h3]
        split
        · exact Nat.mod_lt _ (by norm_num)
        · exact hb j
      · intro j
        rw [h3]
        simp only [hist_entry, hf, hlen]
        by_cases hj : j < C.OP_cnt
        · by_cases hfree : free_op C j = false
          · by_cases hz : func.op_cnt.getD j 0 = 0
            · simp only [hz, hj, hfree, ne_eq, not_true_eq_false, decide_False,
                Bool.and_false, Bool.false_eq_true, and_false, if_false, and_self, if_true,
                Nat.add_zero]
              rw [Nat.mod_eq_of_lt (hb j)]
            · simp only [hj, hfree, hz, ne_eq, not_false_eq_true, decide_True, Bool.not_false,
                Bool.and_self, and_self, if_true]
          · have hfree' : free_op C j = true := by
              cases h : free_op C j
              · exact absurd h hfree
              · rfl
            simp [hfree']
        · simp [hj]

theorem print_func_fold (C : CordicOps) (a : Analysis) (s : Double) (ig : List String)
    (names : List String) :
    ∀ (st : List Row × List Nat), st.2.length = C.OP_cnt → (∀ j, st.2.getD j 0 < 2 ^ 64) →
      (names.foldl (print_func C a s (ig.foldl (fun m f => Map.assign m f true) [])) st).1 =
        st.1 ++ ((names.filter (fun f => decide (f ∉ ig))).map (func_block_of_spec C a s)).flatten ∧
      ∀ j, (names.foldl (print_func C a s
          (ig.foldl (fun m f => Map.assign m f true) [])) st).2.getD j 0 =
        if j < C.OP_cnt ∧ free_op C j = false then
          (st.2.getD j 0 +
            ((names.filter (fun f => decide (f ∉ ig))).map (fun f => hist_entry a f j)).sum)
            % 2 ^ 64
        else st.2.getD j 0 := by
  induction names with
  | nil =>
    intro st _ hb
    refine ⟨by simp, ?_⟩
    intro j
    simp only [List.foldl_nil, List.filter_nil, List.map_nil, List.sum_nil, Nat.add_zero]
    rw [Nat.mod_eq_of_lt (hb j), ite_self]
  | cons f names ih =>
    intro st hlen hb
    obtain ⟨h1, h2, h3, h4⟩ := print_func_step C a s ig st f hlen hb
    obtain ⟨i1, i2⟩ := ih _ h2 h3
    rw [List.foldl_cons]
    refine ⟨?_, ?_⟩
    · rw [i1, h1]
      by_cases hig : f ∈ ig
      · simp [hig]
      · simp [hig]
    · intro j
      rw [i2, h4]
      by_cases hc : j < C.OP_cnt ∧ free_op C j = false
      · simp only [hc, and_self, if_true]
        by_cases hig : f ∈ ig
        · simp [hig]
        · simp only [hig, if_false, List.filter_cons, not_false_eq_true, decide_True, if_true,
            List.map_cons, List.sum_cons]
          rw [Nat.mod_add_mod, Nat.add_assoc]
      · simp only [hc, if_false]

theorem print_totals_eq (C : CordicOps) (s : Double) (total_cnt : List Nat) :
    print_totals C s total_cnt =
      ((List.range C.OP_cnt).filter (fun i => decide (total_cnt.getD i 0 ≠ 0))).map (fun i =>
        Row.total (C.op_to_str i) (total_cnt.getD i 0) (scaled_cnt (total_cnt.getD i 0) s)) := by
  unfold print_totals
  induction C.OP_cnt with
  | zero => simp
  | succ n ih =>
    rw [List.range_succ, List.foldl_append, ih, List.filter_append, List.map_append]
    by_cases hz : total_cnt.getD n 0 = 0
    · simp only [List.foldl_cons, List.foldl_nil, List.filter_cons, List.filter_nil, hz, ne_eq,
        not_true_eq_false, decide_False, if_false, List.map_nil, List.append_nil,
        Bool.false_eq_true]
    · simp only [List.foldl_cons, List.foldl_nil, List.filter_cons, List.filter_nil, hz, ne_eq,
        not_false_eq_true, decide_True, if_true, List.map_cons, List.map_nil]

/-- The report of `print_stats` is the blocks of the listed functions, in the order of
`func_names`, and then the block of the totals. -/
theorem print_stats_eq (C : CordicOps) (a : Analysis) (s : Double) (ig : List String) :
    print_stats C a s ig =
      ((reported_funcs a ig).map (func_block_of_spec C a s)).flatten ++
        totals_block_of_spec C a s ig := by
  obtain ⟨h1, h2⟩ := print_func_fold C a s ig a.func_names ([], List.replicate C.OP_cnt 0)
    (by simp) (by intro j; simp [List.getElem?_getD_replicate_default_eq])
  unfold print_stats
  simp only [h1, List.nil_append, print_totals_eq, reported_funcs, totals_block_of_spec, raw_total]
  congr 1
  have hz : ∀ j, (List.replicate C.OP_cnt 0).getD j 0 = 0 := by
    intro j; simp [List.getElem?_getD_replicate_default_eq]
  have hkey : ∀ i ∈ List.range C.OP_cnt,
      (List.foldl (print_func C a s (List.foldl (fun m f => Map.assign m f true) [] ig))
        ([], List.replicate C.OP_cnt 0) a.func_names).2.getD i 0 =
      if free_op C i = false then
        ((List.filter (fun f => decide (f ∉ ig)) a.func_names).map
          (fun f => hist_entry a f i)).sum % 2 ^ 64
      else 0 := by
    intro i hi
    rw [h2 i]
    simp only [hz, Nat.zero_add, List.mem_range.1 hi, true_and]
  have hfilter : (List.range C.OP_cnt).filter (fun i => decide
      ((List.foldl (print_func C a s (List.foldl (fun m f => Map.assign m f true) [] ig))
        ([], List.replicate C.OP_cnt 0) a.func_names).2.getD i 0 ≠ 0)) =
      (List.range C.OP_cnt).filter (fun i => !free_op C i && decide
        (((List.filter (fun f => decide (f ∉ ig)) a.func_names).map
          (fun f => hist_entry a f i)).sum % 2 ^ 64 ≠ 0)) := by
    apply List.filter_congr
    intro i hi
    rw [hkey i hi]
    cases hfree : free_op C i <;> simp
  rw [hfilter]
  apply List.map_congr_left
  intro i hi
  have hi' := (List.mem_filter.1 hi).1
  have hfree : free_op C i = false := by
    have := (List.mem_filter.1 hi).2
    cases h : free_op C i
    · rfl
    · simp [h] at this
  rw [hkey i hi', if_pos hfree]

/-! ## The names of the functions in a reached state -/

theorem find_funcs_after_inc_isSome_iff (C : CordicOps) (funcs : Map String FuncInfo)
    (name g : String) (op : Nat) (h : (Map.find funcs name).isSome = true) :
    (Map.find (funcs_after_inc C funcs name op) g).isSome = (Map.find funcs g).isSome := by
  by_cases hg : g = name
  · subst hg
    obtain ⟨fi, hfi, _⟩ := find_funcs_after_inc_self C funcs g op
    rw [hfi, h]
    rfl
  · rw [find_funcs_after_inc_ne C funcs name g op hg]

/-- A line that is not an `enter` line leaves `func_names` and the keys of the function
table as they are. -/
theorem parse_line_keeps_names (C : CordicOps) (a a' : Analysis) (line : String) (kind : KIND)
    (c : List Char) (hk : parse_kind (c_str line) = .ok (kind, c)) (hne : kind ≠ KIND.enter)
    (h : parse_line C a line = .ok a') (hfk : frames_known a) :
    a'.func_names = a.func_names ∧
      ∀ f, (Map.find a'.funcs f).isSome = (Map.find a.funcs f).isSome := by
  have hop : kind ∈ [KIND.op1, KIND.op2, KIND.op3, KIND.op4, KIND.op1i, KIND.op1f, KIND.op2i,
      KIND.op2f] → a'.func_names = a.func_names ∧
      ∀ f, (Map.find a'.funcs f).isSome = (Map.find a.funcs f).isSome := by
    intro hmem
    obtain ⟨name, c1, fr, rest, _, hst, _, hfu, hfn, _, _⟩ :=
      parse_line_op_frame C a a' line kind c hk hmem h
    refine ⟨hfn, fun f => ?_⟩
    rw [hfu]
    exact find_funcs_after_inc_isSome_iff C a.funcs fr.func_name f _
      (hfk fr (by rw [hst]; exact List.mem_cons_self _ _))
  have h0 := h
  unfold parse_line at h
  simp only [hk] at h
  cases kind with
  | enter => exact absurd rfl hne
  | cordic_constructed =>
    simp only [case_cordic_constructed, bind_ok_iff, pure, Except.pure,
      Except.ok.injEq] at h
    obtain ⟨⟨A, _⟩, _, _, _, _, _, _, _, _, _, _, _, h⟩ := h
    subst h
    exact ⟨rfl, fun _ => rfl⟩
  | cordic_destructed =>
    simp only [case_cordic_destructed, bind_ok_iff] at h
    obtain ⟨⟨A, _⟩, _, h⟩ := h
    simp only at h
    cases hf : Map.find a.cordics A with
    | none => simp [hf, cassert_failed] at h
    | some e0 =>
      simp only [hf, bind_ok_iff, pure, Except.pure, Except.ok.injEq] at h
      obtain ⟨_, _, h⟩ := h
      subst h
      exact ⟨rfl, fun _ => rfl⟩
  | leave =>
    obtain ⟨g, c', rest, _, _, hst, ha'⟩ := (case_leave_ok a a' c).1 h
    subst ha'
    exact ⟨rfl, fun _ => rfl⟩
  | constructed =>
    have h1 := h
    simp only [case_constructed, bind_ok_iff] at h1
    obtain ⟨⟨V, c1⟩, hV, ⟨E, c2⟩, hE, _⟩ := h1
    rcases case_constructed_result a a' c c1 c2 V E hV hE h with
      ⟨_, h'⟩ | ⟨_, _, _, _, h'⟩ <;> subst h' <;> exact ⟨rfl, fun _ => rfl⟩
  | destructed =>
    simp only [case_destructed, bind_ok_iff] at h
    obtain ⟨⟨V, _⟩, _, h⟩ := h
    simp only at h
    cases hf : Map.find a.vals V with
    | none => simp [hf, cassert_failed] at h
    | some v0 =>
      simp only [hf, bind_ok_iff, pure, Except.pure, Except.ok.injEq] at h
      obtain ⟨_, _, h⟩ := h
      subst h
      exact ⟨rfl, fun _ => rfl⟩
  | invalid =>
    simp only [Except.ok.injEq] at h
    subst h
    exact ⟨rfl, fun _ => rfl⟩
  | op1 => exact hop (by decide)
  | op2 => exact hop (by decide)
  | op3 => exact hop (by decide)
  | op4 => exact hop (by decide)
  | op1i => exact hop (by decide)
  | op1f => exact hop (by decide)
  | op2i => exact hop (by decide)
  | op2f => exact hop (by decide)

theorem entered_name_of_kind (line : String) (kind : KIND) (c : List Char)
    (hk : parse_kind (c_str line) = .ok (kind, c)) (hne : kind ≠ KIND.enter) :
    entered_name line = none := by
  unfold entered_name
  rw [hk]
  cases kind <;> first | rfl | exact absurd rfl hne

/-- What an accepted line does to `func_names`: an `enter` line appends its name unless
the name is there, another line changes nothing; and the names stay distinct and stay the
keys of the function table. -/
theorem parse_line_names (C : CordicOps) (a a' : Analysis) (line : String)
    (h : parse_line C a line = .ok a') (hfk : frames_known a) (hnk : names_keyed a) :
    names_keyed a' ∧
      a'.func_names = match entered_name line with
        | some f => if f ∈ a.func_names then a.func_names else a.func_names ++ [f]
        | none => a.func_names := by
  cases hk : parse_kind (c_str line) with
  | error e => simp [parse_line, hk] at h
  | ok r =>
    obtain ⟨kind, c⟩ := r
    by_cases hne : kind = KIND.enter
    · subst hne
      have h1 : case_enter C a c = .ok a' := by
        simpa only [parse_line, hk] using h
      have h2 := h1
      simp only [case_enter, bind_ok_iff] at h2
      obtain ⟨⟨f, c'⟩, hname, _⟩ := h2
      obtain ⟨_, ha'⟩ := (case_enter_ok_iff C a a' c c' f hname).1 h1
      have hent : entered_name line = some f := by
        simp only [entered_name, hk, hname]
      rw [hent]
      subst ha'
      rcases find_enter_state_self C a f with ⟨hnone, hself, hfn⟩ | ⟨it, hsome, hself, hfn⟩
      · have hnot : f ∉ a.func_names := by
          intro hmem
          have := (hnk.2 f).1 hmem
          rw [hnone] at this
          cases this
        refine ⟨⟨?_, ?_⟩, ?_⟩
        · rw [hfn]
          refine List.Nodup.append hnk.1 (List.nodup_singleton f) ?_
          intro g hg hg'
          rw [List.mem_singleton] at hg'
          subst hg'
          exact hnot hg
        · intro g
          rw [hfn]
          by_cases hg : g = f
          · subst hg
            simp [hself]
          · rw [find_enter_state_ne C a f g hg, ← hnk.2 g]
            simp [hg]
        · simp only [hnot, if_false]
          exact hfn
      · have hmem : f ∈ a.func_names := (hnk.2 f).2 (by rw [hsome]; rfl)
        refine ⟨⟨?_, ?_⟩, ?_⟩
        · rw [hfn]
          exact hnk.1
        · intro g
          rw [hfn]
          by_cases hg : g = f
          · subst hg
            simp [hself, hmem]
          · rw [find_enter_state_ne C a f g hg]
            exact hnk.2 g
        · simp only [hmem, if_true]
          exact hfn
    · obtain ⟨hfn, hkeys⟩ := parse_line_keeps_names C a a' line kind c hk hne h hfk
      rw [entered_name_of_kind line kind c hk hne]
      refine ⟨⟨by rw [hfn]; exact hnk.1, fun g => ?_⟩, hfn⟩
      rw [hfn, hkeys g]
      exact hnk.2 g

theorem parse_lines_append (C : CordicOps) (l1 l2 : List String) (s a : Analysis) :
    parse_lines C s (l1 ++ l2) = .ok a ↔
      ∃ m, parse_lines C s l1 = .ok m ∧ parse_lines C m l2 = .ok a := by
  induction l1 generalizing s with
  | nil => simp [parse_lines]
  | cons l l1 ih =>
    simp only [List.cons_append, parse_lines]
    cases h : parse_line C s l with
    | error e => simp
    | ok s1 => exact ih s1

theorem first_seen_append (xs : List String) (f : String) :
    first_seen (xs ++ [f]) =
      if f ∈ first_seen xs then first_seen xs else first_seen xs ++ [f] := by
  simp [first_seen, List.foldl_append]

/-- In a state that a trace reaches, `func_names` holds the names of the `enter` lines
of the trace in the order in which each was entered first, each once, and these are the
keys of the function table. -/
theorem parse_names (C : CordicOps) (lines : List String) (a : Analysis)
    (h : parse C lines = .ok a) :
    names_keyed a ∧ a.func_names = first_seen (lines.filterMap entered_name) := by
  induction lines using List.reverseRecOn generalizing a with
  | nil =>
    simp only [parse, parse_lines, Except.ok.injEq] at h
    subst h
    exact ⟨⟨List.nodup_nil, fun f => by simp [Analysis.init, Map.find]⟩, rfl⟩
  | append_singleton lines line ih =>
    obtain ⟨m, hm, hl⟩ := (parse_lines_append C lines [line] _ a).1 h
    obtain ⟨hnk, hfn⟩ := ih m hm
    have hl' : parse_line C m line = .ok a := by
      simp only [parse_lines] at hl
      cases h1 : parse_line C m line with
      | error e => simp [h1] at hl
      | ok s1 =>
        simp only [h1, Except.ok.injEq] at hl
        rw [hl]
    obtain ⟨hnk', hfn'⟩ := parse_line_names C m a line hl' (parse_frames_known C lines m hm) hnk
    refine ⟨hnk', ?_⟩
    rw [hfn', List.filterMap_append]
    cases he : entered_name line with
    | none => simp [List.filterMap, he, hfn]
    | some f =>
      simp only [List.filterMap, he]
      rw [first_seen_append, hfn]

/-! ## The sum of the histogram entries -/

theorem hist_sum_assign (m : Map String FuncInfo) (k : String) (v : FuncInfo) :
    hist_sum (Map.assign m k v) +
        (match Map.find m k with
          | none => 0
          | some v0 => v0.op_cnt.sum) =
      hist_sum m + v.op_cnt.sum := by
  induction m with
  | nil => simp [hist_sum, Map.assign, Map.find]
  | cons p m ih =>
    obtain ⟨k', v'⟩ := p
    by_cases hk : k' = k
    · subst hk
      simp only [Map.assign, Map.find, if_true, hist_sum, List.map_cons, List.sum_cons]
      omega
    · simp only [Map.assign, Map.find, hk, if_false, hist_sum, List.map_cons,
        List.sum_cons] at ih ⊢
      omega

theorem incr_at_sum_le (xs : List Nat) (i : Nat) : (incr_at xs i).sum ≤ xs.sum + 1 := by
  induction xs generalizing i with
  | nil => simp [incr_at]
  | cons x xs ih =>
    cases i with
    | zero =>
      simp only [incr_at, List.sum_cons]
      have := Nat.mod_le (x + 1) (2 ^ 64)
      omega
    | succ i =>
      simp only [incr_at, List.sum_cons]
      have := ih i
      omega

theorem hist_sum_funcs_after_inc (C : CordicOps) (funcs : Map String FuncInfo)
    (name : String) (op : Nat) :
    hist_sum (funcs_after_inc C funcs name op) ≤ hist_sum funcs + 1 := by
  unfold funcs_after_inc Map.subscript
  cases hf : Map.find funcs name with
  | none =>
    simp only []
    have h1 := hist_sum_assign funcs name (FuncInfo.zero C)
    have h2 := hist_sum_assign (Map.assign funcs name (FuncInfo.zero C)) name
      { FuncInfo.zero C with op_cnt := incr_at (FuncInfo.zero C).op_cnt op }
    rw [hf] at h1
    rw [Map.find_assign_self] at h2
    simp only [Nat.add_zero] at h1 h2
    have h3 := incr_at_sum_le (FuncInfo.zero C).op_cnt op
    have h4 : (FuncInfo.zero C).op_cnt.sum = 0 := by simp [FuncInfo.zero]
    omega
  | some v =>
    simp only []
    have h1 := hist_sum_assign funcs name { v with op_cnt := incr_at v.op_cnt op }
    rw [hf] at h1
    simp only at h1
    have h3 := incr_at_sum_le v.op_cnt op
    omega

theorem hist_sum_enter_state (C : CordicOps) (a : Analysis) (f : String) :
    hist_sum (enter_state C a f).funcs = hist_sum a.funcs := by
  unfold enter_state
  cases hf : Map.find a.funcs f with
  | none =>
    simp only []
    have h1 := hist_sum_assign a.funcs f ⟨0, List.replicate C.OP_cnt 0⟩
    have h2 := hist_sum_assign (Map.assign a.funcs f ⟨0, List.replicate C.OP_cnt 0⟩) f
      ⟨1, List.replicate C.OP_cnt 0⟩
    rw [hf] at h1
    rw [Map.find_assign_self] at h2
    simp only [List.sum_replicate, smul_eq_mul, Nat.mul_zero, Nat.add_zero] at h1 h2
    omega
  | some it =>
    simp only []
    have h1 := hist_sum_assign a.funcs f { it with call_cnt := (it.call_cnt + 1) % 2 ^ 64 }
    rw [hf] at h1
    simp only at h1
    omega

/-- In a state that a trace reaches, the histogram entries of all functions add up to
the number of lines of the trace at most. -/
theorem parse_hist_sum (C : CordicOps) (lines : List String) (a : Analysis)
    (h : parse C lines = .ok a) : hist_sum a.funcs ≤ lines.length := by
  refine parse_induction_len C (fun n a => hist_sum a.funcs ≤ n) ?_ ?_ lines a h
  · simp [Analysis.init, hist_sum]
  · intro n a a' hP heff
    simp only at hP ⊢
    rcases heff with h | ⟨_, _, h, _⟩ | ⟨_, _, h⟩ | ⟨f, _, h⟩ | ⟨_, _, _, h⟩ |
      ⟨name, fr, rest, vals, vs, _, h, _⟩
    · subst h; omega
    · subst h; exact Nat.le_succ_of_le hP
    · subst h; exact Nat.le_succ_of_le hP
    · subst h
      rw [hist_sum_enter_state]
      omega
    · subst h; exact Nat.le_succ_of_le hP
    · subst h
      have := hist_sum_funcs_after_inc C a.funcs fr.func_name (lookup_op a name).1
      show hist_sum (funcs_after_inc C a.funcs fr.func_name (lookup_op a name).1) ≤ n + 1
      omega

theorem getD_le_sum (xs : List Nat) (i : Nat) : xs.getD i 0 ≤ xs.sum := by
  induction xs generalizing i with
  | nil => simp
  | cons x xs ih =>
    cases i with
    | zero => simp
    | succ i =>
      simp only [List.getD_cons_succ, List.sum_cons]
      have := ih i
      omega

theorem sum_entries_le_hist_sum (i : Nat) (m : Map String FuncInfo) :
    ∀ (names : List String), names.Nodup →
      (names.map (fun f => match Map.find m f with
        | none => 0
        | some func => func.op_cnt.getD i 0)).sum ≤ hist_sum m := by
  induction m with
  | nil =>
    intro names _
    simp [Map.find, hist_sum]
  | cons p m ih =>
    obtain ⟨k, v⟩ := p
    intro names hnd
    have hrest : ∀ (l : List String), k ∉ l →
        (l.map (fun f => match Map.find ((k, v) :: m) f with
          | none => 0
          | some func => func.op_cnt.getD i 0)) =
        (l.map (fun f => match Map.find m f with
          | none => 0
          | some func => func.op_cnt.getD i 0)) := by
      intro l hl
      apply List.map_congr_left
      intro f hf
      have hne : ¬ k = f := fun h => hl (h ▸ hf)
      simp only [Map.find, hne, if_false]
    simp only [hist_sum, List.map_cons, List.sum_cons]
    by_cases hk : k ∈ names
    · rw [← List.sum_map_erase _ hk]
      rw [hrest (names.erase k) (fun h => (List.Nodup.mem_erase_iff hnd).1 h |>.1 rfl)]
      have h1 := ih (names.erase k) (hnd.erase k)
      have h2 : (match Map.find ((k, v) :: m) k with
          | none => 0
          | some func => func.op_cnt.getD i 0) ≤ v.op_cnt.sum := by
        simp only [Map.find, if_true]
        exact getD_le_sum _ _
      simp only [hist_sum] at h1
      omega
    · rw [hrest names hk]
      have h1 := ih names hnd
      simp only [hist_sum] at h1
      omega

/-- In a state that a trace reaches, the sum of the histogram entries for one operation
code over the listed functions is the number of lines of the trace at most. -/
theorem parse_raw_total_le (C : CordicOps) (lines : List String) (a : Analysis)
    (ig : List String) (i : Nat) (h : parse C lines = .ok a) :
    raw_total a ig i ≤ lines.length := by
  have h1 := sum_entries_le_hist_sum i a.funcs (reported_funcs a ig)
    ((parse_names C lines a h).1.1.filter _)
  have h2 := parse_hist_sum C lines a h
  exact le_trans h1 h2

/-! ## Rounding to `double` -/

theorem bit_length_aux_spec (fuel n : Nat) (hfuel : n ≤ fuel) (hn : 0 < n) :
    2 ^ (bit_length_aux fuel n - 1) ≤ n ∧ n < 2 ^ bit_length_aux fuel n ∧
      0 < bit_length_aux fuel n := by
  induction fuel generalizing n with
  | zero => omega
  | succ fuel ih =>
    have hn0 : n ≠ 0 := by omega
    simp only [bit_length_aux, hn0, if_false, Nat.add_sub_cancel]
    by_cases h1 : n / 2 = 0
    · have hn1 : n = 1 := by omega
      subst hn1
      cases fuel <;> simp [bit_length_aux]
    · obtain ⟨i1, i2, i3⟩ := ih (n / 2) (by omega) (by omega)
      refine ⟨?_, ?_, by omega⟩
      · have : bit_length_aux fuel (n / 2) = (bit_length_aux fuel (n / 2) - 1) + 1 := by omega
        rw [this, pow_succ]
        omega
      · rw [pow_succ]
        omega

theorem bit_length_spec (n : Nat) (hn : 0 < n) :
    2 ^ (bit_length n - 1) ≤ n ∧ n < 2 ^ bit_length n ∧ 0 < bit_length n :=
  bit_length_aux_spec n n (le_refl n) hn

theorem round_half_even_exact (q d : Nat) (hd : 0 < d) : round_half_even (q * d) d = q := by
  simp [round_half_even, Nat.mul_div_cancel _ hd, hd]

theorem zpow_toNat (k : Int) (hk : 0 ≤ k) : ((2 : ℚ) ^ k.toNat) = (2 : ℚ) ^ k := by
  rw [← zpow_natCast]
  congr 1
  omega

/-- The exponent that `floor_log2` finds is a lower bound for the quotient. -/
theorem floor_log2_le (num den : Nat) (hnum : 0 < num) (hden : 0 < den) :
    (2 : ℚ) ^ floor_log2 num den ≤ (num : ℚ) / den := by
  have h2 : (2 : ℚ) ≠ 0 := by norm_num
  have hdq : (0 : ℚ) < den := by exact_mod_cast hden
  unfold floor_log2
  simp only
  split
  · rename_i hc
    rw [le_div_iff₀ hdq]
    have hc' : ((den * 2 ^ ((bit_length num : Int) - (bit_length den : Int)).toNat : Nat) : ℚ) ≤
        ((num * 2 ^ (-((bit_length num : Int) - (bit_length den : Int))).toNat : Nat) : ℚ) := by
      exact_mod_cast hc
    push_cast at hc'
    by_cases hb : 0 ≤ (bit_length num : Int) - (bit_length den : Int)
    · have e1 : (-((bit_length num : Int) - (bit_length den : Int))).toNat = 0 := by omega
      rw [e1, pow_zero, mul_one, zpow_toNat _ hb] at hc'
      linarith
    · have e1 : ((bit_length num : Int) - (bit_length den : Int)).toNat = 0 := by omega
      rw [e1, pow_zero, mul_one, zpow_toNat _ (by omega), zpow_neg] at hc'
      have hpos : (0 : ℚ) < 2 ^ ((bit_length num : Int) - (bit_length den : Int)) :=
        zpow_pos (by norm_num) _
      have := mul_le_mul_of_nonneg_left hc' (le_of_lt hpos)
      rw [mul_comm (num : ℚ), ← mul_assoc, mul_inv_cancel₀ (ne_of_gt hpos), one_mul] at this
      linarith
  · obtain ⟨n1, _, n3⟩ := bit_length_spec num hnum
    obtain ⟨_, d2, d3⟩ := bit_length_spec den hden
    rw [le_div_iff₀ hdq]
    have e1 : (bit_length num : Int) - (bit_length den : Int) - 1 =
        ((bit_length num - 1 : Nat) : Int) - (bit_length den : Int) := by omega
    rw [e1, zpow_sub₀ h2, zpow_natCast, zpow_natCast, div_mul_eq_mul_div,
      div_le_iff₀ (by positivity)]
    have a1 : ((2 : ℚ) ^ (bit_length num - 1)) ≤ num := by exact_mod_cast n1
    have a2 : (den : ℚ) ≤ 2 ^ bit_length den := by exact_mod_cast le_of_lt d2
    exact mul_le_mul a1 a2 (le_of_lt hdq) (by positivity)

/-- A quotient that is a `double` is not changed by the rounding. -/
theorem nearest_val_exact_quot (num den : Nat) (E : Int) (n0 : Nat) (E0 : Int)
    (hden : 0 < den) (hn0 : n0 < 2 ^ 53) (hE0 : -1074 ≤ E0)
    (heq : (num : ℚ) / den * 2 ^ E = n0 * 2 ^ E0) :
    (nearest num den E).val = (num : ℚ) / den * 2 ^ E := by
  have h2 : (2 : ℚ) ≠ 0 := by norm_num
  have h12 : (1 : ℚ) < 2 := by norm_num
  have hdq : (0 : ℚ) < den := by exact_mod_cast hden
  by_cases hn : num = 0
  · subst hn
    simp [nearest, Double.val]
  · have hnq : (0 : ℚ) < num := by exact_mod_cast Nat.pos_of_ne_zero hn
    -- the quotient as a power of two times `n0`
    have hq : (num : ℚ) / den = n0 * 2 ^ (E0 - E) := by
      have h3 : (num : ℚ) / den * 2 ^ E * 2 ^ (-E) = n0 * 2 ^ E0 * 2 ^ (-E) := by rw [heq]
      rw [mul_assoc, ← zpow_add₀ h2, mul_assoc, ← zpow_add₀ h2] at h3
      simpa [sub_eq_add_neg] using h3
    have hL : floor_log2 num den - 52 ≤ E0 - E := by
      have h1 := floor_log2_le num den (Nat.pos_of_ne_zero hn) hden
      have h3 : (num : ℚ) / den < 2 ^ ((53 : Int) + (E0 - E)) := by
        rw [hq, zpow_add₀ h2]
        apply mul_lt_mul_of_pos_right _ (zpow_pos (by norm_num) _)
        exact_mod_cast hn0
      have := (zpow_lt_zpow_iff_right₀ h12).1 (lt_of_le_of_lt h1 h3)
      omega
    simp only [nearest, hn, if_false, Double.val]
    generalize hk : max (floor_log2 num den - 52) (-1074 - E) = k
    have hkle : k ≤ E0 - E := by omega
    obtain ⟨u, hu⟩ : ∃ u : Nat, (u : Int) = E0 - E - k := ⟨(E0 - E - k).toNat, by omega⟩
    have hmul : num * 2 ^ (-k).toNat = (n0 * 2 ^ u) * (den * 2 ^ k.toNat) := by
      have e1 : (num : ℚ) = n0 * 2 ^ (E0 - E) * den := by
        rw [← hq]
        field_simp
      have e2 : ((num * 2 ^ (-k).toNat : Nat) : ℚ) =
          ((n0 * 2 ^ u * (den * 2 ^ k.toNat) : Nat) : ℚ) := by
        push_cast
        rw [e1, ← zpow_natCast, ← zpow_natCast, ← zpow_natCast]
        have e3 : (2 : ℚ) ^ (E0 - E) * 2 ^ (((-k).toNat : Nat) : Int) =
            2 ^ ((u : Nat) : Int) * 2 ^ ((k.toNat : Nat) : Int) := by
          rw [← zpow_add₀ h2, ← zpow_add₀ h2]
          congr 1
          omega
        calc (n0 : ℚ) * 2 ^ (E0 - E) * den * 2 ^ (((-k).toNat : Nat) : Int)
            = n0 * den * (2 ^ (E0 - E) * 2 ^ (((-k).toNat : Nat) : Int)) := by ring
          _ = n0 * den * (2 ^ ((u : Nat) : Int) * 2 ^ ((k.toNat : Nat) : Int)) := by rw [e3]
          _ = n0 * 2 ^ ((u : Nat) : Int) * (den * 2 ^ ((k.toNat : Nat) : Int)) := by ring
      exact_mod_cast e2
    rw [hmul, round_half_even_exact _ _ (by positivity), heq]
    push_cast
    rw [← zpow_natCast, mul_assoc, ← zpow_add₀ h2]
    congr 2
    omega

/-- A value that is a `double` is not changed by the rounding. -/
theorem nearest_val_exact (n : Nat) (E : Int) (n0 : Nat) (E0 : Int) (hn0 : n0 < 2 ^ 53)
    (hE0 : -1074 ≤ E0) (heq : (n : ℚ) * 2 ^ E = n0 * 2 ^ E0) :
    (nearest n 1 E).val = n * 2 ^ E := by
  have := nearest_val_exact_quot n 1 E n0 E0 (by norm_num) hn0 hE0 (by simpa using heq)
  simpa using this

theorem nearest_finite_quot (num den : Nat) (E : Int) (n0 : Nat) (E0 : Int) (hden : 0 < den)
    (hn0 : n0 < 2 ^ 53) (hE0 : -1074 ≤ E0) (hE0' : E0 ≤ 971)
    (heq : (num : ℚ) / den * 2 ^ E = n0 * 2 ^ E0) :
    finite (nearest num den E) = some (nearest num den E) := by
  have h2 : (1 : ℚ) < 2 := by norm_num
  have hval := nearest_val_exact_quot num den E n0 E0 hden hn0 hE0 heq
  unfold finite
  rw [if_neg]
  intro hgt
  by_cases hn : num = 0
  · subst hn
    simp [nearest, bit_length, bit_length_aux] at hgt
  · have hpos : 0 < (nearest num den E).m := by
      by_contra hz
      have hz' : (nearest num den E).m = 0 := by omega
      simp only [Double.val, hz', Nat.cast_zero, zero_mul] at hval
      have : (num : ℚ) / den * 2 ^ E ≠ 0 :=
        mul_ne_zero (div_ne_zero (by exact_mod_cast hn) (by exact_mod_cast (ne_of_gt hden)))
          (zpow_ne_zero _ (by norm_num))
      exact this hval.symm
    obtain ⟨b1, _, b3⟩ := bit_length_spec _ hpos
    have c1 : ((2 : ℚ) ^ (bit_length (nearest num den E).m - 1) : ℚ) ≤ (nearest num den E).m := by
      exact_mod_cast b1
    have c2 : (2 : ℚ) ^ (((bit_length (nearest num den E).m - 1 : Nat) : Int) +
        (nearest num den E).e) ≤ (nearest num den E).val := by
      rw [zpow_add₀ (by norm_num), zpow_natCast]
      exact mul_le_mul_of_nonneg_right c1 (le_of_lt (zpow_pos (by norm_num) _))
    have c3 : (nearest num den E).val < (2 : ℚ) ^ ((53 : Int) + E0) := by
      rw [hval, heq, zpow_add₀ (by norm_num)]
      apply mul_lt_mul_of_pos_right _ (zpow_pos (by norm_num) _)
      exact_mod_cast hn0
    have c4 := (zpow_lt_zpow_iff_right₀ h2).1 (lt_of_le_of_lt c2 c3)
    omega

theorem nearest_finite (n : Nat) (E : Int) (n0 : Nat) (E0 : Int) (hn0 : n0 < 2 ^ 53)
    (hE0 : -1074 ≤ E0) (hE0' : E0 ≤ 971) (heq : (n : ℚ) * 2 ^ E = n0 * 2 ^ E0) :
    finite (nearest n 1 E) = some (nearest n 1 E) :=
  nearest_finite_quot n 1 E n0 E0 (by norm_num) hn0 hE0 hE0' (by simpa using heq)

theorem uint64_of_double_val (x : Double) (h : x.val < 2 ^ 64) :
    uint64_of_double x = some ⌊x.val⌋₊ := by
  have hfl : x.m * 2 ^ x.e.toNat / 2 ^ (-x.e).toNat = ⌊x.val⌋₊ := by
    unfold Double.val
    by_cases he : 0 ≤ x.e
    · have e1 : (-x.e).toNat = 0 := by omega
      have e2 : ((2 : ℚ) ^ x.e) = ((2 ^ x.e.toNat : Nat) : ℚ) := by
        push_cast
        rw [← zpow_natCast]
        congr 1
        omega
      rw [e1, e2, ← Nat.cast_mul, Nat.floor_natCast]
      simp
    · have e1 : x.e.toNat = 0 := by omega
      have e2 : ((2 : ℚ) ^ x.e) = (((2 ^ (-x.e).toNat : Nat) : ℚ))⁻¹ := by
        push_cast
        rw [← zpow_natCast, ← zpow_neg]
        congr 1
        omega
      rw [e1, e2, ← div_eq_mul_inv, Nat.floor_div_eq_div]
      simp
  unfold uint64_of_double
  simp only [hfl]
  rw [if_pos]
  have hnn : 0 ≤ x.val := by
    unfold Double.val
    positivity
  have := (Nat.floor_lt hnn).2 (show x.val < ((2 ^ 64 : Nat) : ℚ) by exact_mod_cast h)
  exact this

theorem align_val (m : Nat) (a e : Int) (h : e ≤ a) :
    ((m * 2 ^ (a - e).toNat : Nat) : ℚ) * 2 ^ e = m * 2 ^ a := by
  push_cast
  have : ((2 : ℚ) ^ (a - e).toNat) = (2 : ℚ) ^ (a - e) := by
    rw [← zpow_natCast]
    congr 1
    omega
  rw [this, mul_assoc, ← zpow_add₀ (by norm_num)]
  congr 2
  omega

/-- When the count, its product with the scale factor and that product plus one half
are values of the type `double`, so that nothing is rounded, and the sum is in the range
of `uint64_t`, the scaled total is the floor of the sum. -/
theorem scaled_cnt_exact (c : Nat) (s : Double) (hc : c < 2 ^ 53)
    (hp : is_double_val (c * s.val)) (hs : is_double_val (c * s.val + 1 / 2))
    (hr : (c : ℚ) * s.val + 1 / 2 < 2 ^ 64) :
    scaled_cnt c s = some ⌊(c : ℚ) * s.val + 1 / 2⌋₊ := by
  obtain ⟨P, EP, hP, hEP, hEP', hPeq⟩ := hp
  obtain ⟨S, ES, hS, hES, hES', hSeq⟩ := hs
  have hx : (double_of_uint64 c).val = c := by
    have := nearest_val_exact c 0 c 0 hc (by norm_num) rfl
    simpa [double_of_uint64] using this
  -- the product
  have hpe : ((((double_of_uint64 c).m * s.m : Nat) : ℚ)) * 2 ^ ((double_of_uint64 c).e + s.e) =
      P * 2 ^ EP := by
    rw [← hPeq, ← hx]
    unfold Double.val
    push_cast
    rw [zpow_add₀ (by norm_num)]
    ring
  have hpv := nearest_val_exact _ _ P EP hP hEP hpe
  have hpf := nearest_finite _ _ P EP hP hEP hEP' hpe
  have hpv' : (nearest ((double_of_uint64 c).m * s.m) 1 ((double_of_uint64 c).e + s.e)).val =
      c * s.val := by rw [hpv, hpe, hPeq]
  -- the sum
  generalize hpd : nearest ((double_of_uint64 c).m * s.m) 1 ((double_of_uint64 c).e + s.e) = p
    at hpv' hpf
  have hse : (((p.m * 2 ^ (p.e - min p.e one_half.e).toNat +
      one_half.m * 2 ^ (one_half.e - min p.e one_half.e).toNat : Nat)) : ℚ) *
        2 ^ (min p.e one_half.e) = S * 2 ^ ES := by
    rw [← hSeq, ← hpv', Nat.cast_add, add_mul, align_val _ _ _ (min_le_left _ _),
      align_val _ _ _ (min_le_right _ _)]
    simp [Double.val, one_half]
  have hsv := nearest_val_exact _ _ S ES hS hES hse
  have hsf := nearest_finite _ _ S ES hS hES hES' hse
  have hsv' : (nearest (p.m * 2 ^ (p.e - min p.e one_half.e).toNat +
      one_half.m * 2 ^ (one_half.e - min p.e one_half.e).toNat) 1 (min p.e one_half.e)).val =
      c * s.val + 1 / 2 := by rw [hsv, hse, hSeq]
  unfold scaled_cnt double_mul double_add
  simp only [hpd, hpf, Option.bind_eq_bind, Option.some_bind, hsf]
  rw [uint64_of_double_val _ (by rw [hsv']; exact hr), hsv']

theorem double_of_uint64_val (c : Nat) (hc : c < 2 ^ 53) : (double_of_uint64 c).val = c := by
  have := nearest_val_exact c 0 c 0 hc (by norm_num) rfl
  simpa [double_of_uint64] using this

/-- When two counts are below `2^53`, the second is not zero and their quotient is a value
of the type `double`, the division in `double` gives that quotient. -/
theorem double_div_exact (cnt call : Nat) (hcnt : cnt < 2 ^ 53) (hcall : call < 2 ^ 53)
    (h0 : call ≠ 0) (hq : is_double_val ((cnt : ℚ) / call)) :
    ∃ d, double_div (double_of_uint64 cnt) (double_of_uint64 call) = some d ∧
      d.val = (cnt : ℚ) / call := by
  obtain ⟨n0, E0, hn0, hE0, hE0', hqe⟩ := hq
  have hx := double_of_uint64_val cnt hcnt
  have hy := double_of_uint64_val call hcall
  have h2 : (2 : ℚ) ≠ 0 := by norm_num
  have hym : (double_of_uint64 call).m ≠ 0 := by
    intro hz
    simp only [Double.val, hz, Nat.cast_zero, zero_mul] at hy
    exact h0 (by exact_mod_cast hy.symm)
  have heq : (((double_of_uint64 cnt).m : ℚ)) / (double_of_uint64 call).m *
      2 ^ ((double_of_uint64 cnt).e - (double_of_uint64 call).e) = n0 * 2 ^ E0 := by
    rw [← hqe, ← hx, ← hy]
    unfold Double.val
    rw [zpow_sub₀ h2]
    have hm : (((double_of_uint64 call).m : ℚ)) ≠ 0 := by exact_mod_cast hym
    have hp : ((2 : ℚ) ^ (double_of_uint64 call).e) ≠ 0 := zpow_ne_zero _ h2
    field_simp
  have hv := nearest_val_exact_quot _ _ _ n0 E0 (Nat.pos_of_ne_zero hym) hn0 hE0 heq
  have hf := nearest_finite_quot _ _ _ n0 E0 (Nat.pos_of_ne_zero hym) hn0 hE0 hE0' heq
  refine ⟨nearest (double_of_uint64 cnt).m (double_of_uint64 call).m
    ((double_of_uint64 cnt).e - (double_of_uint64 call).e), ?_, ?_⟩
  · unfold double_div
    rw [if_neg hym]
    exact hf
  · rw [hv, heq, hqe]

/-! ## The scenario trace -/

theorem scenario_prefix (C : CordicOps) :
    parse C ["cordic_constructed 0x1 32 32 0 16", "enter f", "constructed 0x10 0x1"] =
      .ok (scenario_state C) := by
  rfl

theorem scenario_op2f_fatal (C : CordicOps) :
    fatal (parse_line C (scenario_state C) "op2f push_constant 0x10 3.14") := by
  have hkind : parse_kind (c_str "op2f push_constant 0x10 3.14") =
      .ok (KIND.op2f, " push_constant 0x10 3.14".data) := by decide
  have hname : parse_name " push_constant 0x10 3.14".data =
      .ok ("push_constant", " 0x10 3.14".data) := by decide
  have hA : parse_addr " 0x10 3.14".data = .ok (16, " 3.14".data) := by decide
  simp only [parse_line, hkind]
  apply fatal_of_not_ok
  intro a' ha'
  obtain ⟨_, _, A, c2, _, _, v, _, hA', _, hf, _, has, _⟩ :=
    (case_op2f_ok_iff C (scenario_state C) a' _ _ _ hname).1 ha'
  rw [hA] at hA'
  cases hA'
  have hf' : Map.find (scenario_state C).vals 16 =
      some ⟨true, false, none, none, none, false, none, none, none⟩ := rfl
  rw [hf'] at hf
  cases hf
  cases has

theorem lookup_op_found (a : Analysis) (name : String) (op : Nat)
    (h : Map.find a.ops name = some op) : lookup_op a name = (op, a) := by
  simp [lookup_op, Map.subscript, h]

theorem listed_ops_after_push_constant (C : CordicOps) (call_cnt : Nat) :
    listed_ops_of_spec C ⟨call_cnt, incr_at (List.replicate C.OP_cnt 0) C.push_constant⟩ = [] := by
  unfold listed_ops_of_spec
  rw [List.filter_eq_nil_iff]
  intro i _
  by_cases hi : i = C.push_constant
  · simp [free_op, hi]
  · have hz : (incr_at (List.replicate C.OP_cnt 0) C.push_constant).getD i 0 = 0 := by
      rw [incr_at_getD_ne _ _ _ hi]
      simp [List.getElem?_getD_replicate_default_eq]
    simp only [hz, ne_eq, not_true_eq_false, decide_False, Bool.and_false,
      Bool.false_eq_true, not_false_eq_true]

theorem scenario_op1f (C : CordicOps)
    (hpc : Map.find (build_ops C) "push_constant" = some C.push_constant) :
    parse_lines C (scenario_state C) ["op1f push_constant 3.14", "leave f"] =
      .ok (scenario_end C) := by
  have hkind : parse_kind (c_str "op1f push_constant 3.14") =
      .ok (KIND.op1f, " push_constant 3.14".data) := by decide
  have hname : parse_name " push_constant 3.14".data =
      .ok ("push_constant", " 3.14".data) := by decide
  have hflt : parse_flt " 3.14".data = .ok (⟨"3.14"⟩, []) := by decide
  have hlook : lookup_op (scenario_state C) "push_constant" =
      (C.push_constant, scenario_state C) := lookup_op_found _ _ _ hpc
  have h4 : parse_line C (scenario_state C) "op1f push_constant 3.14" =
      .ok { scenario_end C with stack := [⟨"f"⟩] } := by
    simp only [parse_line, hkind]
    rw [case_op1f_ok_iff C _ _ _ _ _ hname]
    refine ⟨⟨"f"⟩, [], ⟨"3.14"⟩, [], rfl, by rw [hlook], hflt,
      (by show (0 : Nat) < 2; decide), ?_⟩
    simp only [op_state, hlook, funcs_after_inc, Map.subscript]
    rfl
  have h5 : parse_line C { scenario_end C with stack := [⟨"f"⟩] } "leave f" =
      .ok (scenario_end C) := by
    have hk : parse_kind (c_str "leave f") = .ok (KIND.leave, " f".data) := by decide
    simp only [parse_line, hk]
    rw [case_leave_ok]
    exact ⟨"f", [], [], by decide, rfl, rfl, rfl⟩
  simp only [parse_lines, h4, h5]

theorem scenario_report (C : CordicOps) (s : Double) :
    print_stats C (scenario_end C) s [] = [Row.func "f" 1] := by
  rw [print_stats_eq]
  have h1 : reported_funcs (scenario_end C) [] = ["f"] := rfl
  have h2 : func_block_of_spec C (scenario_end C) s "f" = [Row.func "f" 1] := by
    have hf : Map.find (scenario_end C).funcs "f" =
        some ⟨1, incr_at (List.replicate C.OP_cnt 0) C.push_constant⟩ := rfl
    simp only [func_block_of_spec, hf, listed_ops_after_push_constant, List.map_nil]
  have h3 : totals_block_of_spec C (scenario_end C) s [] = [] := by
    unfold totals_block_of_spec
    rw [List.map_eq_nil_iff, List.filter_eq_nil_iff]
    intro i _
    have hr : raw_total (scenario_end C) [] i =
        (incr_at (List.replicate C.OP_cnt 0) C.push_constant).getD i 0 := by
      simp only [raw_total, h1, List.map_cons, List.map_nil, List.sum_cons, List.sum_nil,
        Nat.add_zero]
      rfl
    by_cases hi : i = C.push_constant
    · simp [free_op, hi]
    · have hz : (incr_at (List.replicate C.OP_cnt 0) C.push_constant).getD i 0 = 0 := by
        rw [incr_at_getD_ne _ _ _ hi]
        simp [List.getElem?_getD_replicate_default_eq]
      simp only [hr, hz, Nat.zero_mod, ne_eq, not_true_eq_false, decide_False,
        Bool.and_false, Bool.false_eq_true, not_false_eq_true]
  rw [h1, h3]
  simp [h2]

/-! ## The blocks of the report -/

theorem mem_listed_ops (C : CordicOps) (func : FuncInfo) (i : Nat) :
    i ∈ listed_ops_of_spec C func ↔
      i < C.OP_cnt ∧ func.op_cnt.getD i 0 ≠ 0 ∧ i ≠ C.push_constant ∧ i ≠ C.assign ∧
        i ≠ C.pop_value := by
  simp only [listed_ops_of_spec, free_op, List.mem_filter, List.mem_range, Bool.and_eq_true,
    Bool.not_eq_true', decide_eq_false_iff_not, decide_eq_true_eq, not_or]
  constructor
  · rintro ⟨h1, ⟨h2, h3, h4⟩, h5⟩
    exact ⟨h1, h5, h2, h3, h4⟩
  · rintro ⟨h1, h5, h2, h3, h4⟩
    exact ⟨h1, ⟨h2, h3, h4⟩, h5⟩

theorem listed_ops_increasing (C : CordicOps) (func : FuncInfo) :
    (listed_ops_of_spec C func).Pairwise (fun i j => i < j) :=
  List.Pairwise.sublist (List.filter_sublist _) (List.pairwise_lt_range _)

theorem total_rows_only (C : CordicOps) (a : Analysis) (s : Double) (ig : List String) :
    ∀ r ∈ totals_block_of_spec C a s ig, ∃ name cnt sc, r = Row.total name cnt sc := by
  intro r hr
  simp only [totals_block_of_spec, List.mem_map] at hr
  obtain ⟨i, _, hi⟩ := hr
  exact ⟨_, _, _, hi.symm⟩

theorem func_block_rows (C : CordicOps) (a : Analysis) (s : Double) (g : String) :
    ∀ r ∈ func_block_of_spec C a s g, (∃ n, r = Row.func g n) ∨ ∃ name avg cnt sc,
      r = Row.op name avg cnt sc := by
  intro r hr
  unfold func_block_of_spec at hr
  cases hf : Map.find a.funcs g with
  | none => simp [hf] at hr
  | some func =>
    simp only [hf, List.mem_cons, List.mem_map] at hr
    rcases hr with h | ⟨i, _, h⟩
    · exact Or.inl ⟨_, h⟩
    · exact Or.inr ⟨_, _, _, _, h.symm⟩

/-! ## The arithmetic of `mpint.h` on one word -/

theorem to_uint64_to_int64 (x : Nat) (hx : x < 2 ^ 64) : to_uint64 (to_int64 x) = x := by
  unfold to_uint64 to_int64
  split <;> omega

theorem to_uint64_neg (x : Nat) (hx : x < 2 ^ 64) :
    (2 ^ 64 - 1 - x + 1) % 2 ^ 64 = to_uint64 (-(to_int64 x)) := by
  unfold to_uint64 to_int64
  split <;> omega

theorem to_uint64_add (x y : Nat) :
    (x + y) % 2 ^ 64 = to_uint64 (to_int64 x + to_int64 y) := by
  unfold to_uint64 to_int64
  split <;> split <;> omega

theorem to_uint64_sub (x y : Nat) (hy : y < 2 ^ 64) :
    (x + (2 ^ 64 - 1 - y + 1) % 2 ^ 64) % 2 ^ 64 = to_uint64 (to_int64 x - to_int64 y) := by
  unfold to_uint64 to_int64
  split <;> split <;> omega

theorem word_cnt_single (w : Nat) (h0 : 0 < w) (h64 : w ≤ 64) :
    (w + 63) % 2 ^ 64 / 64 = 1 := by
  omega

theorem neg_single (w x : Nat) (h0 : 0 < w) :
    mpint.neg ⟨w, 1, .w0 x⟩ = .ok ⟨w, 1, .w0 ((2 ^ 64 - 1 - x + 1) % 2 ^ 64)⟩ := by
  have hw : decide (w > 0) = true := by simpa using h0
  simp [mpint.neg, iassert, hw, bind, Outcome.bind, mpint.u_w0, Storage.of_w0, pure]

theorem add_single (wa wb x y : Nat) (h0 : 0 < wa) (h64 : wa ≤ 64) :
    mpint.add ⟨wa, 1, .w0 x⟩ ⟨wb, 1, .w0 y⟩ =
      .ok ⟨max wa wb, 1, .w0 ((x + y) % 2 ^ 64)⟩ := by
  have hc := word_cnt_single wa h0 h64
  have hm : (if wa > wb then wa else wb) = max wa wb := by
    split
    · exact (max_eq_left (by omega)).symm
    · exact (max_eq_right (by omega)).symm
  simp only [mpint.add, hc, hm, if_true, mpint.u_w0, Storage.of_w0]

theorem ctor_single (implicit_int_w : Nat) (init : Int) (w : Nat) (h0 : 0 < w)
    (h64 : w ≤ 64) :
    mpint.ctor implicit_int_w init w = .ok ⟨w, 1, .w0 (to_uint64 init)⟩ := by
  have hc := word_cnt_single w h0 h64
  have hw : w ≠ 0 := by omega
  have hd : decide (w > 0) = true := by simpa using h0
  norm_num at hc
  simp [mpint.ctor, hw, iassert, hd, bind, Outcome.bind, hc, pure]

/-! ## The loop of `to_mpint` -/

theorem shl_pos_single (w x k : Nat) (hk : k < 64) :
    mpint.shl_pos ⟨w, 1, .w0 x⟩ k = .ok ⟨0, 0, .w0 ((x <<< k) % 2 ^ 64)⟩ := by
  simp [mpint.shl_pos, hk, mpint.u_w0, Storage.of_w0]

theorem shr_pos_single (w x k : Nat) (hk : k < 64) :
    mpint.shr_pos ⟨w, 1, .w0 x⟩ k = .ok ⟨0, 0, .w0
      (((((2 ^ 64 - (if x < 1 then 1 else 0)) % 2 ^ 64) <<< (64 - k)) % 2 ^ 64) |||
        (x >>> k))⟩ := by
  simp [mpint.shr_pos, hk, mpint.u_w0, Storage.of_w0]

/-- The statement `r = (r << 3) + (r << 1) + mpint( c - '0' )` of `to_mpint` on an object
of one word leaves the word of `r` unwritten. -/
theorem to_mpint_digit_step (w : Nat) (u : Storage) (d : Int) (h0 : 0 < w) (h64 : w ≤ 64) :
    (do
      let r3 ← mpint.shl ⟨w, 1, u⟩ 3
      let r1 ← mpint.shl ⟨w, 1, u⟩ 1
      let t ← r3.add r1
      let x ← mpint.ctor w d 0
      let t ← t.add x
      mpint.assign ⟨w, 1, u⟩ t) = .ok ⟨w, 1, .unset⟩ := by
  have hc : (w + 63) % 18446744073709551616 / 64 = 1 := by omega
  have hw : w ≠ 0 := by omega
  have hd : decide (w > 0) = true := by simpa using h0
  simp [mpint.shl, mpint.shl_pos, mpint.add, mpint.ctor, mpint.assign, iassert, bind,
    Outcome.bind, pure, hc, hw, hd, h0, mpint.u_w0, Storage.of_w0]

/-- The state of the loop of `to_mpint` for an implicit width of one word: `r` has the
implicit width, and its word is 0 before the first digit and unwritten after it. -/
theorem to_mpint_loop_word (w : Nat) (allow : Bool) (h0 : 0 < w) (h64 : w ≤ 64) :
    ∀ (s : List Char) (u : Storage) (is_neg got : Bool) (i : Nat)
      (res : mpint × Bool × Bool × Nat),
      (got = true → u = .unset) → (got = false → u = .w0 0) →
      to_mpint_loop w allow s ⟨w, 1, u⟩ is_neg got i = .ok res →
      ∃ u', res.1 = ⟨w, 1, u'⟩ ∧ (res.2.2.1 = true → u' = .unset) ∧
        (res.2.2.1 = false → u' = .w0 0) := by
  have hc : (w + 63) % 18446744073709551616 / 64 = 1 := by omega
  have hw : w ≠ 0 := by omega
  have hd : decide (w > 0) = true := by simpa using h0
  intro s
  induction s with
  | nil =>
    intro u is_neg got i res hu1 hu0 h
    simp only [to_mpint_loop, Outcome.ok.injEq] at h
    subst h
    exact ⟨u, rfl, hu1, hu0⟩
  | cons c s ih =>
    intro u is_neg got i res hu1 hu0 h
    unfold to_mpint_loop at h
    split at h
    · exact ih u is_neg got (i + 1) res hu1 hu0 h
    · split at h
      · split at h
        · cases allow with
          | false => simp [iassert, bind, Outcome.bind] at h
          | true =>
            simp only [iassert, bind, Outcome.bind, pure, if_true, Outcome.ok.injEq] at h
            subst h
            exact ⟨u, rfl, hu1, hu0⟩
        · exact ih u true got (i + 1) res hu1 hu0 h
      · split at h
        · simp [mpint.shl, mpint.shl_pos, mpint.add, mpint.ctor, mpint.assign, iassert, bind,
            Outcome.bind, pure, hc, hw, hd, h0, mpint.u_w0, Storage.of_w0] at h
          exact ih .unset is_neg true (i + 1) res (fun _ => rfl) (fun h' => by cases h') h
        · simp only [Outcome.ok.injEq] at h
          subst h
          exact ⟨u, rfl, hu1, hu0⟩

/-- With an implicit width of one word, a call of `to_mpint` that demands a conversion
returns, if it returns, an object whose word was never written. -/
theorem to_mpint_unwritten (w : Nat) (s : String) (r : mpint) (pos : Nat) (h0 : 0 < w)
    (h64 : w ≤ 64) (h : mpint.to_mpint w s false 10 = .ok (r, pos)) :
    r = ⟨w, 1, .unset⟩ := by
  have hc : (w + 63) % 18446744073709551616 / 64 = 1 := by omega
  have hw : w ≠ 0 := by omega
  have hd : decide (w > 0) = true := by simpa using h0
  unfold mpint.to_mpint at h
  simp only [iassert, decide_True, if_true, bind, Outcome.bind] at h
  have hctor : mpint.ctor w 0 0 = .ok ⟨w, 1, .w0 0⟩ := by
    simp [mpint.ctor, hw, iassert, hd, bind, Outcome.bind, hc, pure, to_uint64]
  rw [hctor] at h
  simp only [] at h
  cases hl : to_mpint_loop w false s.data ⟨w, 1, .w0 0⟩ false false 0 with
  | fatal msg => rw [hl] at h; simp at h
  | undefined => rw [hl] at h; simp at h
  | ok res =>
    rw [hl] at h
    obtain ⟨u', hr, hu1, _⟩ := to_mpint_loop_word w false h0 h64 s.data (.w0 0) false false 0
      res (fun h' => by cases h') (fun _ => rfl) hl
    obtain ⟨r0, is_neg, got, i⟩ := res
    simp only [] at hr hu1 h
    subst hr
    cases got with
    | false => simp at h
    | true =>
      rw [hu1 rfl] at h
      cases is_neg with
      | false =>
        simp [pure] at h
        exact h.1.symm
      | true =>
        simp [pure, mpint.neg, mpint.assign, iassert, hd, bind, Outcome.bind, mpint.u_w0,
          Storage.of_w0, hw, h0] at h
        exact h.1.symm

/-! ## The bits of an `mpint` -/

theorem twos_complement_eq (w : Nat) (v : Int) (h64 : w ≤ 64) :
    twos_complement w v = to_uint64 v % 2 ^ w := by
  unfold twos_complement to_uint64
  have hdvd : ((2 : Int) ^ w) ∣ 2 ^ 64 := pow_dvd_pow 2 h64
  have h1 : v % 2 ^ 64 % 2 ^ w = v % 2 ^ w := Int.emod_emod_of_dvd v hdvd
  have h2 : 0 ≤ v % (2 ^ 64 : Int) := Int.emod_nonneg _ (by norm_num)
  have h3 : 0 ≤ v % (2 ^ w : Int) := Int.emod_nonneg _ (by positivity)
  apply Int.ofNat_inj.1
  rw [Int.toNat_of_nonneg h3, Int.natCast_mod, Int.toNat_of_nonneg h2, Nat.cast_pow,
    Nat.cast_ofNat, h1]

theorem shift_bit_eq_testBit (x i : Nat) :
    decide ((x >>> i) % 2 = 1) = x.testBit i := by
  rw [Nat.testBit_to_div_mod, Nat.shiftRight_eq_div_pow]

theorem testBit_twos_complement (w : Nat) (v : Int) (i : Nat) (h64 : w ≤ 64) (hi : i < w) :
    (twos_complement w v).testBit i = (to_uint64 v).testBit i := by
  rw [twos_complement_eq w v h64, Nat.testBit_mod_two_pow]
  simp [hi]

theorem testBit_sign (w : Nat) (v : Int) (h0 : 0 < w)
    (hlo : -(2 ^ (w - 1) : Int) ≤ v) (hhi : v < 2 ^ (w - 1)) :
    (twos_complement w v).testBit (w - 1) = decide (v < 0) := by
  have hw : w = (w - 1) + 1 := by omega
  have hp : (2 : Int) ^ w = 2 * 2 ^ (w - 1) := by
    conv_lhs => rw [hw]
    rw [pow_succ]
    ring
  have hpos : (0 : Int) < 2 ^ (w - 1) := by positivity
  unfold twos_complement
  by_cases hv : v < 0
  · have h1 : v % (2 ^ w : Int) = v + 2 ^ w := by
      rw [← Int.add_emod_self]
      exact Int.emod_eq_of_lt (by omega) (by omega)
    rw [h1]
    have h2 : (v + 2 ^ w).toNat = 2 ^ (w - 1) + (v + 2 ^ (w - 1)).toNat := by
      apply Int.ofNat_inj.1
      rw [Int.toNat_of_nonneg (by omega)]
      push_cast
      rw [Int.toNat_of_nonneg (by omega)]
      omega
    have h3 : (v + 2 ^ (w - 1)).toNat < 2 ^ (w - 1) := by
      apply Int.ofNat_lt.1
      rw [Int.toNat_of_nonneg (by omega)]
      push_cast
      omega
    rw [h2, Nat.testBit_two_pow_add_eq, Nat.testBit_lt_two_pow h3]
    simp [hv]
  · have h1 : v % (2 ^ w : Int) = v := Int.emod_eq_of_lt (by omega) (by omega)
    rw [h1]
    have h3 : v.toNat < 2 ^ (w - 1) := by
      apply Int.ofNat_lt.1
      rw [Int.toNat_of_nonneg (by omega)]
      push_cast
      omega
    rw [Nat.testBit_lt_two_pow h3]
    simp [hv]

theorem bit_single (w x i : Nat) (hi : i < w) (h64 : w ≤ 64) :
    mpint.bit ⟨w, 1, .w0 x⟩ i = .ok (x.testBit i) := by
  have h0 : 0 < w := by omega
  have hi64 : i < 64 := by omega
  simp only [mpint.bit, iassert, bind, Outcome.bind, h0, hi, gt_iff_lt, decide_True, if_true,
    hi64, mpint.u_w0, pure, shift_bit_eq_testBit]

theorem signbit_single (w x : Nat) (h0 : 0 < w) (h64 : w ≤ 64) :
    mpint.signbit ⟨w, 1, .w0 x⟩ = .ok (x.testBit (w - 1)) := by
  have h : (w + (2 ^ 64 - 1)) % 2 ^ 64 = w - 1 := by omega
  unfold mpint.signbit
  simp only [h]
  exact bit_single w x (w - 1) (by omega) h64

theorem u_w_last (w wc n : Nat) (s x : Option Nat) :
    mpint.u_w ⟨w, wc, .w (List.replicate n s ++ [x])⟩ n = .ok x := by
  simp [mpint.u_w]

theorem ctor_multi (implicit_int_w : Nat) (init : Int) (w : Nat) (h64 : 64 < w)
    (hmax : w ≤ 2 ^ 64 - 64) :
    mpint.ctor implicit_int_w init w = .ok ⟨w, (w + 63) / 64,
      .w (List.replicate ((w + 63) / 64 - 1) (some (if init < 0 then 2 ^ 64 - 1 else 0)) ++
        [some (to_uint64 init)])⟩ := by
  have hw : w ≠ 0 := by omega
  have hd : decide (w > 0) = true := by simp; omega
  have hm : (w + 63) % 18446744073709551616 = w + 63 := by omega
  have h1 : (w + 63) / 64 ≠ 1 := by omega
  have h2 : (w + 63) / 64 ≠ 0 := by omega
  simp [mpint.ctor, hw, iassert, hd, bind, Outcome.bind, pure, hm, h1, h2]

theorem bit_multi (w wc n i : Nat) (s : Option Nat) (x : Nat) (hi : i < w) (h1 : 1 < wc)
    (hwc : wc ≤ 64) (hn : n = wc - 1) :
    mpint.bit ⟨w, wc, .w (List.replicate n s ++ [some x])⟩ i =
      .ok (x.testBit (i % wc)) := by
  have h0 : 0 < w := by omega
  have hne1 : wc ≠ 1 := by omega
  have hne0 : wc ≠ 0 := by omega
  have hlt : i % wc < 64 := lt_of_lt_of_le (Nat.mod_lt _ (by omega)) hwc
  subst hn
  simp only [mpint.bit, iassert, bind, Outcome.bind, h0, hi, gt_iff_lt, decide_True, if_true,
    hne1, hne0, if_false, hlt, u_w_last, pure, shift_bit_eq_testBit]

/-! ## Shifts of one word -/

theorem shl_single (w x : Nat) (k : Nat) (h0 : 0 < k) (hk : k < 64) :
    mpint.shl ⟨w, 1, .w0 x⟩ (k : Int) = .ok ⟨0, 0, .w0 (x * 2 ^ k % 2 ^ 64)⟩ := by
  have h1 : (k : Int) ≠ 0 := by omega
  have h2 : ¬ (k : Int) < 0 := by omega
  simp only [mpint.shl, h1, h2, if_false, Int.toNat_ofNat, shl_pos_single w x k hk,
    Nat.shiftLeft_eq]

theorem sign_fill (k : Nat) (h0 : 0 < k) (hk : k < 64) :
    (((2 ^ 64 - 1) % 2 ^ 64) <<< (64 - k)) % 2 ^ 64 = 2 ^ 64 - 2 ^ (64 - k) := by
  interval_cases k <;> rfl

theorem shr_single (w x : Nat) (k : Nat) (h0 : 0 < k) (hk : k < 64) :
    mpint.shr ⟨w, 1, .w0 x⟩ (k : Int) =
      .ok ⟨0, 0, .w0 (if x = 0 then 2 ^ 64 - 2 ^ (64 - k) else x / 2 ^ k)⟩ := by
  have h1 : (k : Int) ≠ 0 := by omega
  have h2 : ¬ (k : Int) < 0 := by omega
  simp only [mpint.shr, h1, h2, if_false, Int.toNat_ofNat, shr_pos_single w x k hk]
  by_cases hx : x = 0
  · subst hx
    simp only [Nat.lt_one_iff, if_true, sign_fill k h0 hk, Nat.zero_shiftRight, Nat.or_zero]
  · have hx1 : ¬ x < 1 := by omega
    simp only [hx1, hx, if_false, Nat.sub_zero, Nat.mod_self, Nat.zero_shiftLeft, Nat.zero_mod,
      Nat.zero_or, Nat.shiftRight_eq_div_pow]

theorem shl_neg_eq (a : mpint) (k : Nat) (h0 : 0 < k) (hk : k < 2 ^ 31) :
    mpint.shl a (-(k : Int)) = mpint.shr a (k : Int) ∧
    mpint.shr a (-(k : Int)) = mpint.shl a (k : Int) := by
  have h1 : (k : Int) ≠ 0 := by omega
  have h2 : ¬ (k : Int) < 0 := by omega
  have h3 : -(k : Int) ≠ 0 := by omega
  have h4 : -(k : Int) < 0 := by omega
  have h5 : ¬ -(k : Int) ≤ -(2 ^ 31) := by omega
  constructor <;>
    simp only [mpint.shl, mpint.shr, h1, h2, h3, h4, h5, if_false, if_true, neg_neg]

/-! ## `to_string` in base 2, and the padding -/

theorem to_string_bits_single (w x : Nat) (h64 : w ≤ 64) :
    ∀ (todo i : Nat) (s : List Char), i + todo = w →
      to_string_bits ⟨w, 1, .w0 x⟩ todo i s =
        .ok (s ++ (List.range' i todo).map
          (fun j => if x.testBit (w - 1 - j) then '1' else '0')) := by
  intro todo
  induction todo with
  | zero =>
    intro i s _
    simp [to_string_bits]
  | succ n ih =>
    intro i s hi
    have hb := bit_single w x (w - 1 - i) (by omega) h64
    simp only [to_string_bits, bind, Outcome.bind, hb]
    rw [ih (i + 1) _ (by omega)]
    simp [List.range'_succ]

/-- The padding of `to_string`: with a `width` that is not negative the result is the
result for the width 0 with spaces before it, up to `width` characters. -/
theorem to_string_pad (a : mpint) (base width : Int) (hw : 0 ≤ width) :
    a.to_string base width = Outcome.bind (a.to_string base 0) (fun s =>
      .ok (String.mk (List.replicate (width.toNat - s.length) ' ' ++ s.data))) := by
  have hneg : ¬ width < 0 := by omega
  have h00 : ¬ (0 : Int) < 0 := by omega
  unfold mpint.to_string
  simp only [bind, Outcome.bind, pure]
  cases iassert (decide (a.int_w > 0)) "to_string: this mpint is undefined" with
  | fatal msg => rfl
  | undefined => rfl
  | ok _ =>
    simp only []
    cases iassert (decide (base ≥ 0 ∧ base ≤ 36)) "base must be between 0 and 36" with
    | fatal msg => rfl
    | undefined => rfl
    | ok _ =>
      simp only [hneg, h00, if_false]
      have hlen : ∀ y : List Char,
          (Outcome.ok (String.mk (List.replicate (width.toNat - y.length) ' ' ++ y)) :
            Outcome String) =
          Outcome.ok (String.mk (List.replicate (width.toNat -
            (String.mk (List.replicate (Int.toNat 0 - y.length) ' ' ++ y)).length) ' ' ++
            (String.mk (List.replicate (Int.toNat 0 - y.length) ' ' ++ y)).data)) := by
        intro y
        simp [String.length]
      generalize (if base = 0 then (10 : Int) else base) = b
      by_cases h2 : b = 2
      · simp only [h2, if_true]
        cases to_string_bits a a.int_w 0 [] with
        | ok y => exact hlen y
        | fatal msg => rfl
        | undefined => rfl
      · simp only [h2, if_false]
        cases a.signbit with
        | fatal msg => rfl
        | undefined => rfl
        | ok is_neg =>
          simp only []
          cases is_neg with
          | true =>
            simp only [if_true]
            cases a.neg with
            | fatal msg => rfl
            | undefined => rfl
            | ok n =>
              simp only []
              cases to_string_outer b.toNat n n.int_w 0 (['0'], ['1']) with
              | ok y => exact hlen y
              | fatal msg => rfl
              | undefined => rfl
          | false =>
            simp only [Bool.false_eq_true, if_false]
            cases to_string_outer b.toNat a a.int_w 0 (['0'], ['1']) with
            | ok y => exact hlen y
            | fatal msg => rfl
            | undefined => rfl

theorem to_string_base2_single (w x : Nat) (width : Int) (h0 : 0 < w) (h64 : w ≤ 64)
    (hwidth : 0 ≤ width) :
    mpint.to_string ⟨w, 1, .w0 x⟩ 2 width =
      .ok (String.mk (List.replicate (width.toNat - w) ' ' ++
        (List.range w).map (fun j => if x.testBit (w - 1 - j) then '1' else '0'))) := by
  have hneg : ¬ width < 0 := by omega
  have hbits := to_string_bits_single w x h64 w 0 [] (by omega)
  simp only [mpint.to_string, iassert, bind, Outcome.bind, pure, h0, gt_iff_lt, decide_True,
    if_true, hbits, hneg, if_false]
  simp [List.range_eq_range']

/-! ## The constructor for every width -/

theorem ctor_width (implicit_int_w : Nat) (v : Int) (w : Nat) (h0 : 0 < w)
    (hmax : w ≤ 2 ^ 64 - 64) :
    mpint.ctor implicit_int_w v w = .ok ⟨w, (w + 63) / 64,
      if w ≤ 64 then .w0 (to_uint64 v)
      else .w (List.replicate ((w + 63) / 64 - 1) (some (if v < 0 then 2 ^ 64 - 1 else 0)) ++
        [some (to_uint64 v)])⟩ := by
  by_cases h : w ≤ 64
  · rw [ctor_single implicit_int_w v w h0 h, if_pos h]
    have : (w + 63) / 64 = 1 := by omega
    rw [this]
  · rw [ctor_multi implicit_int_w v w (by omega) hmax, if_neg h]

theorem ctor_implicit (w : Nat) (v : Int) (h0 : 0 < w) :
    mpint.ctor w v 0 = mpint.ctor w v w := by
  have hw : w ≠ 0 := by omega
  simp [mpint.ctor, hw]

/-! ## Call counts, and traces with a fatal line -/

theorem round_half_even_ge (num den : Nat) : num / den ≤ round_half_even num den := by
  unfold round_half_even
  simp only []
  split
  · exact le_refl _
  · split
    · exact Nat.le_succ _
    · split
      · exact le_refl _
      · exact Nat.le_succ _

theorem double_of_uint64_ne_zero (n : Nat) (hn : n ≠ 0) : (double_of_uint64 n).m ≠ 0 := by
  have hpos : 0 < n := Nat.pos_of_ne_zero hn
  unfold double_of_uint64 nearest
  rw [if_neg hn]
  simp only []
  have hge := round_half_even_ge
    (n * 2 ^ (-(max (floor_log2 n 1 - 52) (-1074 - 0))).toNat)
    (1 * 2 ^ (max (floor_log2 n 1 - 52) (-1074 - 0)).toNat)
  have hq : 1 ≤ n * 2 ^ (-(max (floor_log2 n 1 - 52) (-1074 - 0))).toNat /
      (1 * 2 ^ (max (floor_log2 n 1 - 52) (-1074 - 0)).toNat) := by
    rw [Nat.one_le_div_iff (by positivity)]
    rw [one_mul]
    have hlog := floor_log2_le n 1 hpos Nat.one_pos
    have hL : 0 ≤ floor_log2 n 1 ∨ floor_log2 n 1 < 0 := by omega
    have h1 : 2 ^ (max (floor_log2 n 1 - 52) (-1074 - 0)).toNat ≤ n := by
      rcases hL with hL | hL
      · have hk : (max (floor_log2 n 1 - 52) (-1074 - 0)).toNat ≤ (floor_log2 n 1).toNat := by
          omega
        have h2 : (2 : ℚ) ^ (floor_log2 n 1).toNat ≤ n := by
          rw [zpow_toNat _ hL]
          simpa using hlog
        have h3 : 2 ^ (floor_log2 n 1).toNat ≤ n := by exact_mod_cast h2
        exact le_trans (Nat.pow_le_pow_right (by norm_num) hk) h3
      · have hk : (max (floor_log2 n 1 - 52) (-1074 - 0)).toNat = 0 := by omega
        rw [hk]
        simpa using hpos
    exact le_trans h1 (Nat.le_mul_of_pos_right _ (by positivity))
  omega

/-- One accepted line keeps every call count at 1 or more, while the counts are below
`2^64 - 1`. -/
theorem line_effect_calls (C : CordicOps) (n : Nat) (a a' : Analysis)
    (hfr : frames_known a) (hb : counts_bounded n a) (hn : n + 1 < 2 ^ 64)
    (hc : ∀ f fi, Map.find a.funcs f = some fi → 1 ≤ fi.call_cnt)
    (heff : line_effect C a a') :
    ∀ f fi, Map.find a'.funcs f = some fi → 1 ≤ fi.call_cnt := by
  rcases heff with h | ⟨A, e, h, _⟩ | ⟨V, v, h⟩ | ⟨f, _, h⟩ | ⟨g, rest, _, h⟩ |
    ⟨name, fr, rest, vals, vs, hst, h, _⟩
  · subst h
    exact hc
  · subst h
    exact hc
  · subst h
    exact hc
  · subst h
    intro g fi hg
    by_cases hgf : g = f
    · subst hgf
      rcases find_enter_state_self C a g with ⟨_, h1, _⟩ | ⟨it, h0, h1, _⟩
      · rw [h1] at hg
        cases hg
        exact le_refl _
      · rw [h1] at hg
        cases hg
        have h2 := (hb g it h0).1
        have h3 : (it.call_cnt + 1) % 2 ^ 64 = it.call_cnt + 1 :=
          Nat.mod_eq_of_lt (by omega)
        simp only [h3]
        omega
    · rw [find_enter_state_ne C a f g hgf] at hg
      exact hc g fi hg
  · subst h
    exact hc
  · subst h
    intro g fi hg
    simp only [(op_state_fields C a name fr).2.2.2.2.2.1] at hg
    by_cases hgf : g = fr.func_name
    · subst hgf
      obtain ⟨fi0, h1, h0⟩ := find_funcs_after_inc_self C a.funcs fr.func_name
        (lookup_op a name).1
      rw [h1] at hg
      cases hg
      have hknown := hfr fr (by rw [hst]; exact List.mem_cons_self _ _)
      rcases h0 with h0 | ⟨h0, _⟩
      · exact hc _ fi0 h0
      · rw [h0] at hknown
        simp at hknown
    · rw [find_funcs_after_inc_ne C a.funcs fr.func_name g _ hgf] at hg
      exact hc g fi hg

/-- After a trace of fewer than `2^64` lines every function of the table has been
entered at least once by its count. -/
theorem parse_calls_counted (C : CordicOps) (lines : List String) :
    ∀ a, parse C lines = .ok a → lines.length < 2 ^ 64 →
      ∀ f fi, Map.find a.funcs f = some fi → 1 ≤ fi.call_cnt := by
  induction lines using List.reverseRecOn with
  | nil =>
    intro a h _ f fi hf
    simp only [parse, parse_lines, Except.ok.injEq] at h
    subst h
    simp [Analysis.init, Map.find] at hf
  | append_singleton l line ih =>
    intro a h hlen
    simp only [List.length_append, List.length_singleton] at hlen
    obtain ⟨m, hm, hline⟩ := (parse_lines_append C l [line] (Analysis.init C) a).1 h
    have hl : parse_line C m line = .ok a := by
      simp only [parse_lines] at hline
      cases h1 : parse_line C m line with
      | error e => simp [h1] at hline
      | ok s => simpa [h1] using hline
    exact line_effect_calls C l.length m a (parse_frames_known C l m hm)
      (parse_counts_bounded C l m hm) hlen (ih m hm (by omega))
      (parse_line_effect C m a line hl)

/-- The function `inc_op_cnt` adds no key to the function table when the frames of the
call stack name keys of it. -/
theorem inc_op_cnt_keeps_keys (C : CordicOps) (a a' : Analysis) (op : Nat)
    (hfr : frames_known a) (h : inc_op_cnt C a op = .ok a') :
    Map.keys a'.funcs = Map.keys a.funcs ∧ a'.func_names = a.func_names := by
  obtain ⟨fr, rest, hst, ha'⟩ := (inc_op_cnt_ok C a a' op).1 h
  subst ha'
  have hknown := hfr fr (by rw [hst]; exact List.mem_cons_self _ _)
  obtain ⟨fi, hfi⟩ := Option.isSome_iff_exists.1 hknown
  refine ⟨?_, rfl⟩
  simp only [funcs_after_inc, Map.subscript, hfi]
  exact Map.keys_assign_of_find _ _ _ _ hfi

/-- A trace with a line that is fatal in every state is fatal from every state. -/
theorem parse_lines_fatal_of_mem (C : CordicOps) (line : String)
    (hline : ∀ s, fatal (parse_line C s line)) :
    ∀ (lines : List String), line ∈ lines → ∀ s, fatal (parse_lines C s lines) := by
  intro lines
  induction lines with
  | nil => intro h; simp at h
  | cons l rest ih =>
    intro hmem s
    simp only [parse_lines]
    cases h1 : parse_line C s l with
    | error e => exact ⟨e, rfl⟩
    | ok s1 =>
      simp only []
      rcases List.mem_cons.1 hmem with h | h
      · subst h
        obtain ⟨msg, hmsg⟩ := hline s
        rw [h1] at hmsg
        cases hmsg
      · exact ih h s1

/-! ## Integer literals -/

theorem dec_value_digits (s : List Char) (h : ∀ ch ∈ s, '0' ≤ ch ∧ ch ≤ '9') :
    ∀ acc, dec_value acc s =
      s.foldl (fun acc ch => 10 * acc + (ch.toNat - '0'.toNat)) acc := by
  induction s with
  | nil => intro acc; rfl
  | cons ch s ih =>
    intro acc
    have hch := h ch (List.mem_cons_self _ _)
    have hd : dec_digit ch = some (ch.toNat - '0'.toNat) := by
      simp [dec_digit, hch.1, hch.2]
    simp only [dec_value, hd, List.foldl_cons]
    rw [ih (fun c hc => h c (List.mem_cons_of_mem _ hc)), Nat.mul_comm]

theorem digits_of_spec_some (s : List Char) (n : Nat) (h : digits_of_spec s = some n) :
    dec_value 0 s = n ∧ s ≠ [] ∧ ∀ ch ∈ s, '0' ≤ ch ∧ ch ≤ '9' := by
  unfold digits_of_spec at h
  split at h
  · rename_i hs
    simp only [Option.some.injEq] at h
    exact ⟨by rw [dec_value_digits s hs.2 0, h], hs.1, hs.2⟩
  · cases h

/-- The function `std::atoi` returns the integer that an integer literal denotes, when it
is in the range of `int`. -/
theorem atoi_literal (s : List Char) (n : Int) (h : int_literal_of_spec s = some n)
    (hlo : -(2 ^ 31) ≤ n) (hhi : n < 2 ^ 31) : atoi s = n := by
  have hto : to_int32 n = n := by
    unfold to_int32
    omega
  unfold int_literal_of_spec at h
  split at h
  · rename_i r
    cases hr : digits_of_spec r with
    | none => simp [hr] at h
    | some m =>
      simp only [hr, Option.some.injEq] at h
      subst h
      obtain ⟨hv, _, _⟩ := digits_of_spec_some r m hr
      have hmax : max (-(m : Int)) (-(2 ^ 63)) = -(m : Int) := max_eq_left (by omega)
      simp only [atoi, List.head?_cons, true_or, if_true, List.tail_cons, hv, hmax, hto]
  · rename_i hne
    cases hr : digits_of_spec s with
    | none => simp [hr] at h
    | some m =>
      simp only [hr, Option.some.injEq] at h
      subst h
      obtain ⟨hv, hnil, hdig⟩ := digits_of_spec_some s m hr
      obtain ⟨ch, r, hs⟩ := List.exists_cons_of_ne_nil hnil
      have hch := hdig ch (by rw [hs]; exact List.mem_cons_self _ _)
      have h1 : s.head? ≠ some '-' := by
        rw [hs]
        simp only [List.head?_cons, ne_eq, Option.some.injEq]
        rintro rfl
        exact absurd hch.1 (by decide)
      have h2 : s.head? ≠ some '+' := by
        rw [hs]
        simp only [List.head?_cons, ne_eq, Option.some.injEq]
        rintro rfl
        exact absurd hch.1 (by decide)
      have hmin : min (m : Int) (2 ^ 63 - 1) = (m : Int) := min_eq_left (by omega)
      simp only [atoi, h1, h2, or_self, if_false, hv, hmin, hto]

/-- Beyond the range of `long` the function `std::atoi` returns the low 32 bits of
`LONG_MAX` or of `LONG_MIN`, and beyond the range of `int` the low 32 bits of the value. -/
theorem atoi_out_of_range :
    atoi "9223372036854775808".data = -1 ∧ atoi "99999999999999999999".data = -1 ∧
    atoi "-9223372036854775809".data = 0 ∧ atoi "2147483648".data = -2147483648 ∧
    atoi "4294967301".data = 5 := by
  decide

/-- The function `parse_int` returns the integer that the next token denotes. -/
theorem parse_int_of_token (c c' : List Char) (n : Int) (h : int_token c n c') :
    parse_int c = .ok (n, c') := by
  obtain ⟨tok, hname, hlit, hlo, hhi⟩ := h
  simp only [parse_int, hname, atoi_literal tok.data n hlit hlo hhi]

/-! ## The claims about the replay of one line -/

/-- Counterexample to claim C1: after `enter f`, `constructed 10 0`,
`op1f push_constant 1.0` and `op2i pop_value 10 1` the address 32 is absent from the value
table; index 2 of an `assign` is not an exempt slot; yet `op3 assign 20 10 20`, whose
operand of index 2 is the address 32, is accepted. -/
theorem absent_operand_counterexample :
    ∃ a, parse sample_ops ["enter f", "constructed 10 0", "op1f push_constant 1.0",
        "op2i pop_value 10 1"] = .ok a ∧
      Map.find a.vals 32 = none ∧
      parse_addrs 3 " 20 10 20".data = .ok ([32, 16, 32], []) ∧
      (lookup_op a "assign").1 = sample_ops.assign ∧
      opnd_is_checked sample_ops sample_ops.assign 2 = true ∧
      accepted (parse_line sample_ops a "op3 assign 20 10 20") = true :=
  ⟨{ ops := build_ops sample_ops, func_names := ["f"],
      funcs := [("f", ⟨1, [1, 0, 1, 0, 0, 0, 0, 0]⟩)], cordics := [],
      vals := [(16, ⟨true, true, none, none, some 1, true, some ⟨"1.0"⟩, none, none⟩)],
      stack := [⟨"f"⟩], val_stack := [] },
    by decide, by decide, by decide, by decide, by decide, by decide⟩

/-- Claim C1, amended. For every `op1`, `op2`, `op3` or `op4` line and every operand index
`i` that is not an exempt slot (index 0 of `assign`; index 1 or 2 of `sincos` or
`sinhcosh`): if the address of operand `i` is absent from the value table, or its entry is
dead, or its entry is not assigned, then replaying the line is fatal, except when the
operation is `assign`, `i` is 2 or 3 and the address is that of operand 0, which the copy
made at operand 1 has filled by then. -/
theorem unusable_operand_is_fatal (C : CordicOps) (a : Analysis) (line : String)
    (kind : KIND) (n i : Nat) (c c1 c2 : List Char) (name : String) (addrs : List Nat)
    (x : Nat)
    (hkind : parse_kind (c_str line) = .ok (kind, c))
    (hk : (kind, n) ∈ [(KIND.op1, 1), (KIND.op2, 2), (KIND.op3, 3), (KIND.op4, 4)])
    (hname : parse_name c = .ok (name, c1))
    (hi : i < n)
    (haddrs : parse_addrs (i + 1) c1 = .ok (addrs, c2))
    (hx : addrs.get? i = some x)
    (hslot : ¬ (i = 0 ∧ (lookup_op a name).1 = C.assign) ∧
      ¬ ((i = 1 ∨ i = 2) ∧
        ((lookup_op a name).1 = C.sincos ∨ (lookup_op a name).1 = C.sinhcosh)))
    (hbad : operand_unusable a.vals x)
    (hcopy : (lookup_op a name).1 = C.assign → 2 ≤ i → x ≠ addrs.headD 0) :
    fatal (parse_line C a line) := by
  have hfat := case_op_unusable C a n i c c1 c2 name addrs x hname hi haddrs hx
    (opnd_is_checked_of_slot C _ i hslot) hbad hcopy
  simp only [List.mem_cons, Prod.mk.injEq, List.mem_singleton, List.mem_nil_iff,
    or_false] at hk
  rcases hk with ⟨hk, hn⟩ | ⟨hk, hn⟩ | ⟨hk, hn⟩ | ⟨hk, hn⟩ <;> subst hk <;> subst hn <;>
    simp only [parse_line, hkind] <;> exact hfat

/-- Witness of claim C1, amended: `op2 add 10 20` inside `f` when nothing was
constructed at address 32. -/
theorem unusable_operand_is_fatal_witness :
    fatal (parse_line sample_ops
      { Analysis.init sample_ops with
        func_names := ["f"], funcs := [("f", ⟨1, [0, 0, 0, 0, 0, 0, 0, 0]⟩)],
        vals := [(16, ⟨true, true, none, none, some 1, false, none, none, none⟩)],
        stack := [⟨"f"⟩] } "op2 add 10 20") :=
  unusable_operand_is_fatal sample_ops
    { Analysis.init sample_ops with
      func_names := ["f"], funcs := [("f", ⟨1, [0, 0, 0, 0, 0, 0, 0, 0]⟩)],
      vals := [(16, ⟨true, true, none, none, some 1, false, none, none, none⟩)],
      stack := [⟨"f"⟩] }
    "op2 add 10 20" KIND.op2 2 1 " add 10 20".data " 10 20".data [] "add" [16, 32] 32
    (by decide) (by decide) (by decide) (by decide) (by decide) (by decide) (by decide)
    (Or.inl (by decide)) (by decide)

/-- Claim C2. In every state that records a live engine instance at address `A`,
replaying a `cordic_constructed` line for `A` is a fatal error. -/
theorem cordic_constructed_on_live_is_fatal (C : CordicOps) (a : Analysis) (line : String)
    (c c' : List Char) (A : Nat) (e : CordicInfo)
    (hkind : parse_kind (c_str line) = .ok (KIND.cordic_constructed, c))
    (haddr : parse_addr c = .ok (A, c'))
    (hfind : Map.find a.cordics A = some e) (hlive : e.is_alive = true) :
    fatal (parse_line C a line) := by
  simp only [parse_line, hkind]
  exact case_cordic_constructed_live a c c' A e haddr hfind hlive

/-- Witness of claim C2: after `cordic_constructed 0x1 32 32 0 16` the same line is fatal. -/
theorem cordic_constructed_on_live_is_fatal_witness :
    fatal (parse_line sample_ops
      { Analysis.init sample_ops with cordics := [(1, ⟨none, true, 32, 32, 0, 16⟩)] }
      "cordic_constructed 0x1 32 32 0 16") :=
  cordic_constructed_on_live_is_fatal sample_ops
    { Analysis.init sample_ops with cordics := [(1, ⟨none, true, 32, 32, 0, 16⟩)] }
    "cordic_constructed 0x1 32 32 0 16" " 0x1 32 32 0 16".data " 32 32 0 16".data 1
    ⟨none, true, 32, 32, 0, 16⟩ (by decide) (by decide) (by decide) (by decide)

/-- Claim C3. A well-formed `cordic_constructed` line for an address `A` that is absent
or holds a dead instance is accepted: a line whose four tokens after the address are
integer literals that denote the integers `w1`, `w2`, `w3` and `w4` in the range of `int`.
Afterwards the engine table holds at `A` a live instance with these four integers
(converted to `uint32_t`, which leaves a non-negative integer as it is); every other
engine entry, the value table, the function table, the name list and both stacks are
unchanged; and construct `A`, destruct `A`, construct `A` is accepted from the initial
state. -/
theorem cordic_constructed_on_free_is_accepted (C : CordicOps) (a : Analysis)
    (line dline : String) (c c1 c2 c3 c4 c5 d d1 : List Char) (A : Nat) (w1 w2 w3 w4 : Int)
    (hkind : parse_kind (c_str line) = .ok (KIND.cordic_constructed, c))
    (haddr : parse_addr c = .ok (A, c1))
    (h1 : int_token c1 w1 c2) (h2 : int_token c2 w2 c3)
    (h3 : int_token c3 w3 c4) (h4 : int_token c4 w4 c5)
    (hfree : Map.find a.cordics A = none ∨
      ∃ e, Map.find a.cordics A = some e ∧ e.is_alive = false)
    (hdkind : parse_kind (c_str dline) = .ok (KIND.cordic_destructed, d))
    (hdaddr : parse_addr d = .ok (A, d1)) :
    (∃ a' e, parse_line C a line = .ok a' ∧ Map.find a'.cordics A = some e ∧
      e.is_alive = true ∧ e.int_w = to_uint32 w1 ∧ e.frac_w = to_uint32 w2 ∧
      e.guard_w = to_uint32 w3 ∧ e.n = to_uint32 w4 ∧
      (0 ≤ w1 → (e.int_w : Int) = w1) ∧ (0 ≤ w2 → (e.frac_w : Int) = w2) ∧
      (0 ≤ w3 → (e.guard_w : Int) = w3) ∧ (0 ≤ w4 → (e.n : Int) = w4) ∧
      (∀ k, k ≠ A → Map.find a'.cordics k = Map.find a.cordics k) ∧
      a'.vals = a.vals ∧ a'.funcs = a.funcs ∧ a'.func_names = a.func_names ∧
      a'.stack = a.stack ∧ a'.val_stack = a.val_stack) ∧
    accepted (parse C [line, dline, line]) = true := by
  have h1 := parse_int_of_token c1 c2 w1 h1
  have h2 := parse_int_of_token c2 c3 w2 h2
  have h3 := parse_int_of_token c3 c4 w3 h3
  have h4 := parse_int_of_token c4 c5 w4 h4
  have hfree' : ∀ (s : Analysis), (Map.find s.cordics A = none ∨
      ∃ e, Map.find s.cordics A = some e ∧ e.is_alive = false) →
      ∀ e, Map.find s.cordics A = some e → e.is_alive = false := by
    intro s hs e he
    rcases hs with hs | ⟨e', he', hd⟩
    · rw [hs] at he
      cases he
    · rw [he'] at he
      cases he
      exact hd
  constructor
  · refine ⟨{ a with cordics := (Map.assign a.cordics A
        ⟨none, true, to_uint32 w1, to_uint32 w2, to_uint32 w3, to_uint32 w4⟩) },
      ⟨none, true, to_uint32 w1, to_uint32 w2, to_uint32 w3, to_uint32 w4⟩,
      ?_, Map.find_assign_self _ _ _, rfl, rfl, rfl, rfl, rfl,
      parse_int_to_uint32 c1 c2 w1 h1, parse_int_to_uint32 c2 c3 w2 h2,
      parse_int_to_uint32 c3 c4 w3 h3, parse_int_to_uint32 c4 c5 w4 h4,
      ?_, rfl, rfl, rfl, rfl, rfl⟩
    · simp only [parse_line, hkind]
      exact case_cordic_constructed_ok a c c1 c2 c3 c4 c5 A w1 w2 w3 w4 haddr h1 h2 h3 h4
        (hfree' a hfree)
    · intro k hk
      exact Map.find_assign_ne _ _ _ _ hk
  · have s1 := case_cordic_constructed_ok (Analysis.init C) c c1 c2 c3 c4 c5 A w1 w2 w3 w4
      haddr h1 h2 h3 h4 (by intro e he; simp [Analysis.init, Map.find] at he)
    simp only [parse, parse_lines, parse_line, hkind, hdkind, s1]
    rw [case_cordic_destructed_ok _ d d1 A _ hdaddr (Map.find_assign_self _ _ _) rfl]
    simp only []
    rw [case_cordic_constructed_ok _ c c1 c2 c3 c4 c5 A w1 w2 w3 w4 haddr h1 h2 h3 h4
      (by
        intro e he
        simp only [Map.find_assign_self] at he
        cases he
        rfl)]
    rfl

/-- Witness of claim C3: `cordic_constructed 0x1 32 32 0 16` on the initial state stores
a live instance with the integers 32, 32, 0 and 16 at address 1, and the sequence
construct, destruct, construct on address 1 is accepted. -/
theorem cordic_constructed_on_free_is_accepted_witness :
    (∃ a' e, parse_line sample_ops (Analysis.init sample_ops)
        "cordic_constructed 0x1 32 32 0 16" = .ok a' ∧
      Map.find a'.cordics 1 = some e ∧ e.is_alive = true ∧ e.int_w = 32 ∧ e.frac_w = 32 ∧
      e.guard_w = 0 ∧ e.n = 16) ∧
    accepted (parse sample_ops ["cordic_constructed 0x1 32 32 0 16", "cordic_destructed 0x1",
      "cordic_constructed 0x1 32 32 0 16"]) = true := by
  obtain ⟨⟨a', e, h, hf, hal, h1, h2, h3, h4, _⟩, hacc⟩ :=
    cordic_constructed_on_free_is_accepted sample_ops (Analysis.init sample_ops)
      "cordic_constructed 0x1 32 32 0 16" "cordic_destructed 0x1"
      " 0x1 32 32 0 16".data " 32 32 0 16".data " 32 0 16".data " 0 16".data " 16".data []
      " 0x1".data [] 1 32 32 0 16
      (by decide) (by decide)
      ⟨"32", by decide, by decide, by decide, by decide⟩
      ⟨"32", by decide, by decide, by decide, by decide⟩
      ⟨"0", by decide, by decide, by decide, by decide⟩
      ⟨"16", by decide, by decide, by decide, by decide⟩
      (Or.inl (by decide)) (by decide) (by decide)
  exact ⟨⟨a', e, h, hf, hal, h1.trans (by decide), h2.trans (by decide),
    h3.trans (by decide), h4.trans (by decide)⟩, hacc⟩

/-- Counterexample to claim C4: after `constructed 10 0` a live value is recorded at
address 16, and a second `constructed 10 0` is accepted. -/
theorem constructed_on_live_value_counterexample :
    ∃ a v, parse sample_ops ["constructed 10 0"] = .ok a ∧
      Map.find a.vals 16 = some v ∧ v.is_alive = true ∧
      accepted (parse_line sample_ops a "constructed 10 0") = true :=
  ⟨{ Analysis.init sample_ops with
      vals := [(16, ⟨true, false, some size_t_minus_one, none, none, false, none, none, none⟩)] },
    ⟨true, false, some size_t_minus_one, none, none, false, none, none, none⟩,
    by decide, by decide, rfl, by decide⟩

/-- Claim C4, amended. In every state that records a live value at address `V`, a
`constructed` line for `V` is accepted exactly when its engine address is zero or names a
live engine, and it then overwrites the entry at `V` with a fresh live, unassigned,
non-constant entry; every other value entry is unchanged. -/
theorem constructed_on_live_value_overwrites (C : CordicOps) (a : Analysis) (line : String)
    (c c1 c2 : List Char) (V E : Nat) (v0 : ValInfo)
    (hkind : parse_kind (c_str line) = .ok (KIND.constructed, c))
    (hV : parse_addr c = .ok (V, c1)) (hE : parse_addr c1 = .ok (E, c2))
    (hfind : Map.find a.vals V = some v0) (_hlive : v0.is_alive = true) :
    (accepted (parse_line C a line) = true ↔
      (E = 0 ∨ ∃ e, Map.find a.cordics E = some e ∧ e.is_alive = true)) ∧
    ∀ a', parse_line C a line = .ok a' →
      ∃ v, Map.find a'.vals V = some v ∧ v.is_alive = true ∧ v.is_assigned = false ∧
        v.is_constant = false ∧ v.encoded = none ∧ v.constant = none ∧
        Map.keys a'.vals = Map.keys a.vals ∧
        (∀ k, k ≠ V → Map.find a'.vals k = Map.find a.vals k) := by
  have hpl : parse_line C a line = case_constructed a c := by
    simp only [parse_line, hkind]
  rw [hpl]
  refine ⟨⟨?_, ?_⟩, ?_⟩
  · intro hacc
    obtain ⟨a', ha'⟩ := (accepted_iff_ok _).1 hacc
    rcases case_constructed_result a a' c c1 c2 V E hV hE ha' with ⟨hz, _⟩ | ⟨_, e, hf, hal, _⟩
    · exact Or.inl hz
    · exact Or.inr ⟨e, hf, hal⟩
  · intro h
    by_cases hz : E = 0
    · subst hz
      rw [case_constructed_zero a c c1 c2 V hV hE]
      rfl
    · rcases h with h | ⟨e, hf, hal⟩
      · exact absurd h hz
      · rw [case_constructed_live a c c1 c2 V E e hV hE hz hf hal]
        rfl
  · intro a' ha'
    rcases case_constructed_result a a' c c1 c2 V E hV hE ha' with ⟨_, h⟩ | ⟨_, e, _, _, h⟩
    · subst h
      exact ⟨_, Map.find_assign_self _ _ _, rfl, rfl, rfl, rfl, rfl,
        Map.keys_assign_of_find _ _ _ _ hfind, fun k hk => Map.find_assign_ne _ _ _ _ hk⟩
    · subst h
      exact ⟨_, Map.find_assign_self _ _ _, rfl, rfl, rfl, rfl, rfl,
        Map.keys_assign_of_find _ _ _ _ hfind, fun k hk => Map.find_assign_ne _ _ _ _ hk⟩

/-- Witness of claim C4, amended: a live, assigned value at address 16 and the line
`constructed 10 0`. -/
theorem constructed_on_live_value_overwrites_witness :
    accepted (parse_line sample_ops
      { Analysis.init sample_ops with
        vals := [(16, ⟨true, true, none, none, some 5, false, none, none, none⟩)] }
      "constructed 10 0") = true :=
  (constructed_on_live_value_overwrites sample_ops
    { Analysis.init sample_ops with
      vals := [(16, ⟨true, true, none, none, some 5, false, none, none, none⟩)] }
    "constructed 10 0" " 10 0".data " 0".data [] 16 0
    ⟨true, true, none, none, some 5, false, none, none, none⟩
    (by decide) (by decide) (by decide) (by decide) rfl).1.2 (Or.inl rfl)

/-- Claim C5. In every state reached by replaying a trace, a `leave` line with function
name `g` is accepted exactly when the call stack is not empty and its top frame is named
`g`; when accepted it pops that frame, so the depth decreases by one, and changes nothing
else, in particular no call count and no histogram. Consequently `enter f` followed
directly by `leave g` with `g` different from `f` is fatal. -/
theorem leave_accepted_iff_top (C : CordicOps) (lines : List String) (a : Analysis)
    (line eline : String) (c c' d d' : List Char) (f g : String)
    (hreach : parse C lines = .ok a)
    (hkind : parse_kind (c_str line) = .ok (KIND.leave, c))
    (hname : parse_name c = .ok (g, c'))
    (hekind : parse_kind (c_str eline) = .ok (KIND.enter, d))
    (hename : parse_name d = .ok (f, d'))
    (hfg : g ≠ f) :
    (accepted (parse_line C a line) = true ↔ ∃ rest, a.stack = { func_name := g } :: rest) ∧
    (∀ a', parse_line C a line = .ok a' →
      a' = { a with stack := a.stack.tail } ∧ a'.stack.length + 1 = a.stack.length ∧
      a'.funcs = a.funcs ∧ a'.func_names = a.func_names) ∧
    fatal (parse_lines C a [eline, line]) := by
  have hpl : ∀ s : Analysis, parse_line C s line = case_leave s c := by
    intro s
    simp only [parse_line, hkind]
  have hinv := parse_frames_known C lines a hreach
  refine ⟨⟨?_, ?_⟩, ?_, ?_⟩
  · intro hacc
    obtain ⟨a', ha'⟩ := (accepted_iff_ok _).1 hacc
    rw [hpl] at ha'
    obtain ⟨g', c'', rest, hname', _, hst, _⟩ := (case_leave_ok a a' c).1 ha'
    rw [hname] at hname'
    cases hname'
    exact ⟨rest, hst⟩
  · rintro ⟨rest, hst⟩
    rw [hpl]
    apply (accepted_iff_ok _).2
    refine ⟨{ a with stack := rest }, (case_leave_ok a _ c).2 ⟨g, c', rest, hname, ?_, hst, rfl⟩⟩
    exact hinv { func_name := g } (by rw [hst]; exact List.mem_cons_self _ _)
  · intro a' ha'
    rw [hpl] at ha'
    obtain ⟨g', c'', rest, _, _, hst, ha''⟩ := (case_leave_ok a a' c).1 ha'
    subst ha''
    simp [hst]
  · simp only [parse_lines]
    cases h1 : parse_line C a eline with
    | error e => exact fatal_error _
    | ok a1 =>
      simp only []
      cases h2 : parse_line C a1 line with
      | error e => exact fatal_error _
      | ok a2 =>
        exfalso
        have he : case_enter C a d = .ok a1 := by
          simpa only [parse_line, hekind] using h1
        obtain ⟨f', d'', hname', _, hst, _⟩ := case_enter_ok C a a1 d he
        rw [hename] at hname'
        cases hname'
        rw [hpl] at h2
        obtain ⟨g', c'', rest, hname'', _, hst', _⟩ := (case_leave_ok a1 a2 c).1 h2
        rw [hname] at hname''
        cases hname''
        rw [hst] at hst'
        simp only [List.cons.injEq, FrameInfo.mk.injEq] at hst'
        exact hfg hst'.1.symm

/-- Witness of claim C5: after `enter f` the line `leave f` is accepted, and `enter h`
followed by `leave f` is fatal. -/
theorem leave_accepted_iff_top_witness :
    accepted (parse_line sample_ops
      { Analysis.init sample_ops with
        func_names := ["f"], funcs := [("f", ⟨1, [0, 0, 0, 0, 0, 0, 0, 0]⟩)],
        stack := [⟨"f"⟩] } "leave f") = true :=
  (leave_accepted_iff_top sample_ops ["enter f"]
    { Analysis.init sample_ops with
      func_names := ["f"], funcs := [("f", ⟨1, [0, 0, 0, 0, 0, 0, 0, 0]⟩)],
      stack := [⟨"f"⟩] }
    "leave f" "enter h" " f".data [] " h".data [] "h" "f"
    (by decide) (by decide) (by decide) (by decide) (by decide) (by decide)).1.2 ⟨[], rfl⟩

/-- Counterexample to claim C6: `bogus` is not a name of the operation table, yet after
`enter f`, `constructed 10 0`, `op1f push_constant 1.0` and `op2i pop_value 10 1` the line
`op2f bogus 10 1.0` is accepted, and it increments entry 0 of the histogram of `f`. -/
theorem unknown_op_name_counterexample :
    (∀ o, o < sample_ops.OP_cnt → sample_ops.op_to_str o ≠ "bogus") ∧
    ∃ a a' fi fi', parse sample_ops ["enter f", "constructed 10 0", "op1f push_constant 1.0",
        "op2i pop_value 10 1"] = .ok a ∧
      parse_line sample_ops a "op2f bogus 10 1.0" = .ok a' ∧
      Map.find a.funcs "f" = some fi ∧ Map.find a'.funcs "f" = some fi' ∧
      fi.op_cnt = [1, 0, 1, 0, 0, 0, 0, 0] ∧ fi'.op_cnt = [2, 0, 1, 0, 0, 0, 0, 0] :=
  ⟨by decide,
    { ops := build_ops sample_ops, func_names := ["f"],
      funcs := [("f", ⟨1, [1, 0, 1, 0, 0, 0, 0, 0]⟩)], cordics := [],
      vals := [(16, ⟨true, true, none, none, some 1, true, some ⟨"1.0"⟩, none, none⟩)],
      stack := [⟨"f"⟩], val_stack := [] },
    { ops := Map.assign (build_ops sample_ops) "bogus" 0, func_names := ["f"],
      funcs := [("f", ⟨1, [2, 0, 1, 0, 0, 0, 0, 0]⟩)], cordics := [],
      vals := [(16, ⟨true, true, none, none, some 1, true, some ⟨"1.0"⟩, none, none⟩)],
      stack := [⟨"f"⟩],
      val_stack := [⟨true, true, none, none, none, false, none, none, none⟩] },
    ⟨1, [1, 0, 1, 0, 0, 0, 0, 0]⟩, ⟨1, [2, 0, 1, 0, 0, 0, 0, 0]⟩,
    by decide, by decide, by decide, by decide, rfl, rfl⟩

/-- Claim C6, amended. In every state reached by replaying a trace, an operation line
whose operation name is not a name of the operation table is not rejected for that: the
lookup `ops[name]` yields operation code 0, and whenever the line is accepted the call
stack is not empty and entry 0 of the histogram of its top function is incremented. -/
theorem unknown_op_name_is_code_zero (C : CordicOps) (lines : List String) (a : Analysis)
    (line : String) (kind : KIND) (c c1 : List Char) (name : String)
    (hreach : parse C lines = .ok a)
    (hkind : parse_kind (c_str line) = .ok (kind, c))
    (hop : kind ∈ [KIND.op1, KIND.op2, KIND.op3, KIND.op4, KIND.op1i, KIND.op1f, KIND.op2i,
      KIND.op2f])
    (hname : parse_name c = .ok (name, c1))
    (hunk : ∀ o, o < C.OP_cnt → C.op_to_str o ≠ name) :
    (lookup_op a name).1 = 0 ∧
    ∀ a', parse_line C a line = .ok a' →
      ∃ fr rest fi, a.stack = fr :: rest ∧ Map.find a.funcs fr.func_name = some fi ∧
        Map.find a'.funcs fr.func_name = some { fi with op_cnt := incr_at fi.op_cnt 0 } := by
  have h0 := lookup_op_unknown C a name (parse_ops_known C lines a hreach) hunk
  refine ⟨h0, ?_⟩
  intro a' ha'
  obtain ⟨name', c1', fr, rest, hname', hst, _, hfu, _⟩ :=
    parse_line_op_frame C a a' line kind c hkind hop ha'
  rw [hname] at hname'
  cases hname'
  have hknown := parse_frames_known C lines a hreach fr (by rw [hst]; exact List.mem_cons_self _ _)
  cases hfi : Map.find a.funcs fr.func_name with
  | none => simp [hfi] at hknown
  | some fi =>
    refine ⟨fr, rest, fi, hst, hfi, ?_⟩
    rw [hfu, h0]
    exact find_funcs_after_inc C a.funcs fr.func_name 0 fi hfi

/-- Witness of claim C6, amended: the line `op2f bogus 10 1.0` after `enter f`. -/
theorem unknown_op_name_is_code_zero_witness :
    (lookup_op { Analysis.init sample_ops with
        func_names := ["f"], funcs := [("f", ⟨1, [0, 0, 0, 0, 0, 0, 0, 0]⟩)],
        stack := [⟨"f"⟩] } "bogus").1 = 0 :=
  (unknown_op_name_is_code_zero sample_ops ["enter f"]
    { Analysis.init sample_ops with
      func_names := ["f"], funcs := [("f", ⟨1, [0, 0, 0, 0, 0, 0, 0, 0]⟩)],
      stack := [⟨"f"⟩] }
    "op2f bogus 10 1.0" KIND.op2f " bogus 10 1.0".data " 10 1.0".data "bogus"
    (by decide) (by decide) (by decide) (by decide) (by decide)).1

/-- Claim C7, the run that breaks it: after `enter f` and `constructed 10 0` the value at
address 16 is live and was never assigned, and `op2i lshift 10 3`, which reads it, is
accepted, as is `op2i rshift 10 3`. -/
theorem shift_reads_unassigned_value :
    ∃ a v, parse sample_ops ["enter f", "constructed 10 0"] = .ok a ∧
      Map.find a.vals 16 = some v ∧ v.is_alive = true ∧ v.is_assigned = false ∧
      accepted (parse_line sample_ops a "op2i lshift 10 3") = true ∧
      accepted (parse_line sample_ops a "op2i rshift 10 3") = true :=
  ⟨{ Analysis.init sample_ops with
      func_names := ["f"], funcs := [("f", ⟨1, [0, 0, 0, 0, 0, 0, 0, 0]⟩)],
      vals := [(16, ⟨true, false, some size_t_minus_one, none, none, false, none, none, none⟩)],
      stack := [⟨"f"⟩] },
    ⟨true, false, some size_t_minus_one, none, none, false, none, none, none⟩,
    by decide, by decide, rfl, rfl, by decide, by decide⟩

/-- Counterexample to claim C8: the empty line has no leading token, so its leading token
is none of the fourteen event names, and replaying it is fatal; so is the line `)`. -/
theorem empty_line_counterexample :
    fatal (parse_line sample_ops (Analysis.init sample_ops) "") ∧
    fatal (parse_line sample_ops (Analysis.init sample_ops) ")") :=
  ⟨(fatal_iff_not_accepted _).2 (by decide), (fatal_iff_not_accepted _).2 (by decide)⟩

/-- Claim C8, amended. A line whose leading token is a name that is none of the fourteen
event names is skipped: replaying it is accepted and leaves the whole state as it was.
A line on which no leading name can be read is fatal. -/
theorem unknown_event_name_skipped (C : CordicOps) (a : Analysis) (line : String)
    (name : String) (c : List Char)
    (hname : parse_name (c_str line) = .ok (name, c))
    (hnot : name ∉ event_names) :
    parse_line C a line = .ok a ∧
    ∀ (s : Analysis) (l : String), fatal (parse_name (c_str l)) → fatal (parse_line C s l) := by
  refine ⟨?_, fun s l h => parse_line_no_name C s l h⟩
  simp only [event_names, List.mem_cons, List.mem_singleton, not_or, List.mem_nil_iff,
    not_false_eq_true, and_true] at hnot
  obtain ⟨h1, h2, h3, h4, h5, h6, h7, h8, h9, h10, h11, h12, h13, h14⟩ := hnot
  simp only [parse_line, parse_kind, hname, h1, h2, h3, h4, h5, h6, h7, h8, h9, h10, h11, h12,
    h13, h14, if_false]

/-- Witness of claim C8, amended: the line `foo 1 2` is skipped. -/
theorem unknown_event_name_skipped_witness :
    parse_line sample_ops (Analysis.init sample_ops) "foo 1 2" =
      .ok (Analysis.init sample_ops) :=
  (unknown_event_name_skipped sample_ops (Analysis.init sample_ops) "foo 1 2" "foo"
    " 1 2".data (by decide) (by decide)).1

/-- Claim C9. A destruction line is accepted exactly when a live instance is recorded at
its address, for `cordic_destructed` on the engine table and for `destructed` on the value
table; when accepted only the liveness flag of that entry changes, to dead, the entry
stays in the table, every other entry and every other part of the state is unchanged, and
destroying the same address again is fatal. -/
theorem destruction_accepted_iff_live (C : CordicOps) (a : Analysis) (eline vline : String)
    (c c1 d d1 : List Char) (A V : Nat)
    (hekind : parse_kind (c_str eline) = .ok (KIND.cordic_destructed, c))
    (headdr : parse_addr c = .ok (A, c1))
    (hvkind : parse_kind (c_str vline) = .ok (KIND.destructed, d))
    (hvaddr : parse_addr d = .ok (V, d1)) :
    ((accepted (parse_line C a eline) = true ↔
        ∃ e, Map.find a.cordics A = some e ∧ e.is_alive = true) ∧
      ∀ a', parse_line C a eline = .ok a' →
        ∃ e, Map.find a.cordics A = some e ∧
          a' = { a with cordics := Map.assign a.cordics A { e with is_alive := false } } ∧
          Map.find a'.cordics A = some { e with is_alive := false } ∧
          Map.keys a'.cordics = Map.keys a.cordics ∧
          (∀ k, k ≠ A → Map.find a'.cordics k = Map.find a.cordics k) ∧
          fatal (parse_line C a' eline)) ∧
    ((accepted (parse_line C a vline) = true ↔
        ∃ v, Map.find a.vals V = some v ∧ v.is_alive = true) ∧
      ∀ a', parse_line C a vline = .ok a' →
        ∃ v, Map.find a.vals V = some v ∧
          a' = { a with vals := Map.assign a.vals V { v with is_alive := false } } ∧
          Map.find a'.vals V = some { v with is_alive := false } ∧
          Map.keys a'.vals = Map.keys a.vals ∧
          (∀ k, k ≠ V → Map.find a'.vals k = Map.find a.vals k) ∧
          fatal (parse_line C a' vline)) := by
  have he : ∀ s : Analysis, parse_line C s eline = case_cordic_destructed s c := by
    intro s
    simp only [parse_line, hekind]
  have hv : ∀ s : Analysis, parse_line C s vline = case_destructed s d := by
    intro s
    simp only [parse_line, hvkind]
  refine ⟨?_, ?_⟩
  · by_cases hl : ∃ e, Map.find a.cordics A = some e ∧ e.is_alive = true
    · obtain ⟨e, hf, hal⟩ := hl
      have hok := case_cordic_destructed_ok a c c1 A e headdr hf hal
      refine ⟨?_, ?_⟩
      · rw [he, hok]
        simp only [accepted, true_iff]
        exact ⟨e, hf, hal⟩
      · intro a' ha'
        rw [he, hok] at ha'
        cases ha'
        refine ⟨e, hf, rfl, Map.find_assign_self _ _ _, Map.keys_assign_of_find _ _ _ _ hf,
          fun k hk => Map.find_assign_ne _ _ _ _ hk, ?_⟩
        rw [he]
        refine case_cordic_destructed_fatal _ c c1 A headdr ?_
        intro e' he'
        simp only [Map.find_assign_self] at he'
        cases he'
        rfl
    · have hfat := case_cordic_destructed_fatal a c c1 A headdr (by
        intro e hf
        cases hal : e.is_alive with
        | false => rfl
        | true => exact absurd ⟨e, hf, hal⟩ hl)
      rw [← he] at hfat
      refine ⟨?_, ?_⟩
      · rw [(fatal_iff_not_accepted _).1 hfat]
        simp only [Bool.false_eq_true, false_iff]
        exact hl
      · intro a' ha'
        rw [ha'] at hfat
        exact absurd hfat (not_fatal_ok _)
  · by_cases hl : ∃ v, Map.find a.vals V = some v ∧ v.is_alive = true
    · obtain ⟨v, hf, hal⟩ := hl
      have hok := case_destructed_ok a d d1 V v hvaddr hf hal
      refine ⟨?_, ?_⟩
      · rw [hv, hok]
        simp only [accepted, true_iff]
        exact ⟨v, hf, hal⟩
      · intro a' ha'
        rw [hv, hok] at ha'
        cases ha'
        refine ⟨v, hf, rfl, Map.find_assign_self _ _ _, Map.keys_assign_of_find _ _ _ _ hf,
          fun k hk => Map.find_assign_ne _ _ _ _ hk, ?_⟩
        rw [hv]
        refine case_destructed_fatal _ d d1 V hvaddr ?_
        intro v' hv'
        simp only [Map.find_assign_self] at hv'
        cases hv'
        rfl
    · have hfat := case_destructed_fatal a d d1 V hvaddr (by
        intro v hf
        cases hal : v.is_alive with
        | false => rfl
        | true => exact absurd ⟨v, hf, hal⟩ hl)
      rw [← hv] at hfat
      refine ⟨?_, ?_⟩
      · rw [(fatal_iff_not_accepted _).1 hfat]
        simp only [Bool.false_eq_true, false_iff]
        exact hl
      · intro a' ha'
        rw [ha'] at hfat
        exact absurd hfat (not_fatal_ok _)

/-- Witness of claim C9: with a live engine at address 1 and a live value at address 16,
`cordic_destructed 0x1` and `destructed 0x10` are both accepted. -/
theorem destruction_accepted_iff_live_witness :
    accepted (parse_line sample_ops
      { Analysis.init sample_ops with
        cordics := [(1, ⟨none, true, 32, 32, 0, 16⟩)]
        vals := [(16, ⟨true, false, none, none, none, false, none, none, none⟩)] }
      "cordic_destructed 0x1") = true ∧
    accepted (parse_line sample_ops
      { Analysis.init sample_ops with
        cordics := [(1, ⟨none, true, 32, 32, 0, 16⟩)]
        vals := [(16, ⟨true, false, none, none, none, false, none, none, none⟩)] }
      "destructed 0x10") = true :=
  have h := destruction_accepted_iff_live sample_ops
    { Analysis.init sample_ops with
      cordics := [(1, ⟨none, true, 32, 32, 0, 16⟩)]
      vals := [(16, ⟨true, false, none, none, none, false, none, none, none⟩)] }
    "cordic_destructed 0x1" "destructed 0x10" " 0x1".data [] " 0x10".data [] 1 16
    (by decide) (by decide) (by decide) (by decide)
  ⟨h.1.1.2 ⟨⟨none, true, 32, 32, 0, 16⟩, by decide, rfl⟩,
   h.2.1.2 ⟨⟨true, false, none, none, none, false, none, none, none⟩, by decide, rfl⟩⟩

/-- Claim C10. For a `constructed` line with value address `V` and engine address `E`: if
`E` is not zero the line is accepted exactly when a live engine is recorded at `E`, and
the value records the `cordic_i` of that engine as its owner; if `E` is zero the line is
accepted whatever the engine table holds and the owner is `size_t(-1)`. In every accepted
case the entry at `V` afterwards is live, unassigned and not constant, whatever was
recorded at `V` before, and nothing but the value table changes. -/
theorem constructed_records_owner (C : CordicOps) (a : Analysis) (line : String)
    (c c1 c2 : List Char) (V E : Nat)
    (hkind : parse_kind (c_str line) = .ok (KIND.constructed, c))
    (hV : parse_addr c = .ok (V, c1)) (hE : parse_addr c1 = .ok (E, c2)) :
    (E ≠ 0 →
      (accepted (parse_line C a line) = true ↔
        ∃ e, Map.find a.cordics E = some e ∧ e.is_alive = true) ∧
      ∀ a', parse_line C a line = .ok a' →
        ∃ e v, Map.find a.cordics E = some e ∧ e.is_alive = true ∧
          Map.find a'.vals V = some v ∧ v.cordic_i = e.cordic_i) ∧
    (E = 0 →
      ∃ a' v, parse_line C a line = .ok a' ∧ Map.find a'.vals V = some v ∧
        v.cordic_i = some size_t_minus_one) ∧
    (∀ a', parse_line C a line = .ok a' →
      (∃ v, Map.find a'.vals V = some v ∧ v.is_alive = true ∧ v.is_assigned = false ∧
        v.is_constant = false) ∧
      (∀ k, k ≠ V → Map.find a'.vals k = Map.find a.vals k) ∧
      a'.cordics = a.cordics ∧ a'.funcs = a.funcs ∧ a'.func_names = a.func_names ∧
      a'.stack = a.stack ∧ a'.val_stack = a.val_stack) := by
  have hpl : parse_line C a line = case_constructed a c := by
    simp only [parse_line, hkind]
  rw [hpl]
  refine ⟨?_, ?_, ?_⟩
  · intro hne
    refine ⟨⟨?_, ?_⟩, ?_⟩
    · intro hacc
      obtain ⟨a', ha'⟩ := (accepted_iff_ok _).1 hacc
      rcases case_constructed_result a a' c c1 c2 V E hV hE ha' with
        ⟨hz, _⟩ | ⟨_, e, hf, hal, _⟩
      · exact absurd hz hne
      · exact ⟨e, hf, hal⟩
    · rintro ⟨e, hf, hal⟩
      rw [case_constructed_live a c c1 c2 V E e hV hE hne hf hal]
      rfl
    · intro a' ha'
      rcases case_constructed_result a a' c c1 c2 V E hV hE ha' with
        ⟨hz, _⟩ | ⟨_, e, hf, hal, h⟩
      · exact absurd hz hne
      · subst h
        exact ⟨e, _, hf, hal, Map.find_assign_self _ _ _, rfl⟩
  · intro hz
    subst hz
    exact ⟨_, _, case_constructed_zero a c c1 c2 V hV hE, Map.find_assign_self _ _ _, rfl⟩
  · intro a' ha'
    rcases case_constructed_result a a' c c1 c2 V E hV hE ha' with ⟨_, h⟩ | ⟨_, e, _, _, h⟩
    · subst h
      exact ⟨⟨_, Map.find_assign_self _ _ _, rfl, rfl, rfl⟩,
        fun k hk => Map.find_assign_ne _ _ _ _ hk, rfl, rfl, rfl, rfl, rfl⟩
    · subst h
      exact ⟨⟨_, Map.find_assign_self _ _ _, rfl, rfl, rfl⟩,
        fun k hk => Map.find_assign_ne _ _ _ _ hk, rfl, rfl, rfl, rfl, rfl⟩

/-- Witness of claim C10: `constructed 0x10 0x1` with a live engine at address 1. -/
theorem constructed_records_owner_witness :
    accepted (parse_line sample_ops
      { Analysis.init sample_ops with cordics := [(1, ⟨none, true, 32, 32, 0, 16⟩)] }
      "constructed 0x10 0x1") = true :=
  ((constructed_records_owner sample_ops
    { Analysis.init sample_ops with cordics := [(1, ⟨none, true, 32, 32, 0, 16⟩)] }
    "constructed 0x10 0x1" " 0x10 0x1".data " 0x1".data [] 16 1
    (by decide) (by decide) (by decide)).1 (by decide)).1.2
    ⟨⟨none, true, 32, 32, 0, 16⟩, by decide, rfl⟩

/-- Claim C11, the run that breaks it: after two `cordic_constructed` lines on the
addresses 1 and 2 and a `constructed` line against the engine at address 1, neither
engine entry has had its ordinal `cordic_i` written, so the two engines do not carry the
ordinals 0 and 1, and the value has copied the unwritten field of its engine. -/
theorem engine_ordinal_never_written :
    ∃ a e0 e1 v, parse sample_ops ["cordic_constructed 0x1 32 32 0 16",
        "cordic_constructed 0x2 32 32 0 16", "constructed 0x10 0x1"] = .ok a ∧
      Map.find a.cordics 1 = some e0 ∧ Map.find a.cordics 2 = some e1 ∧
      Map.find a.vals 16 = some v ∧
      e0.cordic_i = none ∧ e1.cordic_i = none ∧ v.cordic_i = e0.cordic_i :=
  ⟨{ Analysis.init sample_ops with
      cordics := [(1, ⟨none, true, 32, 32, 0, 16⟩), (2, ⟨none, true, 32, 32, 0, 16⟩)]
      vals := [(16, ⟨true, false, none, none, none, false, none, none, none⟩)] },
    ⟨none, true, 32, 32, 0, 16⟩, ⟨none, true, 32, 32, 0, 16⟩,
    ⟨true, false, none, none, none, false, none, none, none⟩,
    by decide, by decide, by decide, by decide, rfl, rfl, rfl⟩

/-- Claim C12. An `enter` line with name `f` at a call depth below 1024 is accepted and
pushes a frame named `f`. If the function table has no `f`, the name is appended to the
name list and an aggregate with call count 1 and `OP_cnt` zero histogram entries is
created. If it has `f`, the name list and the histogram of `f` are unchanged and the call
count is incremented, as a `uint64_t`: by exactly 1 below the largest value, which no
trace of fewer than `2^64 - 1` lines reaches. No aggregate of another function and no
other table changes. -/
theorem enter_creates_or_counts (C : CordicOps) (a : Analysis) (line : String)
    (c c' : List Char) (f : String)
    (hkind : parse_kind (c_str line) = .ok (KIND.enter, c))
    (hname : parse_name c = .ok (f, c'))
    (hdepth : a.stack.length < STACK_CNT_MAX) :
    ∃ a', parse_line C a line = .ok a' ∧ a'.stack = ⟨f⟩ :: a.stack ∧
      (Map.find a.funcs f = none →
        a'.func_names = a.func_names ++ [f] ∧
        Map.find a'.funcs f = some ⟨1, List.replicate C.OP_cnt 0⟩) ∧
      (∀ fi, Map.find a.funcs f = some fi →
        a'.func_names = a.func_names ∧
        Map.find a'.funcs f = some { fi with call_cnt := (fi.call_cnt + 1) % 2 ^ 64 } ∧
        (fi.call_cnt + 1 < 2 ^ 64 →
          Map.find a'.funcs f = some { fi with call_cnt := fi.call_cnt + 1 }) ∧
        (∀ lines, parse C lines = .ok a → lines.length + 1 < 2 ^ 64 →
          Map.find a'.funcs f = some { fi with call_cnt := fi.call_cnt + 1 })) ∧
      (∀ g, g ≠ f → Map.find a'.funcs g = Map.find a.funcs g) ∧
      a'.vals = a.vals ∧ a'.cordics = a.cordics ∧ a'.val_stack = a.val_stack := by
  refine ⟨enter_state C a f, ?_, (enter_state_fields C a f).1, ?_, ?_,
    fun g hg => find_enter_state_ne C a f g hg, (enter_state_fields C a f).2.1,
    (enter_state_fields C a f).2.2.2.1, (enter_state_fields C a f).2.2.1⟩
  · simp only [parse_line, hkind]
    exact (case_enter_ok_iff C a _ c c' f hname).2 ⟨hdepth, rfl⟩
  · intro hnone
    rcases find_enter_state_self C a f with ⟨_, h1, h2⟩ | ⟨it, h0, _, _⟩
    · exact ⟨h2, h1⟩
    · rw [hnone] at h0
      cases h0
  · intro fi hfi
    rcases find_enter_state_self C a f with ⟨h0, _, _⟩ | ⟨it, h0, h1, h2⟩
    · rw [hfi] at h0
      cases h0
    · rw [hfi] at h0
      cases h0
      have hexact : fi.call_cnt + 1 < 2 ^ 64 →
          Map.find (enter_state C a f).funcs f =
            some { fi with call_cnt := fi.call_cnt + 1 } := by
        intro hlt
        rw [h1, Nat.mod_eq_of_lt hlt]
      refine ⟨h2, h1, hexact, ?_⟩
      intro lines hreach hlen
      have := (parse_counts_bounded C lines a hreach f fi hfi).1
      exact hexact (by omega)

/-- Witness of claim C12: `enter f` in the initial state. -/
theorem enter_creates_or_counts_witness :
    ∃ a', parse_line sample_ops (Analysis.init sample_ops) "enter f" = .ok a' ∧
      a'.stack = [⟨"f"⟩] ∧ a'.func_names = ["f"] ∧
      Map.find a'.funcs "f" = some ⟨1, [0, 0, 0, 0, 0, 0, 0, 0]⟩ := by
  obtain ⟨a', h1, h2, h3, _⟩ := enter_creates_or_counts sample_ops (Analysis.init sample_ops)
    "enter f" " f".data [] "f" (by decide) (by decide) (by decide)
  exact ⟨a', h1, h2, (h3 (by decide)).1, (h3 (by decide)).2⟩

/-- Claim C13. The call stack is empty in the initial state; after every accepted trace
its depth is at most 1024; an accepted `enter` raises the depth by exactly 1 and an
accepted `leave` lowers it by exactly 1; an `enter` at depth 1024 is fatal and a `leave`
at depth 0 is fatal; an `enter` below depth 1024 is accepted, and so is a `leave` that
names the top frame. -/
theorem call_depth_state_machine (C : CordicOps) (lines : List String) (a : Analysis)
    (eline lline : String) (c c' d d' : List Char) (f g : String)
    (hreach : parse C lines = .ok a)
    (hekind : parse_kind (c_str eline) = .ok (KIND.enter, c))
    (hename : parse_name c = .ok (f, c'))
    (hlkind : parse_kind (c_str lline) = .ok (KIND.leave, d))
    (hlname : parse_name d = .ok (g, d')) :
    STACK_CNT_MAX = 1024 ∧ (Analysis.init C).stack.length = 0 ∧
    a.stack.length ≤ STACK_CNT_MAX ∧
    (∀ a', parse_line C a eline = .ok a' → a'.stack.length = a.stack.length + 1) ∧
    (∀ a', parse_line C a lline = .ok a' → a'.stack.length + 1 = a.stack.length) ∧
    (a.stack.length = STACK_CNT_MAX → fatal (parse_line C a eline)) ∧
    (a.stack.length = 0 → fatal (parse_line C a lline)) ∧
    (a.stack.length < STACK_CNT_MAX → accepted (parse_line C a eline) = true) ∧
    (∀ rest, a.stack = ⟨g⟩ :: rest → accepted (parse_line C a lline) = true) := by
  have he : parse_line C a eline = case_enter C a c := by
    simp only [parse_line, hekind]
  have hl : parse_line C a lline = case_leave a d := by
    simp only [parse_line, hlkind]
  rw [he, hl]
  refine ⟨rfl, rfl, parse_depth_bounded C lines a hreach, ?_, ?_, ?_, ?_, ?_, ?_⟩
  · intro a' ha'
    obtain ⟨_, h⟩ := (case_enter_ok_iff C a a' c c' f hename).1 ha'
    rw [h, (enter_state_fields C a f).1]
    rfl
  · intro a' ha'
    obtain ⟨g', d'', rest, _, _, hst, h⟩ := (case_leave_ok a a' d).1 ha'
    rw [h, hst]
    rfl
  · intro hfull
    apply fatal_of_not_ok
    intro a' ha'
    obtain ⟨hlt, _⟩ := (case_enter_ok_iff C a a' c c' f hename).1 ha'
    omega
  · intro hzero
    apply fatal_of_not_ok
    intro a' ha'
    obtain ⟨g', d'', rest, _, _, hst, _⟩ := (case_leave_ok a a' d).1 ha'
    rw [hst] at hzero
    simp at hzero
  · intro hlt
    rw [(case_enter_ok_iff C a _ c c' f hename).2 ⟨hlt, rfl⟩]
    rfl
  · intro rest hst
    have hknown := parse_frames_known C lines a hreach ⟨g⟩
      (by rw [hst]; exact List.mem_cons_self _ _)
    rw [(case_leave_ok a _ d).2 ⟨g, d', rest, hlname, hknown, hst, rfl⟩]
    rfl

/-- Witness of claim C13: after `enter f`, at depth 1, `enter g` is accepted. -/
theorem call_depth_state_machine_witness :
    accepted (parse_line sample_ops
      { Analysis.init sample_ops with
        func_names := ["f"], funcs := [("f", ⟨1, [0, 0, 0, 0, 0, 0, 0, 0]⟩)],
        stack := [⟨"f"⟩] } "enter g") = true :=
  (call_depth_state_machine sample_ops ["enter f"]
    { Analysis.init sample_ops with
      func_names := ["f"], funcs := [("f", ⟨1, [0, 0, 0, 0, 0, 0, 0, 0]⟩)],
      stack := [⟨"f"⟩] }
    "enter g" "leave f" " g".data [] " f".data [] "g" "f"
    (by decide) (by decide) (by decide) (by decide) (by decide)).2.2.2.2.2.2.2.1 (by decide)

/-- Claim C14. After every accepted trace at most 2 results are pending. A line that
would push a result beyond that is fatal: an `op1` to `op4` line of `sincos` or `sinhcosh`
when at least one result is pending, and with two results pending an `op1` to `op4` line
of any operation that pushes one result, an `op1f` line, an `op2f` line and an `op2i`
line of a shift. An `op2i` line of `pop_value` when no result is pending is fatal. -/
theorem pending_results_at_most_two (C : CordicOps) (lines : List String) (a : Analysis)
    (line : String) (kind : KIND) (c c1 : List Char) (name : String)
    (hreach : parse C lines = .ok a)
    (hkind : parse_kind (c_str line) = .ok (kind, c))
    (hname : parse_name c = .ok (name, c1)) :
    VAL_STACK_CNT_MAX = 2 ∧ a.val_stack.length ≤ VAL_STACK_CNT_MAX ∧
    (kind ∈ [KIND.op1, KIND.op2, KIND.op3, KIND.op4] →
      ((lookup_op a name).1 = C.sincos ∨ (lookup_op a name).1 = C.sinhcosh) →
      1 ≤ a.val_stack.length → fatal (parse_line C a line)) ∧
    (kind ∈ [KIND.op1, KIND.op2, KIND.op3, KIND.op4] →
      (lookup_op a name).1 ≠ C.assign →
      a.val_stack.length = 2 → fatal (parse_line C a line)) ∧
    (kind ∈ [KIND.op1f, KIND.op2f] →
      a.val_stack.length = 2 → fatal (parse_line C a line)) ∧
    (kind = KIND.op2i → (lookup_op a name).1 ≠ C.pop_value →
      a.val_stack.length = 2 → fatal (parse_line C a line)) ∧
    (kind = KIND.op2i → (lookup_op a name).1 = C.pop_value →
      a.val_stack = [] → fatal (parse_line C a line)) := by
  have hops : ∀ n cnt, 0 < cnt → result_cnt C (lookup_op a name).1 = cnt →
      2 < a.val_stack.length + cnt → fatal (case_op C n a c) := by
    intro n cnt hpos hcnt hlen
    apply fatal_of_not_ok
    intro a' ha'
    obtain ⟨_, _, _, _, _, _, hle, _⟩ := (case_op_ok_iff C n a a' c c1 name hname).1 ha'
    have := hle (by omega)
    simp only [VAL_STACK_CNT_MAX] at this
    omega
  have hops4 : ∀ cnt, 0 < cnt → result_cnt C (lookup_op a name).1 = cnt →
      2 < a.val_stack.length + cnt →
      kind ∈ [KIND.op1, KIND.op2, KIND.op3, KIND.op4] → fatal (parse_line C a line) := by
    intro cnt hpos hcnt hlen hk
    simp only [List.mem_cons, List.mem_singleton, List.mem_nil_iff, or_false] at hk
    rcases hk with hk | hk | hk | hk <;> subst hk <;> simp only [parse_line, hkind] <;>
      exact hops _ cnt hpos hcnt hlen
  refine ⟨rfl, (parse_results_pending_ok C lines a hreach).1, ?_, ?_, ?_, ?_, ?_⟩
  · intro hk hop hlen
    refine hops4 2 (by omega) ?_ (by omega) hk
    simp [result_cnt, hop]
  · intro hk hop hlen
    by_cases h2 : (lookup_op a name).1 = C.sincos ∨ (lookup_op a name).1 = C.sinhcosh
    · refine hops4 2 (by omega) ?_ (by omega) hk
      simp [result_cnt, h2]
    · refine hops4 1 (by omega) ?_ (by omega) hk
      simp [result_cnt, h2, hop]
  · intro hk hlen
    simp only [List.mem_cons, List.mem_singleton, List.mem_nil_iff, or_false] at hk
    rcases hk with hk | hk <;> subst hk <;> simp only [parse_line, hkind] <;>
      apply fatal_of_not_ok <;> intro a' ha'
    · obtain ⟨_, _, _, _, _, _, _, hlt, _⟩ :=
        (case_op1f_ok_iff C a a' c c1 name hname).1 ha'
      simp only [VAL_STACK_CNT_MAX] at hlt
      omega
    · obtain ⟨_, _, _, _, _, _, _, _, _, _, _, _, _, hlt, _⟩ :=
        (case_op2f_ok_iff C a a' c c1 name hname).1 ha'
      simp only [VAL_STACK_CNT_MAX] at hlt
      omega
  · intro hk hop hlen
    subst hk
    simp only [parse_line, hkind]
    apply fatal_of_not_ok
    intro a' ha'
    obtain ⟨_, _, _, _, _, _, _, _, _, _, _, _, _, hcase⟩ :=
      (case_op2i_ok_iff C a a' c c1 name hname).1 ha'
    rcases hcase with ⟨hpop, _⟩ | ⟨_, hlt, _⟩
    · exact hop hpop
    · simp only [VAL_STACK_CNT_MAX] at hlt
      omega
  · intro hk hop hempty
    subst hk
    simp only [parse_line, hkind]
    apply fatal_of_not_ok
    intro a' ha'
    obtain ⟨_, _, _, _, _, _, _, _, _, _, _, _, _, hcase⟩ :=
      (case_op2i_ok_iff C a a' c c1 name hname).1 ha'
    rcases hcase with ⟨_, top, below, hvs, _⟩ | ⟨hpop, _⟩
    · rw [hempty] at hvs
      cases hvs
    · exact hpop hop

/-- Witness of claim C14: inside `f` with no result pending, `op2i pop_value 10 1` is
fatal. -/
theorem pending_results_at_most_two_witness :
    fatal (parse_line sample_ops
      { Analysis.init sample_ops with
        func_names := ["f"], funcs := [("f", ⟨1, [0, 0, 0, 0, 0, 0, 0, 0]⟩)],
        vals := [(16, ⟨true, false, some size_t_minus_one, none, none, false, none, none,
          none⟩)],
        stack := [⟨"f"⟩] } "op2i pop_value 10 1") :=
  (pending_results_at_most_two sample_ops ["enter f", "constructed 10 0"]
    { Analysis.init sample_ops with
      func_names := ["f"], funcs := [("f", ⟨1, [0, 0, 0, 0, 0, 0, 0, 0]⟩)],
      vals := [(16, ⟨true, false, some size_t_minus_one, none, none, false, none, none,
        none⟩)],
      stack := [⟨"f"⟩] }
    "op2i pop_value 10 1" KIND.op2i " pop_value 10 1".data " 10 1".data "pop_value"
    (by decide) (by decide) (by decide)).2.2.2.2.2.2 rfl (by decide) rfl

/-- Claim C15. An accepted `op1`, `op2`, `op3` or `op4` line pushes onto the
pending-result stack no result when its operation is `assign`, two results when it is
`sincos` or `sinhcosh`, and one result for every other operation code; every pushed
result is live, assigned and not constant. The codes of `assign`, `sincos` and `sinhcosh`
are different enumerators. -/
theorem op_line_pushes_results (C : CordicOps) (a a' : Analysis) (line : String)
    (kind : KIND) (c c1 : List Char) (name : String)
    (hdist : C.assign ≠ C.sincos ∧ C.assign ≠ C.sinhcosh)
    (hkind : parse_kind (c_str line) = .ok (kind, c))
    (hk : kind ∈ [KIND.op1, KIND.op2, KIND.op3, KIND.op4])
    (hname : parse_name c = .ok (name, c1))
    (hok : parse_line C a line = .ok a') :
    ((lookup_op a name).1 = C.assign → a'.val_stack = a.val_stack) ∧
    ((lookup_op a name).1 = C.sincos ∨ (lookup_op a name).1 = C.sinhcosh →
      a'.val_stack = result_val none false none :: result_val none false none ::
        a.val_stack) ∧
    ((lookup_op a name).1 ≠ C.assign → (lookup_op a name).1 ≠ C.sincos →
      (lookup_op a name).1 ≠ C.sinhcosh →
      a'.val_stack = result_val none false none :: a.val_stack) ∧
    (result_val none false none).is_alive = true ∧
    (result_val none false none).is_assigned = true ∧
    (result_val none false none).is_constant = false := by
  have hvs : a'.val_stack = List.replicate (result_cnt C (lookup_op a name).1)
      (result_val none false none) ++ a.val_stack := by
    simp only [List.mem_cons, List.mem_singleton, List.mem_nil_iff, or_false] at hk
    rcases hk with hk | hk | hk | hk <;> subst hk <;> simp only [parse_line, hkind] at hok
    · obtain ⟨_, _, _, _, _, _, _, h⟩ := (case_op_ok_iff C 1 a a' c c1 name hname).1 hok
      rw [h]
    · obtain ⟨_, _, _, _, _, _, _, h⟩ := (case_op_ok_iff C 2 a a' c c1 name hname).1 hok
      rw [h]
    · obtain ⟨_, _, _, _, _, _, _, h⟩ := (case_op_ok_iff C 3 a a' c c1 name hname).1 hok
      rw [h]
    · obtain ⟨_, _, _, _, _, _, _, h⟩ := (case_op_ok_iff C 4 a a' c c1 name hname).1 hok
      rw [h]
  refine ⟨?_, ?_, ?_, rfl, rfl, rfl⟩
  · intro hop
    rw [hvs, hop]
    simp [result_cnt, hdist.1, hdist.2]
  · intro hop
    rw [hvs]
    simp [result_cnt, hop, List.replicate]
  · intro h1 h2 h3
    rw [hvs]
    simp [result_cnt, h1, h2, h3, List.replicate]

/-- Witness of claim C15: `op1 add 10` inside `f`, with an assigned value at address 16,
is accepted and pushes one result. -/
theorem op_line_pushes_results_witness :
    accepted (parse_line sample_ops
      { Analysis.init sample_ops with
        func_names := ["f"], funcs := [("f", ⟨1, [0, 0, 0, 0, 0, 0, 0, 0]⟩)],
        vals := [(16, ⟨true, true, none, none, some 1, false, none, none, none⟩)],
        stack := [⟨"f"⟩] } "op1 add 10") = true ∧
    Analysis.val_stack
      { Analysis.init sample_ops with
        func_names := ["f"], funcs := [("f", ⟨1, [0, 0, 0, 0, 0, 1, 0, 0]⟩)],
        vals := [(16, ⟨true, true, none, none, some 1, false, none, none, none⟩)],
        stack := [⟨"f"⟩],
        val_stack := [result_val none false none] } = [result_val none false none] :=
  ⟨by decide,
  (op_line_pushes_results sample_ops
    { Analysis.init sample_ops with
      func_names := ["f"], funcs := [("f", ⟨1, [0, 0, 0, 0, 0, 0, 0, 0]⟩)],
      vals := [(16, ⟨true, true, none, none, some 1, false, none, none, none⟩)],
      stack := [⟨"f"⟩] }
    { Analysis.init sample_ops with
      func_names := ["f"], funcs := [("f", ⟨1, [0, 0, 0, 0, 0, 1, 0, 0]⟩)],
      vals := [(16, ⟨true, true, none, none, some 1, false, none, none, none⟩)],
      stack := [⟨"f"⟩],
      val_stack := [result_val none false none] }
    "op1 add 10" KIND.op1 " add 10".data " 10".data "add"
    (by decide) (by decide) (by decide) (by decide) (by decide)).2.2.1 (by decide)
    (by decide) (by decide)⟩

/-- Claim C16. In every state reached by replaying a trace, an accepted operation line
with operation code `o`, replayed while `f` is on top of the call stack, increments the
entry `o` of the histogram of `f`, as a `uint64_t`: by exactly 1 below the largest value,
which no trace of fewer than `2^64 - 1` lines reaches. Every other entry of that
histogram, the call count of `f`, the aggregate of every other function and the name list
are unchanged. `OP_cnt` is not zero. -/
theorem op_line_counts_once (C : CordicOps) (lines : List String) (a a' : Analysis)
    (line : String) (kind : KIND) (c c1 : List Char) (name : String) (fr : FrameInfo)
    (rest : List FrameInfo)
    (hcnt : 0 < C.OP_cnt)
    (hreach : parse C lines = .ok a)
    (hkind : parse_kind (c_str line) = .ok (kind, c))
    (hop : kind ∈ [KIND.op1, KIND.op2, KIND.op3, KIND.op4, KIND.op1f, KIND.op2i, KIND.op2f])
    (hname : parse_name c = .ok (name, c1))
    (hst : a.stack = fr :: rest)
    (hok : parse_line C a line = .ok a') :
    (lookup_op a name).1 < C.OP_cnt ∧
    ∃ fi fi', Map.find a.funcs fr.func_name = some fi ∧
      Map.find a'.funcs fr.func_name = some fi' ∧
      fi'.op_cnt.length = fi.op_cnt.length ∧
      fi'.op_cnt.getD (lookup_op a name).1 0 =
        (fi.op_cnt.getD (lookup_op a name).1 0 + 1) % 2 ^ 64 ∧
      (fi.op_cnt.getD (lookup_op a name).1 0 + 1 < 2 ^ 64 →
        fi'.op_cnt.getD (lookup_op a name).1 0 = fi.op_cnt.getD (lookup_op a name).1 0 + 1) ∧
      (lines.length + 1 < 2 ^ 64 →
        fi'.op_cnt.getD (lookup_op a name).1 0 = fi.op_cnt.getD (lookup_op a name).1 0 + 1) ∧
      (∀ j, j ≠ (lookup_op a name).1 → fi'.op_cnt.getD j 0 = fi.op_cnt.getD j 0) ∧
      fi'.call_cnt = fi.call_cnt ∧
      (∀ g, g ≠ fr.func_name → Map.find a'.funcs g = Map.find a.funcs g) ∧
      a'.func_names = a.func_names := by
  have hlt : (lookup_op a name).1 < C.OP_cnt := by
    rcases lookup_op_in_range C a name (parse_ops_in_range C lines a hreach) with h | h
    · rw [h]
      exact hcnt
    · exact h
  have hop8 : kind ∈ [KIND.op1, KIND.op2, KIND.op3, KIND.op4, KIND.op1i, KIND.op1f,
      KIND.op2i, KIND.op2f] := by
    simp only [List.mem_cons, List.mem_singleton, List.mem_nil_iff, or_false] at hop ⊢
    rcases hop with h | h | h | h | h | h | h <;> simp [h]
  obtain ⟨name', c1', fr', rest', hname', hst', _, hfu, hfn, _⟩ :=
    parse_line_op_frame C a a' line kind c hkind hop8 hok
  rw [hname] at hname'
  cases hname'
  rw [hst] at hst'
  cases hst'
  have hknown := parse_frames_known C lines a hreach fr
    (by rw [hst]; exact List.mem_cons_self _ _)
  cases hfi : Map.find a.funcs fr.func_name with
  | none => simp [hfi] at hknown
  | some fi =>
    have hsize := parse_hist_sized C lines a hreach fr.func_name fi hfi
    have hfi' := find_funcs_after_inc C a.funcs fr.func_name (lookup_op a name).1 fi hfi
    rw [← hfu] at hfi'
    refine ⟨hlt, fi, _, rfl, hfi', incr_at_length _ _, ?_, ?_, ?_, ?_, rfl, ?_, hfn⟩
    · exact incr_at_getD_self _ _ (by rw [hsize]; exact hlt)
    · intro hno
      rw [incr_at_getD_self _ _ (by rw [hsize]; exact hlt), Nat.mod_eq_of_lt hno]
    · intro hlen
      have := (parse_counts_bounded C lines a hreach fr.func_name fi hfi).2 (lookup_op a name).1
      rw [incr_at_getD_self _ _ (by rw [hsize]; exact hlt), Nat.mod_eq_of_lt (by omega)]
    · intro j hj
      exact incr_at_getD_ne _ _ _ hj
    · intro g hg
      rw [hfu]
      exact find_funcs_after_inc_ne C a.funcs fr.func_name g _ hg

/-- Witness of claim C16: `op1f push_constant 1.0` inside `f`. -/
theorem op_line_counts_once_witness :
    (lookup_op { Analysis.init sample_ops with
        func_names := ["f"], funcs := [("f", ⟨1, [0, 0, 0, 0, 0, 0, 0, 0]⟩)],
        stack := [⟨"f"⟩] } "push_constant").1 < sample_ops.OP_cnt :=
  (op_line_counts_once sample_ops ["enter f"]
    { Analysis.init sample_ops with
      func_names := ["f"], funcs := [("f", ⟨1, [0, 0, 0, 0, 0, 0, 0, 0]⟩)],
      stack := [⟨"f"⟩] }
    { Analysis.init sample_ops with
      func_names := ["f"], funcs := [("f", ⟨1, [1, 0, 0, 0, 0, 0, 0, 0]⟩)],
      stack := [⟨"f"⟩],
      val_stack := [⟨true, true, none, none, none, true, some ⟨"1.0"⟩, none, none⟩] }
    "op1f push_constant 1.0" KIND.op1f " push_constant 1.0".data " 1.0".data "push_constant"
    ⟨"f"⟩ [] (by decide) (by decide) (by decide) (by decide) (by decide) rfl
    (by decide)).1

/-- Claim C17. With a non-empty call stack and no pending result, an `op2` line of
`assign` with a live, assigned source is accepted whatever is recorded at its
destination, and an `op3` line of `sincos` or `sinhcosh` with a live, assigned first
operand is accepted whatever is recorded at its second and third operands. The loop skips
the check at exactly these slots: index 0 of `assign`, index 1 and 2 of `sincos` and
`sinhcosh`; at every other slot an operand that is absent, dead or unassigned makes the
line fatal (for index 2 or 3 of an `assign`, unless the copy made at operand 1 has filled
its address). -/
theorem self_write_slots_exempt (C : CordicOps) (a : Analysis) (aline sline : String)
    (c c1 c2 c3 d d1 d2 d3 d4 : List Char) (an sn : String) (D S X Y Z : Nat)
    (vS vX : ValInfo) (fr : FrameInfo) (rest : List FrameInfo)
    (hst : a.stack = fr :: rest) (hvs : a.val_stack = [])
    (hakind : parse_kind (c_str aline) = .ok (KIND.op2, c))
    (haname : parse_name c = .ok (an, c1))
    (haop : (lookup_op a an).1 = C.assign)
    (hD : parse_addr c1 = .ok (D, c2)) (hS : parse_addr c2 = .ok (S, c3))
    (hfS : Map.find a.vals S = some vS) (hSal : vS.is_alive = true)
    (hSas : vS.is_assigned = true)
    (hskind : parse_kind (c_str sline) = .ok (KIND.op3, d))
    (hsname : parse_name d = .ok (sn, d1))
    (hsop : (lookup_op a sn).1 = C.sincos ∨ (lookup_op a sn).1 = C.sinhcosh)
    (hX : parse_addr d1 = .ok (X, d2)) (hY : parse_addr d2 = .ok (Y, d3))
    (hZ : parse_addr d3 = .ok (Z, d4))
    (hfX : Map.find a.vals X = some vX) (hXal : vX.is_alive = true)
    (hXas : vX.is_assigned = true) :
    accepted (parse_line C a aline) = true ∧ accepted (parse_line C a sline) = true ∧
    (∀ op i, opnd_is_checked C op i = false ↔
      (i = 0 ∧ op = C.assign) ∨ ((i = 1 ∨ i = 2) ∧ (op = C.sincos ∨ op = C.sinhcosh))) ∧
    (∀ (s : Analysis) (n i : Nat) (e e1 e2 : List Char) (name : String) (addrs : List Nat)
      (x : Nat),
      parse_name e = .ok (name, e1) → i < n → parse_addrs (i + 1) e1 = .ok (addrs, e2) →
      addrs.get? i = some x →
      ¬ ((i = 0 ∧ (lookup_op s name).1 = C.assign) ∨
        ((i = 1 ∨ i = 2) ∧
          ((lookup_op s name).1 = C.sincos ∨ (lookup_op s name).1 = C.sinhcosh))) →
      operand_unusable s.vals x →
      ((lookup_op s name).1 = C.assign → 2 ≤ i → x ≠ addrs.headD 0) →
      fatal (case_op C n s e)) := by
  refine ⟨?_, ?_, opnd_is_checked_false_iff C, ?_⟩
  · simp only [parse_line, hakind]
    obtain ⟨vals', hloop⟩ := opnd_loop_assign_accepts C an a.vals c1 c2 c3 D S vS hD hS hfS
      hSal hSas
    apply (accepted_iff_ok _).2
    refine ⟨_, (case_op_ok_iff C 2 a _ c c1 an haname).2
      ⟨fr, rest, vals', c3, hst, by rw [haop]; exact hloop, ?_, rfl⟩⟩
    intro _
    rw [hvs]
    simp only [List.length_nil, Nat.zero_add, VAL_STACK_CNT_MAX]
    exact result_cnt_le C _
  · simp only [parse_line, hskind]
    apply (accepted_iff_ok _).2
    refine ⟨_, (case_op_ok_iff C 3 a _ d d1 sn hsname).2
      ⟨fr, rest, a.vals, d4, hst,
        opnd_loop_paired_accepts C sn _ a.vals d1 d2 d3 d4 X Y Z vX hsop hX hY hZ hfX hXal hXas,
        ?_, rfl⟩⟩
    intro _
    rw [hvs]
    simp only [List.length_nil, Nat.zero_add, VAL_STACK_CNT_MAX]
    exact result_cnt_le C _
  · intro s n i e e1 e2 name addrs x hname hi haddrs hx hslot hbad hcopy
    refine case_op_unusable C s n i e e1 e2 name addrs x hname hi haddrs hx ?_ hbad hcopy
    cases hchk : opnd_is_checked C (lookup_op s name).1 i with
    | true => rfl
    | false => exact absurd ((opnd_is_checked_false_iff C _ i).1 hchk) hslot

/-- Witness of claim C17: `op2 assign 20 10` with nothing recorded at address 32, and
`op3 sincos 10 20 30` with nothing recorded at the addresses 32 and 48. -/
theorem self_write_slots_exempt_witness :
    accepted (parse_line sample_ops
      { Analysis.init sample_ops with
        func_names := ["f"], funcs := [("f", ⟨1, [1, 0, 1, 0, 0, 0, 0, 0]⟩)],
        vals := [(16, ⟨true, true, none, none, some 1, true, some ⟨"1.0"⟩, none, none⟩)],
        stack := [⟨"f"⟩] } "op2 assign 20 10") = true ∧
    accepted (parse_line sample_ops
      { Analysis.init sample_ops with
        func_names := ["f"], funcs := [("f", ⟨1, [1, 0, 1, 0, 0, 0, 0, 0]⟩)],
        vals := [(16, ⟨true, true, none, none, some 1, true, some ⟨"1.0"⟩, none, none⟩)],
        stack := [⟨"f"⟩] } "op3 sincos 10 20 30") = true :=
  have h := self_write_slots_exempt sample_ops
    { Analysis.init sample_ops with
      func_names := ["f"], funcs := [("f", ⟨1, [1, 0, 1, 0, 0, 0, 0, 0]⟩)],
      vals := [(16, ⟨true, true, none, none, some 1, true, some ⟨"1.0"⟩, none, none⟩)],
      stack := [⟨"f"⟩] }
    "op2 assign 20 10" "op3 sincos 10 20 30"
    " assign 20 10".data " 20 10".data " 10".data [] " sincos 10 20 30".data
    " 10 20 30".data " 20 30".data " 30".data [] "assign" "sincos" 32 16 16 32 48
    ⟨true, true, none, none, some 1, true, some ⟨"1.0"⟩, none, none⟩
    ⟨true, true, none, none, some 1, true, some ⟨"1.0"⟩, none, none⟩
    ⟨"f"⟩ [] rfl rfl (by decide) (by decide) (by decide) (by decide) (by decide) (by decide)
    rfl rfl (by decide) (by decide) (by decide) (by decide) (by decide) (by decide)
    (by decide) rfl rfl
  ⟨h.1, h.2.1⟩

/-- Claim C18. After an accepted `op2` line of `assign` with destination `D` and source
`S`, the entry of the value table at `D` is the whole entry that was recorded at `S`
before the line, which was live and assigned; the entry at `S` and every entry other than
`D` are as before. The codes of `assign`, `sincos` and `sinhcosh` are different
enumerators. -/
theorem assign_copies_source (C : CordicOps) (a a' : Analysis) (line : String)
    (c c1 c2 c3 : List Char) (name : String) (D S : Nat)
    (hdist : C.assign ≠ C.sincos ∧ C.assign ≠ C.sinhcosh)
    (hkind : parse_kind (c_str line) = .ok (KIND.op2, c))
    (hname : parse_name c = .ok (name, c1))
    (hop : (lookup_op a name).1 = C.assign)
    (hD : parse_addr c1 = .ok (D, c2)) (hS : parse_addr c2 = .ok (S, c3))
    (hok : parse_line C a line = .ok a') :
    ∃ vS, Map.find a.vals S = some vS ∧ vS.is_alive = true ∧ vS.is_assigned = true ∧
      Map.find a'.vals D = some vS ∧ Map.find a'.vals S = some vS ∧
      (∀ k, k ≠ D → Map.find a'.vals k = Map.find a.vals k) ∧
      a'.val_stack = a.val_stack ∧ a'.cordics = a.cordics := by
  simp only [parse_line, hkind] at hok
  obtain ⟨fr, rest, vals, c4, _, hloop, _, ha'⟩ := (case_op_ok_iff C 2 a a' c c1 name hname).1 hok
  rw [hop] at hloop ha'
  obtain ⟨vS, hfS, hal, has, hr⟩ := (opnd_loop_assign C name a.vals c1 c2 c3 D S _ hdist hD hS).1
    hloop
  simp only [Prod.mk.injEq] at hr
  obtain ⟨hvals, _⟩ := hr
  subst hvals
  subst ha'
  refine ⟨vS, hfS, hal, has, Map.find_assign_self _ _ _, ?_,
    fun k hk => Map.find_assign_ne _ _ _ _ hk, ?_, rfl⟩
  · by_cases hSD : S = D
    · subst hSD
      exact Map.find_assign_self _ _ _
    · show Map.find (Map.assign a.vals D vS) S = some vS
      rw [Map.find_assign_ne _ _ _ _ hSD]
      exact hfS
  · simp [result_cnt, hdist.1, hdist.2]

/-- Witness of claim C18: `op2 assign 20 10` copies the constant recorded at address 16 to
address 32. -/
theorem assign_copies_source_witness :
    Map.find (Analysis.vals
      { Analysis.init sample_ops with
        func_names := ["f"], funcs := [("f", ⟨1, [1, 1, 1, 0, 0, 0, 0, 0]⟩)],
        vals := [(16, ⟨true, true, none, none, some 1, true, some ⟨"1.0"⟩, none, none⟩),
          (32, ⟨true, true, none, none, some 1, true, some ⟨"1.0"⟩, none, none⟩)],
        stack := [⟨"f"⟩] }) 32 =
      some ⟨true, true, none, none, some 1, true, some ⟨"1.0"⟩, none, none⟩ := by
  obtain ⟨vS, h1, _, _, h2, _⟩ := assign_copies_source sample_ops
    { Analysis.init sample_ops with
      func_names := ["f"], funcs := [("f", ⟨1, [1, 0, 1, 0, 0, 0, 0, 0]⟩)],
      vals := [(16, ⟨true, true, none, none, some 1, true, some ⟨"1.0"⟩, none, none⟩)],
      stack := [⟨"f"⟩] }
    { Analysis.init sample_ops with
      func_names := ["f"], funcs := [("f", ⟨1, [1, 1, 1, 0, 0, 0, 0, 0]⟩)],
      vals := [(16, ⟨true, true, none, none, some 1, true, some ⟨"1.0"⟩, none, none⟩),
        (32, ⟨true, true, none, none, some 1, true, some ⟨"1.0"⟩, none, none⟩)],
      stack := [⟨"f"⟩] }
    "op2 assign 20 10" " assign 20 10".data " 20 10".data " 10".data [] "assign" 32 16
    (by decide) (by decide) (by decide) (by decide) (by decide) (by decide) (by decide)
  have h3 : vS = ⟨true, true, none, none, some 1, true, some ⟨"1.0"⟩, none, none⟩ := by
    simp only [Map.find, if_true, Option.some.injEq] at h1
    exact h1.symm
  rw [h3] at h2
  exact h2

/-- Counterexample to claim C19. After `enter f`, `op1f push_constant 1.0`, `leave f` and
`constructed 10 0` a live value is recorded at address 16 and one result is pending, but
no function is entered, and the line `op2i pop_value 10 5` is fatal. -/
theorem pop_value_outside_function_counterexample :
    ∃ a v top, parse sample_ops ["enter f", "op1f push_constant 1.0", "leave f",
        "constructed 10 0"] = .ok a ∧
      Map.find a.vals 16 = some v ∧ v.is_alive = true ∧ a.val_stack = [top] ∧
      a.stack = [] ∧ accepted (parse_line sample_ops a "op2i pop_value 10 5") = false :=
  ⟨{ Analysis.init sample_ops with
      func_names := ["f"], funcs := [("f", ⟨1, [1, 0, 0, 0, 0, 0, 0, 0]⟩)],
      vals := [(16, ⟨true, false, some size_t_minus_one, none, none, false, none, none,
        none⟩)],
      val_stack := [⟨true, true, none, none, none, true, some ⟨"1.0"⟩, none, none⟩] },
    ⟨true, false, some size_t_minus_one, none, none, false, none, none, none⟩,
    ⟨true, true, none, none, none, true, some ⟨"1.0"⟩, none, none⟩,
    by decide, by decide, rfl, rfl, rfl, by decide⟩

/-- Claim C19, amended. In every state reached by replaying a trace, with a live value at
address `A` and a pending result, an `op2i` line of `pop_value` for `A` whose last token
is an integer literal that denotes the integer `n` in the range of `int` is accepted
exactly when the call stack is not empty; it then removes the result pushed last, so the
depth of the pending-result stack drops by one, and replaces the entry at `A` by that
result with `encoded` set to `n`: `A` is live and assigned afterwards and is constant,
with the same constant, exactly when the removed result was. No other entry of the value
table changes. -/
theorem pop_value_binds_result (C : CordicOps) (lines : List String) (a : Analysis)
    (line : String) (c c1 c2 c3 : List Char) (name : String) (A : Nat) (n : Int)
    (v top : ValInfo) (below : List ValInfo)
    (hreach : parse C lines = .ok a)
    (hkind : parse_kind (c_str line) = .ok (KIND.op2i, c))
    (hname : parse_name c = .ok (name, c1))
    (hop : (lookup_op a name).1 = C.pop_value)
    (hA : parse_addr c1 = .ok (A, c2)) (hn : int_token c2 n c3)
    (hfA : Map.find a.vals A = some v) (hal : v.is_alive = true)
    (hvs : a.val_stack = top :: below) :
    (accepted (parse_line C a line) = true ↔ a.stack ≠ []) ∧
    ∀ a', parse_line C a line = .ok a' →
      a'.val_stack = below ∧ a'.val_stack.length + 1 = a.val_stack.length ∧
      Map.find a'.vals A = some { top with encoded := some n } ∧
      (∃ w, Map.find a'.vals A = some w ∧ w.is_alive = true ∧ w.is_assigned = true ∧
        w.encoded = some n ∧ w.is_constant = top.is_constant ∧ w.constant = top.constant) ∧
      (∀ k, k ≠ A → Map.find a'.vals k = Map.find a.vals k) := by
  have hn := parse_int_of_token c2 c3 n hn
  have htop := (parse_results_pending_ok C lines a hreach).2 top
    (by rw [hvs]; exact List.mem_cons_self _ _)
  refine ⟨⟨?_, ?_⟩, ?_⟩
  · intro hacc hempty
    obtain ⟨a', ha'⟩ := (accepted_iff_ok _).1 hacc
    simp only [parse_line, hkind] at ha'
    obtain ⟨fr, rest, _, _, _, _, _, hst, _⟩ := (case_op2i_ok_iff C a a' c c1 name hname).1 ha'
    rw [hempty] at hst
    cases hst
  · intro hne
    cases hst : a.stack with
    | nil => exact absurd hst hne
    | cons fr rest =>
      rw [pop_value_step C a line c c1 c2 c3 name A n v top below fr rest hkind hname hop hA hn
        hfA hal hvs hst]
      rfl
  · intro a' ha'
    cases hst : a.stack with
    | nil =>
      simp only [parse_line, hkind] at ha'
      obtain ⟨fr, rest, _, _, _, _, _, hst', _⟩ :=
        (case_op2i_ok_iff C a a' c c1 name hname).1 ha'
      rw [hst] at hst'
      cases hst'
    | cons fr rest =>
      rw [pop_value_step C a line c c1 c2 c3 name A n v top below fr rest hkind hname hop hA hn
        hfA hal hvs hst] at ha'
      cases ha'
      refine ⟨rfl, by rw [hvs]; rfl, Map.find_assign_self _ _ _,
        ⟨_, Map.find_assign_self _ _ _, htop.1, htop.2, rfl, rfl, rfl⟩,
        fun k hk => Map.find_assign_ne _ _ _ _ hk⟩

/-- Witness of claim C19: after `enter f`, `constructed 10 0` and
`op1f push_constant 1.0`, the line `op2i pop_value 10 5` is accepted; it leaves no result
pending, and the value at address 16 is the constant that was pushed, with `encoded` 5. -/
theorem pop_value_binds_result_witness :
    ∃ a', parse_line sample_ops
        { Analysis.init sample_ops with
          func_names := ["f"], funcs := [("f", ⟨1, [1, 0, 0, 0, 0, 0, 0, 0]⟩)],
          vals := [(16, ⟨true, false, some size_t_minus_one, none, none, false, none, none,
            none⟩)],
          stack := [⟨"f"⟩],
          val_stack := [⟨true, true, none, none, none, true, some ⟨"1.0"⟩, none, none⟩] }
        "op2i pop_value 10 5" = .ok a' ∧
      a'.val_stack = [] ∧
      Map.find a'.vals 16 =
        some ⟨true, true, none, none, some 5, true, some ⟨"1.0"⟩, none, none⟩ := by
  have T := pop_value_binds_result sample_ops
    ["enter f", "constructed 10 0", "op1f push_constant 1.0"]
    { Analysis.init sample_ops with
      func_names := ["f"], funcs := [("f", ⟨1, [1, 0, 0, 0, 0, 0, 0, 0]⟩)],
      vals := [(16, ⟨true, false, some size_t_minus_one, none, none, false, none, none,
        none⟩)],
      stack := [⟨"f"⟩],
      val_stack := [⟨true, true, none, none, none, true, some ⟨"1.0"⟩, none, none⟩] }
    "op2i pop_value 10 5" " pop_value 10 5".data " 10 5".data " 5".data [] "pop_value" 16 5
    ⟨true, false, some size_t_minus_one, none, none, false, none, none, none⟩
    ⟨true, true, none, none, none, true, some ⟨"1.0"⟩, none, none⟩ []
    (by decide) (by decide) (by decide) (by decide) (by decide)
    ⟨"5", by decide, by decide, by decide, by decide⟩ (by decide) rfl rfl
  obtain ⟨a', ha'⟩ := (accepted_iff_ok _).1 (T.1.2 (by decide))
  exact ⟨a', ha', (T.2 a' ha').1, (T.2 a' ha').2.2.1⟩

/-- Claim C20. In every state reached by replaying a trace, with a non-empty call stack
whose top function is `f`, no pending result, a live assigned value `X` and live values
`S` and `Cc`: the lines `op3 sincos X S Cc`, `op2i pop_value S n1`, `op2i pop_value Cc n2`
are accepted one after the other; afterwards `S` and `Cc` are assigned, no result is
pending, and in the histogram of `f` the entry of `sincos` has been incremented once and
the entry of `pop_value` twice, as `uint64_t`: by exactly 1 and 2 below the largest
values, which no trace of fewer than `2^64 - 2` lines reaches; no other entry and no call
count of `f` has changed. The same holds for `sinhcosh`. `OP_cnt` is not zero and
`pop_value` is another enumerator than `sincos` and `sinhcosh`. -/
theorem paired_op_then_two_binds (C : CordicOps) (lines : List String) (a : Analysis)
    (l1 l2 l3 : String) (c c1 c2 c3 c4 d d1 d2 d3 e e1 e2 e3 : List Char)
    (sn pn2 pn3 : String) (X S Cc : Nat) (n1 n2 : Int) (vX vS vC : ValInfo)
    (fr : FrameInfo) (rest : List FrameInfo)
    (hcnt : 0 < C.OP_cnt)
    (hdist : C.sincos ≠ C.pop_value ∧ C.sinhcosh ≠ C.pop_value)
    (hreach : parse C lines = .ok a)
    (hst : a.stack = fr :: rest) (hvs : a.val_stack = [])
    (hk1 : parse_kind (c_str l1) = .ok (KIND.op3, c))
    (hn1 : parse_name c = .ok (sn, c1))
    (hsop : (lookup_op a sn).1 = C.sincos ∨ (lookup_op a sn).1 = C.sinhcosh)
    (hX : parse_addr c1 = .ok (X, c2)) (hS : parse_addr c2 = .ok (S, c3))
    (hC : parse_addr c3 = .ok (Cc, c4))
    (hk2 : parse_kind (c_str l2) = .ok (KIND.op2i, d))
    (hn2 : parse_name d = .ok (pn2, d1))
    (hpop2 : (lookup_op a pn2).1 = C.pop_value)
    (hS2 : parse_addr d1 = .ok (S, d2)) (hi2 : parse_int d2 = .ok (n1, d3))
    (hk3 : parse_kind (c_str l3) = .ok (KIND.op2i, e))
    (hn3 : parse_name e = .ok (pn3, e1))
    (hpop3 : (lookup_op a pn3).1 = C.pop_value)
    (hC3 : parse_addr e1 = .ok (Cc, e2)) (hi3 : parse_int e2 = .ok (n2, e3))
    (hfX : Map.find a.vals X = some vX) (hXal : vX.is_alive = true)
    (hXas : vX.is_assigned = true)
    (hfS : Map.find a.vals S = some vS) (hSal : vS.is_alive = true)
    (hfC : Map.find a.vals Cc = some vC) (hCal : vC.is_alive = true) :
    ∃ a3 fi fi3 wS wC, parse_lines C a [l1, l2, l3] = .ok a3 ∧ a3.val_stack = [] ∧
      Map.find a3.vals S = some wS ∧ wS.is_alive = true ∧ wS.is_assigned = true ∧
      Map.find a3.vals Cc = some wC ∧ wC.is_alive = true ∧ wC.is_assigned = true ∧
      Map.find a.funcs fr.func_name = some fi ∧ Map.find a3.funcs fr.func_name = some fi3 ∧
      fi3.op_cnt.getD (lookup_op a sn).1 0 =
        (fi.op_cnt.getD (lookup_op a sn).1 0 + 1) % 2 ^ 64 ∧
      (fi.op_cnt.getD (lookup_op a sn).1 0 + 1 < 2 ^ 64 →
        fi3.op_cnt.getD (lookup_op a sn).1 0 = fi.op_cnt.getD (lookup_op a sn).1 0 + 1) ∧
      fi3.op_cnt.getD C.pop_value 0 =
        ((fi.op_cnt.getD C.pop_value 0 + 1) % 2 ^ 64 + 1) % 2 ^ 64 ∧
      (fi.op_cnt.getD C.pop_value 0 + 2 < 2 ^ 64 →
        fi3.op_cnt.getD C.pop_value 0 = fi.op_cnt.getD C.pop_value 0 + 2) ∧
      (lines.length + 2 < 2 ^ 64 →
        fi3.op_cnt.getD (lookup_op a sn).1 0 = fi.op_cnt.getD (lookup_op a sn).1 0 + 1 ∧
        fi3.op_cnt.getD C.pop_value 0 = fi.op_cnt.getD C.pop_value 0 + 2) ∧
      (∀ j, j ≠ (lookup_op a sn).1 → j ≠ C.pop_value →
        fi3.op_cnt.getD j 0 = fi.op_cnt.getD j 0) ∧
      fi3.call_cnt = fi.call_cnt := by
  -- the three steps
  have h1 := paired_op_step C a l1 c c1 c2 c3 c4 sn X S Cc vX fr rest hk1 hn1 hsop hX hS hC hfX
    hXal hXas hvs hst
  generalize ha1 : ({ op_state C a sn fr with
      val_stack := [result_val none false none, result_val none false none] } : Analysis) = a1
    at h1
  have f1 : a1.stack = fr :: rest ∧ a1.vals = a.vals ∧
      a1.val_stack = [result_val none false none, result_val none false none] ∧
      a1.funcs = funcs_after_inc C a.funcs fr.func_name (lookup_op a sn).1 ∧
      a1.ops = (lookup_op a sn).2.ops := by
    subst ha1
    exact ⟨hst, rfl, rfl, rfl, rfl⟩
  obtain ⟨hst1, hvals1, hvs1, hfu1, hops1⟩ := f1
  have hpop2' : (lookup_op a1 pn2).1 = C.pop_value := by
    rw [lookup_op_stable a a1 sn pn2 hops1]
    exact hpop2
  have h2 := pop_value_step C a1 l2 d d1 d2 d3 pn2 S n1 vS _ _ fr rest hk2 hn2 hpop2' hS2 hi2
    (by rw [hvals1]; exact hfS) hSal hvs1 hst1
  generalize ha2 : ({ op_state C a1 pn2 fr with
      vals := Map.assign a1.vals S { result_val none false none with encoded := some n1 }
      val_stack := [result_val none false none] } : Analysis) = a2 at h2
  have f2 : a2.stack = fr :: rest ∧
      a2.vals = Map.assign a.vals S { result_val none false none with encoded := some n1 } ∧
      a2.val_stack = [result_val none false none] ∧
      a2.funcs = funcs_after_inc C a1.funcs fr.func_name C.pop_value ∧
      a2.ops = (lookup_op a1 pn2).2.ops := by
    subst ha2
    refine ⟨hst1, ?_, rfl, ?_, rfl⟩
    · show Map.assign a1.vals S _ = _
      rw [hvals1]
    · show funcs_after_inc C a1.funcs fr.func_name (lookup_op a1 pn2).1 = _
      rw [hpop2']
  obtain ⟨hst2, hvals2, hvs2, hfu2, hops2⟩ := f2
  have hpop3' : (lookup_op a2 pn3).1 = C.pop_value := by
    rw [lookup_op_stable a1 a2 pn2 pn3 hops2, lookup_op_stable a a1 sn pn3 hops1]
    exact hpop3
  have hfC2 : ∃ w, Map.find a2.vals Cc = some w ∧ w.is_alive = true := by
    rw [hvals2]
    by_cases hCS : Cc = S
    · subst hCS
      exact ⟨_, Map.find_assign_self _ _ _, rfl⟩
    · rw [Map.find_assign_ne _ _ _ _ hCS]
      exact ⟨vC, hfC, hCal⟩
  obtain ⟨w, hw, hwal⟩ := hfC2
  have h3 := pop_value_step C a2 l3 e e1 e2 e3 pn3 Cc n2 w _ _ fr rest hk3 hn3 hpop3' hC3 hi3
    hw hwal hvs2 hst2
  generalize ha3 : ({ op_state C a2 pn3 fr with
      vals := Map.assign a2.vals Cc { result_val none false none with encoded := some n2 }
      val_stack := [] } : Analysis) = a3 at h3
  have f3 : a3.val_stack = [] ∧
      a3.vals = Map.assign a2.vals Cc { result_val none false none with encoded := some n2 } ∧
      a3.funcs = funcs_after_inc C a2.funcs fr.func_name C.pop_value := by
    subst ha3
    refine ⟨rfl, rfl, ?_⟩
    show funcs_after_inc C a2.funcs fr.func_name (lookup_op a2 pn3).1 = _
    rw [hpop3']
  obtain ⟨hvs3, hvals3, hfu3⟩ := f3
  -- the histogram of the top function
  have hknown := parse_frames_known C lines a hreach fr
    (by rw [hst]; exact List.mem_cons_self _ _)
  cases hfi : Map.find a.funcs fr.func_name with
  | none => simp [hfi] at hknown
  | some fi =>
    have hsize := parse_hist_sized C lines a hreach fr.func_name fi hfi
    have hrange := parse_ops_in_range C lines a hreach
    have hplt : (lookup_op a sn).1 < fi.op_cnt.length := by
      rw [hsize]
      rcases lookup_op_in_range C a sn hrange with h | h
      · rw [h]
        exact hcnt
      · exact h
    have hvlt : C.pop_value < fi.op_cnt.length := by
      rw [hsize, ← hpop2]
      rcases lookup_op_in_range C a pn2 hrange with h | h
      · rw [h]
        exact hcnt
      · exact h
    have hpv : (lookup_op a sn).1 ≠ C.pop_value := by
      rcases hsop with h | h
      · rw [h]
        exact hdist.1
      · rw [h]
        exact hdist.2
    have g1 := find_funcs_after_inc C a.funcs fr.func_name (lookup_op a sn).1 fi hfi
    rw [← hfu1] at g1
    have g2 := find_funcs_after_inc C a1.funcs fr.func_name C.pop_value _ g1
    rw [← hfu2] at g2
    have g3 := find_funcs_after_inc C a2.funcs fr.func_name C.pop_value _ g2
    rw [← hfu3] at g3
    simp only [] at g3
    have hS3 : ∃ wS, Map.find a3.vals S = some wS ∧ wS.is_alive = true ∧
        wS.is_assigned = true := by
      rw [hvals3]
      by_cases hSC : S = Cc
      · subst hSC
        exact ⟨_, Map.find_assign_self _ _ _, rfl, rfl⟩
      · rw [Map.find_assign_ne _ _ _ _ hSC, hvals2]
        exact ⟨_, Map.find_assign_self _ _ _, rfl, rfl⟩
    obtain ⟨wS, hwS, hwSal, hwSas⟩ := hS3
    have e1 : (incr_at (incr_at (incr_at fi.op_cnt (lookup_op a sn).1) C.pop_value)
        C.pop_value).getD (lookup_op a sn).1 0 =
        (fi.op_cnt.getD (lookup_op a sn).1 0 + 1) % 2 ^ 64 := by
      rw [incr_at_getD_ne _ _ _ hpv, incr_at_getD_ne _ _ _ hpv,
        incr_at_getD_self _ _ hplt]
    have e2 : (incr_at (incr_at (incr_at fi.op_cnt (lookup_op a sn).1) C.pop_value)
        C.pop_value).getD C.pop_value 0 =
        ((fi.op_cnt.getD C.pop_value 0 + 1) % 2 ^ 64 + 1) % 2 ^ 64 := by
      rw [incr_at_getD_self _ _ (by simp only [incr_at_length]; exact hvlt),
        incr_at_getD_self _ _ (by simp only [incr_at_length]; exact hvlt),
        incr_at_getD_ne _ _ _ (Ne.symm hpv)]
    refine ⟨a3, fi, _, wS, _, ?_, hvs3, hwS, hwSal, hwSas,
      by rw [hvals3]; exact Map.find_assign_self _ _ _, rfl, rfl, rfl, g3, e1, ?_, e2, ?_, ?_,
      ?_, rfl⟩
    · simp only [parse_lines, h1, h2, h3]
    · intro hno
      rw [e1, Nat.mod_eq_of_lt hno]
    · intro hno
      rw [e2, Nat.mod_eq_of_lt (by omega), Nat.mod_eq_of_lt (by omega)]
    · intro hlen
      have hb := (parse_counts_bounded C lines a hreach fr.func_name fi hfi).2
      have hb1 := hb (lookup_op a sn).1
      have hb2 := hb C.pop_value
      refine ⟨?_, ?_⟩
      · rw [e1, Nat.mod_eq_of_lt (by omega)]
      · rw [e2, Nat.mod_eq_of_lt (by omega), Nat.mod_eq_of_lt (by omega)]
    · intro j hj1 hj2
      show (incr_at (incr_at (incr_at fi.op_cnt (lookup_op a sn).1) C.pop_value)
        C.pop_value).getD j 0 = _
      rw [incr_at_getD_ne _ _ _ hj2, incr_at_getD_ne _ _ _ hj2, incr_at_getD_ne _ _ _ hj1]

/-- Witness of claim C20: after `enter f`, a constant bound to address 16 and two values
constructed at the addresses 32 and 48, the lines `op3 sincos 10 20 30`,
`op2i pop_value 20 7` and `op2i pop_value 30 8` are accepted. -/
theorem paired_op_then_two_binds_witness :
    accepted (parse_lines sample_ops
      { Analysis.init sample_ops with
        func_names := ["f"], funcs := [("f", ⟨1, [1, 0, 1, 0, 0, 0, 0, 0]⟩)],
        vals := [(16, ⟨true, true, none, none, some 1, true, some ⟨"1.0"⟩, none, none⟩),
          (32, ⟨true, false, some size_t_minus_one, none, none, false, none, none, none⟩),
          (48, ⟨true, false, some size_t_minus_one, none, none, false, none, none, none⟩)],
        stack := [⟨"f"⟩] }
      ["op3 sincos 10 20 30", "op2i pop_value 20 7", "op2i pop_value 30 8"]) = true := by
  obtain ⟨a3, _, _, _, _, h, _⟩ := paired_op_then_two_binds sample_ops
    ["enter f", "constructed 10 0", "op1f push_constant 1.0", "op2i pop_value 10 1",
      "constructed 20 0", "constructed 30 0"]
    { Analysis.init sample_ops with
      func_names := ["f"], funcs := [("f", ⟨1, [1, 0, 1, 0, 0, 0, 0, 0]⟩)],
      vals := [(16, ⟨true, true, none, none, some 1, true, some ⟨"1.0"⟩, none, none⟩),
        (32, ⟨true, false, some size_t_minus_one, none, none, false, none, none, none⟩),
        (48, ⟨true, false, some size_t_minus_one, none, none, false, none, none, none⟩)],
      stack := [⟨"f"⟩] }
    "op3 sincos 10 20 30" "op2i pop_value 20 7" "op2i pop_value 30 8"
    " sincos 10 20 30".data " 10 20 30".data " 20 30".data " 30".data []
    " pop_value 20 7".data " 20 7".data " 7".data []
    " pop_value 30 8".data " 30 8".data " 8".data []
    "sincos" "pop_value" "pop_value" 16 32 48 7 8
    ⟨true, true, none, none, some 1, true, some ⟨"1.0"⟩, none, none⟩
    ⟨true, false, some size_t_minus_one, none, none, false, none, none, none⟩
    ⟨true, false, some size_t_minus_one, none, none, false, none, none, none⟩
    ⟨"f"⟩ [] (by decide) (by decide) (by decide) rfl rfl
    (by decide) (by decide) (by decide) (by decide) (by decide) (by decide)
    (by decide) (by decide) (by decide) (by decide) (by decide)
    (by decide) (by decide) (by decide) (by decide) (by decide)
    (by decide) rfl rfl (by decide) rfl (by decide) rfl
  rw [h]
  rfl

/-- Claim C21. An `op1f` line whose operation code is not `push_constant` is fatal, so
an accepted `op1f` line has that code. A line of `push_constant` is accepted exactly when
the call stack is not empty, fewer than two results are pending and a token for the float
literal follows the name; an accepted line pushes exactly one pending result, which is
live, assigned and constant and carries the token of the literal as its constant, and it
leaves the value table as it is. -/
theorem op1f_only_for_push_constant (C : CordicOps) (a : Analysis) (line : String)
    (c c1 : List Char) (name : String)
    (hkind : parse_kind (c_str line) = .ok (KIND.op1f, c))
    (hname : parse_name c = .ok (name, c1)) :
    ((lookup_op a name).1 ≠ C.push_constant → fatal (parse_line C a line)) ∧
    (accepted (parse_line C a line) = true ↔
      (lookup_op a name).1 = C.push_constant ∧ a.stack ≠ [] ∧
      a.val_stack.length < VAL_STACK_CNT_MAX ∧ ∃ tok c2, parse_name c1 = .ok (tok, c2)) ∧
    ∀ a', parse_line C a line = .ok a' →
      ∃ tok c2 r, parse_name c1 = .ok (tok, c2) ∧ a'.val_stack = r :: a.val_stack ∧
        r.is_alive = true ∧ r.is_assigned = true ∧ r.is_constant = true ∧
        r.constant = some ⟨tok⟩ ∧ a'.vals = a.vals := by
  have hflt : ∀ k c2, parse_flt c1 = .ok (k, c2) → parse_name c1 = .ok (k.token, c2) := by
    intro k c2 h
    unfold parse_flt at h
    cases hn : parse_name c1 with
    | error e => rw [hn] at h; cases h
    | ok p =>
      obtain ⟨tok, c3⟩ := p
      rw [hn] at h
      cases h
      rfl
  simp only [parse_line, hkind]
  refine ⟨?_, ⟨?_, ?_⟩, ?_⟩
  · intro hne
    apply fatal_of_not_ok
    intro a' ha'
    obtain ⟨_, _, _, _, _, hop, _⟩ := (case_op1f_ok_iff C a a' c c1 name hname).1 ha'
    exact hne hop
  · intro hacc
    obtain ⟨a', ha'⟩ := (accepted_iff_ok _).1 hacc
    obtain ⟨fr, rest, k, c2, hst, hop, hk, hlen, _⟩ :=
      (case_op1f_ok_iff C a a' c c1 name hname).1 ha'
    exact ⟨hop, by rw [hst]; exact List.cons_ne_nil _ _, hlen, k.token, c2, hflt k c2 hk⟩
  · rintro ⟨hop, hst, hlen, tok, c2, htok⟩
    cases hs : a.stack with
    | nil => exact absurd hs hst
    | cons fr rest =>
      apply (accepted_iff_ok _).2
      refine ⟨_, (case_op1f_ok_iff C a _ c c1 name hname).2
        ⟨fr, rest, ⟨tok⟩, c2, hs, hop, ?_, hlen, rfl⟩⟩
      simp [parse_flt, htok]
  · intro a' ha'
    obtain ⟨fr, rest, k, c2, _, _, hk, _, ha'⟩ :=
      (case_op1f_ok_iff C a a' c c1 name hname).1 ha'
    subst ha'
    exact ⟨k.token, c2, _, hflt k c2 hk, rfl, rfl, rfl, rfl, rfl, rfl⟩

/-- Witness of claim C21: inside `f`, the line `op1f add 3.14` is fatal. -/
theorem op1f_only_for_push_constant_witness :
    fatal (parse_line sample_ops
      { Analysis.init sample_ops with
        func_names := ["f"], funcs := [("f", ⟨1, [0, 0, 0, 0, 0, 0, 0, 0]⟩)],
        stack := [⟨"f"⟩] } "op1f add 3.14") :=
  (op1f_only_for_push_constant sample_ops
    { Analysis.init sample_ops with
      func_names := ["f"], funcs := [("f", ⟨1, [0, 0, 0, 0, 0, 0, 0, 0]⟩)],
      stack := [⟨"f"⟩] }
    "op1f add 3.14" " add 3.14".data " 3.14".data "add" (by decide) (by decide)).1 (by decide)

/-- Claim C22. An `op2i` line whose operation code is none of `lshift`, `rshift` and
`pop_value` is fatal in every state, whatever the value table holds for its operand; so an
accepted `op2i` line has one of these three codes. -/
theorem op2i_only_for_shift_or_pop (C : CordicOps) (a : Analysis) (line : String)
    (c c1 : List Char) (name : String)
    (hkind : parse_kind (c_str line) = .ok (KIND.op2i, c))
    (hname : parse_name c = .ok (name, c1)) :
    (((lookup_op a name).1 ≠ C.lshift ∧ (lookup_op a name).1 ≠ C.rshift ∧
        (lookup_op a name).1 ≠ C.pop_value) → fatal (parse_line C a line)) ∧
    (accepted (parse_line C a line) = true →
      (lookup_op a name).1 = C.lshift ∨ (lookup_op a name).1 = C.rshift ∨
        (lookup_op a name).1 = C.pop_value) := by
  simp only [parse_line, hkind]
  constructor
  · rintro ⟨h1, h2, h3⟩
    apply fatal_of_not_ok
    intro a' ha'
    obtain ⟨_, _, _, _, _, _, _, _, hop, _⟩ := (case_op2i_ok_iff C a a' c c1 name hname).1 ha'
    rcases hop with h | h | h
    · exact h1 h
    · exact h2 h
    · exact h3 h
  · intro hacc
    obtain ⟨a', ha'⟩ := (accepted_iff_ok _).1 hacc
    obtain ⟨_, _, _, _, _, _, _, _, hop, _⟩ := (case_op2i_ok_iff C a a' c c1 name hname).1 ha'
    exact hop

/-- Witness of claim C22: inside `f` with a live, assigned value at address 16, the line
`op2i add 10 1` is fatal. -/
theorem op2i_only_for_shift_or_pop_witness :
    fatal (parse_line sample_ops
      { Analysis.init sample_ops with
        func_names := ["f"], funcs := [("f", ⟨1, [0, 0, 0, 0, 0, 0, 0, 0]⟩)],
        vals := [(16, ⟨true, true, none, none, some 1, true, some ⟨"1.0"⟩, none, none⟩)],
        stack := [⟨"f"⟩] } "op2i add 10 1") :=
  (op2i_only_for_shift_or_pop sample_ops
    { Analysis.init sample_ops with
      func_names := ["f"], funcs := [("f", ⟨1, [0, 0, 0, 0, 0, 0, 0, 0]⟩)],
      vals := [(16, ⟨true, true, none, none, some 1, true, some ⟨"1.0"⟩, none, none⟩)],
      stack := [⟨"f"⟩] }
    "op2i add 10 1" " add 10 1".data " 10 1".data "add" (by decide) (by decide)).1 (by decide)

/-- Claim C24. For an `op2f` line with the value address `A` and a float literal: the
line is fatal when `A` is absent from the value table, dead or not assigned; when `A` is
live and assigned the line is accepted exactly when the call stack is not empty and fewer
than two results are pending; and an accepted line pushes exactly one pending result,
which is live, assigned and not constant, and leaves the value table as it is. -/
theorem op2f_needs_assigned_value (C : CordicOps) (a : Analysis) (line : String)
    (c c1 c2 c3 : List Char) (name : String) (A : Nat) (x : FLT)
    (hkind : parse_kind (c_str line) = .ok (KIND.op2f, c))
    (hname : parse_name c = .ok (name, c1))
    (hA : parse_addr c1 = .ok (A, c2)) (hx : parse_flt c2 = .ok (x, c3)) :
    (operand_unusable a.vals A → fatal (parse_line C a line)) ∧
    (∀ v, Map.find a.vals A = some v → v.is_alive = true → v.is_assigned = true →
      (accepted (parse_line C a line) = true ↔
        a.stack ≠ [] ∧ a.val_stack.length < VAL_STACK_CNT_MAX)) ∧
    ∀ a', parse_line C a line = .ok a' →
      ∃ r, a'.val_stack = r :: a.val_stack ∧ r.is_alive = true ∧ r.is_assigned = true ∧
        r.is_constant = false ∧ a'.vals = a.vals := by
  simp only [parse_line, hkind]
  refine ⟨?_, ?_, ?_⟩
  · intro hbad
    apply fatal_of_not_ok
    intro a' ha'
    obtain ⟨_, _, A', c2', _, _, v, _, hA', _, hf, hal, has, _⟩ :=
      (case_op2f_ok_iff C a a' c c1 name hname).1 ha'
    rw [hA] at hA'
    cases hA'
    rcases hbad with h | ⟨w, hw, hdead | hun⟩
    · rw [h] at hf
      cases hf
    · rw [hw] at hf
      cases hf
      rw [hal] at hdead
      cases hdead
    · rw [hw] at hf
      cases hf
      rw [has] at hun
      cases hun
  · intro v hf hal has
    constructor
    · intro hacc
      obtain ⟨a', ha'⟩ := (accepted_iff_ok _).1 hacc
      obtain ⟨fr, rest, _, _, _, _, _, hst, _, _, _, _, _, hlen, _⟩ :=
        (case_op2f_ok_iff C a a' c c1 name hname).1 ha'
      exact ⟨by rw [hst]; exact List.cons_ne_nil _ _, hlen⟩
    · rintro ⟨hst, hlen⟩
      cases hs : a.stack with
      | nil => exact absurd hs hst
      | cons fr rest =>
        apply (accepted_iff_ok _).2
        exact ⟨_, (case_op2f_ok_iff C a _ c c1 name hname).2
          ⟨fr, rest, A, c2, x, c3, v, hs, hA, hx, hf, hal, has, hlen, rfl⟩⟩
  · intro a' ha'
    obtain ⟨fr, rest, _, _, _, _, _, _, _, _, _, _, _, _, ha'⟩ :=
      (case_op2f_ok_iff C a a' c c1 name hname).1 ha'
    subst ha'
    exact ⟨_, rfl, rfl, rfl, rfl, rfl⟩

/-- Witness of claim C24: inside `f`, the line `op2f add 10 2.5` is fatal when the value
at address 16 was constructed and never assigned. -/
theorem op2f_needs_assigned_value_witness :
    fatal (parse_line sample_ops
      { Analysis.init sample_ops with
        func_names := ["f"], funcs := [("f", ⟨1, [0, 0, 0, 0, 0, 0, 0, 0]⟩)],
        vals := [(16, ⟨true, false, some size_t_minus_one, none, none, false, none, none,
          none⟩)],
        stack := [⟨"f"⟩] } "op2f add 10 2.5") :=
  (op2f_needs_assigned_value sample_ops
    { Analysis.init sample_ops with
      func_names := ["f"], funcs := [("f", ⟨1, [0, 0, 0, 0, 0, 0, 0, 0]⟩)],
      vals := [(16, ⟨true, false, some size_t_minus_one, none, none, false, none, none,
        none⟩)],
      stack := [⟨"f"⟩] }
    "op2f add 10 2.5" " add 10 2.5".data " 10 2.5".data " 2.5".data [] "add" 16 ⟨"2.5"⟩
    (by decide) (by decide) (by decide) (by decide)).1
    (Or.inr ⟨_, rfl, Or.inr rfl⟩)

/-- Counterexample to claim C25. The replay of the five-line scenario trace, with the
fourth line `op2f push_constant 0x10 3.14` as the spec gives it, ends in the fatal error
of the assertion of `op2f` that its operand is assigned. -/
theorem scenario_trace_counterexample :
    parse sample_ops ["cordic_constructed 0x1 32 32 0 16", "enter f", "constructed 0x10 0x1",
      "op2f push_constant 0x10 3.14", "leave f"] =
      .error "push_constant opnd[0] is used before being assigned" := by
  decide

/-- Claim C25, amended. For every operation table, the replay of the five-line scenario
trace is fatal: its first three lines are accepted and leave the value at address 16
constructed and not assigned, and the fourth line `op2f push_constant 0x10 3.14` is then
fatal. When the operation table knows `push_constant` by its name, the trace whose fourth
line is `op1f push_constant 3.14` is accepted and ends at call depth 0; the function table
then holds `f`, and nothing else, with call count 1, and for every scale factor the report
with no function suppressed is the header line of `f` with call count 1 and no other
line. -/
theorem scenario_trace_needs_op1f (C : CordicOps)
    (hpc : Map.find (build_ops C) "push_constant" = some C.push_constant) :
    fatal (parse C ["cordic_constructed 0x1 32 32 0 16", "enter f", "constructed 0x10 0x1",
      "op2f push_constant 0x10 3.14", "leave f"]) ∧
    (∃ a3 v, parse C ["cordic_constructed 0x1 32 32 0 16", "enter f",
        "constructed 0x10 0x1"] = .ok a3 ∧
      Map.find a3.vals 16 = some v ∧ v.is_alive = true ∧ v.is_assigned = false ∧
      fatal (parse_line C a3 "op2f push_constant 0x10 3.14")) ∧
    ∃ a, parse C ["cordic_constructed 0x1 32 32 0 16", "enter f", "constructed 0x10 0x1",
        "op1f push_constant 3.14", "leave f"] = .ok a ∧
      a.stack.length = 0 ∧ a.func_names = ["f"] ∧ Map.keys a.funcs = ["f"] ∧
      (∃ func, Map.find a.funcs "f" = some func ∧ func.call_cnt = 1) ∧
      ∀ s, print_stats C a s [] = [Row.func "f" 1] := by
  have hsplit : ∀ l4 l5, parse C ["cordic_constructed 0x1 32 32 0 16", "enter f",
      "constructed 0x10 0x1", l4, l5] = parse_lines C (scenario_state C) [l4, l5] := by
    intro l4 l5
    have h := scenario_prefix C
    simp only [parse, parse_lines] at h ⊢
    revert h
    cases parse_line C (Analysis.init C) "cordic_constructed 0x1 32 32 0 16" with
    | error e => intro h; cases h
    | ok a1 =>
      simp only
      cases parse_line C a1 "enter f" with
      | error e => intro h; cases h
      | ok a2 =>
        simp only
        cases parse_line C a2 "constructed 0x10 0x1" with
        | error e => intro h; cases h
        | ok a3 =>
          simp only
          intro h
          cases h
          rfl
  refine ⟨?_, ⟨scenario_state C, _, scenario_prefix C, rfl, rfl, rfl, scenario_op2f_fatal C⟩,
    scenario_end C, ?_, rfl, rfl, rfl, ⟨_, rfl, rfl⟩, scenario_report C⟩
  · rw [hsplit]
    obtain ⟨msg, hmsg⟩ := scenario_op2f_fatal C
    simp only [parse_lines, hmsg]
    exact ⟨msg, rfl⟩
  · rw [hsplit]
    exact scenario_op1f C hpc

/-- Witness of claim C25: the operation table of the concrete runs knows
`push_constant`. -/
theorem scenario_trace_needs_op1f_witness :
    fatal (parse sample_ops ["cordic_constructed 0x1 32 32 0 16", "enter f",
      "constructed 0x10 0x1", "op2f push_constant 0x10 3.14", "leave f"]) :=
  (scenario_trace_needs_op1f sample_ops (by decide)).1

/-- Claim C26. Every line suffix splits into a run of separators (spaces, commas, opening
parentheses) that ends before the first other character, then a run of name characters
(letters, digits, `_`, `-`, `.`, `:`) that ends before the first other character, then
the rest; and for every such split `parse_name` returns the run of name characters with
the cursor on the rest when the run is not empty, and fails exactly when the run is
empty. -/
theorem parse_name_takes_maximal_run (c : List Char) :
    (∃ junk name rest, c = junk ++ name ++ rest ∧
      (∀ ch ∈ junk, separator_of_spec ch = true) ∧
      (∀ ch, (name ++ rest).head? = some ch → separator_of_spec ch = false) ∧
      (∀ ch ∈ name, name_char_of_spec ch = true) ∧
      (∀ ch, rest.head? = some ch → name_char_of_spec ch = false)) ∧
    ∀ junk name rest, c = junk ++ name ++ rest →
      (∀ ch ∈ junk, separator_of_spec ch = true) →
      (∀ ch, (name ++ rest).head? = some ch → separator_of_spec ch = false) →
      (∀ ch ∈ name, name_char_of_spec ch = true) →
      (∀ ch, rest.head? = some ch → name_char_of_spec ch = false) →
      (name ≠ [] → parse_name c = .ok (String.mk name, rest)) ∧
      (fatal (parse_name c) ↔ name = []) := by
  constructor
  · refine ⟨c.takeWhile is_junk, (c.dropWhile is_junk).takeWhile is_name_char,
      (c.dropWhile is_junk).dropWhile is_name_char, ?_, ?_, ?_, ?_, ?_⟩
    · rw [List.append_assoc, List.takeWhile_append_dropWhile,
        List.takeWhile_append_dropWhile]
    · intro ch hch
      rw [← is_junk_eq_spec]
      exact (List.mem_takeWhile_imp hch)
    · intro ch hch
      rw [← is_junk_eq_spec]
      rw [List.takeWhile_append_dropWhile] at hch
      exact head_dropWhile_false _ _ ch hch
    · intro ch hch
      rw [← is_name_char_eq_spec]
      exact (List.mem_takeWhile_imp hch)
    · intro ch hch
      rw [← is_name_char_eq_spec]
      exact head_dropWhile_false _ _ ch hch
  · intro junk name rest hc hjunk hstop hname hend
    subst hc
    have h := parse_name_of_parts junk name rest
      (fun ch hch => by rw [is_junk_eq_spec]; exact hjunk ch hch)
      (fun ch hch => by rw [is_junk_eq_spec]; exact hstop ch hch)
      (fun ch hch => by rw [is_name_char_eq_spec]; exact hname ch hch)
      (fun ch hch => by rw [is_name_char_eq_spec]; exact hend ch hch)
    rw [h]
    by_cases hn : name = []
    · simp [hn, fatal]
    · simp [hn, fatal]

/-- Witness of claim C26: in ` ,(op1f 3.5)` the name is `op1f` and the cursor is left on
the space after it; after the separators of `, )x` comes a closing parenthesis, after
those of ` ` the end of the line, and a line that starts with a tab has no separator and
no name character first: these three have no name. -/
theorem parse_name_takes_maximal_run_witness :
    parse_name " ,(op1f 3.5)".data = .ok ("op1f", " 3.5)".data) ∧
    fatal (parse_name ", )x".data) ∧ fatal (parse_name " ".data) ∧
    fatal (parse_name "\tx".data) :=
  ⟨((parse_name_takes_maximal_run " ,(op1f 3.5)".data).2 " ,(".data "op1f".data
      " 3.5)".data rfl (by decide) (by decide) (by decide) (by decide)).1 (by decide),
    ((parse_name_takes_maximal_run ", )x".data).2 ", ".data [] ")x".data rfl (by decide)
      (by decide) (by decide) (by decide)).2.2 rfl,
    ((parse_name_takes_maximal_run " ".data).2 " ".data [] [] rfl (by decide)
      (by decide) (by decide) (by decide)).2.2 rfl,
    ((parse_name_takes_maximal_run "\tx".data).2 [] [] "\tx".data rfl (by decide)
      (by decide) (by decide) (by decide)).2.2 rfl⟩

/-! ## The claims about the report -/

/-- Counterexample to claim C27. The scale factor `0.49999999999999994`, which is
`(2^53 - 1) * 2^(-54)`, is a `double`; with the count 1 the sum `1 * s + 0.5` lies halfway
between two neighbouring `double` and is rounded to `1.0`, so the scaled total is 1,
while the floor of `1 * s + 1/2` is 0. And with the scale factor `1.0` the count
`2^52 + 1` has the scaled total `2^52 + 2`. -/
theorem scaled_total_counterexample :
    Double.is_double ⟨2 ^ 53 - 1, -54⟩ = true ∧
    scaled_cnt 1 ⟨2 ^ 53 - 1, -54⟩ = some 1 ∧
    ⌊(1 : ℚ) * Double.val ⟨2 ^ 53 - 1, -54⟩ + 1 / 2⌋₊ = 0 ∧
    scaled_cnt (2 ^ 52 + 1) ⟨1, 0⟩ = some (2 ^ 52 + 2) := by
  refine ⟨by decide, ?_, ?_, by decide⟩
  · set_option maxRecDepth 8192 in decide
  · rw [Nat.floor_eq_zero]
    norm_num [Double.val]

/-- Claim C27, amended. When the raw count `c` is below `2^53` and the product of `c`
and the scale factor `s`, and that product plus one half, are values of the type `double`,
so that the code rounds nothing, and the sum is in the range of `uint64_t`, the scaled
total is `c * s` rounded to the nearest integer with halves rounded up, the floor of
`c * s + 1/2`. So with the scale factor `1.0` the scaled total of a count below `2^52`
is the count; a count of 3 gives 6 with the scale factor `2.0` and 5 with `1.5`. -/
theorem scaled_total_when_exact (c : Nat) (s : Double) (hc : c < 2 ^ 53)
    (hp : is_double_val (c * s.val)) (hs : is_double_val (c * s.val + 1 / 2))
    (hr : (c : ℚ) * s.val + 1 / 2 < 2 ^ 64) :
    scaled_cnt c s = some ⌊(c : ℚ) * s.val + 1 / 2⌋₊ ∧
    (∀ n, n < 2 ^ 52 → scaled_cnt n ⟨1, 0⟩ = some n) ∧
    scaled_cnt 3 ⟨1, 1⟩ = some 6 ∧ scaled_cnt 3 ⟨3, -1⟩ = some 5 := by
  refine ⟨scaled_cnt_exact c s hc hp hs hr, ?_, by decide, by decide⟩
  intro n hn
  have h1 : (n : ℚ) * Double.val ⟨1, 0⟩ = n := by simp [Double.val]
  have h := scaled_cnt_exact n ⟨1, 0⟩ (by omega)
    ⟨n, 0, by omega, by norm_num, by norm_num, by rw [h1]; simp⟩
    ⟨2 * n + 1, -1, by omega, by norm_num, by norm_num, by
      rw [h1]
      push_cast
      rw [zpow_neg_one]
      ring⟩
    (by
      rw [h1]
      have : (n : ℚ) < 2 ^ 52 := by exact_mod_cast hn
      linarith)
  rw [h, h1]
  congr 1
  have h2 : (n : ℚ) + 1 / 2 = ((2 * n + 1 : Nat) : ℚ) / ((2 : Nat) : ℚ) := by
    push_cast
    ring
  rw [h2, Nat.floor_div_eq_div]
  omega

/-- Witness of claim C27: the count 3 with the scale factor `1.5`. -/
theorem scaled_total_when_exact_witness :
    scaled_cnt 3 ⟨3, -1⟩ = some ⌊((3 : Nat) : ℚ) * Double.val ⟨3, -1⟩ + 1 / 2⌋₊ :=
  (scaled_total_when_exact 3 ⟨3, -1⟩ (by decide)
    ⟨9, -1, by decide, by decide, by decide, by norm_num [Double.val]⟩
    ⟨5, 0, by decide, by decide, by decide, by norm_num [Double.val]⟩
    (by norm_num [Double.val])).1

/-- Claim C28. In a state that a trace reaches, `func_names` holds the names of the
`enter` lines of the trace in the order in which each was entered first, each once, and
these are the keys of the function table. The report of `print_stats` begins with the
blocks of the names of `func_names` that are not in the suppression list, in that order,
and after them has only lines of totals. The block of a function is its header line with
its call count, then one line for each operation code whose histogram entry for the
function is not zero and which is none of `push_constant`, `assign` and `pop_value`,
in increasing order of the codes; the line has the name of the code, the quotient of the
entry and the call count as the code computes it in `double`, the entry as the raw
total, and the scaled total. For a trace of fewer than `2^53` lines and a call count other
than zero, that quotient is the entry divided by the call count whenever this number is a
value of the type `double`, and is rounded to one otherwise. -/
theorem report_lists_functions_in_entry_order (C : CordicOps) (lines : List String)
    (a : Analysis) (s : Double) (ig : List String) (hreach : parse C lines = .ok a) :
    a.func_names = first_seen (lines.filterMap entered_name) ∧ a.func_names.Nodup ∧
    (∀ f, f ∈ a.func_names ↔ (Map.find a.funcs f).isSome = true) ∧
    (∃ totals, print_stats C a s ig =
        ((a.func_names.filter (fun f => decide (f ∉ ig))).map
          (func_block_of_spec C a s)).flatten ++ totals ∧
      ∀ r ∈ totals, ∃ name cnt sc, r = Row.total name cnt sc) ∧
    ∀ f ∈ a.func_names, ∃ (func : FuncInfo) (ops : List Nat), Map.find a.funcs f = some func ∧
      func_block_of_spec C a s f = Row.func f func.call_cnt :: ops.map (fun i =>
        Row.op (C.op_to_str i)
          (double_div (double_of_uint64 (func.op_cnt.getD i 0))
            (double_of_uint64 func.call_cnt))
          (func.op_cnt.getD i 0) (scaled_cnt (func.op_cnt.getD i 0) s)) ∧
      ops.Pairwise (fun i j => i < j) ∧
      (∀ i, i ∈ ops ↔ func.op_cnt.getD i 0 ≠ 0 ∧ i ≠ C.push_constant ∧ i ≠ C.assign ∧
        i ≠ C.pop_value) ∧
      (lines.length < 2 ^ 53 → func.call_cnt ≠ 0 → ∀ i,
        is_double_val ((func.op_cnt.getD i 0 : ℚ) / func.call_cnt) →
        ∃ d, double_div (double_of_uint64 (func.op_cnt.getD i 0))
            (double_of_uint64 func.call_cnt) = some d ∧
          d.val = (func.op_cnt.getD i 0 : ℚ) / func.call_cnt) := by
  obtain ⟨⟨hnd, hkeys⟩, hfirst⟩ := parse_names C lines a hreach
  refine ⟨hfirst, hnd, hkeys, ⟨totals_block_of_spec C a s ig, print_stats_eq C a s ig,
    total_rows_only C a s ig⟩, ?_⟩
  intro f hf
  have hsome := (hkeys f).1 hf
  cases hfind : Map.find a.funcs f with
  | none => rw [hfind] at hsome; cases hsome
  | some func =>
    refine ⟨func, listed_ops_of_spec C func, rfl, ?_, listed_ops_increasing C func, ?_, ?_⟩
    · simp only [func_block_of_spec, hfind]
      rfl
    swap
    · intro hlen hcall i hq
      obtain ⟨hc1, hc2⟩ := parse_counts_bounded C lines a hreach f func hfind
      exact double_div_exact _ _ (lt_of_le_of_lt (hc2 i) hlen) (lt_of_le_of_lt hc1 hlen)
        hcall hq
    · intro i
      rw [mem_listed_ops]
      constructor
      · rintro ⟨_, h⟩
        exact h
      · intro h
        refine ⟨?_, h⟩
        have hlen := parse_hist_sized C lines a hreach f func hfind
        by_contra hge
        exact h.1 (List.getD_eq_default _ _ (by omega))

/-- Witness of claim C28: `g` is entered before `f`, and the report lists `g` first. -/
theorem report_lists_functions_in_entry_order_witness :
    Analysis.func_names
      { Analysis.init sample_ops with
        func_names := ["g", "f"]
        funcs := [("g", ⟨1, [0, 0, 0, 0, 0, 0, 0, 0]⟩), ("f", ⟨1, [0, 0, 0, 0, 0, 0, 0, 0]⟩)]
        stack := [⟨"f"⟩, ⟨"g"⟩] } =
      first_seen (["enter g", "enter f"].filterMap entered_name) :=
  (report_lists_functions_in_entry_order sample_ops ["enter g", "enter f"]
    { Analysis.init sample_ops with
      func_names := ["g", "f"]
      funcs := [("g", ⟨1, [0, 0, 0, 0, 0, 0, 0, 0]⟩), ("f", ⟨1, [0, 0, 0, 0, 0, 0, 0, 0]⟩)]
      stack := [⟨"f"⟩, ⟨"g"⟩] } ⟨1, 0⟩ [] (by decide)).1

/-- Counterexample to claim C29. After `enter f` and `op1f push_constant 1.0` the
histogram entries for `push_constant` add up to 1, and the report with no function
suppressed is the header line of `f` alone: it has no line of totals for `push_constant`,
and none for the seven operation codes whose entries add up to 0. -/
theorem totals_counterexample :
    ∃ a, parse sample_ops ["enter f", "op1f push_constant 1.0"] = .ok a ∧
      raw_total a [] sample_ops.push_constant = 1 ∧ sample_ops.OP_cnt = 8 ∧
      print_stats sample_ops a ⟨1, 0⟩ [] = [Row.func "f" 1] :=
  ⟨{ Analysis.init sample_ops with
      func_names := ["f"], funcs := [("f", ⟨1, [1, 0, 0, 0, 0, 0, 0, 0]⟩)],
      stack := [⟨"f"⟩],
      val_stack := [⟨true, true, none, none, none, true, some ⟨"1.0"⟩, none, none⟩] },
    by decide, by decide, rfl, by decide⟩

/-- Claim C29, amended. In a state that a trace reaches, the report of `print_stats` ends
with the lines of the totals, after the blocks of the functions: one line for each
operation code below `OP_cnt` that is none of `push_constant`, `assign` and `pop_value`
and for which the histogram entries of the functions that are not suppressed add up, as a
`uint64_t`, to a value other than zero, in increasing order of the codes. The raw total on
the line is that sum, which for a trace of fewer than `2^64` lines is the sum without
wrap-around; with an empty suppression list it runs over all functions of the function
table. -/
theorem totals_for_costed_nonzero_codes (C : CordicOps) (lines : List String)
    (a : Analysis) (s : Double) (ig : List String) (hreach : parse C lines = .ok a) :
    (∃ (blocks : List Row) (codes : List Nat),
      print_stats C a s ig = blocks ++ codes.map (fun i =>
        Row.total (C.op_to_str i) (raw_total a ig i % 2 ^ 64)
          (scaled_cnt (raw_total a ig i % 2 ^ 64) s)) ∧
      blocks = ((reported_funcs a ig).map (func_block_of_spec C a s)).flatten ∧
      codes.Pairwise (fun i j => i < j) ∧
      ∀ i, i ∈ codes ↔ i < C.OP_cnt ∧ i ≠ C.push_constant ∧ i ≠ C.assign ∧
        i ≠ C.pop_value ∧ raw_total a ig i % 2 ^ 64 ≠ 0) ∧
    (∀ i, raw_total a ig i =
      ((a.func_names.filter (fun f => decide (f ∉ ig))).map (fun f => hist_entry a f i)).sum) ∧
    (∀ i, raw_total a [] i = (a.func_names.map (fun f => hist_entry a f i)).sum) ∧
    (∀ f, f ∈ a.func_names ↔ (Map.find a.funcs f).isSome = true) ∧
    (lines.length < 2 ^ 64 → ∀ i, raw_total a ig i % 2 ^ 64 = raw_total a ig i) := by
  refine ⟨⟨_, (List.range C.OP_cnt).filter (fun i =>
      !free_op C i && decide (raw_total a ig i % 2 ^ 64 ≠ 0)), print_stats_eq C a s ig, rfl,
      List.Pairwise.sublist (List.filter_sublist _) (List.pairwise_lt_range _), ?_⟩,
    fun i => rfl, ?_, (parse_names C lines a hreach).1.2, ?_⟩
  · intro i
    simp only [free_op, List.mem_filter, List.mem_range, Bool.and_eq_true,
      Bool.not_eq_true', decide_eq_false_iff_not, decide_eq_true_eq, not_or]
    constructor
    · rintro ⟨h1, ⟨h2, h3, h4⟩, h5⟩
      exact ⟨h1, h2, h3, h4, h5⟩
    · rintro ⟨h1, h2, h3, h4, h5⟩
      exact ⟨h1, ⟨h2, h3, h4⟩, h5⟩
  · intro i
    simp [raw_total, reported_funcs]
  · intro hlen i
    exact Nat.mod_eq_of_lt (lt_of_le_of_lt (parse_raw_total_le C lines a ig i hreach) hlen)

/-- Witness of claim C29: after `enter f`, `constructed 10 0`, `op1f push_constant 1.0`,
`op2i pop_value 10 1` and `op2 add 10 10`, the sum for `add` is 1. -/
theorem totals_for_costed_nonzero_codes_witness :
    raw_total
      { Analysis.init sample_ops with
        func_names := ["f"], funcs := [("f", ⟨1, [1, 0, 1, 0, 0, 1, 0, 0]⟩)],
        vals := [(16, ⟨true, true, none, none, some 1, true, some ⟨"1.0"⟩, none, none⟩)],
        stack := [⟨"f"⟩],
        val_stack := [⟨true, true, none, none, none, false, none, none, none⟩] } [] 5 % 2 ^ 64 =
    raw_total
      { Analysis.init sample_ops with
        func_names := ["f"], funcs := [("f", ⟨1, [1, 0, 1, 0, 0, 1, 0, 0]⟩)],
        vals := [(16, ⟨true, true, none, none, some 1, true, some ⟨"1.0"⟩, none, none⟩)],
        stack := [⟨"f"⟩],
        val_stack := [⟨true, true, none, none, none, false, none, none, none⟩] } [] 5 :=
  (totals_for_costed_nonzero_codes sample_ops
    ["enter f", "constructed 10 0", "op1f push_constant 1.0", "op2i pop_value 10 1",
      "op2 add 10 10"]
    { Analysis.init sample_ops with
      func_names := ["f"], funcs := [("f", ⟨1, [1, 0, 1, 0, 0, 1, 0, 0]⟩)],
      vals := [(16, ⟨true, true, none, none, some 1, true, some ⟨"1.0"⟩, none, none⟩)],
      stack := [⟨"f"⟩],
      val_stack := [⟨true, true, none, none, none, false, none, none, none⟩] } ⟨1, 0⟩ []
    (by decide)).2.2.2.2 (by decide) 5

/-- Claim C30. In a state that a trace reaches, the report with no function suppressed
is the blocks of all names of `func_names`, in that order, and then the lines of the
totals. The report with the suppression list `ig` is the blocks of the names that are not
in `ig`, in the same order, each block the same as in the report with no function
suppressed, and then the lines of the totals; no header line of a suppressed function is
in it. Each line of its totals is for an operation code below `OP_cnt` and carries as
raw total the sum, as a `uint64_t`, of the histogram entries for that code over the
functions that are not suppressed; for a trace of fewer than `2^64` lines this is the sum
without wrap-around. -/
theorem suppression_drops_function_blocks (C : CordicOps) (lines : List String)
    (a : Analysis) (s : Double) (ig : List String) (hreach : parse C lines = .ok a) :
    print_stats C a s [] =
      (a.func_names.map (func_block_of_spec C a s)).flatten ++ totals_block_of_spec C a s [] ∧
    print_stats C a s ig =
      ((a.func_names.filter (fun f => decide (f ∉ ig))).map
        (func_block_of_spec C a s)).flatten ++ totals_block_of_spec C a s ig ∧
    (∀ f ∈ ig, ∀ n, Row.func f n ∉ print_stats C a s ig) ∧
    (∀ r ∈ totals_block_of_spec C a s ig, ∃ i, i < C.OP_cnt ∧
      r = Row.total (C.op_to_str i)
        (((a.func_names.filter (fun f => decide (f ∉ ig))).map
          (fun f => hist_entry a f i)).sum % 2 ^ 64)
        (scaled_cnt (((a.func_names.filter (fun f => decide (f ∉ ig))).map
          (fun f => hist_entry a f i)).sum % 2 ^ 64) s)) ∧
    (lines.length < 2 ^ 64 → ∀ i,
      ((a.func_names.filter (fun f => decide (f ∉ ig))).map
        (fun f => hist_entry a f i)).sum % 2 ^ 64 =
      ((a.func_names.filter (fun f => decide (f ∉ ig))).map
        (fun f => hist_entry a f i)).sum) := by
  refine ⟨?_, print_stats_eq C a s ig, ?_, ?_, ?_⟩
  · rw [print_stats_eq]
    simp [reported_funcs]
  · intro f hf n hmem
    rw [print_stats_eq, List.mem_append] at hmem
    rcases hmem with hmem | hmem
    · simp only [List.mem_flatten, List.mem_map, reported_funcs, List.mem_filter,
        decide_eq_true_eq] at hmem
      obtain ⟨l, ⟨g, ⟨_, hg⟩, hl⟩, hr⟩ := hmem
      subst hl
      rcases func_block_rows C a s g _ hr with ⟨n', h⟩ | ⟨_, _, _, _, h⟩
      · cases h
        exact hg hf
      · cases h
    · obtain ⟨_, _, _, h⟩ := total_rows_only C a s ig _ hmem
      cases h
  · intro r hr
    simp only [totals_block_of_spec, List.mem_map, List.mem_filter, List.mem_range] at hr
    obtain ⟨i, ⟨hi, _⟩, h⟩ := hr
    exact ⟨i, hi, h.symm⟩
  · intro hlen i
    exact Nat.mod_eq_of_lt (lt_of_le_of_lt (parse_raw_total_le C lines a ig i hreach) hlen)

/-- Witness of claim C30: `f` and `g` are entered, and `f` is suppressed. -/
theorem suppression_drops_function_blocks_witness :
    Row.func "f" 1 ∉ print_stats sample_ops
      { Analysis.init sample_ops with
        func_names := ["f", "g"]
        funcs := [("f", ⟨1, [0, 0, 0, 0, 0, 0, 0, 0]⟩), ("g", ⟨1, [0, 0, 0, 0, 0, 0, 0, 0]⟩)]
        stack := [⟨"g"⟩, ⟨"f"⟩] } ⟨1, 0⟩ ["f"] :=
  (suppression_drops_function_blocks sample_ops ["enter f", "enter g"]
    { Analysis.init sample_ops with
      func_names := ["f", "g"]
      funcs := [("f", ⟨1, [0, 0, 0, 0, 0, 0, 0, 0]⟩), ("g", ⟨1, [0, 0, 0, 0, 0, 0, 0, 0]⟩)]
      stack := [⟨"g"⟩, ⟨"f"⟩] } ⟨1, 0⟩ ["f"] (by decide)).2.2.1 "f" (by decide) 1

/-! ## The claims about `mpint.h` -/

/-- Claim C31, with the run that breaks it: after `mpint::implicit_int_w_set( w )` the
object of `mpint i;` has `int_w` 0 and `word_cnt` 0, the mark of an undefined integer, and
no word of it is written; `to_string` and the negation of it are fatal. The other two
lines of the usage documentation hold: `mpint j( v )` has `w` bits and `mpint k( v, w2 )`
has `w2` bits, in one word that holds `v` for up to 64 bits, and else in `(w + 63) / 64`
words of which the last holds `v` and the others hold its sign. So with `w = 128` the
object of `mpint j( 12 )` has two words, 0 and 12, and `mpint k( 12, 56 )` has one. -/
theorem default_constructed_is_undefined (w w2 : Nat) (v : Int)
    (hw : 0 < w ∧ w ≤ 2 ^ 64 - 64) (hw2 : 0 < w2 ∧ w2 ≤ 2 ^ 64 - 64) :
    mpint.ctor_void = ⟨0, 0, .unset⟩ ∧
    mpint.ctor_void.to_string 10 0 = .fatal "to_string: this mpint is undefined" ∧
    mpint.ctor_void.neg = .fatal "trying to negate in undefined mpint" ∧
    mpint.ctor (mpint.implicit_int_w_set w) v 0 = .ok ⟨w, (w + 63) / 64,
      if w ≤ 64 then .w0 (to_uint64 v)
      else .w (List.replicate ((w + 63) / 64 - 1) (some (if v < 0 then 2 ^ 64 - 1 else 0)) ++
        [some (to_uint64 v)])⟩ ∧
    mpint.ctor (mpint.implicit_int_w_set w) v w2 = .ok ⟨w2, (w2 + 63) / 64,
      if w2 ≤ 64 then .w0 (to_uint64 v)
      else .w (List.replicate ((w2 + 63) / 64 - 1) (some (if v < 0 then 2 ^ 64 - 1 else 0)) ++
        [some (to_uint64 v)])⟩ ∧
    mpint.ctor (mpint.implicit_int_w_set 128) 12 0 = .ok ⟨128, 2, .w [some 0, some 12]⟩ ∧
    mpint.ctor (mpint.implicit_int_w_set 128) 12 56 = .ok ⟨56, 1, .w0 12⟩ := by
  refine ⟨rfl, by decide, by decide, ?_, ?_, by decide, by decide⟩
  · rw [mpint.implicit_int_w_set, ctor_implicit w v hw.1]
    exact ctor_width w v w hw.1 hw.2
  · exact ctor_width _ v w2 hw2.1 hw2.2

/-- Witness of claim C31: the lines of the usage documentation, with the implicit width
128: the object of `mpint i;` is undefined, whatever the implicit width is. -/
theorem default_constructed_is_undefined_witness :
    mpint.ctor_void = ⟨0, 0, .unset⟩ ∧
    mpint.ctor_void.to_string 10 0 = .fatal "to_string: this mpint is undefined" :=
  ⟨(default_constructed_is_undefined 128 56 12 (by decide) (by decide)).1,
   (default_constructed_is_undefined 128 56 12 (by decide) (by decide)).2.1⟩

/-- Claim C32, with the run that breaks it: for an implicit width `w` of one word, a
call of `to_mpint` that demands a conversion returns, whenever it returns, an object of
`w` bits whose word was never written. With the implicit width 64, `to_mpint( "12" )`
returns such an object, and so does `to_mpint` of `" -7"`, while `mpint( 12 )` holds 12.
The shifts `r << 3` and `r << 1` give objects with `int_w` 0 and `word_cnt` 0, and their
sum, and its sum with the digit, have `word_cnt` 0 and no word written. -/
theorem to_mpint_loses_digits (w : Nat) (hw : 0 < w ∧ w ≤ 64) :
    (∀ (s : String) (r : mpint) (pos : Nat),
      mpint.to_mpint w s false 10 = .ok (r, pos) → r = ⟨w, 1, .unset⟩) ∧
    mpint.to_mpint mpint.implicit_int_w_init "12" false 10 = .ok (⟨64, 1, .unset⟩, 2) ∧
    mpint.to_mpint mpint.implicit_int_w_init " -7" false 10 = .ok (⟨64, 1, .unset⟩, 2) ∧
    mpint.ctor mpint.implicit_int_w_init 12 0 = .ok ⟨64, 1, .w0 12⟩ ∧
    mpint.shl ⟨64, 1, .w0 0⟩ 3 = .ok ⟨0, 0, .w0 0⟩ ∧
    mpint.add ⟨0, 0, .w0 0⟩ ⟨0, 0, .w0 0⟩ = .ok ⟨0, 0, .unset⟩ ∧
    mpint.add ⟨0, 0, .unset⟩ ⟨64, 1, .w0 1⟩ = .ok ⟨64, 0, .unset⟩ ∧
    mpint.assign ⟨64, 1, .w0 0⟩ ⟨64, 0, .unset⟩ = .ok ⟨64, 1, .unset⟩ :=
  ⟨fun s r pos h => to_mpint_unwritten w s r pos hw.1 hw.2 h, by decide, by decide,
    by decide, by decide, by decide, by decide, by decide⟩

/-- Witness of claim C32: `to_mpint( "12" )` with the implicit width 64 returns, and the
word of the result is not written. -/
theorem to_mpint_loses_digits_witness :
    ∃ r pos, mpint.to_mpint 64 "12" false 10 = .ok (r, pos) ∧ r = ⟨64, 1, .unset⟩ :=
  ⟨⟨64, 1, .unset⟩, 2, by decide,
    (to_mpint_loses_digits 64 (by decide)).1 "12" ⟨64, 1, .unset⟩ 2 (by decide)⟩

/-- Claim C33, with the runs that break it: `to_string( 10, 0 )` of the 64-bit integer 0
reads the buffer of the string `s` at the index `cpow2_len-1 - j` taken from the other
string, which is outside the buffer in the sixth pass of the outer loop, and of the 5-bit
integer 0 it returns `248`, after it read the terminating NUL of `s` as a digit. The rest
of the claim holds for an integer of one word and a `width` that is not negative: in base
2 the result is the `int_w` bits from the most significant one, after the spaces that
bring it to `width` characters, and in every base the result is the result for the width
0 with spaces before it up to `width` characters. -/
theorem to_string_reads_wrong_digit (w x : Nat) (width : Int) (hw : 0 < w ∧ w ≤ 64)
    (hwidth : 0 ≤ width) :
    mpint.ctor 64 0 0 = .ok ⟨64, 1, .w0 0⟩ ∧
    mpint.to_string ⟨64, 1, .w0 0⟩ 10 0 = .undefined ∧
    mpint.ctor 64 0 5 = .ok ⟨5, 1, .w0 0⟩ ∧
    mpint.to_string ⟨5, 1, .w0 0⟩ 10 0 = .ok "248" ∧
    mpint.to_string ⟨4, 1, .w0 5⟩ 10 0 = .ok "5" ∧
    mpint.to_string ⟨w, 1, .w0 x⟩ 2 width =
      .ok (String.mk (List.replicate (width.toNat - w) ' ' ++
        (List.range w).map (fun j => if x.testBit (w - 1 - j) then '1' else '0'))) ∧
    (∀ (a : mpint) (base : Int), a.to_string base width =
      Outcome.bind (a.to_string base 0) (fun s =>
        .ok (String.mk (List.replicate (width.toNat - s.length) ' ' ++ s.data)))) :=
  ⟨by decide, by decide, by decide, by decide, by decide,
    to_string_base2_single w x width hw.1 hw.2 hwidth,
    fun a base => to_string_pad a base width hwidth⟩

/-- Witness of claim C33: `mpint( 5, 8 ).to_string( 2, 12 )` is four spaces and
`00000101`. -/
theorem to_string_reads_wrong_digit_witness :
    mpint.to_string ⟨8, 1, .w0 5⟩ 2 12 = .ok "    00000101" :=
  (to_string_reads_wrong_digit 8 5 12 (by decide) (by decide)).2.2.2.2.2.1

/-- Claim C34. On integers of one word, of `wa` and `wb` bits with `0 < wa, wb ≤ 64`,
which is what the constructor makes for such a width, the negation, the sum and the
difference are those of the values modulo `2^64`: the word of the result is the 64-bit
two's complement of `-x`, `x + y` and `x - y`, where `x` and `y` are the words of the
operands read as `int64_t`. The sum and the difference have the larger of the two widths,
`a - a` holds 0, and `-(-a)` is `a`. -/
theorem single_word_arithmetic (wa wb x y : Nat) (hwa : 0 < wa ∧ wa ≤ 64)
    (hwb : 0 < wb ∧ wb ≤ 64) (hx : x < 2 ^ 64) (hy : y < 2 ^ 64) :
    (∀ (implicit_int_w : Nat) (v : Int),
      mpint.ctor implicit_int_w v wa = .ok ⟨wa, 1, .w0 (to_uint64 v)⟩) ∧
    to_uint64 (to_int64 x) = x ∧
    mpint.neg ⟨wa, 1, .w0 x⟩ = .ok ⟨wa, 1, .w0 (to_uint64 (-(to_int64 x)))⟩ ∧
    mpint.add ⟨wa, 1, .w0 x⟩ ⟨wb, 1, .w0 y⟩ =
      .ok ⟨max wa wb, 1, .w0 (to_uint64 (to_int64 x + to_int64 y))⟩ ∧
    mpint.sub ⟨wa, 1, .w0 x⟩ ⟨wb, 1, .w0 y⟩ =
      .ok ⟨max wa wb, 1, .w0 (to_uint64 (to_int64 x - to_int64 y))⟩ ∧
    mpint.sub ⟨wa, 1, .w0 x⟩ ⟨wa, 1, .w0 x⟩ = .ok ⟨wa, 1, .w0 0⟩ ∧
    Outcome.bind (mpint.neg ⟨wa, 1, .w0 x⟩) mpint.neg = .ok ⟨wa, 1, .w0 x⟩ := by
  have hsub : ∀ (w : Nat) (z : Nat), 0 < w → z < 2 ^ 64 →
      mpint.sub ⟨wa, 1, .w0 x⟩ ⟨w, 1, .w0 z⟩ =
        .ok ⟨max wa w, 1, .w0 (to_uint64 (to_int64 x - to_int64 z))⟩ := by
    intro w z hw hz
    simp only [mpint.sub, bind, Outcome.bind, neg_single w z hw,
      add_single wa w x _ hwa.1 hwa.2, to_uint64_sub x z hz]
  refine ⟨fun iw v => ctor_single iw v wa hwa.1 hwa.2, to_uint64_to_int64 x hx, ?_, ?_,
    hsub wb y hwb.1 hy, ?_, ?_⟩
  · rw [neg_single wa x hwa.1, to_uint64_neg x hx]
  · rw [add_single wa wb x y hwa.1 hwa.2, to_uint64_add]
  · rw [hsub wa x hwa.1 hx]
    simp [to_uint64]
  · rw [neg_single wa x hwa.1]
    simp only [Outcome.bind]
    rw [neg_single wa _ hwa.1]
    have : (2 ^ 64 - 1 - (2 ^ 64 - 1 - x + 1) % 2 ^ 64 + 1) % 2 ^ 64 = x := by omega
    rw [this]

/-- Witness of claim C34: `mpint( -5, 8 ) + mpint( 7 )` has 64 bits and holds 2. -/
theorem single_word_arithmetic_witness :
    mpint.add ⟨8, 1, .w0 (2 ^ 64 - 5)⟩ ⟨64, 1, .w0 7⟩ =
      .ok ⟨max 8 64, 1, .w0 (to_uint64 (to_int64 (2 ^ 64 - 5) + to_int64 7))⟩ :=
  (single_word_arithmetic 8 64 (2 ^ 64 - 5) 7 (by decide) (by decide) (by decide)
    (by decide)).2.2.2.1

/-- Claim C35, with the runs that break it: for an integer of more than one word
`bit( i )` reads bit `i % word_cnt` of the last word, which holds the low 64 bits of `v`.
So `mpint( 4, 128 ).bit( 2 )` is false, the sign bit of `mpint( -4, 128 )` is false and
the sign bit of `mpint( 2, 128 )` is true. For a width `w` of up to 64 bits the claim
holds: `bit( i )` is bit `i` of the `w`-bit two's complement representation of `v`, and
`signbit()` is true exactly when `v < 0`. -/
theorem bit_reads_last_word_only (implicit_int_w w : Nat) (v : Int) (i : Nat) (hi : i < w)
    (hv : -(2 ^ (w - 1) : Int) ≤ v ∧ v < 2 ^ (w - 1)) :
    (w ≤ 64 → ∃ a, mpint.ctor implicit_int_w v w = .ok a ∧
      a.bit i = .ok ((twos_complement w v).testBit i) ∧
      a.signbit = .ok (decide (v < 0))) ∧
    (64 < w → w ≤ 4096 → ∃ a, mpint.ctor implicit_int_w v w = .ok a ∧
      a.bit i = .ok ((to_uint64 v).testBit (i % ((w + 63) / 64))) ∧
      a.signbit = .ok ((to_uint64 v).testBit ((w - 1) % ((w + 63) / 64)))) ∧
    mpint.ctor 64 4 128 = .ok ⟨128, 2, .w [some 0, some 4]⟩ ∧
    mpint.bit ⟨128, 2, .w [some 0, some 4]⟩ 2 = .ok false ∧
    mpint.ctor 64 (-4) 128 = .ok ⟨128, 2, .w [some (2 ^ 64 - 1), some (2 ^ 64 - 4)]⟩ ∧
    mpint.signbit ⟨128, 2, .w [some (2 ^ 64 - 1), some (2 ^ 64 - 4)]⟩ = .ok false ∧
    mpint.ctor 64 2 128 = .ok ⟨128, 2, .w [some 0, some 2]⟩ ∧
    mpint.signbit ⟨128, 2, .w [some 0, some 2]⟩ = .ok true := by
  have h0 : 0 < w := by omega
  refine ⟨?_, ?_, by decide, by decide, by decide, by decide, by decide, by decide⟩
  · intro h64
    refine ⟨_, ctor_single implicit_int_w v w h0 h64, ?_, ?_⟩
    · rw [bit_single w _ i hi h64, testBit_twos_complement w v i h64 hi]
    · rw [signbit_single w _ h0 h64, ← testBit_twos_complement w v (w - 1) h64 (by omega),
        testBit_sign w v h0 hv.1 hv.2]
  · intro h64 hmax
    refine ⟨_, ctor_multi implicit_int_w v w h64 (by omega), ?_, ?_⟩
    · exact bit_multi w _ _ i _ _ hi (by omega) (by omega) rfl
    · have h : (w + (2 ^ 64 - 1)) % 2 ^ 64 = w - 1 := by omega
      unfold mpint.signbit
      simp only [h]
      exact bit_multi w _ _ (w - 1) _ _ (by omega) (by omega) (by omega) rfl

/-- Witness of claim C35: `mpint( -4, 8 )` has bit 2 set, and its sign bit is set. -/
theorem bit_reads_last_word_only_witness :
    ∃ a, mpint.ctor 64 (-4) 8 = .ok a ∧
      a.bit 2 = .ok ((twos_complement 8 (-4)).testBit 2) ∧
      a.signbit = .ok (decide ((-4 : Int) < 0)) :=
  (bit_reads_last_word_only 64 8 (-4) 2 (by decide) (by decide)).1 (by decide)

/-- Claim C36, with the runs that break it: the result of a shift by `k`, `0 < k < 64`,
of an integer of one word is the object of `mpint r;` with one word written, so its
`int_w` is 0, whatever the width of the operand, and `to_string` on it is fatal. The word
of `a << k` is the word of `a` times `2^k` modulo `2^64`, as the claim says. The word of
`a >> k` is the word of `a` divided by `2^k`, with zeros shifted in, unless the word of
`a` is 0, when it is `2^64 - 2^(64-k)`: so `mpint( 0 ) >> 1` holds `2^63`, and
`mpint( -8 ) >> 1` holds `2^63 - 4`, not -4. A shift by 0 returns the object, and a shift
by `-k` is the opposite shift by `k`. -/
theorem shift_result_is_undefined (w x k : Nat) (hk : 0 < k ∧ k < 64) :
    mpint.shl ⟨w, 1, .w0 x⟩ (k : Int) = .ok ⟨0, 0, .w0 (x * 2 ^ k % 2 ^ 64)⟩ ∧
    mpint.shr ⟨w, 1, .w0 x⟩ (k : Int) =
      .ok ⟨0, 0, .w0 (if x = 0 then 2 ^ 64 - 2 ^ (64 - k) else x / 2 ^ k)⟩ ∧
    (∀ y, mpint.to_string ⟨0, 0, .w0 y⟩ 10 0 =
      .fatal "to_string: this mpint is undefined") ∧
    (∀ a : mpint, a.shl 0 = .ok a ∧ a.shr 0 = .ok a) ∧
    (∀ a : mpint, a.shl (-(k : Int)) = a.shr (k : Int) ∧
      a.shr (-(k : Int)) = a.shl (k : Int)) ∧
    mpint.shl ⟨64, 1, .w0 5⟩ 2 = .ok ⟨0, 0, .w0 20⟩ ∧
    mpint.shr ⟨64, 1, .w0 0⟩ 1 = .ok ⟨0, 0, .w0 (2 ^ 63)⟩ ∧
    mpint.ctor 64 (-8) 0 = .ok ⟨64, 1, .w0 (2 ^ 64 - 8)⟩ ∧
    mpint.shr ⟨64, 1, .w0 (2 ^ 64 - 8)⟩ 1 = .ok ⟨0, 0, .w0 (2 ^ 63 - 4)⟩ ∧
    to_int64 (2 ^ 63 - 4) = 2 ^ 63 - 4 :=
  ⟨shl_single w x k hk.1 hk.2, shr_single w x k hk.1 hk.2, fun _ => rfl,
    fun _ => ⟨rfl, rfl⟩, fun a => shl_neg_eq a k hk.1 (by omega), by decide, by decide,
    by decide, by decide, by decide⟩

/-- Witness of claim C36: the result of `mpint( 5 ) << 2` holds 20 and has `int_w` 0. -/
theorem shift_result_is_undefined_witness :
    mpint.shl ⟨64, 1, .w0 5⟩ ((2 : Nat) : Int) = .ok ⟨0, 0, .w0 (5 * 2 ^ 2 % 2 ^ 64)⟩ :=
  (shift_result_is_undefined 64 5 2 (by decide)).1

/-- Claim C37, the run that breaks it: the constructor stores the value in the last
word, below the words of the sign, and `operator +` carries from word 0 to the last word.
So `mpint( 1, 128 ) + mpint( -1, 128 )` has all bits of word 0 set and 0 in word 1, while
`mpint( 0, 128 )` has 0 in both words. For two words the sum is, in general, the sum of
the words at each index, with the carry out of word 0 added to word 1. -/
theorem multi_word_add_carries_backwards :
    mpint.ctor 64 1 128 = .ok ⟨128, 2, .w [some 0, some 1]⟩ ∧
    mpint.ctor 64 (-1) 128 = .ok ⟨128, 2, .w [some (2 ^ 64 - 1), some (2 ^ 64 - 1)]⟩ ∧
    mpint.add ⟨128, 2, .w [some 0, some 1]⟩
        ⟨128, 2, .w [some (2 ^ 64 - 1), some (2 ^ 64 - 1)]⟩ =
      .ok ⟨128, 2, .w [some (2 ^ 64 - 1), some 0]⟩ ∧
    mpint.ctor 64 0 128 = .ok ⟨128, 2, .w [some 0, some 0]⟩ ∧
    (∀ x0 x1 y0 y1 : Nat,
      mpint.add ⟨128, 2, .w [some x0, some x1]⟩ ⟨128, 2, .w [some y0, some y1]⟩ =
        .ok ⟨128, 2, .w [some ((x0 + y0) % 2 ^ 64),
          some ((x1 + y1 + if (x0 + y0) % 2 ^ 64 < x0 then 1 else 0) % 2 ^ 64)]⟩) := by
  refine ⟨by decide, by decide, by decide, by decide, ?_⟩
  intro x0 x1 y0 y1
  simp [mpint.add, add_words]

/-! ## The claims about the states that a trace reaches -/

/-- Claim C38. In every state that the replay of a trace of fewer than `2^64` lines
reaches, the names of `func_names` are distinct and are the keys of the function table,
every frame of the call stack names a key of the function table, and every call count is
at least 1. Hence `inc_op_cnt`, when it succeeds, leaves the keys of the function table
and `func_names` as they are, and the divisor `double( call_cnt )` of the average in
`print_stats` is not zero. -/
theorem reached_state_invariants (C : CordicOps) (lines : List String) (a : Analysis)
    (h : parse C lines = .ok a) (hlen : lines.length < 2 ^ 64) :
    names_keyed a ∧ frames_known a ∧
    (∀ f fi, Map.find a.funcs f = some fi → 1 ≤ fi.call_cnt) ∧
    (∀ op a', inc_op_cnt C a op = .ok a' →
      Map.keys a'.funcs = Map.keys a.funcs ∧ a'.func_names = a.func_names) ∧
    (∀ f fi, Map.find a.funcs f = some fi → (double_of_uint64 fi.call_cnt).m ≠ 0) := by
  have hcalls := parse_calls_counted C lines a h hlen
  refine ⟨(parse_names C lines a h).1, parse_frames_known C lines a h, hcalls, ?_, ?_⟩
  · intro op a' h'
    exact inc_op_cnt_keeps_keys C a a' op (parse_frames_known C lines a h) h'
  · intro f fi hf
    have := hcalls f fi hf
    exact double_of_uint64_ne_zero _ (by omega)

/-- Witness of claim C38: the state after `enter f` and `enter g`. -/
theorem reached_state_invariants_witness :
    names_keyed
      { Analysis.init sample_ops with
        func_names := ["f", "g"]
        funcs := [("f", ⟨1, [0, 0, 0, 0, 0, 0, 0, 0]⟩), ("g", ⟨1, [0, 0, 0, 0, 0, 0, 0, 0]⟩)]
        stack := [⟨"g"⟩, ⟨"f"⟩] } ∧
    frames_known
      { Analysis.init sample_ops with
        func_names := ["f", "g"]
        funcs := [("f", ⟨1, [0, 0, 0, 0, 0, 0, 0, 0]⟩), ("g", ⟨1, [0, 0, 0, 0, 0, 0, 0, 0]⟩)]
        stack := [⟨"g"⟩, ⟨"f"⟩] } :=
  ⟨(reached_state_invariants sample_ops ["enter f", "enter g"]
    { Analysis.init sample_ops with
      func_names := ["f", "g"]
      funcs := [("f", ⟨1, [0, 0, 0, 0, 0, 0, 0, 0]⟩), ("g", ⟨1, [0, 0, 0, 0, 0, 0, 0, 0]⟩)]
      stack := [⟨"g"⟩, ⟨"f"⟩] } (by decide) (by decide)).1,
   (reached_state_invariants sample_ops ["enter f", "enter g"]
    { Analysis.init sample_ops with
      func_names := ["f", "g"]
      funcs := [("f", ⟨1, [0, 0, 0, 0, 0, 0, 0, 0]⟩), ("g", ⟨1, [0, 0, 0, 0, 0, 0, 0, 0]⟩)]
      stack := [⟨"g"⟩, ⟨"f"⟩] } (by decide) (by decide)).2.1⟩

/-- Claim C39. A line of one of the eight operation kinds is fatal in every state whose
call stack is empty, whatever the rest of the line and the tables hold. -/
theorem op_needs_entered_function (C : CordicOps) (a : Analysis) (line : String)
    (kind : KIND) (c : List Char) (hkind : parse_kind (c_str line) = .ok (kind, c))
    (hop : kind ∈ [KIND.op1, KIND.op2, KIND.op3, KIND.op4, KIND.op1i, KIND.op1f, KIND.op2i,
      KIND.op2f])
    (hstack : a.stack = []) : fatal (parse_line C a line) := by
  apply fatal_of_not_ok
  intro a' h
  obtain ⟨_, _, fr, rest, _, hst, _⟩ := parse_line_op_frame C a a' line kind c hkind hop h
  rw [hstack] at hst
  cases hst

/-- Witness of claim C39: `op2 add 10 11` as the first line of a trace is fatal. -/
theorem op_needs_entered_function_witness :
    fatal (parse_line sample_ops (Analysis.init sample_ops) "op2 add 10 11") :=
  op_needs_entered_function sample_ops (Analysis.init sample_ops) "op2 add 10 11" KIND.op2
    " add 10 11".data (by decide) (by decide) (by decide)

/-- Claim C40. A line of kind `op1i` is fatal in every state, whatever follows the kind,
and every trace with such a line is fatal. -/
theorem op1i_is_always_fatal (C : CordicOps) (line : String) (c : List Char)
    (hkind : parse_kind (c_str line) = .ok (KIND.op1i, c)) :
    (∀ a, fatal (parse_line C a line)) ∧
    ∀ lines : List String, line ∈ lines → fatal (parse C lines) := by
  have hline : ∀ a, fatal (parse_line C a line) := by
    intro a
    simp only [parse_line, hkind]
    exact case_op1i_fatal C a c
  exact ⟨hline, fun lines hmem => parse_lines_fatal_of_mem C line hline lines hmem _⟩

/-- Witness of claim C40: the trace `enter f`, `op1i lshift 3` is fatal. -/
theorem op1i_is_always_fatal_witness :
    fatal (parse sample_ops ["enter f", "op1i lshift 3"]) :=
  (op1i_is_always_fatal sample_ops "op1i lshift 3" " lshift 3".data (by decide)).2
    ["enter f", "op1i lshift 3"] (by decide)

end Cordic
